import Mathlib

/-!
# Box engine (codecup-box): shallow embedding and verified properties

The C++ sources `Box.h`, `Position.h`, `Position.cc`, `PositionData.cc`,
`RNG.h` and `MctsAi.h` are embedded as Lean definitions.

Conventions of the embedding:

* a C++ `char` (the types `Color`, `Player`, `Orientation`, the characters
  of a string) is its character code, a `Nat` (`'0'` is 48, `'1'` is 49, ...),
  and a `std::string` (the type `Tile`) is the list of its character codes;
* a `Bitboard` (three 128-bit lanes) is one natural number below `2^384`
  whose bit `i` is the answer of `test(i)`;
* `array`s that are only indexed (`colors`, `columns`, the Zobrist tables)
  are total functions on indices;
* code that can fail at run time (a null `tile`, an out-of-range vector or
  array index, `assert(false)`) returns `Option`, `none` standing for the
  failure.
-/

namespace Box

/-! ## Box.h : constants -/

abbrev COLS : Nat := 20
abbrev ROWS : Nat := 16
abbrev TILE_DOTS : Nat := 6
abbrev TOTAL_DOTS : Nat := ROWS * COLS
abbrev MAX_COLORS : Nat := 6

/-- The dots `0 .. TOTAL_DOTS - 1`. -/
def ALL_DOTS : List Nat := List.range TOTAL_DOTS
/-- The color indices `0 .. MAX_COLORS - 1`. -/
def ALL_COLORS : List Nat := List.range MAX_COLORS

/-- Character code of `'v'`. -/
abbrev VERTICAL : Nat := 118
/-- Character code of `'h'`. -/
abbrev HORIZONTAL : Nat := 104
/-- Character code of `'1'`. -/
abbrev PLAYER_1 : Nat := 49
/-- Character code of `'2'`. -/
abbrev PLAYER_2 : Nat := 50

/-! ## Box.h : Bitboard -/

/-- The class `Bitboard`: `bits` holds the three 128-bit lanes, lane `k`
occupying bits `128 k .. 128 k + 127`. -/
structure Bitboard where
  bits : Nat
deriving DecidableEq

namespace Bitboard

/-- Number of bits stored: `SIZE` lanes of 128 bits. -/
abbrev WIDTH : Nat := 3 * 128

/-- The default constructor and `reset()`: all bits zero. -/
def zero : Bitboard := ⟨0⟩

/-- The method `set(pos)`. -/
def set (b : Bitboard) (pos : Nat) : Bitboard := ⟨b.bits ||| (1 <<< pos)⟩

/-- The method `test(pos)`. -/
def test (b : Bitboard) (pos : Nat) : Bool := b.bits.testBit pos

/-- The operator `&`. -/
def and (a b : Bitboard) : Bitboard := ⟨a.bits &&& b.bits⟩

/-- The operator `~`: every lane is xor-ed with all ones. -/
def not (a : Bitboard) : Bitboard := ⟨a.bits ^^^ (2 ^ WIDTH - 1)⟩

/-- Sum of the `popcount`s of the six 64-bit words: the number of set bits
among the `WIDTH` stored ones. -/
def popcount (w : Nat) : Nat := (List.range WIDTH).countP (fun i => w.testBit i)

/-- The method `count_matches(other)`. -/
def count_matches (a b : Bitboard) : Nat := popcount (a.bits &&& b.bits)

/-- The method `any_matches(other)`. -/
def any_matches (a b : Bitboard) : Bool := (a.bits &&& b.bits) != 0

/-- The method `any()`. -/
def any (a : Bitboard) : Bool := a.bits != 0

end Bitboard

/-- The function `get_dot(r, c)`. -/
def get_dot (r c : Int) : Int := r * COLS + c

/-! ## Box.h : TileInfo -/

/-- The struct `TileInfo`. -/
structure TileInfo where
  siblings : List (Nat × Nat)
  bitboard : Bitboard
  neighbors_bitboard : Bitboard
  code : Nat
  dot : Nat
  orientation : Nat
deriving DecidableEq

namespace TileInfo

/-- The method `valid()`. -/
def valid (t : TileInfo) : Bool := t.bitboard.any

/-- The method `clear()`. -/
def clear (t : TileInfo) : TileInfo :=
  { t with bitboard := Bitboard.zero, neighbors_bitboard := Bitboard.zero }

/-- The method `count_matches(const Bitboard&)`. -/
def count_matches (t : TileInfo) (b : Bitboard) : Nat := t.bitboard.count_matches b

/-- The method `neighbour_to(const Bitboard&)`. -/
def neighbour_to (t : TileInfo) (b : Bitboard) : Bool := t.neighbors_bitboard.any_matches b

end TileInfo

/-! ## PositionData.cc : geometry tables -/

/-- The function `valid_dot(r, c)`. -/
def valid_dot (r c : Int) : Bool := decide (r ≥ 0 ∧ r < ROWS ∧ c ≥ 0 ∧ c < COLS)

/-- The function `get_neighbors(int r, int c)`. -/
def get_neighbors (r c : Int) : List Int :=
  (if valid_dot (r + 1) c then [get_dot (r + 1) c] else []) ++
  (if valid_dot (r - 1) c then [get_dot (r - 1) c] else []) ++
  (if valid_dot r (c + 1) then [get_dot r (c + 1)] else []) ++
  (if valid_dot r (c - 1) then [get_dot r (c - 1)] else [])

/-- The function `get_neighbors(int dot)`. -/
def get_neighbors_of_dot (dot : Nat) : List Int :=
  get_neighbors ((dot : Int) / COLS) ((dot : Int) % COLS)

/-- The function `generate_tile_neighbors_bitboard(info)`. -/
def generate_tile_neighbors_bitboard (info : TileInfo) : Bitboard :=
  let b := info.siblings.foldl
    (fun b s => [s.1, s.2].foldl
      (fun b dot => (get_neighbors_of_dot dot).foldl (fun b n => b.set n.toNat) b) b)
    Bitboard.zero
  b.and info.bitboard.not

/-- One of the loops "fill top" / "fill bottom": for `i = 0 .. 5` the cell
`cell i` is tested; an off-grid cell clears the info and breaks, otherwise the
dot is stored in the local array and set in the bitboard. -/
def fill_dots (cell : Nat → Int × Int) : List Nat → TileInfo → List Nat → TileInfo × List Nat
  | [], info, arr => (info, arr)
  | i :: rest, info, arr =>
    if !valid_dot (cell i).1 (cell i).2 then (info.clear, arr)
    else
      let di := (get_dot (cell i).1 (cell i).2).toNat
      fill_dots cell rest { info with bitboard := info.bitboard.set di } (arr ++ [di])

/-- The loop "fill siblings". -/
def fill_siblings (top bottom : List Nat) : List (Nat × Nat) :=
  (List.range TILE_DOTS).map (fun i => (top.getD i 0, bottom.getD (TILE_DOTS - i - 1) 0))

/-- Body of the loops of `generate_vertical_tiles_info` and
`generate_horizontal_tiles_info`, the two differing in the code, the
orientation and the cells of the top and bottom lines. An info left invalid
keeps its siblings uninitialised (here: empty). -/
def generate_tile_info (code : Nat) (dot : Nat) (o : Nat)
    (topCell bottomCell : Nat → Int × Int) : TileInfo :=
  let info : TileInfo :=
    { siblings := [], bitboard := Bitboard.zero, neighbors_bitboard := Bitboard.zero,
      code := code, dot := dot, orientation := o }
  let (info, top) := fill_dots topCell (List.range TILE_DOTS) info []
  if !info.valid then info
  else
    let (info, bottom) := fill_dots bottomCell (List.range TILE_DOTS) info []
    if !info.valid then info
    else
      let info := { info with siblings := fill_siblings top bottom }
      { info with neighbors_bitboard := generate_tile_neighbors_bitboard info }

/-- The function `generate_vertical_tiles_info()`. -/
def generate_vertical_tiles_info : List TileInfo :=
  ALL_DOTS.map (fun (dot : Nat) =>
    let r : Int := (dot : Int) / COLS
    let c : Int := (dot : Int) % COLS
    generate_tile_info (2 * (get_dot r c).toNat + 1) (get_dot r c).toNat VERTICAL
      (fun i => (r + i, c + 1)) (fun i => (r + i, c)))

/-- The function `generate_horizontal_tiles_info()`. -/
def generate_horizontal_tiles_info : List TileInfo :=
  ALL_DOTS.map (fun (dot : Nat) =>
    let r : Int := (dot : Int) / COLS
    let c : Int := (dot : Int) % COLS
    generate_tile_info (2 * (get_dot r c).toNat) (get_dot r c).toNat HORIZONTAL
      (fun i => (r, c + i)) (fun i => (r + 1, c + i)))

/-- The initialiser of `ALL_TILES_INFO`: the valid vertical infos, then the
valid horizontal ones, each receiving the running counter as its `code`. -/
def ALL_TILES_INFO : List TileInfo :=
  ((generate_vertical_tiles_info.filter TileInfo.valid) ++
   (generate_horizontal_tiles_info.filter TileInfo.valid)).enum.map
    (fun kt => { kt.2 with code := kt.1 })

abbrev ALL_TILES_COUNT : Nat := 434

/-! ## PositionData.cc : tile permutations -/

/-- Backward scan of `std::next_permutation`: `ii` is the element last
visited, `suffix` what follows it, the third argument what precedes it,
nearest first. Stops at the first `i` with `*i < *ii`. -/
def np_scan : List Nat → Nat → List Nat → Option (Nat × List Nat × List Nat)
  | _, _, [] => none
  | suffix, ii, i :: rest =>
    if i < ii then some (i, ii :: suffix, rest) else np_scan (ii :: suffix) i rest

/-- Second scan of `std::next_permutation`, on the suffix read from its end:
the first element greater than the pivot is exchanged with it. -/
def np_swap (pivot : Nat) : List Nat → Option (Nat × List Nat)
  | [] => none
  | x :: xs =>
    if pivot < x then some (x, pivot :: xs)
    else (np_swap pivot xs).map (fun r => (r.1, x :: r.2))

/-- The library call `ranges::next_permutation(tile)`: the next arrangement
together with the flag `found`. -/
def next_permutation (l : List Nat) : List Nat × Bool :=
  match l.reverse with
  | [] => (l, false)
  | last :: rest =>
    match np_scan [] last rest with
    | none => (l.reverse, false)
    | some (pivot, suffix, pre) =>
      match np_swap pivot suffix.reverse with
      | none => (l.reverse, false)
      | some (x, sfx) => (pre.reverse ++ x :: sfx, true)

/-- The `do ... while` loop of `generate_all_tiles_permutations`, bounded by
a number of rounds. -/
def generate_loop : Nat → List Nat → Option (List (List Nat))
  | 0, _ => none
  | fuel + 1, tile =>
    let r := next_permutation tile
    if r.2 then (generate_loop fuel r.1).map (fun res => tile :: res) else some [tile]

/-- Character codes of a string literal. -/
def chars (s : String) : List Nat := s.toList.map Char.toNat

abbrev TILES_PERMUTATIONS_COUNT : Nat := 6 * 5 * 4 * 3 * 2 * 1

/-- The function `generate_all_tiles_permutations()`, hence the table
`TILES_PERMUTATIONS`. -/
def TILES_PERMUTATIONS : List (List Nat) :=
  (generate_loop TILES_PERMUTATIONS_COUNT (chars "123456")).getD []

/-- The loop of `std::lower_bound` on a vector: `first` and `len` delimit
the range still searched. -/
def lower_bound_loop (v : List (List Nat)) (x : List Nat) : Nat → Nat → Nat → Nat
  | 0, first, _ => first
  | fuel + 1, first, len =>
    if len > 0 then
      let half := len / 2
      let mid := first + half
      if v.getD mid [] < x then lower_bound_loop v x fuel (mid + 1) (len - half - 1)
      else lower_bound_loop v x fuel first half
    else first

/-- The function `find_tile_index(tile)`. -/
def find_tile_index (tile : List Nat) : Int :=
  let it := lower_bound_loop TILES_PERMUTATIONS tile TILES_PERMUTATIONS.length 0
    TILES_PERMUTATIONS.length
  if it ≠ TILES_PERMUTATIONS.length ∧ TILES_PERMUTATIONS.getD it [] = tile then (it : Int)
  else -1

/-! ## Box.h : moves -/

/-- The struct `PlayerMove`. -/
structure PlayerMove where
  dot : Int
  orientation : Nat
deriving DecidableEq

/-- The method `TileInfo::move()`. -/
def TileInfo.move (t : TileInfo) : PlayerMove := ⟨t.dot, t.orientation⟩

/-- The function `parse_dot(s)`: `(s[0] - 'A') * COLS + s[1] - 'a'`. -/
def parse_dot (s : List Nat) : Int :=
  ((s.getD 0 0 : Nat) - 65 : Int) * COLS + (s.getD 1 0 : Nat) - 97

/-- The function `parse_moves(s)`; a string of another length than 9 fails
the assertion. -/
def parse_moves (s : List Nat) : Option (List Nat × PlayerMove) :=
  if s.length = 6 + 3 then
    some ((s.drop 2).take 6, ⟨parse_dot s, s.getD 8 0⟩)
  else none

/-- The vector `HORIZONTAL_TILES_INFO`, one entry per dot (the `code` of a
valid entry is overwritten later by the initialiser of `ALL_TILES_INFO`;
nothing below reads the code of an entry fetched from this vector). -/
def HORIZONTAL_TILES_INFO : List TileInfo := generate_horizontal_tiles_info

/-- The vector `VERTICAL_TILES_INFO`, with the same remark on `code`. -/
def VERTICAL_TILES_INFO : List TileInfo := generate_vertical_tiles_info

/-- The constant `CENTER_TILE_INFO = &HORIZONTAL_TILES_INFO[parse_dot("Hh")]`. -/
def CENTER_TILE_INFO : Option TileInfo :=
  HORIZONTAL_TILES_INFO[(parse_dot (chars "Hh")).toNat]?

/-! ## Position.h / Position.cc : Position -/

/-- The struct `Position::Column`, a `uint16_t` bitmap of rows. -/
structure Column where
  value : Nat
deriving DecidableEq

namespace Column

/-- The method `set(r)`: `value |= (1 << r)`, stored back into 16 bits. -/
def set (c : Column) (r : Nat) : Column := ⟨(c.value ||| (1 <<< r)) % 2 ^ 16⟩

/-- The method `unset(r)`: `value &= ~(1 << r)`, the complement being taken
on a 32-bit `int`. -/
def unset (c : Column) (r : Nat) : Column :=
  ⟨(c.value &&& (2 ^ 32 - 1 - (1 <<< r))) % 2 ^ 16⟩

/-- The method `test(r)`. -/
def test (c : Column) (r : Nat) : Bool := (c.value &&& (1 <<< r)) != 0

/-- The method `test(r0, r1)`. -/
def test2 (c : Column) (r0 r1 : Nat) : Bool :=
  (c.value &&& (1 <<< r0)) != 0 && (c.value &&& (1 <<< r1)) != 0

end Column

/-- The Zobrist key tables of the anonymous namespace of `Position.cc`,
filled from a random device at start-up: any values. -/
structure Zobrist where
  colors : Nat → Nat → Nat
  tiles : Nat → Nat
  player_1 : Nat
  player_2 : Nat

/-- Character code of `'0'`, the constant `Position::WHITE`. -/
abbrev WHITE : Nat := 48

abbrev MAX_OVERLAPS : Nat := 4

/-- The struct `Position` (the static members `weights` and
`opponent_color_index` apart). A null `tile` is `none`. -/
structure Position where
  colors : Nat → Nat
  filled : Bitboard
  columns : Nat → Nat → Column
  tile : Option (List Nat)
  zobrist_hash : Nat
  tile_index : Int
  turn : Nat
  player : Nat
  candidates : List TileInfo

/-- The expression `color - '1'`. -/
def color_index (color : Nat) : Int := (color : Int) - 49

/-- Loop computing `std::countr_zero` of a 16-bit value. -/
def countr_zero_loop : Nat → Nat → Nat → Nat
  | 0, _, n => n
  | fuel + 1, v, n => if v % 2 = 1 then n else countr_zero_loop fuel (v / 2) (n + 1)

/-- The library call `countr_zero(v)` on a `uint16_t`: the number of trailing
zero bits, 16 for the value 0. -/
def countr_zero (v : Nat) : Nat := countr_zero_loop 16 v 0

namespace Position

/-- The member initialisers of `Position` followed by `colors.fill(WHITE)`. -/
def blank : Position :=
  { colors := fun _ => WHITE, filled := Bitboard.zero, columns := fun _ _ => ⟨0⟩,
    tile := none, zobrist_hash := 0, tile_index := -1, turn := 0, player := PLAYER_1,
    candidates := ALL_TILES_INFO }

/-- The method `update_tile_index(index)`; an index outside the permutation
table is an out-of-range access. -/
def update_tile_index (z : Zobrist) (index : Int) (p : Position) : Option Position :=
  if p.tile_index = index then some p
  else
    let h := if p.tile_index ≠ -1 then p.zobrist_hash ^^^ z.tiles p.tile_index.toNat
             else p.zobrist_hash
    if 0 ≤ index then
      match TILES_PERMUTATIONS[index.toNat]? with
      | none => none
      | some t =>
        some { p with tile := some t, zobrist_hash := h ^^^ z.tiles index.toNat,
                      tile_index := index }
    else none

/-- The method `play_chance_move()`, `index` being the number drawn by
`gen.less_than(TILES_PERMUTATIONS_COUNT)`. -/
def play_chance_move (z : Zobrist) (index : Nat) (p : Position) : Option Position :=
  update_tile_index z index p

/-- The method `do_move(const ChanceMove&)`. -/
def do_move_chance (z : Zobrist) (chance_move : List Nat) (p : Position) : Option Position :=
  update_tile_index z (find_tile_index chance_move) p

/-- The method `empty(dot)`. -/
def empty (p : Position) (dot : Nat) : Bool := !p.filled.test dot

/-- The method `possible_move(const TileInfo*)`. -/
def possible_move (p : Position) (tile_info : TileInfo) : Bool :=
  let overlap_count := tile_info.count_matches p.filled
  if overlap_count ≠ 0 then decide (overlap_count ≤ MAX_OVERLAPS)
  else tile_info.neighbour_to p.filled

/-- The method `possible_move(int dot, Orientation orientation)`. -/
def possible_move_at (p : Position) (dot : Int) (orientation : Nat) : Option Bool :=
  match (if orientation = VERTICAL then VERTICAL_TILES_INFO
         else HORIZONTAL_TILES_INFO)[dot.toNat]? with
  | some tile_info => if 0 ≤ dot then some (p.possible_move tile_info) else none
  | none => none

/-- Assignment to the array element `columns[c][col]`. -/
def modify_column (columns : Nat → Nat → Column) (c col : Nat) (f : Column → Column) :
    Nat → Nat → Column :=
  fun c' col' => if c' = c ∧ col' = col then f (columns c' col') else columns c' col'

/-- The method `update_color(dot, color)`; a color index outside
`0 .. MAX_COLORS - 1` is an out-of-range access of `columns`. -/
def update_color (z : Zobrist) (dot : Nat) (color : Nat) (p : Position) : Option Position :=
  let old_color := p.colors dot
  if old_color ≠ color then
    let filled := p.filled.set dot
    let row := dot / COLS
    let col := dot % COLS
    let old_color_index := color_index old_color
    let color_index := color_index color
    if old_color ≠ WHITE ∧ ¬ (0 ≤ old_color_index ∧ old_color_index < MAX_COLORS) then none
    else if ¬ (0 ≤ color_index ∧ color_index < MAX_COLORS) then none
    else
      let columns1 :=
        if old_color ≠ WHITE then
          modify_column p.columns old_color_index.toNat col (fun c => c.unset row)
        else p.columns
      let hash1 :=
        if old_color ≠ WHITE then p.zobrist_hash ^^^ z.colors dot old_color_index.toNat
        else p.zobrist_hash
      some { p with
        filled := filled
        columns := modify_column columns1 color_index.toNat col (fun c => c.set row)
        colors := fun d => if d = dot then color else p.colors d
        zobrist_hash := hash1 ^^^ z.colors dot color_index.toNat }
  else some p

/-- The method `process_siblings(tile_info, index)`. -/
def process_siblings (z : Zobrist) (tile_info : TileInfo) (index : Nat) (p : Position) :
    Option Position :=
  match tile_info.siblings[index]?, p.tile with
  | some (d1, d2), some tile =>
    match tile[index]? with
    | some color => (update_color z d1 color p).bind (update_color z d2 color)
    | none => none
  | _, _ => none

/-- The method `increment_turn()`. -/
def increment_turn (p : Position) : Option Position :=
  if p.player = PLAYER_1 then some { p with turn := p.turn + 1, player := PLAYER_2 }
  else if p.player = PLAYER_2 then some { p with turn := p.turn + 1, player := PLAYER_1 }
  else none

/-- The loop `for (int i = 0; i < TILE_DOTS; ++i) process_siblings(tile_info, i)`. -/
def process_all_siblings (z : Zobrist) (tile_info : TileInfo) (p : Position) :
    Option Position :=
  (List.range TILE_DOTS).foldlM (fun q i => process_siblings z tile_info i q) p

/-- The method `do_move(const TileInfo*)`. -/
def do_move (z : Zobrist) (tile_info : TileInfo) (p : Position) : Option Position :=
  (process_all_siblings z tile_info p).bind increment_turn

/-- The method `do_move(const PlayerMove&)`. -/
def do_move_player (z : Zobrist) (move : PlayerMove) (p : Position) : Option Position :=
  match (if move.orientation = VERTICAL then VERTICAL_TILES_INFO
         else HORIZONTAL_TILES_INFO)[move.dot.toNat]? with
  | some tile_info => if 0 ≤ move.dot then do_move z tile_info p else none
  | none => none

/-- The constructor `Position(const string& s)`. -/
def create (z : Zobrist) (s : List Nat) : Option Position :=
  match parse_moves s, CENTER_TILE_INFO with
  | some (chance_move, _), some center =>
    (do_move_chance z chance_move blank).bind (process_all_siblings z center)
  | _, _ => none

/-- Inner loop of `get_score(col, color)`:
`for (uint16_t temp = v; temp > 0; temp &= temp - 1)`, at most `fuel` rounds
(`none` when they do not suffice). -/
def get_score_inner (p : Position) (col color row : Nat) : Nat → Nat → Int → Option Int
  | 0, temp, score => if temp > 0 then none else some score
  | fuel + 1, temp, score =>
    if temp > 0 then
      let b : Int := (countr_zero temp : Int) - row
      if (col : Int) + b ≥ COLS then some score
      else
        let score :=
          if (p.columns color ((col : Int) + b).toNat).test2 row ((row : Int) + b).toNat
          then score + b else score
        get_score_inner p col color row fuel ((temp &&& (temp - 1)) % 2 ^ 16) score
    else some score

/-- Outer loop of `get_score(col, color)`:
`for (auto v = columns[color][col].value; v > 0;)`, at most `fuel` rounds. -/
def get_score_outer (p : Position) (col color : Nat) : Nat → Nat → Int → Option Int
  | 0, v, score => if v > 0 then none else some score
  | fuel + 1, v, score =>
    if v > 0 then
      let row := countr_zero v
      let v := (v &&& (v - 1)) % 2 ^ 16
      (get_score_inner p col color row 16 v score).bind (get_score_outer p col color fuel v)
    else some score

/-- The method `get_score(int col, int color)`; a 16-bit value has at most 16
set bits, which bounds the rounds of both loops. -/
def get_score_col (p : Position) (col color : Nat) : Option Int :=
  get_score_outer p col color 16 (p.columns color col).value 0

/-- The method `get_score(int color)`. -/
def get_score (p : Position) (color : Nat) : Option Int :=
  (List.range COLS).foldlM (fun score col => (p.get_score_col col color).map (score + ·)) 0

/-- The method `get_hash()`. -/
def get_hash (z : Zobrist) (p : Position) : Nat :=
  if p.player = PLAYER_1 then p.zobrist_hash ^^^ z.player_1
  else p.zobrist_hash ^^^ z.player_2

/-- The method `compute_hash()`. -/
def compute_hash (z : Zobrist) (p : Position) : Nat :=
  let hash := ALL_DOTS.foldl
    (fun h dot =>
      if p.colors dot ≠ WHITE then h ^^^ z.colors dot (color_index (p.colors dot)).toNat else h)
    0
  let hash := if p.tile_index ≠ -1 then hash ^^^ z.tiles p.tile_index.toNat else hash
  if p.player = PLAYER_1 then hash ^^^ z.player_1
  else if p.player = PLAYER_2 then hash ^^^ z.player_2
  else hash

end Position

end Box

/-! ## Position.h / Position.cc : candidates and TileSet -/

namespace Box

/-- Operations of the type `double` used by the engine. Their rounding is
left unspecified: everything below holds for any choice of them. -/
class DoubleOps (F : Type) where
  ofInt : Int → F
  add : F → F → F
  sub : F → F → F
  mul : F → F → F
  div : F → F → F
  neg : F → F
  sqrt : F → F
  log : F → F
  lt : F → F → Bool
  /-- The constant `numeric_limits<double>::lowest()`. -/
  lowest : F
  /-- The conversion `static_cast<size_t>(x)`. -/
  toSize : F → Nat

/-- The struct `TileSet`: `NUM_CHUNKS` words of 64 bits and the maintained
count. -/
structure TileSet where
  data : List Nat
  count : Int
deriving DecidableEq

namespace TileSet

abbrev SIZE : Nat := ALL_TILES_COUNT
abbrev CHUNK_SIZE : Nat := 64
abbrev NUM_CHUNKS : Nat := (SIZE + CHUNK_SIZE - 1) / CHUNK_SIZE

/-- The default constructor: `data{}` and `count{0}`. -/
def empty : TileSet := ⟨List.replicate NUM_CHUNKS 0, 0⟩

/-- The method `set(pos)`. -/
def set (s : TileSet) (pos : Nat) : TileSet :=
  ⟨s.data.set (pos / CHUNK_SIZE)
      ((s.data.getD (pos / CHUNK_SIZE) 0 ||| (1 <<< (pos % CHUNK_SIZE))) % 2 ^ 64),
    s.count + 1⟩

/-- The method `clear(pos)`. -/
def clear (s : TileSet) (pos : Nat) : TileSet :=
  ⟨s.data.set (pos / CHUNK_SIZE)
      (s.data.getD (pos / CHUNK_SIZE) 0 &&& (2 ^ 64 - 1 - (1 <<< (pos % CHUNK_SIZE)))),
    s.count - 1⟩

/-- The method `test(pos)`. -/
def test (s : TileSet) (pos : Nat) : Bool :=
  (s.data.getD (pos / CHUNK_SIZE) 0 &&& (1 <<< (pos % CHUNK_SIZE))) != 0

/-- The method `any()`. -/
def any (s : TileSet) : Bool := decide (s.count > 0)

/-- The loop `while (current)` of `for_each` on one chunk; `func` may fail
(`none`), and so does an index outside `ALL_TILES_INFO`. -/
def for_each_chunk {β : Type} (func : β → TileInfo → Option β) (chunk : Nat) :
    Nat → Nat → β → Option β
  | 0, current, acc => if current ≠ 0 then none else some acc
  | fuel + 1, current, acc =>
    if current ≠ 0 then
      let bit := countr_zero_loop 64 current 0
      match ALL_TILES_INFO[chunk * CHUNK_SIZE + bit]? with
      | none => none
      | some tile_info =>
        (func acc tile_info).bind
          (for_each_chunk func chunk fuel (current &&& (current - 1)))
    else some acc

/-- The method `for_each(func)`, the state captured by `func` being threaded
as an accumulator. -/
def for_each {β : Type} (s : TileSet) (func : β → TileInfo → Option β) (init : β) : Option β :=
  (List.range NUM_CHUNKS).foldlM
    (fun acc chunk => for_each_chunk func chunk 64 (s.data.getD chunk 0) acc) init

end TileSet

namespace Position

/-- The method `remove_candidate(c)`. -/
def remove_candidate (p : Position) (c : Nat) : Position :=
  match p.candidates.getLast? with
  | some back => { p with candidates := (p.candidates.set c back).dropLast }
  | none => p

/-- The loop of `update_condidates()`. -/
def update_condidates_loop (filled : Bitboard) :
    Nat → List TileInfo → Nat → Nat → Option (List TileInfo × Nat)
  | 0, candidates, i, len => if i < len then none else some (candidates, len)
  | fuel + 1, candidates, i, len =>
    if i < len then
      match candidates[i]? with
      | none => none
      | some tile_info =>
        if tile_info.count_matches filled > MAX_OVERLAPS then
          match candidates[len - 1]? with
          | none => none
          | some last => update_condidates_loop filled fuel (candidates.set i last) i (len - 1)
        else update_condidates_loop filled fuel candidates (i + 1) len
    else some (candidates, len)

/-- The method `update_condidates()`: every round either advances `i` or
lowers `len`, so `candidates.size()` rounds suffice. -/
def update_condidates (p : Position) : Option Position :=
  (update_condidates_loop p.filled p.candidates.length p.candidates 0
    p.candidates.length).map (fun r => { p with candidates := r.1.take r.2 })

/-- The loop shared by `get_possible_tiles_set()` and `get_possible_tiles()`:
`res` collects the legal candidates. -/
def possible_tiles_loop {β : Type} (filled : Bitboard) (push : β → TileInfo → β) :
    Nat → List TileInfo → Nat → Nat → β → Option (List TileInfo × Nat × β)
  | 0, candidates, i, len, res => if i < len then none else some (candidates, len, res)
  | fuel + 1, candidates, i, len, res =>
    if i < len then
      match candidates[i]? with
      | none => none
      | some tile_info =>
        let c := tile_info.count_matches filled
        if c ≠ 0 then
          if c ≤ MAX_OVERLAPS then
            possible_tiles_loop filled push fuel candidates (i + 1) len (push res tile_info)
          else
            match candidates[len - 1]? with
            | none => none
            | some last =>
              possible_tiles_loop filled push fuel (candidates.set i last) i (len - 1) res
        else if tile_info.neighbour_to filled then
          possible_tiles_loop filled push fuel candidates (i + 1) len (push res tile_info)
        else possible_tiles_loop filled push fuel candidates (i + 1) len res
    else some (candidates, len, res)

/-- The method `get_possible_tiles_set()`, with the position whose
`candidates` it has pruned. -/
def get_possible_tiles_set (p : Position) : Option (TileSet × Position) :=
  (possible_tiles_loop p.filled (fun res t => TileSet.set res t.code) p.candidates.length
    p.candidates 0 p.candidates.length TileSet.empty).map
    (fun r => (r.2.2, { p with candidates := r.1.take r.2.1 }))

/-- The method `get_possible_tiles()`, with the position whose `candidates`
it has pruned. -/
def get_possible_tiles (p : Position) : Option (List TileInfo × Position) :=
  (possible_tiles_loop p.filled (fun res t => res ++ [t]) p.candidates.length
    p.candidates 0 p.candidates.length []).map
    (fun r => (r.2.2, { p with candidates := r.1.take r.2.1 }))

/-- The method `end_game()`. -/
def end_game (p : Position) : Bool := !p.candidates.any (fun t => p.possible_move t)

end Position

end Box

/-! ## RNG.h : the fast generator -/

namespace Box

/-- The class `FastRandom`, reduced to the `uint32_t seed` that drives
`less_than`. -/
structure FastRandom where
  seed : Nat
deriving DecidableEq

namespace FastRandom

/-- The method `fast_random(min, max)`: one xorshift32 step on `seed`. -/
def fast_random (g : FastRandom) (min max : Int) : Int × FastRandom :=
  let s1 := g.seed ^^^ ((g.seed <<< 13) % 2 ^ 32)
  let s2 := s1 ^^^ (s1 >>> 17)
  let s3 := s2 ^^^ ((s2 <<< 5) % 2 ^ 32)
  let range := max - min + 1
  (min + ((s3 % range.toNat : Nat) : Int), ⟨s3⟩)

/-- The method `less_than(bound)`. -/
def less_than (g : FastRandom) (bound : Nat) : Nat × FastRandom :=
  let r := g.fast_random 0 ((bound : Int) - 1)
  (r.1.toNat, r.2)

end FastRandom

/-! ## Box.h / MctsAi.h : statistics -/

/-- The struct `Stats`. -/
structure Stats (F : Type) where
  value : F
  visits : Int

/-- The method `Stats::update(v)`. -/
def Stats.update {F : Type} [DoubleOps F] (s : Stats F) (v : F) : Stats F :=
  let visits := s.visits + 1
  let delta := DoubleOps.sub v s.value
  { value := DoubleOps.add s.value (DoubleOps.div delta (DoubleOps.ofInt visits)),
    visits := visits }

/-- The process-wide state read and written by the search: the generator
`gen`, the table `dot_color_stats`, the statics `Position::weights`,
`Position::opponent_color_index` and `Simulation::max_level`. -/
structure Globals (F : Type) where
  gen : FastRandom
  dot_color_stats : Nat → Stats F
  weights : Nat → F
  opponent_color_index : Int
  max_level : Nat

namespace DotColorStats

/-- The method `DotColorStats::code(dot, color)`. -/
def code (dot : Nat) (color : Nat) : Int := (dot : Int) + TOTAL_DOTS * color_index color

/-- The method `DotColorStats::update(dot, color, player, value)`. -/
def update {F : Type} [DoubleOps F] (stats : Nat → Stats F) (dot color player : Nat)
    (value : F) : Nat → Stats F :=
  let v := if player = PLAYER_1 then value else DoubleOps.neg value
  fun k => if k = (code dot color).toNat then (stats k).update v else stats k

/-- The method `DotColorStats::evaluate(pos, tile_info)`; it reads `pos.tile`. -/
def evaluate {F : Type} [DoubleOps F] (stats : Nat → Stats F) (pos : Position)
    (tile_info : TileInfo) : Option F :=
  match pos.tile with
  | none => none
  | some tile =>
    (tile_info.siblings.enum.foldlM
      (fun (sum : F) (is : Nat × (Nat × Nat)) =>
        (tile[is.1]?).map (fun color =>
          DoubleOps.add (DoubleOps.add sum (stats (code is.2.1 color).toNat).value)
            (stats (code is.2.2 color).toNat).value))
      (DoubleOps.ofInt 0)).map
      (fun sum =>
        let eval := DoubleOps.div sum (DoubleOps.ofInt 12)
        if pos.player = PLAYER_1 then eval else DoubleOps.neg eval)

/-- The loop `for (int dot : ALL_DOTS)` that closes `Warmup::run` and
`Simulation::backup`. -/
def record {F : Type} [DoubleOps F] (stats : Nat → Stats F) (pos : Position) (player : Nat)
    (score : F) : Nat → Stats F :=
  ALL_DOTS.foldl
    (fun st dot => if pos.colors dot ≠ WHITE then update st dot (pos.colors dot) player score
      else st)
    stats

/-- The method `DotColorStats::reset()`. -/
def reset {F : Type} [DoubleOps F] : Nat → Stats F := fun _ => ⟨DoubleOps.ofInt 0, 0⟩

end DotColorStats

namespace Position

/-- The loop of `get_random_move()`, `fuel` bounding its rounds. -/
def get_random_move : Nat → FastRandom → Position →
    Option (Option TileInfo × Position × FastRandom)
  | 0, g, p => if p.candidates.isEmpty then some (none, p, g) else none
  | fuel + 1, g, p =>
    if p.candidates.isEmpty then some (none, p, g)
    else
      let r := g.less_than p.candidates.length
      match p.candidates[r.1]? with
      | none => none
      | some info =>
        let c := info.count_matches p.filled
        if c ≠ 0 then
          if c ≤ MAX_OVERLAPS then some (some info, p.remove_candidate r.1, r.2)
          else get_random_move fuel r.2 (p.remove_candidate r.1)
        else if info.neighbour_to p.filled then some (some info, p.remove_candidate r.1, r.2)
        else get_random_move fuel r.2 p

/-- The method `get_scores()`. -/
def get_scores (p : Position) : Option (List Int) :=
  ALL_COLORS.mapM (fun color => p.get_score color)

/-- The method `get_expected_score(color)`. -/
def get_expected_score {F : Type} [DoubleOps F] (p : Position) (color : Nat) (G : Globals F) :
    Option F :=
  if G.opponent_color_index ≠ -1 then
    match p.get_score (color_index color).toNat, p.get_score G.opponent_color_index.toNat with
    | some mine, some theirs => some (DoubleOps.ofInt (mine - theirs))
    | _, _ => none
  else
    (p.get_scores).map (fun scores =>
      scores.enum.foldl
        (fun (expected : F) (is : Nat × Int) =>
          DoubleOps.add expected (DoubleOps.mul (G.weights is.1) (DoubleOps.ofInt is.2)))
        (DoubleOps.ofInt 0))

end Position

/-! ## MctsAi.h : the search tree -/

/-- The struct `ActionInfo`. -/
structure ActionInfo (F : Type) where
  tile_info : TileInfo
  value : F
  value_squares : F
  K : F
  bias : F
  visits : Int

namespace ActionInfo

/-- The constructor `ActionInfo(info)`. -/
def create {F : Type} [DoubleOps F] (info : TileInfo) : ActionInfo F :=
  { tile_info := info, value := DoubleOps.ofInt 0, value_squares := DoubleOps.ofInt 0,
    K := DoubleOps.ofInt 10, bias := DoubleOps.ofInt 0, visits := 0 }

/-- The method `ActionInfo::update(v)`. -/
def update {F : Type} [DoubleOps F] (a : ActionInfo F) (v : F) : ActionInfo F :=
  let visits := a.visits + 1
  let delta := DoubleOps.sub v a.value
  let value := DoubleOps.add a.value (DoubleOps.div delta (DoubleOps.ofInt visits))
  let value_squares :=
    DoubleOps.add a.value_squares (DoubleOps.mul delta (DoubleOps.sub v value))
  { a with
    visits := visits, value := value, value_squares := value_squares
    K := DoubleOps.sqrt
      (DoubleOps.div (DoubleOps.add value_squares (DoubleOps.ofInt (10 * 10)))
        (DoubleOps.ofInt visits)) }

end ActionInfo

/-- Length of the tables `BONUS` and `SQRT`. -/
abbrev TABLE_SIZE : Nat := 200000

/-- The entry `BONUS[v]`, absent outside the table. -/
def BONUS {F : Type} [DoubleOps F] (v : Int) : Option F :=
  if 0 ≤ v ∧ v < TABLE_SIZE then some (DoubleOps.sqrt (DoubleOps.log (DoubleOps.ofInt (1 + v))))
  else none

/-- The entry `SQRT[v]`, absent outside the table. -/
def SQRT {F : Type} [DoubleOps F] (v : Int) : Option F :=
  if 0 ≤ v ∧ v < TABLE_SIZE then some (DoubleOps.sqrt (DoubleOps.ofInt v)) else none

/-- The struct `StateInfo`. A pointer to one of its actions is the index of
the action in `actions`. -/
structure StateInfo (F : Type) where
  unexpanded_tiles : TileSet
  actions : List (ActionInfo F)
  bonus : F
  visits : Int
  player : Nat

namespace StateInfo

/-- The constructor `StateInfo(pos)`, with the position whose `candidates`
the call of `get_possible_tiles_set()` has pruned. -/
def create {F : Type} [DoubleOps F] (pos : Position) : Option (StateInfo F × Position) :=
  (pos.get_possible_tiles_set).map (fun r =>
    ({ unexpanded_tiles := r.1, actions := [], bonus := DoubleOps.ofInt 0, visits := 0,
       player := pos.player }, r.2))

/-- The method `StateInfo::eval(pos, action_info)`. -/
def eval {F : Type} [DoubleOps F] (st : StateInfo F) (a : ActionInfo F) : Option F :=
  (SQRT (1 + a.visits)).map (fun root =>
    DoubleOps.add
      (DoubleOps.add a.value (DoubleOps.div (DoubleOps.mul a.K st.bonus) root))
      (DoubleOps.div a.bias (DoubleOps.ofInt (1 + a.visits))))

/-- The method `select_most_visited()`: the index of the first action with
the greatest `visits`, `none` for the null pointer. -/
def select_most_visited {F : Type} (st : StateInfo F) : Option Nat :=
  (st.actions.enum.foldl
    (fun (acc : Int × Option Nat) (ia : Nat × ActionInfo F) =>
      if acc.1 < ia.2.visits then (ia.2.visits, some ia.1) else acc)
    (-(2 : Int) ^ 31, none)).2

/-- The loop `while (actions.size() < expanded_limit && unexpanded_tiles.any())`
of `select`: every round appends one action, and the limit is at most 64. -/
def expand {F : Type} [DoubleOps F] (stats : Nat → Stats F) (pos : Position) (limit : Nat) :
    Nat → StateInfo F → Option (StateInfo F)
  | 0, st => if st.actions.length < limit ∧ st.unexpanded_tiles.any = true then none else some st
  | n + 1, st =>
    if st.actions.length < limit ∧ st.unexpanded_tiles.any = true then
      match st.unexpanded_tiles.for_each
          (fun (acc : F × Option TileInfo) tile_info =>
            (DotColorStats.evaluate stats pos tile_info).map
              (fun value => if DoubleOps.lt acc.1 value then (value, some tile_info) else acc))
          (DoubleOps.lowest, none) with
      | some (best_value, some selected) =>
        expand stats pos limit n
          { st with
            actions := st.actions ++ [{ ActionInfo.create selected with bias := best_value }]
            unexpanded_tiles := st.unexpanded_tiles.clear selected.code }
      | _ => none
    else some st

/-- The method `select(pos)`: the state after the expansions and the index
of the chosen action (`none` for the null pointer). -/
def select {F : Type} [DoubleOps F] (stats : Nat → Stats F) (pos : Position)
    (st : StateInfo F) : Option (StateInfo F × Option Nat) :=
  match SQRT (F := F) (st.visits + 1) with
  | none => none
  | some root =>
    let expanded_limit := if DoubleOps.toSize root > 64 then 64 else DoubleOps.toSize root
    match expand stats pos expanded_limit 64 st with
    | none => none
    | some st =>
      (st.actions.enum.foldlM
        (fun (acc : F × Option Nat) (ia : Nat × ActionInfo F) =>
          (st.eval ia.2).map
            (fun value => if DoubleOps.lt acc.1 value then (value, some ia.1) else acc))
        (DoubleOps.lowest, none)).map (fun r => (st, r.2))

/-- The method `update(action_info, score)`. -/
def update {F : Type} [DoubleOps F] (st : StateInfo F) (action : Nat) (score : F) :
    Option (StateInfo F) :=
  match st.actions[action]?, BONUS (F := F) (st.visits + 1) with
  | some a, some bonus =>
    some { st with
      visits := st.visits + 1, actions := st.actions.set action (a.update score)
      bonus := bonus }
  | _, _ => none

/-- The method `consistent(pos)`, `select_most_visited()` being evaluated
before `select(pos)`. -/
def consistent {F : Type} [DoubleOps F] (stats : Nat → Stats F) (pos : Position)
    (st : StateInfo F) : Option (StateInfo F × Bool) :=
  let most := st.select_most_visited
  (st.select stats pos).map (fun r => (r.1, decide (most = r.2)))

end StateInfo

/-- The struct `Position::Info`. -/
structure Info where
  columns : Nat → Nat → Column
  hash : Nat
  tile_index : Int
  player : Int

/-- The method `Position::get_info()`. -/
def Position.get_info (z : Zobrist) (p : Position) : Info :=
  { columns := p.columns, hash := p.get_hash z, tile_index := p.tile_index, player := p.player }

/-- The functor `StateStore::PositionInfoEqual`. -/
def PositionInfoEqual (lhs rhs : Info) : Bool :=
  decide (lhs.tile_index = rhs.tile_index) && decide (lhs.player = rhs.player) &&
    (List.range MAX_COLORS).all (fun c =>
      (List.range COLS).all (fun col => decide (lhs.columns c col = rhs.columns c col)))

/-- The struct `StateStore`: the map `Q`, as the list of its entries in
insertion order. A pointer to a stored state is its index in the list. -/
structure StateStore (F : Type) where
  Q : List (Info × StateInfo F)

namespace StateStore

/-- The method `get(pos)`: `none` for the null pointer. The map finds the
bucket of a key by its `hash` and compares the entries of the bucket with
`PositionInfoEqual`; here the entries are compared directly, which is the same
for keys of positions that satisfy the representation invariant, whose hash is
determined by the fields compared. -/
def get {F : Type} (store : StateStore F) (z : Zobrist) (pos : Position) : Option Nat :=
  store.Q.findIdx? (fun e => PositionInfoEqual e.1 (pos.get_info z))

/-- The method `try_create_state(pos)`: the state is constructed from `pos`
(which prunes the candidates of `pos`) only when the key is absent. -/
def try_create_state {F : Type} [DoubleOps F] (store : StateStore F) (z : Zobrist)
    (pos : Position) : Option (StateStore F × Position × Nat × Bool) :=
  match store.get z pos with
  | some i => some (store, pos, i, false)
  | none =>
    (StateInfo.create pos).map (fun r =>
      (⟨store.Q ++ [(pos.get_info z, r.1)]⟩, r.2, store.Q.length, true))

end StateStore

/-- The struct `Simulation` (its reference to the store and the globals
included). -/
structure Simulation (F : Type) where
  state_store : StateStore F
  pos : Position
  player : Nat
  transitions : List (Nat × Nat)
  color : Nat
  globals : Globals F

namespace Simulation

/-- The method `next(state_info)`. -/
def next {F : Type} [DoubleOps F] (z : Zobrist) (sim : Simulation F) (state : Nat) :
    Option (Simulation F) :=
  match sim.state_store.Q[state]? with
  | none => none
  | some entry =>
    match entry.2.select sim.globals.dot_color_stats sim.pos with
    | some (st, some action) =>
      match st.actions[action]? with
      | none => none
      | some a =>
        match sim.pos.do_move z a.tile_info with
        | none => none
        | some pos =>
          let r := sim.globals.gen.less_than TILES_PERMUTATIONS_COUNT
          (pos.play_chance_move z r.1).map (fun pos =>
            { sim with
              state_store := ⟨sim.state_store.Q.set state (entry.1, st)⟩
              pos := pos
              globals := { sim.globals with gen := r.2 }
              transitions := sim.transitions ++ [(state, action)] })
    | _ => none

/-- The method `simulate_tree()`, `fuel` bounding its rounds. -/
def simulate_tree {F : Type} [DoubleOps F] (z : Zobrist) :
    Nat → Simulation F → Option (Simulation F)
  | 0, sim => if !sim.pos.end_game then none else some sim
  | fuel + 1, sim =>
    if !sim.pos.end_game then
      match sim.state_store.try_create_state z sim.pos with
      | none => none
      | some (store, pos, state, created) =>
        match next z { sim with state_store := store, pos := pos } state with
        | none => none
        | some sim => if created then some sim else simulate_tree z fuel sim
    else some sim

/-- The loop `while (auto tile_info = pos.get_random_move())` of
`simulate_default()` and of `Warmup::run()`, on the position and the
generator; `fuel` bounds its rounds and those of `get_random_move`. -/
def playout (z : Zobrist) (fuel : Nat) : Nat → Position → FastRandom →
    Option (Position × FastRandom)
  | 0, _, _ => none
  | n + 1, pos, g =>
    match pos.get_random_move fuel g with
    | none => none
    | some (none, pos, g) => some (pos, g)
    | some (some tile_info, pos, g) =>
      match pos.do_move z tile_info with
      | none => none
      | some pos =>
        let r := g.less_than TILES_PERMUTATIONS_COUNT
        match pos.play_chance_move z r.1 with
        | none => none
        | some pos => playout z fuel n pos r.2

/-- The method `backup()`. -/
def backup {F : Type} [DoubleOps F] (sim : Simulation F) : Option (Simulation F) :=
  match sim.pos.get_expected_score sim.color sim.globals with
  | none => none
  | some score =>
    (sim.transitions.foldlM
      (fun (Q : List (Info × StateInfo F)) (t : Nat × Nat) =>
        match Q[t.1]? with
        | none => none
        | some entry =>
          let adjusted_score := if entry.2.player = sim.player then score else DoubleOps.neg score
          (entry.2.update t.2 adjusted_score).map (fun st => Q.set t.1 (entry.1, st)))
      sim.state_store.Q).map
      (fun Q =>
        { sim with
          state_store := ⟨Q⟩
          globals := { sim.globals with
            dot_color_stats :=
              DotColorStats.record sim.globals.dot_color_stats sim.pos sim.player score } })

/-- The method `run()` of a `Simulation` built from the store, the position
and the color: the store and the globals it leaves. -/
def run {F : Type} [DoubleOps F] (z : Zobrist) (fuel : Nat) (store : StateStore F)
    (pos : Position) (color : Nat) (G : Globals F) : Option (StateStore F × Globals F) :=
  let sim : Simulation F :=
    { state_store := store, pos := pos, player := pos.player, transitions := [], color := color,
      globals := G }
  match simulate_tree z fuel sim with
  | none => none
  | some sim =>
    let sim := { sim with
      globals := { sim.globals with
        max_level := max sim.globals.max_level sim.transitions.length } }
    match playout z fuel fuel sim.pos sim.globals.gen with
    | none => none
    | some (pos, g) =>
      (backup { sim with pos := pos, globals := { sim.globals with gen := g } }).map
        (fun sim => (sim.state_store, sim.globals))

end Simulation

/-- The method `Warmup(pos, color).run()`: the globals it leaves. -/
def Warmup.run {F : Type} [DoubleOps F] (z : Zobrist) (fuel : Nat) (pos : Position)
    (color : Nat) (G : Globals F) : Option (Globals F) :=
  match Simulation.playout z fuel fuel pos G.gen with
  | none => none
  | some (p, g) =>
    match p.get_expected_score color { G with gen := g } with
    | none => none
    | some score =>
      some { G with
        gen := g
        dot_color_stats := DotColorStats.record G.dot_color_stats p pos.player score }

/-- The loop `for (int w = 0; w < 1000; ++w) Warmup(pos, color).run()`. -/
def warmups {F : Type} [DoubleOps F] (z : Zobrist) (fuel : Nat) (pos : Position)
    (color : Nat) : Nat → Globals F → Option (Globals F)
  | 0, G => some G
  | n + 1, G => (Warmup.run z fuel pos color G).bind (warmups z fuel pos color n)

abbrev MAX_ITERATIONS : Nat := 100000

/-- The first loop of `get_best_move`. The clock is a function: `clock t`
is the outcome of the `t`-th evaluation of
`get_delta_time_since(start) < max_time` during the call. The first argument
counts the iterations left before `s` reaches `MAX_ITERATIONS`. -/
def main_loop {F : Type} [DoubleOps F] (z : Zobrist) (fuel : Nat) (clock : Nat → Bool)
    (pos : Position) (color : Nat) : Nat → Nat → Nat → StateStore F → Globals F →
    Option (Nat × Nat × StateStore F × Globals F)
  | 0, s, t, store, G => some (s, t, store, G)
  | n + 1, s, t, store, G =>
    if clock t then
      match Simulation.run z fuel store pos color G with
      | none => none
      | some (store, G) =>
        match store.get z pos with
        | none => none
        | some root =>
          match store.Q[root]? with
          | none => none
          | some entry =>
            match entry.2.select_most_visited with
            | none => none
            | some most_visited =>
              match entry.2.actions[most_visited]? with
              | none => none
              | some a =>
                if 2 * a.visits > MAX_ITERATIONS then some (s, t + 1, store, G)
                else main_loop z fuel clock pos color n (s + 1) (t + 1) store G
    else some (s, t + 1, store, G)

/-- The second loop of `get_best_move` (the consistency tail), `root` being
the pointer returned by `state_store.get(pos)`; the first argument counts the
iterations left before `extras` reaches 10000. -/
def tail_loop {F : Type} [DoubleOps F] (z : Zobrist) (fuel : Nat) (clock : Nat → Bool)
    (pos : Position) (color : Nat) (root : Option Nat) : Nat → Nat → Nat → StateStore F →
    Globals F → Option (Nat × Nat × StateStore F × Globals F)
  | 0, s, t, store, G => some (s, t, store, G)
  | n + 1, s, t, store, G =>
    if clock t then
      match root with
      | none => none
      | some r =>
        match store.Q[r]? with
        | none => none
        | some entry =>
          match entry.2.consistent G.dot_color_stats pos with
          | none => none
          | some (st, true) => some (s, t + 1, ⟨store.Q.set r (entry.1, st)⟩, G)
          | some (st, false) =>
            match Simulation.run z fuel ⟨store.Q.set r (entry.1, st)⟩ pos color G with
            | none => none
            | some (store, G) =>
              tail_loop z fuel clock pos color root n (s + 1) (t + 1) store G
    else some (s, t + 1, store, G)

/-- The function `mcts_ai::get_best_move(pos, ctx)`: the move returned, the
caller's position (whose `candidates` are pruned on the way) and the globals.
`none` stands for a run that does not return: a null pointer is dereferenced,
an index is out of range, or a loop exceeds `fuel` rounds. The values written
to the log are not computed, except `pos.get_possible_tiles()`, which prunes
`candidates`. -/
def get_best_move {F : Type} [DoubleOps F] (z : Zobrist) (fuel : Nat) (clock : Nat → Bool)
    (pos : Position) (color : Nat) (G : Globals F) :
    Option (PlayerMove × Position × Globals F) :=
  let G := { G with max_level := 0, dot_color_stats := DotColorStats.reset }
  let store : StateStore F := ⟨[]⟩
  match warmups z fuel pos color 1000 G with
  | none => none
  | some G =>
    match pos.update_condidates with
    | none => none
    | some pos =>
      match main_loop z fuel clock pos color MAX_ITERATIONS 0 0 store G with
      | none => none
      | some (s, t, store, G) =>
        let root := store.get z pos
        match tail_loop z fuel clock pos color root 10000 s t store G with
        | none => none
        | some (_, _, store, G) =>
          match pos.get_possible_tiles with
          | none => none
          | some (_, pos) =>
            match root with
            | none => none
            | some r =>
              match store.Q[r]? with
              | none => none
              | some entry =>
                match entry.2.select_most_visited with
                | none => none
                | some most_visited =>
                  (entry.2.actions[most_visited]?).map
                    (fun a => (a.tile_info.move, pos, G))

end Box

/-! ## Predicates used by the statements -/

namespace Box

/-- The twelve dots of a placement, pair after pair. -/
def TileInfo.dots (t : TileInfo) : List Nat := t.siblings.flatMap (fun s => [s.1, s.2])

/-- The two dots of the sibling pair of index `i`. -/
def TileInfo.pair_dots (t : TileInfo) (i : Nat) : List Nat :=
  match t.siblings[i]? with
  | some (d1, d2) => [d1, d2]
  | none => []

/-- Shape of a placement of the registry: six sibling pairs, twelve distinct
dots of the board, which are exactly the bits of its bitboard. -/
structure TileInfo.WF (t : TileInfo) : Prop where
  len : t.siblings.length = TILE_DOTS
  nodup : t.dots.Nodup
  bound : ∀ d ∈ t.dots, d < TOTAL_DOTS
  covered : ∀ d, t.bitboard.test d = true ↔ d ∈ t.dots

/-- Dot stored by the fill loops for the cell of index `i`. -/
def cell_dot (cell : Nat → Int × Int) (i : Nat) : Nat := (get_dot (cell i).1 (cell i).2).toNat

/-- One move of the game applied to a position: a drawn tile (by the
generator, `play_chance_move`, or named by the referee, `do_move(chance)`),
or a placement (`do_move` on a placement of the registry or on a
`PlayerMove`). -/
inductive Step (z : Zobrist) : Position → Position → Prop
  | play_chance (p q : Position) (index : Nat) :
      index < TILES_PERMUTATIONS_COUNT → p.play_chance_move z index = some q → Step z p q
  | chance (p q : Position) (chance_move : List Nat) :
      p.do_move_chance z chance_move = some q → Step z p q
  | place (p q : Position) (T : TileInfo) :
      T ∈ ALL_TILES_INFO → p.do_move z T = some q → Step z p q
  | move (p q : Position) (m : PlayerMove) :
      p.do_move_player z m = some q → Step z p q

/-- Positions obtained from `p` by a sequence of moves. -/
inductive ReachableFrom (z : Zobrist) (p : Position) : Position → Prop
  | refl : ReachableFrom z p p
  | step (q r : Position) : ReachableFrom z p q → Step z q r → ReachableFrom z p r

/-- Positions obtained from the constructor by a sequence of moves. -/
def Reachable (z : Zobrist) (q : Position) : Prop :=
  ∃ s p, Position.create z s = some p ∧ ReachableFrom z p q

/-- A character code of one of the six colors `'1' .. '6'`. -/
def is_color (c : Nat) : Prop := 49 ≤ c ∧ c ≤ 54

/-- Key contributed by one dot to the hash. -/
def dot_key (z : Zobrist) (colors : Nat → Nat) (dot : Nat) : Nat :=
  if colors dot ≠ WHITE then z.colors dot (color_index (colors dot)).toNat else 0

/-- Xor of the keys of the non-white dots: the loop of `compute_hash`. -/
def dots_hash (z : Zobrist) (colors : Nat → Nat) (dots : List Nat) : Nat :=
  dots.foldl
    (fun h dot =>
      if colors dot ≠ WHITE then h ^^^ z.colors dot (color_index (colors dot)).toNat else h)
    0

/-- The representation invariant of `Position`. -/
structure Position.Inv (z : Zobrist) (p : Position) : Prop where
  colors_ok : ∀ d, p.colors d = WHITE ∨ is_color (p.colors d)
  white_outside : ∀ d, TOTAL_DOTS ≤ d → p.colors d = WHITE
  filled_iff : ∀ d, p.filled.test d = true ↔ p.colors d ≠ WHITE
  columns_iff : ∀ c col r, c < MAX_COLORS → col < COLS →
    ((p.columns c col).value.testBit r = true ↔ r < ROWS ∧ p.colors (r * COLS + col) = c + 49)
  hash : p.zobrist_hash =
    dots_hash z p.colors ALL_DOTS ^^^ (if p.tile_index ≠ -1 then z.tiles p.tile_index.toNat else 0)
  tile_ok : (p.tile_index = -1 ∧ p.tile = none) ∨
    (0 ≤ p.tile_index ∧ p.tile_index < TILES_PERMUTATIONS_COUNT ∧
      ∃ t, p.tile = some t ∧ TILES_PERMUTATIONS[p.tile_index.toNat]? = some t)
  player_ok : p.player = PLAYER_1 ∨ p.player = PLAYER_2

/-- What `process_siblings` and the loops over it leave untouched. -/
def same_frame (p q : Position) : Prop :=
  q.tile = p.tile ∧ q.tile_index = p.tile_index ∧ q.turn = p.turn ∧ q.player = p.player ∧
    q.candidates = p.candidates

/-- Column bitmap coherence for one color index: bit `r` of
`columns[c][col]` is set exactly when `r` is a row and the dot `(r, col)` has
the color of index `c`. -/
def Position.ColumnsCoherent (p : Position) (c : Nat) : Prop :=
  ∀ col r, col < COLS →
    ((p.columns c col).value.testBit r = true ↔ r < ROWS ∧ p.colors (r * COLS + col) = c + 49)

/-- The four corners of the square of side `b` whose top left corner is the
dot `(r, col)` all have the color of index `c`. -/
def Position.square (p : Position) (c r col b : Nat) : Prop :=
  p.colors (r * COLS + col) = c + 49 ∧ p.colors (r * COLS + (col + b)) = c + 49 ∧
  p.colors ((r + b) * COLS + col) = c + 49 ∧ p.colors ((r + b) * COLS + (col + b)) = c + 49

instance (p : Position) (c r col b : Nat) : Decidable (p.square c r col b) := by
  unfold Position.square; infer_instance

/-- Sum of the side lengths of the axis-aligned squares of side `b ≥ 1` inside
the grid whose four corners have the color of index `c`, each square being
taken once, by its top left corner `(r, col)` and its side `b`. -/
def score_of_squares (p : Position) (c : Nat) : Nat :=
  ∑ col ∈ Finset.range COLS, ∑ r ∈ Finset.range ROWS, ∑ b ∈ Finset.range ROWS,
    if 1 ≤ b ∧ r + b < ROWS ∧ col + b < COLS ∧ p.square c r col b then b else 0

/-- What the body of the inner loop of `get_score(col, color)` adds for the
pair of rows `row` and `i` of the column `col`. -/
def pair_term (p : Position) (col color row i : Nat) : Int :=
  if (col : Int) + ((i : Int) - row) < COLS ∧
      (p.columns color ((col : Int) + ((i : Int) - row)).toNat).test2 row
        ((row : Int) + ((i : Int) - row)).toNat = true
  then (i : Int) - row else 0

/-- What one round of the outer loop of `get_score(col, color)` adds for the
row `row`, `v` being the bitmap of the column. -/
def row_term (p : Position) (col color v row : Nat) : Int :=
  ∑ i ∈ Finset.range 16, if v.testBit i = true ∧ row < i then pair_term p col color row i else 0

/-! ## Sample data, used to instantiate the statements -/

/-- A table of Zobrist keys. -/
def sample_keys : Zobrist :=
  { colors := fun d c => 7 * d + c + 1, tiles := fun i => 1000 + i, player_1 := 5, player_2 := 9 }

/-- The position built by the constructor from the canonical opening
descriptor `"Hh123456h"`. -/
def opening : Position :=
  (Position.create sample_keys (chars "Hh123456h")).getD Position.blank

/-- The first placement of the registry. -/
def sample_tile : TileInfo :=
  ALL_TILES_INFO.headD
    { siblings := [], bitboard := Bitboard.zero, neighbors_bitboard := Bitboard.zero,
      code := 0, dot := 0, orientation := VERTICAL }

/-- The placement of the opening tile. -/
def center_tile : TileInfo := CENTER_TILE_INFO.getD sample_tile

/-- A board painted by hand: the four dots `(0,0)`, `(0,1)`, `(1,0)`, `(1,1)`
have the color `'1'`, every other dot is white. -/
def one_square : Position :=
  { Position.blank with
    colors := fun d => if d = 0 ∨ d = 1 ∨ d = 20 ∨ d = 21 then 49 else WHITE
    filled := (((Bitboard.zero.set 0).set 1).set 20).set 21
    columns := fun c col => if c = 0 ∧ (col = 0 ∨ col = 1) then ⟨3⟩ else ⟨0⟩ }

/-- The twelve dots of the vertical placement anchored at `dot`, pair after
pair. -/
def vertical_dots (dot : Nat) : List Nat :=
  (List.range TILE_DOTS).flatMap
    (fun i => [(dot / 20 + i) * 20 + dot % 20 + 1, (dot / 20 + (5 - i)) * 20 + dot % 20])

/-- The twelve dots of the horizontal placement anchored at `dot`, pair after
pair. -/
def horizontal_dots (dot : Nat) : List Nat :=
  (List.range TILE_DOTS).flatMap
    (fun i => [dot / 20 * 20 + dot % 20 + i, (dot / 20 + 1) * 20 + dot % 20 + (5 - i)])

/-- A move of a game: the placement must be legal where it is played. -/
def play_legal (z : Zobrist) (p : Position) (m : PlayerMove) : Option Position :=
  match p.possible_move_at m.dot m.orientation with
  | some true => p.do_move_player z m
  | _ => none

/-- The placements of a complete game played from the opening position, the
tile drawn being `"123456"` at every turn. -/
def finished_game : List PlayerMove :=
  [⟨121, HORIZONTAL⟩, ⟨133, HORIZONTAL⟩, ⟨90, HORIZONTAL⟩, ⟨191, VERTICAL⟩, ⟨187, VERTICAL⟩,
   ⟨193, HORIZONTAL⟩, ⟨27, VERTICAL⟩, ⟨209, VERTICAL⟩, ⟨18, VERTICAL⟩, ⟨41, HORIZONTAL⟩,
   ⟨161, VERTICAL⟩, ⟨273, HORIZONTAL⟩, ⟨0, HORIZONTAL⟩, ⟨81, HORIZONTAL⟩, ⟨29, HORIZONTAL⟩,
   ⟨280, HORIZONTAL⟩, ⟨234, HORIZONTAL⟩, ⟨164, VERTICAL⟩, ⟨16, VERTICAL⟩]

/-- The position at the end of `finished_game`. -/
def finished : Position :=
  (finished_game.foldlM (play_legal sample_keys) opening).getD opening

/-- The dots filled at the end of `finished_game`, as the bits of a number. -/
def finished_bits : Nat :=
  3258238918844731686663619701255839467804024808475211825185882742182861883513918833802904272959

end Box

/-! ## Box.h : dot names -/

namespace Box

/-- The function `show_dot(dot)`: the row letter `r + 'A'` and the column
letter `c + 'a'`, each converted to a `char`. The division and the remainder
are those of C++ `int`s. -/
def show_dot (dot : Int) : List Nat :=
  [((Int.tdiv dot COLS + 65) % 256).toNat, ((Int.tmod dot COLS + 97) % 256).toNat]

/-! ## Position.cc : the pessimist score -/

/-- The method `get_pessimist_score(color)`. -/
def Position.get_pessimist_score (p : Position) (color : Nat) : Option Int :=
  match p.get_scores with
  | none => none
  | some scores =>
    let my_color_idx := color_index color
    if 0 ≤ my_color_idx then
      match scores[my_color_idx.toNat]? with
      | none => none
      | some s1 =>
        (ALL_COLORS.foldlM
          (fun (s2 : Int) (c : Nat) =>
            if (c : Int) ≠ my_color_idx then (scores[c]?).map (fun s => max s2 s) else some s2)
          0).map (fun s2 => s1 - s2)
    else none

/-! ## Position.cc : the color weights -/

/-- Further operations of the type `double`, used by `update_weigths`. -/
class DoubleMath (F : Type) where
  /-- The library call `pow(base, exponent)`. -/
  pow : F → F → F
  /-- The comparison `a <= b`. -/
  le : F → F → Bool
  /-- The constant `numeric_limits<double>::max()`. -/
  highest : F
  /-- The value of the decimal literal with the digits `m` and `k` of them
  after the point: `decimal 2 1` is `0.2`, `decimal 67 2` is `0.67`. -/
  decimal : Nat → Nat → F

/-- The loop that sets `opponent_color_index`: the first index whose weight
passes the test ends it. -/
def opponent_loop {F : Type} [DoubleMath F] (weights : Nat → F) (threshold : F) :
    List Nat → Int
  | [] => -1
  | i :: rest =>
    if DoubleMath.le (weights i) threshold then (i : Int)
    else opponent_loop weights threshold rest

/-- The method `update_weigths(impact, my_color)`, the log output apart. -/
def update_weigths {F : Type} [DoubleOps F] [DoubleMath F] (G : Globals F) (impact : Nat → F)
    (my_color : Nat) : Globals F :=
  let BASE : F := DoubleOps.ofInt 10
  let T : F := DoubleMath.decimal 2 1
  let my_color_index := color_index my_color
  let min_eval := (List.range MAX_COLORS).foldl
    (fun (min_eval : F) (i : Nat) =>
      if (i : Int) ≠ my_color_index then
        (if DoubleOps.lt (impact i) min_eval then impact i else min_eval)
      else min_eval)
    DoubleMath.highest
  let sum_evals := (List.range MAX_COLORS).foldl
    (fun (sum_evals : F) (i : Nat) =>
      if (i : Int) ≠ my_color_index then
        DoubleOps.add sum_evals
          (DoubleMath.pow BASE (DoubleOps.mul T (DoubleOps.sub (impact i) min_eval)))
      else sum_evals)
    (DoubleOps.ofInt 0)
  let weights : Nat → F := fun i =>
    if i < MAX_COLORS then
      (if (i : Int) = my_color_index then DoubleOps.ofInt 1
       else DoubleOps.div
         (DoubleOps.neg (DoubleMath.pow BASE (DoubleOps.mul T (DoubleOps.sub (impact i) min_eval))))
         sum_evals)
    else G.weights i
  let WEIGHT_THRESHOLD : F := DoubleOps.neg (DoubleMath.decimal 67 2)
  { G with
    weights := weights
    opponent_color_index := opponent_loop weights WEIGHT_THRESHOLD (List.range MAX_COLORS) }

/-! ## Further notions used by the statements -/

/-- Exact arithmetic: `F` is an ordered field, the operations of `double`
are the field operations without rounding, and `pow` of a positive base is
positive, as the real power is. -/
structure ExactArithmetic (F : Type) [LinearOrderedField F] [DoubleOps F] [DoubleMath F] :
    Prop where
  ofInt_eq : ∀ n : Int, (DoubleOps.ofInt n : F) = (n : F)
  add_eq : ∀ a b : F, DoubleOps.add a b = a + b
  sub_eq : ∀ a b : F, DoubleOps.sub a b = a - b
  mul_eq : ∀ a b : F, DoubleOps.mul a b = a * b
  div_eq : ∀ a b : F, DoubleOps.div a b = a / b
  neg_eq : ∀ a : F, DoubleOps.neg a = -a
  lt_iff : ∀ a b : F, DoubleOps.lt a b = true ↔ a < b
  le_iff : ∀ a b : F, DoubleMath.le a b = true ↔ a ≤ b
  decimal_eq : ∀ m k : Nat, (DoubleMath.decimal m k : F) = (m : F) / 10 ^ k
  pow_pos : ∀ b x : F, 0 < b → 0 < DoubleMath.pow b x

/-- Exact arithmetic on the rational numbers; the three transcendental
operations are replaced by rational stand-ins (`pow b x` is `b` to the
integer part of `x`). -/
instance rat_double_ops : DoubleOps ℚ where
  ofInt n := (n : ℚ)
  add a b := a + b
  sub a b := a - b
  mul a b := a * b
  div a b := a / b
  neg a := -a
  sqrt a := Rat.sqrt a
  log a := (Int.log 2 a : ℚ)
  lt a b := decide (a < b)
  lowest := -(2 : ℚ) ^ 1024
  toSize a := (Int.floor a).toNat

instance rat_double_math : DoubleMath ℚ where
  pow b x := b ^ Int.floor x
  le a b := decide (a ≤ b)
  highest := (2 : ℚ) ^ 1024
  decimal m k := (m : ℚ) / 10 ^ k

/-- Two dots of the grid are orthogonally adjacent: same row and columns
differing by 1, or same column and rows differing by 1. -/
def adjacent (d e : Nat) : Prop :=
  d < TOTAL_DOTS ∧ e < TOTAL_DOTS ∧
    ((d / COLS = e / COLS ∧ (d % COLS + 1 = e % COLS ∨ e % COLS + 1 = d % COLS)) ∨
     (d % COLS = e % COLS ∧ (d / COLS + 1 = e / COLS ∨ e / COLS + 1 = d / COLS)))

instance (d e : Nat) : Decidable (adjacent d e) := by
  unfold adjacent; infer_instance

/-- A board with all 320 dots filled, the candidate list being the whole
registry. -/
def full_board : Position :=
  { Position.blank with filled := ⟨2 ^ TOTAL_DOTS - 1⟩ }

/-- Sample totals of the six colors. -/
def sample_totals : Nat → ℚ := fun c => (c : ℚ)

/-- Sample globals over the rationals. -/
def sample_globals : Globals ℚ :=
  { gen := ⟨1⟩, dot_color_stats := fun _ => ⟨0, 0⟩, weights := fun _ => 0,
    opponent_color_index := -1, max_level := 0 }

end Box

/-! ## Further definitions: TileSet calls, bonus and impact -/

namespace Box

/-- A `TileSet` as the C++ type holds it: `NUM_CHUNKS` words of 64 bits. -/
def TileSet.WF (s : TileSet) : Prop :=
  s.data.length = TileSet.NUM_CHUNKS ∧ ∀ w ∈ s.data, w < 2 ^ 64

/-- The codes of `0 .. ALL_TILES_COUNT - 1` whose bit is set, in ascending
order. -/
def TileSet.codes (s : TileSet) : List Nat :=
  (List.range ALL_TILES_COUNT).filter (fun c => s.test c)

/-- A mutation of a `TileSet`: a call of `set(code)` or of `clear(code)`. -/
inductive TileSet.Call where
  | set (code : Nat)
  | clear (code : Nat)

/-- One call applied to a `TileSet`. -/
def TileSet.step (s : TileSet) : TileSet.Call → TileSet
  | TileSet.Call.set code => s.set code
  | TileSet.Call.clear code => s.clear code

/-- A sequence of calls applied to a `TileSet`, first call first. -/
def TileSet.run (s : TileSet) (calls : List TileSet.Call) : TileSet :=
  calls.foldl TileSet.step s

/-- A state with three expanded actions, visited 3, 5 and 5 times. -/
def sample_state : StateInfo ℚ :=
  { unexpanded_tiles := TileSet.empty
    actions :=
      [{ ActionInfo.create sample_tile with visits := 3 },
       { ActionInfo.create center_tile with visits := 5 },
       { ActionInfo.create sample_tile with visits := 5 }]
    bonus := 0, visits := 13, player := PLAYER_1 }

/-- The hand-painted board `one_square` with the first placement of the
registry as its only candidate. -/
def draw_board : Position := { one_square with candidates := [sample_tile] }

/-- One random move drawn on `draw_board`, the generator being seeded with 6. -/
def sample_draw : Option TileInfo × Position × FastRandom :=
  (draw_board.get_random_move 1 ⟨6⟩).getD (none, draw_board, ⟨6⟩)

end Box

/-! ## Position.cc : bonus and impact -/

namespace Box

namespace Position

/-- The loop of `bonus(row, col, color)`:
`for (auto v = columns[color][col].value; v > 0;)`, at most `fuel` rounds
(`none` when they do not suffice). -/
def bonus_loop (p : Position) (row col color : Nat) : Nat → Nat → Int → Option Int
  | 0, v, score => if v > 0 then none else some score
  | fuel + 1, v, score =>
    if v > 0 then
      let r := countr_zero v
      let v := (v &&& (v - 1)) % 2 ^ 16
      let score :=
        if row ≠ r then
          let b := Int.natAbs ((row : Int) - r)
          let score :=
            if col + b < COLS ∧ (p.columns color (col + b)).test2 row r = true
            then score + b else score
          if col ≥ b ∧ (p.columns color (col - b)).test2 row r = true
          then score + b else score
        else score
      bonus_loop p row col color fuel v score
    else some score

/-- The method `bonus(row, col, color)`; a 16-bit value has at most 16 set
bits, which bounds the rounds of the loop. -/
def bonus (p : Position) (row col color : Nat) : Option Int :=
  bonus_loop p row col color 16 (p.columns color col).value 0

/-- The body of the loop `for (int dot : {d1, d2})` of `impact`, on the array
`res`; a color index outside `0 .. MAX_COLORS - 1` is an out-of-range access
of `res`. -/
def impact_dot (p : Position) (color : Nat) (res : List Int) (dot : Nat) : Option (List Int) :=
  let old_color := p.colors dot
  if old_color ≠ color then
    let row := dot / COLS
    let col := dot % COLS
    let old_color_index := color_index old_color
    let color_index := color_index color
    if old_color ≠ WHITE ∧ ¬ (0 ≤ old_color_index ∧ old_color_index < MAX_COLORS) then none
    else if ¬ (0 ≤ color_index ∧ color_index < MAX_COLORS) then none
    else
      (if old_color ≠ WHITE then
        (p.bonus row col old_color_index.toNat).map (fun b =>
          res.set old_color_index.toNat (res.getD old_color_index.toNat 0 - b))
      else some res).bind (fun res =>
        (p.bonus row col color_index.toNat).map (fun b =>
          res.set color_index.toNat (res.getD color_index.toNat 0 + b)))
  else some res

/-- The method `impact(const TileInfo* info)`. -/
def impact (p : Position) (info : TileInfo) : Option (List Int) :=
  (List.range MAX_COLORS).foldlM
    (fun res i =>
      match info.siblings[i]?, p.tile with
      | some (d1, d2), some tile =>
        match tile[i]? with
        | some color => (p.impact_dot color res d1).bind (fun res => p.impact_dot color res d2)
        | none => none
      | _, _ => none)
    (List.replicate MAX_COLORS 0)

end Position

/-- What a round of the loop of `bonus(row, col, color)` adds for the row
`r`. -/
def bonus_term (p : Position) (row col color r : Nat) : Int :=
  if row ≠ r then
    (if col + Int.natAbs ((row : Int) - r) < COLS ∧
        (p.columns color (col + Int.natAbs ((row : Int) - r))).test2 row r = true
      then (Int.natAbs ((row : Int) - r) : Int) else 0) +
    (if col ≥ Int.natAbs ((row : Int) - r) ∧
        (p.columns color (col - Int.natAbs ((row : Int) - r))).test2 row r = true
      then (Int.natAbs ((row : Int) - r) : Int) else 0)
  else 0

/-- The side `|row - r|` of a square with corners on the rows `row` and `r`. -/
def side (row r : Nat) : Nat := if r < row then row - r else r - row

/-- The squares of the color of index `c` that the dot `(row, col)` would
close with the row `r`: the side of the square to the right (`s = 0`) or to
the left (`s = 1`) of the column `col` whose three other corners have that
color, 0 if they do not. -/
def corner_term (p : Position) (c row col r s : Nat) : Int :=
  if r ≠ row ∧ p.colors (r * COLS + col) = c + 49 ∧
      (if s = 0 then
        col + side row r < COLS ∧ p.colors (row * COLS + (col + side row r)) = c + 49 ∧
          p.colors (r * COLS + (col + side row r)) = c + 49
      else
        side row r ≤ col ∧ p.colors (row * COLS + (col - side row r)) = c + 49 ∧
          p.colors (r * COLS + (col - side row r)) = c + 49)
  then (side row r : Int) else 0

/-- The marginal score of the dot `(row, col)` for the color of index `c`:
the sum of the sides of the squares that have this dot as a corner and whose
three other corners have that color. -/
def marginal_score (p : Position) (c row col : Nat) : Int :=
  ∑ r ∈ Finset.range ROWS, ∑ s ∈ Finset.range 2, corner_term p c row col r s

/-- The opening position after the placements at `Eh` vertical and `Jh`
horizontal, the tile drawn being `"123456"`. -/
def overlap_board : Position :=
  (([⟨87, VERTICAL⟩, ⟨187, HORIZONTAL⟩] : List PlayerMove).foldlM
    (play_legal sample_keys) opening).getD opening

/-- The vertical placement anchored at `Hg`, of code 139. -/
def overlap_tile : TileInfo := ALL_TILES_INFO.getD 139 sample_tile

/-- The horizontal placement anchored at `Fh`, of code 291: it lies just
above the opening tile. -/
def white_tile : TileInfo := ALL_TILES_INFO.getD 291 sample_tile

end Box

namespace Box

/-- The entry of `VERTICAL_TILES_INFO` anchored at `Hg`: the placement
`overlap_tile` before the registry numbers it. -/
def overlap_source : TileInfo := VERTICAL_TILES_INFO.getD 146 sample_tile

end Box

/-! ## MctsAi.h : the life of a StateInfo -/

namespace Box

/-- A `TileSet` in step with its counter: 64-bit words, no bit beyond the
registry, and `count` equal to the number of set bits. -/
def TileSet.Sound (s : TileSet) : Prop :=
  s.WF ∧ (∀ c, s.test c = true → c < ALL_TILES_COUNT) ∧ s.count = (s.codes.length : Int)

/-- A call on a `StateInfo`: `select(pos)`, which reads the table
`dot_color_stats` as it is at the call, or `update(action_info, score)`. -/
inductive StateInfo.Call (F : Type) where
  | select (stats : Nat → Stats F) (pos : Position)
  | update (action : Nat) (score : F)

/-- One call applied to a `StateInfo`. -/
def StateInfo.step {F : Type} [DoubleOps F] (st : StateInfo F) :
    StateInfo.Call F → Option (StateInfo F)
  | StateInfo.Call.select stats pos => (st.select stats pos).map (fun r => r.1)
  | StateInfo.Call.update action score => st.update action score

/-- A sequence of calls applied to a `StateInfo`, first call first. -/
def StateInfo.run {F : Type} [DoubleOps F] (st : StateInfo F)
    (calls : List (StateInfo.Call F)) : Option (StateInfo F) :=
  calls.foldlM StateInfo.step st

/-- The codes of the expanded actions of a state. -/
def StateInfo.expanded {F : Type} (st : StateInfo F) : List Nat :=
  st.actions.map (fun a => a.tile_info.code)

/-- The placement `T`, of value `v`, is the best of the codes `rem`: it is
the registry entry of one of them, no entry of `rem` has a higher
`DotColorStats.evaluate`, and those of the same value have no lower code. -/
def first_best {F : Type} [LinearOrder F] [DoubleOps F] (stats : Nat → Stats F)
    (pos : Position) (rem : List Nat) (T : TileInfo) (v : F) : Prop :=
  T.code ∈ rem ∧ ALL_TILES_INFO[T.code]? = some T ∧
  DotColorStats.evaluate stats pos T = some v ∧
  ∀ c ∈ rem, ∀ T2 v2, ALL_TILES_INFO[c]? = some T2 →
    DotColorStats.evaluate stats pos T2 = some v2 → v2 ≤ v ∧ (v2 = v → T.code ≤ c)

/-- The placements `picks`, with their values, are taken one after the other
from the codes `rem`, each being the best of what the previous ones left. -/
def expansion_chain {F : Type} [LinearOrder F] [DoubleOps F] (stats : Nat → Stats F)
    (pos : Position) : List Nat → List (TileInfo × F) → Prop
  | _, [] => True
  | rem, x :: rest =>
    first_best stats pos rem x.1 x.2 ∧
      expansion_chain stats pos (rem.filter (fun c => c ≠ x.1.code)) rest

end Box

namespace Box

/-- The invariant of a `StateInfo` whose initial legal set is the set of the
codes `legal`: the set of unexpanded placements is sound, at most 64 actions
are expanded, no placement is expanded twice, none is both expanded and
unexpanded, and the codes expanded or unexpanded are the legal ones. -/
def StateInfo.Inv {F : Type} (legal : Nat → Prop) (st : StateInfo F) : Prop :=
  st.unexpanded_tiles.Sound ∧ st.actions.length ≤ 64 ∧ st.expanded.Nodup ∧
  (∀ c, st.unexpanded_tiles.test c = true → c ∉ st.expanded) ∧
  (∀ c, legal c ↔ (st.unexpanded_tiles.test c = true ∨ c ∈ st.expanded))

end Box
/-! ## Further definitions: bounded games and candidate lists -/

namespace Box

/-- The number of filled dots of a position. -/
def Position.filled_count (p : Position) : Nat := Bitboard.popcount p.filled.bits

/-- The position `q` is obtained from `p` by `n` legal placements: between
them a tile may be drawn (`play_chance_move`) and the candidate list may be
replaced by another one, which changes nothing on the board. -/
inductive LegalPlay (z : Zobrist) : Position → Nat → Position → Prop
  | refl (p : Position) : LegalPlay z p 0 p
  | draw (p q r : Position) (n index : Nat) :
      LegalPlay z p n q → q.play_chance_move z index = some r → LegalPlay z p n r
  | candidates (p q : Position) (n : Nat) (l : List TileInfo) :
      LegalPlay z p n q → LegalPlay z p n { q with candidates := l }
  | place (p q r : Position) (n : Nat) (T : TileInfo) :
      LegalPlay z p n q → T ∈ ALL_TILES_INFO → q.possible_move T = true →
      q.do_move z T = some r → LegalPlay z p (n + 1) r

/-- The candidate list of a position is complete: it has no duplicates, holds
placements of the registry only, and holds every placement of the registry
that covers at most `MAX_OVERLAPS` filled dots. -/
def Position.Complete (p : Position) : Prop :=
  p.candidates.Nodup ∧ (∀ T ∈ p.candidates, T ∈ ALL_TILES_INFO) ∧
  ∀ T ∈ ALL_TILES_INFO, T.count_matches p.filled ≤ MAX_OVERLAPS → T ∈ p.candidates

/-- The position `q` is obtained from `p` by the operations of a playout and
of the search on the candidate list: a round (`get_random_move()` returns a
placement, which `do_move` plays), a tile drawn by `play_chance_move()`, and
the calls `update_condidates()`, `get_possible_tiles_set()` and
`get_possible_tiles()`. -/
inductive PlayoutOps (z : Zobrist) : Position → Position → Prop
  | refl (p : Position) : PlayoutOps z p p
  | round (p q q1 q2 : Position) (fuel : Nat) (g g1 : FastRandom) (T : TileInfo) :
      PlayoutOps z p q → q.get_random_move fuel g = some (some T, q1, g1) →
      q1.do_move z T = some q2 → PlayoutOps z p q2
  | draw (p q r : Position) (index : Nat) :
      PlayoutOps z p q → q.play_chance_move z index = some r → PlayoutOps z p r
  | prune (p q r : Position) :
      PlayoutOps z p q → q.update_condidates = some r → PlayoutOps z p r
  | tiles_set (p q r : Position) (s : TileSet) :
      PlayoutOps z p q → q.get_possible_tiles_set = some (s, r) → PlayoutOps z p r
  | tiles (p q r : Position) (l : List TileInfo) :
      PlayoutOps z p q → q.get_possible_tiles = some (l, r) → PlayoutOps z p r

/-- A position met during a search whose root has the candidate list `L`: it
satisfies the invariant, and its candidates are distinct members of `L`. -/
def Position.Fit (z : Zobrist) (L : List TileInfo) (p : Position) : Prop :=
  p.Inv z ∧ p.candidates.Nodup ∧ ∀ T ∈ p.candidates, T ∈ L

/-- A state of the tree is good for the position `p0` it was created from: it
satisfies the invariant of a state whose legal codes are those of the legal
candidates of `p0`, and its actions hold placements of the registry. -/
def StateInfo.Good {F : Type} (p0 : Position) (st : StateInfo F) : Prop :=
  st.Inv (fun c => ∃ T ∈ p0.candidates, T.code = c ∧ p0.possible_move T = true) ∧
  ∀ a ∈ st.actions, a.tile_info ∈ ALL_TILES_INFO

/-- The invariant of the store during a search whose root has the candidate
list `L`: every entry is the key of a position that fits the search, with a
state that is good for that position. -/
def StateStore.Inv {F : Type} (z : Zobrist) (L : List TileInfo) (store : StateStore F) :
    Prop :=
  ∀ entry ∈ store.Q, ∃ p0 : Position, p0.Fit z L ∧ entry.1 = p0.get_info z ∧
    entry.2.Good p0

/-- The store `b` holds, at the same indices, the keys that the store `a`
holds. -/
def StateStore.KeepsKeys {F : Type} (a b : StateStore F) : Prop :=
  ∀ (i : Nat) (e : Info × StateInfo F), a.Q[i]? = some e →
    ∃ e2 : Info × StateInfo F, b.Q[i]? = some e2 ∧ e2.1 = e.1

/-- The opening position with the placement that lies just above the opening
tile as its only candidate. -/
def single_board : Position := { opening with candidates := [white_tile] }

/-- A clock that leaves time for one simulation: only its first test
succeeds. -/
def one_tick : Nat → Bool := fun t => decide (t = 0)

end Box

/-! ## Placement legality -/

namespace Box

theorem Bitboard.popcount_eq_zero_iff (w : Nat) :
    Bitboard.popcount w = 0 ↔ ∀ d < Bitboard.WIDTH, w.testBit d = false := by
  unfold Bitboard.popcount
  rw [List.countP_eq_zero]
  constructor
  · intro h d hd
    have := h d (List.mem_range.mpr hd)
    simpa using this
  · intro h d hd
    simp [h d (List.mem_range.mp hd)]

theorem Bitboard.any_matches_iff (a b : Bitboard) :
    a.any_matches b = true ↔ ∃ d, a.test d = true ∧ b.test d = true := by
  unfold Bitboard.any_matches Bitboard.test
  constructor
  · intro h
    have hne : a.bits &&& b.bits ≠ 0 := by simpa using h
    obtain ⟨i, hi⟩ := Nat.ne_zero_implies_bit_true hne
    exact ⟨i, by simpa using hi⟩
  · rintro ⟨d, h1, h2⟩
    have : (a.bits &&& b.bits).testBit d = true := by simp [h1, h2]
    have hne : a.bits &&& b.bits ≠ 0 := by
      intro h0
      rw [h0] at this
      simp at this
    simpa using hne

/-- The overlap count of a placement is the number of stored bit positions
that are both covered by the placement and filled. -/
theorem TileInfo.count_matches_eq (T : TileInfo) (filled : Bitboard) :
    T.count_matches filled =
      ((List.range Bitboard.WIDTH).filter
        (fun d => T.bitboard.test d && filled.test d)).length := by
  unfold TileInfo.count_matches Bitboard.count_matches Bitboard.popcount Bitboard.test
  rw [List.countP_eq_length_filter]
  congr 1
  apply List.filter_congr
  intro d _
  simp

/-- C1. `possible_move(T)` is true exactly when either `T` covers no filled
dot and a dot of `T.neighbors_bitboard` is filled, or the number of filled dots
covered by `T` lies between 1 and `MAX_OVERLAPS = 4`; an overlap of exactly 4 is
legal, an overlap of 5 is not; and the answer is the same in any two positions
with the same `filled` board, whatever their colors. -/
theorem possible_move_iff (p : Position) (T : TileInfo) :
    (p.possible_move T = true ↔
      ((∀ d < Bitboard.WIDTH, ¬ (T.bitboard.test d = true ∧ p.filled.test d = true)) ∧
        (∃ d, T.neighbors_bitboard.test d = true ∧ p.filled.test d = true)) ∨
      (1 ≤ ((List.range Bitboard.WIDTH).filter
              (fun d => T.bitboard.test d && p.filled.test d)).length ∧
        ((List.range Bitboard.WIDTH).filter
              (fun d => T.bitboard.test d && p.filled.test d)).length ≤ 4)) ∧
    (((List.range Bitboard.WIDTH).filter
        (fun d => T.bitboard.test d && p.filled.test d)).length = 4 →
      p.possible_move T = true) ∧
    (((List.range Bitboard.WIDTH).filter
        (fun d => T.bitboard.test d && p.filled.test d)).length = 5 →
      p.possible_move T = false) ∧
    (∀ q : Position, q.filled = p.filled → q.possible_move T = p.possible_move T) := by
  have hcnt := TileInfo.count_matches_eq T p.filled
  have hzero : T.count_matches p.filled = 0 ↔
      ∀ d < Bitboard.WIDTH, ¬ (T.bitboard.test d = true ∧ p.filled.test d = true) := by
    unfold TileInfo.count_matches Bitboard.count_matches
    rw [Bitboard.popcount_eq_zero_iff]
    unfold Bitboard.test
    constructor
    · intro h d hd hh
      have := h d hd
      simp [hh.1, hh.2] at this
    · intro h d hd
      have := h d hd
      simp only [Nat.testBit_and]
      cases h1 : T.bitboard.bits.testBit d <;> cases h2 : p.filled.bits.testBit d <;> simp_all
  have hnb := Bitboard.any_matches_iff T.neighbors_bitboard p.filled
  rw [← hcnt]
  refine ⟨?_, ?_, ?_, ?_⟩
  · unfold Position.possible_move TileInfo.neighbour_to
    by_cases h0 : T.count_matches p.filled = 0
    · simp only [h0, ne_eq, not_true_eq_false, if_false, hnb]
      constructor
      · intro h
        exact Or.inl ⟨hzero.mp h0, h⟩
      · rintro (⟨_, h⟩ | ⟨h, _⟩)
        · exact h
        · omega
    · simp only [ne_eq, h0, not_false_eq_true, if_true, decide_eq_true_eq]
      constructor
      · intro h
        exact Or.inr ⟨by omega, h⟩
      · rintro (⟨h, _⟩ | ⟨_, h⟩)
        · exact absurd (hzero.mpr h) h0
        · exact h
  · intro h4
    unfold Position.possible_move
    simp [h4]
  · intro h5
    unfold Position.possible_move
    simp [h5]
  · intro q hq
    unfold Position.possible_move
    rw [hq]

end Box

/-! ## The registry of placements -/

namespace Box

theorem Bitboard.test_set (b : Bitboard) (pos d : Nat) :
    (b.set pos).test d = (b.test d || decide (pos = d)) := by
  simp [Bitboard.set, Bitboard.test, Nat.one_shiftLeft, Nat.testBit_two_pow]

theorem Bitboard.test_zero (d : Nat) : Bitboard.zero.test d = false := by
  simp [Bitboard.zero, Bitboard.test]

theorem Bitboard.any_set (b : Bitboard) (pos : Nat) : (b.set pos).any = true := by
  have h : (b.set pos).test pos = true := by simp [Bitboard.test_set]
  unfold Bitboard.any
  unfold Bitboard.test at h
  have : (b.set pos).bits ≠ 0 := by
    intro h0
    rw [h0] at h
    simp at h
  simpa using this

theorem fill_dots_ok (cell : Nat → Int × Int) :
    ∀ (l : List Nat) (info : TileInfo) (arr : List Nat),
      (∀ i ∈ l, valid_dot (cell i).1 (cell i).2 = true) →
      fill_dots cell l info arr =
        ({ info with bitboard := l.foldl (fun b i => b.set (cell_dot cell i)) info.bitboard },
          arr ++ l.map (cell_dot cell)) := by
  intro l
  induction l with
  | nil => intro info arr _; simp [fill_dots]
  | cons i rest ih =>
    intro info arr h
    have hi : valid_dot (cell i).1 (cell i).2 = true := h i (List.mem_cons_self _ _)
    have hr : ∀ j ∈ rest, valid_dot (cell j).1 (cell j).2 = true :=
      fun j hj => h j (List.mem_cons_of_mem _ hj)
    simp only [fill_dots, hi, Bool.not_true, Bool.false_eq_true, if_false]
    rw [ih _ _ hr]
    simp [cell_dot]

theorem fill_dots_bad (cell : Nat → Int × Int) :
    ∀ (l : List Nat) (info : TileInfo) (arr : List Nat),
      (∃ i ∈ l, valid_dot (cell i).1 (cell i).2 = false) →
      (fill_dots cell l info arr).1.valid = false := by
  intro l
  induction l with
  | nil => intro info arr h; obtain ⟨i, hi, _⟩ := h; cases hi
  | cons i rest ih =>
    intro info arr h
    by_cases hi : valid_dot (cell i).1 (cell i).2 = true
    · simp only [fill_dots, hi, Bool.not_true, Bool.false_eq_true, if_false]
      apply ih
      obtain ⟨j, hj, hv⟩ := h
      rcases List.mem_cons.mp hj with rfl | hj
      · rw [hi] at hv; cases hv
      · exact ⟨j, hj, hv⟩
    · have hi' : valid_dot (cell i).1 (cell i).2 = false := by simpa using hi
      simp [fill_dots, hi', TileInfo.clear, TileInfo.valid, Bitboard.any, Bitboard.zero]

theorem foldl_set_any (f : Nat → Nat) (l : List Nat) (b : Bitboard) (hl : l ≠ []) :
    (l.foldl (fun b i => b.set (f i)) b).any = true := by
  induction l using List.reverseRecOn with
  | nil => exact absurd rfl hl
  | append_singleton l a _ =>
    rw [List.foldl_append]
    simp [Bitboard.any_set]

theorem test_foldl_set (f : Nat → Nat) (l : List Nat) (b : Bitboard) (d : Nat) :
    (l.foldl (fun b i => b.set (f i)) b).test d = true ↔
      b.test d = true ∨ ∃ i ∈ l, f i = d := by
  induction l generalizing b with
  | nil => simp
  | cons a l ih =>
    simp only [List.foldl_cons, ih, Bitboard.test_set, Bool.or_eq_true, decide_eq_true_eq,
      List.mem_cons, exists_eq_or_imp]
    tauto

/-- A placement produced by the generators is either invalid or made of the
twelve stored dots of its two lines. -/
theorem generate_tile_info_valid (code dot : Nat) (o : Nat)
    (topCell bottomCell : Nat → Int × Int)
    (hv : (generate_tile_info code dot o topCell bottomCell).valid = true) :
    (∀ i < TILE_DOTS, valid_dot (topCell i).1 (topCell i).2 = true) ∧
    (∀ i < TILE_DOTS, valid_dot (bottomCell i).1 (bottomCell i).2 = true) ∧
    (generate_tile_info code dot o topCell bottomCell).siblings =
      (List.range TILE_DOTS).map
        (fun i => (cell_dot topCell i, cell_dot bottomCell (TILE_DOTS - i - 1))) ∧
    (∀ d, (generate_tile_info code dot o topCell bottomCell).bitboard.test d = true ↔
      ∃ i < TILE_DOTS, cell_dot topCell i = d ∨ cell_dot bottomCell i = d) ∧
    (generate_tile_info code dot o topCell bottomCell).dot = dot ∧
    (generate_tile_info code dot o topCell bottomCell).orientation = o := by
  by_cases htop : ∀ i ∈ List.range TILE_DOTS, valid_dot (topCell i).1 (topCell i).2 = true
  · by_cases hbot : ∀ i ∈ List.range TILE_DOTS,
        valid_dot (bottomCell i).1 (bottomCell i).2 = true
    · have e1 := fill_dots_ok topCell (List.range TILE_DOTS)
        { siblings := [], bitboard := Bitboard.zero, neighbors_bitboard := Bitboard.zero,
          code := code, dot := dot, orientation := o } [] htop
      have a1 : ((List.range TILE_DOTS).foldl (fun b i => b.set (cell_dot topCell i))
          Bitboard.zero).any = true := foldl_set_any _ _ _ (by decide)
      have a2 : ((List.range TILE_DOTS).foldl (fun b i => b.set (cell_dot bottomCell i))
          ((List.range TILE_DOTS).foldl (fun b i => b.set (cell_dot topCell i))
          Bitboard.zero)).any = true := foldl_set_any _ _ _ (by decide)
      have hgen : generate_tile_info code dot o topCell bottomCell =
          { siblings := fill_siblings ((List.range TILE_DOTS).map (cell_dot topCell))
              ((List.range TILE_DOTS).map (cell_dot bottomCell)),
            bitboard := (List.range TILE_DOTS).foldl (fun b i => b.set (cell_dot bottomCell i))
              ((List.range TILE_DOTS).foldl (fun b i => b.set (cell_dot topCell i))
                Bitboard.zero),
            neighbors_bitboard := generate_tile_neighbors_bitboard
              { siblings := fill_siblings ((List.range TILE_DOTS).map (cell_dot topCell))
                  ((List.range TILE_DOTS).map (cell_dot bottomCell)),
                bitboard := (List.range TILE_DOTS).foldl
                  (fun b i => b.set (cell_dot bottomCell i))
                  ((List.range TILE_DOTS).foldl (fun b i => b.set (cell_dot topCell i))
                    Bitboard.zero),
                neighbors_bitboard := Bitboard.zero, code := code, dot := dot,
                orientation := o },
            code := code, dot := dot, orientation := o } := by
        unfold generate_tile_info
        simp only [e1]
        simp only [TileInfo.valid, a1, Bool.not_true, Bool.false_eq_true, if_false]
        rw [fill_dots_ok bottomCell (List.range TILE_DOTS) _ [] hbot]
        simp only [TileInfo.valid, a2, Bool.not_true, Bool.false_eq_true, if_false,
          List.nil_append]
      refine ⟨fun i hi => htop i (List.mem_range.mpr hi),
        fun i hi => hbot i (List.mem_range.mpr hi), ?_, ?_, ?_, ?_⟩
      · rw [hgen]
        simp only [fill_siblings]
        apply List.map_congr_left
        intro i hi
        have hi6 : i < 6 := List.mem_range.mp hi
        have h5 : 6 - i - 1 < 6 := by omega
        simp [List.getD_eq_getElem?_getD, List.getElem?_map, List.getElem?_range, hi6, h5]
      · intro d
        rw [hgen]
        simp only [test_foldl_set, Bitboard.test_zero, List.mem_range]
        constructor
        · rintro ((h | ⟨i, hi, h⟩) | ⟨i, hi, h⟩)
          · cases h
          · exact ⟨i, hi, Or.inl h⟩
          · exact ⟨i, hi, Or.inr h⟩
        · rintro ⟨i, hi, h | h⟩
          · exact Or.inl (Or.inr ⟨i, hi, h⟩)
          · exact Or.inr ⟨i, hi, h⟩
      · rw [hgen]
      · rw [hgen]
    · exfalso
      have e1 := fill_dots_ok topCell (List.range TILE_DOTS)
        { siblings := [], bitboard := Bitboard.zero, neighbors_bitboard := Bitboard.zero,
          code := code, dot := dot, orientation := o } [] htop
      have a1 : ((List.range TILE_DOTS).foldl (fun b i => b.set (cell_dot topCell i))
          Bitboard.zero).any = true := foldl_set_any _ _ _ (by decide)
      have hb : ∃ i ∈ List.range TILE_DOTS,
          valid_dot (bottomCell i).1 (bottomCell i).2 = false := by
        by_contra hcon
        apply hbot
        intro i hi
        by_contra hne
        exact hcon ⟨i, hi, by simpa using hne⟩
      have e2 := fill_dots_bad bottomCell (List.range TILE_DOTS)
        { siblings := [],
          bitboard := (List.range TILE_DOTS).foldl (fun b i => b.set (cell_dot topCell i))
            Bitboard.zero,
          neighbors_bitboard := Bitboard.zero, code := code, dot := dot, orientation := o }
        [] hb
      unfold generate_tile_info at hv
      simp only [e1] at hv
      simp only [TileInfo.valid, a1, Bool.not_true, Bool.false_eq_true, if_false] at hv
      simp only [TileInfo.valid] at e2
      simp only [e2, Bool.not_false, if_true] at hv
      cases hv
  · exfalso
    have hb : ∃ i ∈ List.range TILE_DOTS, valid_dot (topCell i).1 (topCell i).2 = false := by
      by_contra hcon
      apply htop
      intro i hi
      by_contra hne
      exact hcon ⟨i, hi, by simpa using hne⟩
    have e1 := fill_dots_bad topCell (List.range TILE_DOTS)
      { siblings := [], bitboard := Bitboard.zero, neighbors_bitboard := Bitboard.zero,
        code := code, dot := dot, orientation := o } [] hb
    unfold generate_tile_info at hv
    simp only [TileInfo.valid] at e1
    simp only [TileInfo.valid, e1, Bool.not_false, if_true] at hv
    cases hv

theorem range_tile_dots : List.range TILE_DOTS = [0, 1, 2, 3, 4, 5] := by decide

theorem cols_cast : ((COLS : Nat) : Int) = 20 := rfl

/-- Shape of a two-line placement from the arithmetic of its dots. -/
theorem wf_of_lines (t : TileInfo) (f g : Nat → Nat)
    (hs : t.siblings = (List.range TILE_DOTS).map (fun i => (f i, g (TILE_DOTS - i - 1))))
    (hb : ∀ d, t.bitboard.test d = true ↔ ∃ i < TILE_DOTS, f i = d ∨ g i = d)
    (hnd : [f 0, g 5, f 1, g 4, f 2, g 3, f 3, g 2, f 4, g 1, f 5, g 0].Nodup)
    (hlt : ∀ d ∈ [f 0, g 5, f 1, g 4, f 2, g 3, f 3, g 2, f 4, g 1, f 5, g 0], d < TOTAL_DOTS) :
    t.WF := by
  have hd : t.dots = [f 0, g 5, f 1, g 4, f 2, g 3, f 3, g 2, f 4, g 1, f 5, g 0] := by
    simp [TileInfo.dots, hs, range_tile_dots, TILE_DOTS]
  refine ⟨by simp [hs], by rw [hd]; exact hnd, by rw [hd]; exact hlt, ?_⟩
  simp only [TILE_DOTS] at hb
  intro d
  rw [hb, hd]
  constructor
  · rintro ⟨i, hi, h⟩
    have : i = 0 ∨ i = 1 ∨ i = 2 ∨ i = 3 ∨ i = 4 ∨ i = 5 := by omega
    rcases this with rfl | rfl | rfl | rfl | rfl | rfl <;> rcases h with h | h <;> simp [h.symm]
  · intro h
    simp only [List.mem_cons, List.mem_singleton, List.not_mem_nil, or_false] at h
    rcases h with h | h | h | h | h | h | h | h | h | h | h | h
    · exact ⟨0, by decide, Or.inl h.symm⟩
    · exact ⟨5, by decide, Or.inr h.symm⟩
    · exact ⟨1, by decide, Or.inl h.symm⟩
    · exact ⟨4, by decide, Or.inr h.symm⟩
    · exact ⟨2, by decide, Or.inl h.symm⟩
    · exact ⟨3, by decide, Or.inr h.symm⟩
    · exact ⟨3, by decide, Or.inl h.symm⟩
    · exact ⟨2, by decide, Or.inr h.symm⟩
    · exact ⟨4, by decide, Or.inl h.symm⟩
    · exact ⟨1, by decide, Or.inr h.symm⟩
    · exact ⟨5, by decide, Or.inl h.symm⟩
    · exact ⟨0, by decide, Or.inr h.symm⟩

theorem vertical_wf (dot : Nat)
    (hv : (generate_tile_info (2 * (get_dot ((dot : Int) / COLS) ((dot : Int) % COLS)).toNat + 1)
      (get_dot ((dot : Int) / COLS) ((dot : Int) % COLS)).toNat VERTICAL
      (fun i => ((dot : Int) / COLS + i, (dot : Int) % COLS + 1))
      (fun i => ((dot : Int) / COLS + i, (dot : Int) % COLS))).valid = true) :
    (generate_tile_info (2 * (get_dot ((dot : Int) / COLS) ((dot : Int) % COLS)).toNat + 1)
      (get_dot ((dot : Int) / COLS) ((dot : Int) % COLS)).toNat VERTICAL
      (fun i => ((dot : Int) / COLS + i, (dot : Int) % COLS + 1))
      (fun i => ((dot : Int) / COLS + i, (dot : Int) % COLS))).WF := by
  obtain ⟨ht, -, hs, hb, -, -⟩ := generate_tile_info_valid _ _ _ _ _ hv
  have h5 := ht 5 (by decide)
  simp only [valid_dot, cols_cast, decide_eq_true_eq, Nat.cast_ofNat] at h5
  have e1 : ∀ i, cell_dot (fun i : Nat => ((dot : Int) / COLS + i, (dot : Int) % COLS + 1)) i
      = (dot / 20 + i) * 20 + dot % 20 + 1 := by
    intro i
    simp only [cell_dot, get_dot, cols_cast]
    omega
  have e2 : ∀ i, cell_dot (fun i : Nat => ((dot : Int) / COLS + i, (dot : Int) % COLS)) i
      = (dot / 20 + i) * 20 + dot % 20 := by
    intro i
    simp only [cell_dot, get_dot, cols_cast]
    omega
  have ha : dot / 20 + 5 < 16 := by omega
  have hc : dot % 20 + 1 < 20 := by omega
  clear h5 ht hv
  apply wf_of_lines _ _ _ hs hb
  · simp only [e1, e2, List.nodup_cons, List.mem_cons, List.mem_singleton,
      List.not_mem_nil, List.nodup_nil, or_false, not_or]
    clear hs hb e1 e2
    repeat' constructor
    all_goals first | omega | simp
  · simp only [e1, e2, List.mem_cons, List.mem_singleton,
      List.not_mem_nil, or_false, TOTAL_DOTS, ROWS, COLS]
    clear hs hb e1 e2
    intro d hd
    omega


theorem horizontal_wf (dot : Nat)
    (hv : (generate_tile_info (2 * (get_dot ((dot : Int) / COLS) ((dot : Int) % COLS)).toNat)
      (get_dot ((dot : Int) / COLS) ((dot : Int) % COLS)).toNat HORIZONTAL
      (fun i => ((dot : Int) / COLS, (dot : Int) % COLS + i))
      (fun i => ((dot : Int) / COLS + 1, (dot : Int) % COLS + i))).valid = true) :
    (generate_tile_info (2 * (get_dot ((dot : Int) / COLS) ((dot : Int) % COLS)).toNat)
      (get_dot ((dot : Int) / COLS) ((dot : Int) % COLS)).toNat HORIZONTAL
      (fun i => ((dot : Int) / COLS, (dot : Int) % COLS + i))
      (fun i => ((dot : Int) / COLS + 1, (dot : Int) % COLS + i))).WF := by
  obtain ⟨-, ht, hs, hb, -, -⟩ := generate_tile_info_valid _ _ _ _ _ hv
  have h5 := ht 5 (by decide)
  simp only [valid_dot, cols_cast, decide_eq_true_eq, Nat.cast_ofNat] at h5
  have e1 : ∀ i, cell_dot (fun i : Nat => ((dot : Int) / COLS, (dot : Int) % COLS + i)) i
      = dot / 20 * 20 + dot % 20 + i := by
    intro i
    simp only [cell_dot, get_dot, cols_cast]
    omega
  have e2 : ∀ i, cell_dot (fun i : Nat => ((dot : Int) / COLS + 1, (dot : Int) % COLS + i)) i
      = (dot / 20 + 1) * 20 + dot % 20 + i := by
    intro i
    simp only [cell_dot, get_dot, cols_cast]
    omega
  have ha : dot / 20 + 1 < 16 := by omega
  have hc : dot % 20 + 5 < 20 := by omega
  clear h5 ht hv
  apply wf_of_lines _ _ _ hs hb
  · simp only [e1, e2, List.nodup_cons, List.mem_cons, List.mem_singleton,
      List.not_mem_nil, List.nodup_nil, or_false, not_or]
    clear hs hb e1 e2
    repeat' constructor
    all_goals first | omega | simp
  · simp only [e1, e2, List.mem_cons, List.mem_singleton,
      List.not_mem_nil, or_false, TOTAL_DOTS, ROWS, COLS]
    clear hs hb e1 e2
    intro d hd
    omega


/-- Every placement of the registry is a renumbered valid placement of one of
the two generators. -/
theorem mem_registry (T : TileInfo) (hT : T ∈ ALL_TILES_INFO) :
    ∃ t k, T = { t with code := k } ∧ t.valid = true ∧
      (t ∈ generate_vertical_tiles_info ∨ t ∈ generate_horizontal_tiles_info) := by
  unfold ALL_TILES_INFO at hT
  obtain ⟨⟨k, t⟩, hkt, rfl⟩ := List.mem_map.mp hT
  have ht := List.snd_mem_of_mem_enum hkt
  simp only [List.mem_append, List.mem_filter] at ht
  refine ⟨t, k, rfl, ?_, ?_⟩
  · rcases ht with h | h <;> exact h.2
  · rcases ht with h | h
    · exact Or.inl h.1
    · exact Or.inr h.1

/-- Every placement of the registry has six sibling pairs made of twelve
distinct dots of the board, the bits of its bitboard. -/
theorem registry_wf (T : TileInfo) (hT : T ∈ ALL_TILES_INFO) : T.WF := by
  obtain ⟨t, k, rfl, hv, ht⟩ := mem_registry T hT
  have key : t.WF := by
    rcases ht with h | h
    · unfold generate_vertical_tiles_info at h
      obtain ⟨dot, -, rfl⟩ := List.mem_map.mp h
      exact vertical_wf dot hv
    · unfold generate_horizontal_tiles_info at h
      obtain ⟨dot, -, rfl⟩ := List.mem_map.mp h
      exact horizontal_wf dot hv
  exact ⟨key.len, key.nodup, key.bound, key.covered⟩

end Box

/-! ## The representation invariant and its preservation -/

namespace Box

theorem Column.testBit_set (c : Column) (r i : Nat) :
    (c.set r).value.testBit i = (decide (i < 16) && (c.value.testBit i || decide (r = i))) := by
  unfold Column.set
  rw [Nat.testBit_mod_two_pow, Nat.testBit_or, Nat.one_shiftLeft, Nat.testBit_two_pow]

theorem Column.testBit_unset (c : Column) (r i : Nat) (hr : r < 32) :
    (c.unset r).value.testBit i =
      (decide (i < 16) && (c.value.testBit i && !decide (r = i))) := by
  have h2 : (2 : Nat) ^ r < 2 ^ 32 := Nat.pow_lt_pow_right (by decide) hr
  have e : 2 ^ 32 - 1 - 1 <<< r = 2 ^ 32 - (2 ^ r + 1) := by
    rw [Nat.one_shiftLeft]; omega
  unfold Column.unset
  rw [e, Nat.testBit_mod_two_pow, Nat.testBit_and, Nat.testBit_two_pow_sub_succ h2,
    Nat.testBit_two_pow]
  by_cases h16 : i < 16
  · have h32 : i < 32 := by omega
    simp [h16, h32]
  · simp [h16]

theorem Column.test_iff (c : Column) (r : Nat) : c.test r = true ↔ c.value.testBit r = true := by
  unfold Column.test
  rw [Nat.one_shiftLeft]
  constructor
  · intro h
    have hne : c.value &&& 2 ^ r ≠ 0 := by simpa using h
    obtain ⟨i, hi⟩ := Nat.ne_zero_implies_bit_true hne
    rw [Nat.testBit_and, Nat.testBit_two_pow] at hi
    simp only [Bool.and_eq_true, decide_eq_true_eq] at hi
    rw [hi.2]; exact hi.1
  · intro h
    have : (c.value &&& 2 ^ r).testBit r = true := by
      rw [Nat.testBit_and, Nat.testBit_two_pow]; simp [h]
    have hne : c.value &&& 2 ^ r ≠ 0 := by
      intro h0; rw [h0] at this; simp at this
    simpa using hne

theorem Column.test2_iff (c : Column) (r0 r1 : Nat) :
    c.test2 r0 r1 = true ↔ c.value.testBit r0 = true ∧ c.value.testBit r1 = true := by
  have h0 := Column.test_iff c r0
  have h1 := Column.test_iff c r1
  unfold Column.test at h0 h1
  unfold Column.test2
  rw [Bool.and_eq_true, h0, h1]

theorem foldl_xor_acc (f : Nat → Nat) (l : List Nat) (a : Nat) :
    l.foldl (fun h d => h ^^^ f d) a = a ^^^ l.foldl (fun h d => h ^^^ f d) 0 := by
  induction l generalizing a with
  | nil => simp
  | cons x l ih =>
    simp only [List.foldl_cons, Nat.zero_xor]
    rw [ih (a ^^^ f x), ih (f x), Nat.xor_assoc]

theorem foldl_xor_update (f g : Nat → Nat) (d : Nat) (hfg : ∀ x, x ≠ d → g x = f x) :
    ∀ l : List Nat, l.Nodup →
      l.foldl (fun h x => h ^^^ g x) 0 =
        l.foldl (fun h x => h ^^^ f x) 0 ^^^ (if d ∈ l then f d ^^^ g d else 0) := by
  intro l
  induction l with
  | nil => intro _; simp
  | cons x l ih =>
    intro hnd
    have hx : x ∉ l := (List.nodup_cons.mp hnd).1
    have hl := ih (List.nodup_cons.mp hnd).2
    simp only [List.foldl_cons, Nat.zero_xor]
    rw [foldl_xor_acc g l (g x), foldl_xor_acc f l (f x), hl]
    by_cases hxd : x = d
    · subst hxd
      simp only [hx, if_false, List.mem_cons, true_or, if_true, Nat.xor_zero]
      have e : f x ^^^ List.foldl (fun h x => h ^^^ f x) 0 l ^^^ (f x ^^^ g x) =
          f x ^^^ (f x ^^^ (g x ^^^ List.foldl (fun h x => h ^^^ f x) 0 l)) := by ac_rfl
      rw [e, Nat.xor_cancel_left]
    · have hdx : d ≠ x := fun h => hxd h.symm
      rw [hfg x hxd]
      simp only [List.mem_cons, hdx, false_or]
      rw [Nat.xor_assoc]

theorem dots_hash_eq (z : Zobrist) (colors : Nat → Nat) (l : List Nat) :
    dots_hash z colors l = l.foldl (fun h d => h ^^^ dot_key z colors d) 0 := by
  unfold dots_hash
  congr 1
  funext h d
  unfold dot_key
  split <;> simp

/-- Repainting one dot changes the xor of the dot keys by the old and the new
key of that dot. -/
theorem dots_hash_paint (z : Zobrist) (colors : Nat → Nat) (dot : Nat) (color : Nat)
    (hd : dot < TOTAL_DOTS) :
    dots_hash z (fun d => if d = dot then color else colors d) ALL_DOTS =
      dots_hash z colors ALL_DOTS ^^^
        (dot_key z colors dot ^^^ dot_key z (fun d => if d = dot then color else colors d) dot) := by
  rw [dots_hash_eq, dots_hash_eq]
  have h := foldl_xor_update (dot_key z colors)
    (dot_key z (fun d => if d = dot then color else colors d)) dot
    (by intro x hx; simp [dot_key, hx]) ALL_DOTS (List.nodup_range _)
  have hm : dot ∈ ALL_DOTS := List.mem_range.mpr hd
  rw [h, if_pos hm]

theorem dot_split (dot r col : Nat) (hc : col < COLS) :
    r * COLS + col = dot ↔ (r = dot / COLS ∧ col = dot % COLS) := by
  simp only [ROWS, COLS] at *
  omega

theorem columns_paint (colors : Nat → Nat) (columns : Nat → Nat → Column) (dot : Nat)
    (color : Nat)
    (hinv : ∀ c col r, c < MAX_COLORS → col < COLS →
      ((columns c col).value.testBit r = true ↔ r < ROWS ∧ colors (r * COLS + col) = c + 49))
    (hd : dot < TOTAL_DOTS) (hc : is_color color) :
    ∀ c col r, c < MAX_COLORS → col < COLS →
      ((Position.modify_column
          (if colors dot ≠ WHITE then
            Position.modify_column columns (color_index (colors dot)).toNat (dot % COLS)
              (fun c => c.unset (dot / COLS))
           else columns)
          (color_index color).toNat (dot % COLS) (fun c => c.set (dot / COLS)) c col).value.testBit r
          = true ↔
        r < ROWS ∧ (if r * COLS + col = dot then color else colors (r * COLS + col)) = c + 49) := by
  intro c col r hc6 hcol
  have inv := hinv c col r hc6 hcol
  have hsplit := dot_split dot r col hcol
  have eci : (color_index color).toNat = color - 49 := by unfold color_index; omega
  have eoi : (color_index (colors dot)).toNat = colors dot - 49 := by unfold color_index; omega
  rw [eci, eoi]
  unfold is_color at hc
  simp only [WHITE, MAX_COLORS, ROWS, COLS, TOTAL_DOTS] at *
  have hrow : dot / 20 < 32 := by omega
  have hrow16 : dot / 20 < 16 := by omega
  by_cases hcell : r * 20 + col = dot
  · obtain ⟨hr, hk⟩ := hsplit.mp hcell
    subst hr hk
    have hcol0 : colors (dot / 20 * 20 + dot % 20) = colors dot := by rw [hcell]
    rw [hcol0] at inv
    simp only [hcell, if_true, Position.modify_column, and_true]
    by_cases hci : c = color - 49
    · simp only [hci, if_true, Column.testBit_set, hrow16, decide_True, Bool.true_and,
        Bool.or_true, true_and, true_iff]
      omega
    · simp only [hci, if_false]
      by_cases h1 : colors dot = 48
      · simp only [h1, ne_eq, not_true_eq_false, if_false]
        rw [inv]
        omega
      · simp only [h1, ne_eq, not_false_eq_true, if_true]
        by_cases h2 : c = colors dot - 49
        · simp only [h2, Position.modify_column, and_self, if_true,
            Column.testBit_unset _ _ _ hrow, decide_True, Bool.not_true,
            Bool.and_false, Bool.false_eq_true, false_iff, not_and]
          omega
        · simp only [h2, Position.modify_column, false_and, if_false]
          rw [inv]
          omega
  · simp only [hcell, if_false]
    rw [← inv]
    have hne : ¬ (r = dot / 20 ∧ col = dot % 20) := fun h => hcell (hsplit.mpr h)
    have hr16 : (columns c col).value.testBit r = true → r < 16 := fun h => (inv.mp h).1
    have hset : ∀ k : Column, r ≠ dot / 20 → (k.value.testBit r = true → r < 16) →
        ((k.set (dot / 20)).value.testBit r = true ↔ k.value.testBit r = true) := by
      intro k hr hk
      rw [Column.testBit_set]
      have : ¬ dot / 20 = r := fun h => hr h.symm
      simp only [this, decide_False, Bool.or_false, Bool.and_eq_true, decide_eq_true_eq]
      exact ⟨fun h => h.2, fun h => ⟨hk h, h⟩⟩
    have hunset : ∀ k : Column, r ≠ dot / 20 → (k.value.testBit r = true → r < 16) →
        ((k.unset (dot / 20)).value.testBit r = true ↔ k.value.testBit r = true) := by
      intro k hr hk
      rw [Column.testBit_unset _ _ _ hrow]
      have : ¬ dot / 20 = r := fun h => hr h.symm
      simp only [this, decide_False, Bool.not_false, Bool.and_true, Bool.and_eq_true,
        decide_eq_true_eq]
      exact ⟨fun h => h.2, fun h => ⟨hk h, h⟩⟩
    by_cases hk0 : col = dot % 20
    · have hr : r ≠ dot / 20 := fun h => hne ⟨h, hk0⟩
      subst hk0
      simp only [Position.modify_column, and_true]
      by_cases h1 : colors dot = 48
      · simp only [h1, ne_eq, not_true_eq_false, if_false]
        split_ifs
        · exact hset _ hr hr16
        · rfl
      · simp only [h1, ne_eq, not_false_eq_true, if_true, Position.modify_column, and_true]
        split_ifs
        · rw [hset _ hr (fun h => hr16 ((hunset _ hr hr16).mp h))]
          exact hunset _ hr hr16
        · exact hset _ hr hr16
        · exact hunset _ hr hr16
        · rfl
    · simp only [Position.modify_column, hk0, and_false, if_false]
      split_ifs
      · simp only [Position.modify_column, hk0, and_false, if_false]
      · rfl

theorem update_color_spec (z : Zobrist) (p : Position) (dot : Nat) (color : Nat)
    (hp : p.Inv z) (hd : dot < TOTAL_DOTS) (hc : is_color color) :
    ∃ q, p.update_color z dot color = some q ∧ q.Inv z ∧
      (∀ x, q.colors x = if x = dot then color else p.colors x) ∧
      (∀ x, q.filled.test x = (p.filled.test x || decide (dot = x))) ∧
      q.tile = p.tile ∧ q.tile_index = p.tile_index ∧ q.turn = p.turn ∧
      q.player = p.player ∧ q.candidates = p.candidates := by
  have hcw : color ≠ WHITE := by unfold is_color at hc; simp only [WHITE]; omega
  by_cases hold : p.colors dot = color
  · refine ⟨p, ?_, hp, ?_, ?_, rfl, rfl, rfl, rfl, rfl⟩
    · unfold Position.update_color
      simp [hold]
    · intro x
      by_cases hx : x = dot
      · simp [hx, hold]
      · simp [hx]
    · intro x
      by_cases hx : dot = x
      · subst hx
        have := (hp.filled_iff dot).mpr (by rw [hold]; exact hcw)
        simp [this]
      · simp [hx]
  · have hg2 : 0 ≤ color_index color ∧ color_index color < MAX_COLORS := by
      unfold is_color at hc; unfold color_index; simp only [MAX_COLORS]; omega
    have hg1 : ¬ (p.colors dot ≠ WHITE ∧
        ¬ (0 ≤ color_index (p.colors dot) ∧ color_index (p.colors dot) < MAX_COLORS)) := by
      rintro ⟨h1, h2⟩
      rcases hp.colors_ok dot with h | h
      · exact h1 h
      · apply h2
        unfold is_color at h; unfold color_index; simp only [MAX_COLORS]; omega
    have hne : p.colors dot ≠ color := hold
    unfold Position.update_color
    simp only [hne, ne_eq, not_false_eq_true, if_true]
    rw [if_neg hg1, if_neg (not_not.mpr hg2)]
    refine ⟨_, rfl, ?_, fun x => rfl, ?_, rfl, rfl, rfl, rfl, rfl⟩
    · constructor
      · intro d
        show (if d = dot then color else p.colors d) = WHITE ∨
          is_color (if d = dot then color else p.colors d)
        split
        · exact Or.inr hc
        · exact hp.colors_ok d
      · intro d hdd
        show (if d = dot then color else p.colors d) = WHITE
        have : d ≠ dot := by omega
        simp only [this, if_false]
        exact hp.white_outside d hdd
      · intro d
        show (p.filled.set dot).test d = true ↔ (if d = dot then color else p.colors d) ≠ WHITE
        rw [Bitboard.test_set]
        by_cases hx : d = dot
        · subst hx; simp [hcw]
        · have : ¬ dot = d := fun h => hx h.symm
          simp only [hx, this, if_false, decide_False, Bool.or_false]
          exact hp.filled_iff d
      · exact columns_paint p.colors p.columns dot color hp.columns_iff hd hc
      · show _ ^^^ _ = dots_hash z (fun d => if d = dot then color else p.colors d) ALL_DOTS ^^^ _
        rw [dots_hash_paint z p.colors dot color hd]
        have hk2 : dot_key z (fun d => if d = dot then color else p.colors d) dot =
            z.colors dot (color_index color).toNat := by
          simp [dot_key, hcw]
        rw [hk2]
        have hk1 : dot_key z p.colors dot =
            if p.colors dot ≠ WHITE then z.colors dot (color_index (p.colors dot)).toNat
            else 0 := rfl
        rw [hk1, hp.hash]
        show (if p.colors dot ≠ WHITE then _ else _) ^^^ _ = _
        split <;> simp only [Nat.xor_zero, Nat.zero_xor] <;> ac_rfl
      · exact hp.tile_ok
      · exact hp.player_ok
    · intro x
      rw [Bitboard.test_set]

end Box

/-! ## Effect of the moves -/

namespace Box

set_option maxRecDepth 100000 in
theorem tiles_table_ok :
    (decide (TILES_PERMUTATIONS.length = TILES_PERMUTATIONS_COUNT) &&
      TILES_PERMUTATIONS.all (fun t => decide (t.length = 6) &&
        t.all (fun c => decide (49 ≤ c) && decide (c ≤ 54)))) = true := by
  decide!

theorem tiles_length : TILES_PERMUTATIONS.length = TILES_PERMUTATIONS_COUNT := by
  have h := tiles_table_ok
  rw [Bool.and_eq_true] at h
  exact of_decide_eq_true h.1

theorem tiles_ok (t : List Nat) (ht : t ∈ TILES_PERMUTATIONS) :
    t.length = 6 ∧ ∀ c ∈ t, is_color c := by
  have h := tiles_table_ok
  rw [Bool.and_eq_true, List.all_eq_true] at h
  have h2 := h.2 t ht
  rw [Bool.and_eq_true, List.all_eq_true] at h2
  refine ⟨of_decide_eq_true h2.1, fun c hc => ?_⟩
  have h3 := h2.2 c hc
  rw [Bool.and_eq_true] at h3
  exact ⟨of_decide_eq_true h3.1, of_decide_eq_true h3.2⟩

theorem pair_dots_mem_dots (T : TileInfo) (i x : Nat) (hx : x ∈ T.pair_dots i) : x ∈ T.dots := by
  unfold TileInfo.pair_dots at hx
  unfold TileInfo.dots
  cases hs : T.siblings[i]? with
  | none => rw [hs] at hx; cases hx
  | some s =>
    rw [hs] at hx
    obtain ⟨d1, d2⟩ := s
    rw [List.mem_flatMap]
    exact ⟨(d1, d2), List.getElem?_mem hs, hx⟩

theorem mem_dots_iff (T : TileInfo) (x : Nat) :
    x ∈ T.dots ↔ ∃ i < T.siblings.length, x ∈ T.pair_dots i := by
  constructor
  · intro h
    unfold TileInfo.dots at h
    rw [List.mem_flatMap] at h
    obtain ⟨s, hs, hx⟩ := h
    obtain ⟨i, hi, rfl⟩ := List.getElem_of_mem hs
    refine ⟨i, hi, ?_⟩
    unfold TileInfo.pair_dots
    rw [List.getElem?_eq_getElem hi]
    exact hx
  · rintro ⟨i, _, hx⟩
    exact pair_dots_mem_dots T i x hx

theorem pair_dots_disjoint (T : TileInfo) (hT : T.dots.Nodup) (i j x : Nat) (hij : i ≠ j)
    (hi : x ∈ T.pair_dots i) : x ∉ T.pair_dots j := by
  intro hj
  unfold TileInfo.dots at hT
  have hpw := (List.nodup_flatMap.mp hT).2
  rw [List.pairwise_iff_getElem] at hpw
  unfold TileInfo.pair_dots at hi hj
  cases hsi : T.siblings[i]? with
  | none => rw [hsi] at hi; cases hi
  | some si =>
    cases hsj : T.siblings[j]? with
    | none => rw [hsj] at hj; cases hj
    | some sj =>
      rw [hsi] at hi
      rw [hsj] at hj
      obtain ⟨hil, hie⟩ := List.getElem?_eq_some_iff.mp hsi
      obtain ⟨hjl, hje⟩ := List.getElem?_eq_some_iff.mp hsj
      rcases Nat.lt_or_gt_of_ne hij with h | h
      · have := hpw i j hil hjl h
        rw [hie, hje] at this
        exact this hi hj
      · have := hpw j i hjl hil h
        rw [hie, hje] at this
        exact this hj hi

theorem process_siblings_spec (z : Zobrist) (p : Position) (T : TileInfo) (i : Nat)
    (t : List Nat) (hp : p.Inv z) (hT : T.WF) (hi : i < TILE_DOTS) (htile : p.tile = some t)
    (ht : t.length = 6 ∧ ∀ c ∈ t, is_color c) :
    ∃ q c, t[i]? = some c ∧ p.process_siblings z T i = some q ∧ q.Inv z ∧
      (∀ x, q.colors x = if x ∈ T.pair_dots i then c else p.colors x) ∧
      (∀ x, q.filled.test x = true ↔ p.filled.test x = true ∨ x ∈ T.pair_dots i) ∧
      same_frame p q := by
  have hil : i < T.siblings.length := by rw [hT.len]; exact hi
  have hit : i < t.length := by rw [ht.1]; exact hi
  have hs : T.siblings[i]? = some T.siblings[i] := List.getElem?_eq_getElem hil
  have hc : t[i]? = some t[i] := List.getElem?_eq_getElem hit
  have hcol : is_color t[i] := ht.2 _ (List.getElem_mem _)
  obtain ⟨d1, d2, hsd⟩ : ∃ d1 d2, T.siblings[i] = (d1, d2) := ⟨_, _, rfl⟩
  rw [hsd] at hs
  have hpd : T.pair_dots i = [d1, d2] := by unfold TileInfo.pair_dots; rw [hs]
  have hd1 : d1 < TOTAL_DOTS :=
    hT.bound d1 (pair_dots_mem_dots T i d1 (by rw [hpd]; simp))
  have hd2 : d2 < TOTAL_DOTS :=
    hT.bound d2 (pair_dots_mem_dots T i d2 (by rw [hpd]; simp))
  obtain ⟨q1, e1, inv1, c1, f1, a1, a2, a3, a4, a5⟩ := update_color_spec z p d1 t[i] hp hd1 hcol
  obtain ⟨q2, e2, inv2, c2, f2, b1, b2, b3, b4, b5⟩ := update_color_spec z q1 d2 t[i] inv1 hd2 hcol
  refine ⟨q2, t[i], hc, ?_, inv2, ?_, ?_, ?_⟩
  · unfold Position.process_siblings
    rw [hs, htile]
    simp only [hc, e1, Option.bind, e2]
  · intro x
    rw [c2, c1, hpd]
    by_cases h2 : x = d2
    · simp [h2]
    · by_cases h1 : x = d1
      · simp [h1]
      · simp [h1, h2]
  · intro x
    rw [f2, f1, hpd]
    simp only [Bool.or_eq_true, decide_eq_true_eq, List.mem_cons, List.mem_singleton,
      List.not_mem_nil, or_false]
    constructor
    · rintro ((h | h) | h)
      · exact Or.inl h
      · exact Or.inr (Or.inl h.symm)
      · exact Or.inr (Or.inr h.symm)
    · rintro (h | h | h)
      · exact Or.inl (Or.inl h)
      · exact Or.inl (Or.inr h.symm)
      · exact Or.inr h.symm
  · exact ⟨by rw [b1, a1], by rw [b2, a2], by rw [b3, a3], by rw [b4, a4], by rw [b5, a5]⟩

theorem process_list_spec (z : Zobrist) (T : TileInfo) (t : List Nat) (hT : T.WF)
    (ht : t.length = 6 ∧ ∀ c ∈ t, is_color c) :
    ∀ (l : List Nat) (p : Position), l.Nodup → (∀ i ∈ l, i < TILE_DOTS) → p.Inv z →
      p.tile = some t →
      ∃ q, l.foldlM (fun q i => Position.process_siblings z T i q) p = some q ∧ q.Inv z ∧
        (∀ x, (∀ i ∈ l, x ∉ T.pair_dots i) → q.colors x = p.colors x) ∧
        (∀ i ∈ l, ∀ x ∈ T.pair_dots i, t[i]? = some (q.colors x)) ∧
        (∀ x, q.filled.test x = true ↔ p.filled.test x = true ∨ ∃ i ∈ l, x ∈ T.pair_dots i) ∧
        same_frame p q := by
  intro l
  induction l with
  | nil =>
    intro p _ _ hp _
    exact ⟨p, rfl, hp, fun _ _ => rfl, fun i hi => absurd hi (List.not_mem_nil _),
      fun x => by simp, rfl, rfl, rfl, rfl, rfl⟩
  | cons a rest ih =>
    intro p hnd hlt hp htile
    have ha : a ∉ rest := (List.nodup_cons.mp hnd).1
    obtain ⟨q1, c, hc, e1, inv1, c1, f1, fr1⟩ :=
      process_siblings_spec z p T a t hp hT (hlt a (List.mem_cons_self _ _)) htile ht
    have htile1 : q1.tile = some t := by rw [fr1.1, htile]
    obtain ⟨q, e, inv, k1, k2, k3, fr⟩ := ih q1 (List.nodup_cons.mp hnd).2
      (fun i hi => hlt i (List.mem_cons_of_mem _ hi)) inv1 htile1
    refine ⟨q, ?_, inv, ?_, ?_, ?_, ?_⟩
    · rw [List.foldlM_cons, e1]
      exact e
    · intro x hx
      rw [k1 x (fun i hi => hx i (List.mem_cons_of_mem _ hi)), c1]
      simp [hx a (List.mem_cons_self _ _)]
    · intro i hi x hxi
      rcases List.mem_cons.mp hi with rfl | hir
      · have hx : ∀ j ∈ rest, x ∉ T.pair_dots j := by
          intro j hj
          exact pair_dots_disjoint T hT.nodup i j x (fun h => ha (h ▸ hj)) hxi
        rw [k1 x hx, c1]
        simp [hxi, hc]
      · exact k2 i hir x hxi
    · intro x
      rw [k3, f1]
      simp only [List.mem_cons, exists_eq_or_imp]
      tauto
    · obtain ⟨x1, x2, x3, x4, x5⟩ := fr1
      obtain ⟨y1, y2, y3, y4, y5⟩ := fr
      exact ⟨by rw [y1, x1], by rw [y2, x2], by rw [y3, x3], by rw [y4, x4], by rw [y5, x5]⟩

/-- Effect of the loop of `do_move` and of the constructor on a position that
satisfies the invariant and holds a tile of the table. -/
theorem process_all_siblings_spec (z : Zobrist) (T : TileInfo) (t : List Nat) (p : Position)
    (hT : T.WF) (ht : t.length = 6 ∧ ∀ c ∈ t, is_color c) (hp : p.Inv z)
    (htile : p.tile = some t) :
    ∃ q, p.process_all_siblings z T = some q ∧ q.Inv z ∧
      (∀ x, x ∉ T.dots → q.colors x = p.colors x) ∧
      (∀ i < TILE_DOTS, ∀ x ∈ T.pair_dots i, t[i]? = some (q.colors x)) ∧
      (∀ x, q.filled.test x = true ↔ p.filled.test x = true ∨ x ∈ T.dots) ∧
      same_frame p q := by
  obtain ⟨q, e, inv, k1, k2, k3, fr⟩ := process_list_spec z T t hT ht (List.range TILE_DOTS) p
    (List.nodup_range _) (fun i hi => List.mem_range.mp hi) hp htile
  refine ⟨q, e, inv, ?_, ?_, ?_, fr⟩
  · intro x hx
    apply k1
    intro i _ hxi
    exact hx (pair_dots_mem_dots T i x hxi)
  · intro i hi
    exact k2 i (List.mem_range.mpr hi)
  · intro x
    rw [k3, mem_dots_iff, hT.len]
    simp only [List.mem_range]

theorem fill_dots_siblings (cell : Nat → Int × Int) :
    ∀ (l : List Nat) (info : TileInfo) (arr : List Nat),
      (fill_dots cell l info arr).1.siblings = info.siblings := by
  intro l
  induction l with
  | nil => intro info arr; rfl
  | cons i rest ih =>
    intro info arr
    unfold fill_dots
    split
    · rfl
    · rw [ih]

/-- An entry of the generators is either a well-formed placement or holds no
sibling pair at all. -/
theorem generate_tile_info_cases (code dot : Nat) (o : Nat)
    (topCell bottomCell : Nat → Int × Int) :
    (generate_tile_info code dot o topCell bottomCell).valid = true ∨
    (generate_tile_info code dot o topCell bottomCell).siblings = [] := by
  by_cases hv : (generate_tile_info code dot o topCell bottomCell).valid = true
  · exact Or.inl hv
  · right
    unfold generate_tile_info at hv ⊢
    simp only at hv ⊢
    split
    · exact fill_dots_siblings _ _ _ _
    · split
      · rw [fill_dots_siblings]
        exact fill_dots_siblings _ _ _ _
      · rename_i h1 h2
        exfalso
        apply hv
        rw [if_neg h1, if_neg h2]
        simpa [TileInfo.valid] using h2

theorem generated_wf_or_empty (t : TileInfo)
    (ht : t ∈ generate_vertical_tiles_info ∨ t ∈ generate_horizontal_tiles_info) :
    t.WF ∨ t.siblings = [] := by
  rcases ht with h | h
  · unfold generate_vertical_tiles_info at h
    obtain ⟨dot, -, rfl⟩ := List.mem_map.mp h
    rcases generate_tile_info_cases _ _ _ _ _ with hv | hs
    · exact Or.inl (vertical_wf dot hv)
    · exact Or.inr hs
  · unfold generate_horizontal_tiles_info at h
    obtain ⟨dot, -, rfl⟩ := List.mem_map.mp h
    rcases generate_tile_info_cases _ _ _ _ _ with hv | hs
    · exact Or.inl (horizontal_wf dot hv)
    · exact Or.inr hs

theorem process_all_siblings_none (z : Zobrist) (T : TileInfo) (p : Position)
    (h : T.siblings = [] ∨ p.tile = none) : p.process_all_siblings z T = none := by
  unfold Position.process_all_siblings
  rw [range_tile_dots, List.foldlM_cons]
  have : p.process_siblings z T 0 = none := by
    unfold Position.process_siblings
    rcases h with h | h
    · rw [h]; rfl
    · rw [h]
      split
      · rename_i h1 h2; cases h2
      · rfl
  rw [this]
  rfl

theorem increment_turn_inv (z : Zobrist) (p q : Position) (hp : p.Inv z)
    (h : p.increment_turn = some q) :
    q.Inv z ∧ q.colors = p.colors ∧ q.filled = p.filled ∧ q.columns = p.columns ∧
      q.tile = p.tile ∧ q.tile_index = p.tile_index ∧ q.candidates = p.candidates ∧
      q.turn = p.turn + 1 ∧ (p.player = PLAYER_1 → q.player = PLAYER_2) ∧
      (p.player = PLAYER_2 → q.player = PLAYER_1) := by
  unfold Position.increment_turn at h
  split at h
  · rename_i h1
    cases h
    exact ⟨⟨hp.colors_ok, hp.white_outside, hp.filled_iff, hp.columns_iff, hp.hash, hp.tile_ok,
      Or.inr rfl⟩, rfl, rfl, rfl, rfl, rfl, rfl, rfl, fun _ => rfl,
      fun h2 => by rw [h1] at h2; cases h2⟩
  · split at h
    · rename_i h1 h2
      cases h
      exact ⟨⟨hp.colors_ok, hp.white_outside, hp.filled_iff, hp.columns_iff, hp.hash,
        hp.tile_ok, Or.inl rfl⟩, rfl, rfl, rfl, rfl, rfl, rfl, rfl,
        fun h3 => absurd h3 h1, fun _ => rfl⟩
    · cases h

theorem increment_turn_some (p : Position) (hp : p.player = PLAYER_1 ∨ p.player = PLAYER_2) :
    ∃ q, p.increment_turn = some q := by
  unfold Position.increment_turn
  rcases hp with h | h
  · exact ⟨_, by rw [if_pos h]⟩
  · by_cases h1 : p.player = PLAYER_1
    · exact ⟨_, by rw [if_pos h1]⟩
    · exact ⟨_, by rw [if_neg h1, if_pos h]⟩

/-- Effect of `do_move` on a position that satisfies the invariant and holds
a tile of the table. -/
theorem do_move_spec (z : Zobrist) (T : TileInfo) (t : List Nat) (p : Position)
    (hT : T.WF) (ht : t.length = 6 ∧ ∀ c ∈ t, is_color c) (hp : p.Inv z)
    (htile : p.tile = some t) :
    ∃ q, p.do_move z T = some q ∧ q.Inv z ∧
      (∀ x, x ∉ T.dots → q.colors x = p.colors x) ∧
      (∀ i < TILE_DOTS, ∀ x ∈ T.pair_dots i, t[i]? = some (q.colors x)) ∧
      (∀ x, q.filled.test x = true ↔ p.filled.test x = true ∨ x ∈ T.dots) ∧
      q.tile = p.tile ∧ q.tile_index = p.tile_index ∧ q.candidates = p.candidates ∧
      q.turn = p.turn + 1 ∧ (p.player = PLAYER_1 → q.player = PLAYER_2) ∧
      (p.player = PLAYER_2 → q.player = PLAYER_1) := by
  obtain ⟨q1, e1, inv1, k1, k2, k3, f1, f2, f3, f4, f5⟩ :=
    process_all_siblings_spec z T t p hT ht hp htile
  obtain ⟨q, e⟩ := increment_turn_some q1 inv1.player_ok
  obtain ⟨inv, g1, g2, g3, g4, g5, g6, g7, g8, g9⟩ := increment_turn_inv z q1 q inv1 e
  refine ⟨q, ?_, inv, ?_, ?_, ?_, by rw [g4, f1], by rw [g5, f2], by rw [g6, f5],
    by rw [g7, f3], ?_, ?_⟩
  · unfold Position.do_move
    rw [e1]
    exact e
  · intro x hx; rw [g1]; exact k1 x hx
  · intro i hi x hx; rw [g1]; exact k2 i hi x hx
  · intro x; rw [g2]; exact k3 x
  · intro h; exact g8 (by rw [f4]; exact h)
  · intro h; exact g9 (by rw [f4]; exact h)

theorem update_tile_index_inv (z : Zobrist) (index : Int) (p q : Position) (hp : p.Inv z)
    (h : p.update_tile_index z index = some q) :
    q.Inv z ∧ q.colors = p.colors ∧ q.filled = p.filled ∧ q.columns = p.columns ∧
      q.turn = p.turn ∧ q.player = p.player ∧ q.candidates = p.candidates := by
  unfold Position.update_tile_index at h
  by_cases h1 : p.tile_index = index
  · rw [if_pos h1] at h
    cases h
    exact ⟨hp, rfl, rfl, rfl, rfl, rfl, rfl⟩
  · rw [if_neg h1] at h
    simp only at h
    by_cases h0 : 0 ≤ index
    · rw [if_pos h0] at h
      cases ht : TILES_PERMUTATIONS[index.toNat]? with
      | none => rw [ht] at h; cases h
      | some t =>
        rw [ht] at h
        cases h
        have hlt : index.toNat < TILES_PERMUTATIONS.length :=
          (List.getElem?_eq_some_iff.mp ht).1
        rw [tiles_length] at hlt
        refine ⟨⟨hp.colors_ok, hp.white_outside, hp.filled_iff, hp.columns_iff, ?_, ?_,
          hp.player_ok⟩, rfl, rfl, rfl, rfl, rfl, rfl⟩
        · show (if p.tile_index ≠ -1 then p.zobrist_hash ^^^ z.tiles p.tile_index.toNat
              else p.zobrist_hash) ^^^ z.tiles index.toNat =
            dots_hash z p.colors ALL_DOTS ^^^ (if index ≠ -1 then z.tiles index.toNat else 0)
          have hi : index ≠ -1 := by omega
          rw [if_pos hi, hp.hash]
          split
          · rw [Nat.xor_assoc (dots_hash z p.colors ALL_DOTS), Nat.xor_self, Nat.xor_zero]
          · rw [Nat.xor_zero]
        · right
          refine ⟨h0, ?_, t, rfl, ht⟩
          show index < TILES_PERMUTATIONS_COUNT
          omega
    · rw [if_neg h0] at h
      cases h

theorem dots_hash_white (z : Zobrist) (l : List Nat) : dots_hash z (fun _ => WHITE) l = 0 := by
  unfold dots_hash
  induction l with
  | nil => rfl
  | cons a l ih => simp

theorem blank_inv (z : Zobrist) : Position.blank.Inv z := by
  refine ⟨fun d => Or.inl rfl, fun d _ => rfl, ?_, ?_, ?_, Or.inl ⟨rfl, rfl⟩, Or.inl rfl⟩
  · intro d
    show Bitboard.zero.test d = true ↔ WHITE ≠ WHITE
    simp [Bitboard.test_zero]
  · intro c col r _ _
    show (0 : Nat).testBit r = true ↔ r < ROWS ∧ WHITE = c + 49
    simp only [Nat.zero_testBit, Bool.false_eq_true, false_iff, not_and, WHITE]
    omega
  · show 0 = dots_hash z (fun _ => WHITE) ALL_DOTS ^^^ _
    rw [dots_hash_white]
    simp [Position.blank]

/-- The tile held by a position that satisfies the invariant, when there is
one, is an entry of the permutation table. -/
theorem inv_tile (z : Zobrist) (p : Position) (hp : p.Inv z) (t : List Nat)
    (ht : p.tile = some t) : t.length = 6 ∧ ∀ c ∈ t, is_color c := by
  rcases hp.tile_ok with ⟨-, h⟩ | ⟨-, -, t', h1, h2⟩
  · rw [h] at ht; cases ht
  · rw [h1] at ht
    cases ht
    exact tiles_ok _ (List.getElem?_mem h2)

theorem do_move_inv (z : Zobrist) (T : TileInfo) (p q : Position) (hp : p.Inv z)
    (hT : T.WF ∨ T.siblings = []) (h : p.do_move z T = some q) :
    q.Inv z ∧ (∀ x, q.filled.test x = true ↔ p.filled.test x = true ∨ x ∈ T.dots) := by
  rcases hT with hT | hT
  · cases htile : p.tile with
    | none =>
      unfold Position.do_move at h
      rw [process_all_siblings_none z T p (Or.inr htile)] at h
      cases h
    | some t =>
      obtain ⟨q', e, inv, -, -, k3, -⟩ :=
        do_move_spec z T t p hT (inv_tile z p hp t htile) hp htile
      rw [e] at h
      cases h
      exact ⟨inv, k3⟩
  · unfold Position.do_move at h
    rw [process_all_siblings_none z T p (Or.inl hT)] at h
    cases h

theorem create_inv (z : Zobrist) (s : List Nat) (p : Position)
    (h : Position.create z s = some p) : p.Inv z := by
  unfold Position.create at h
  split at h
  · rename_i chance_move pm center hpm hcenter
    cases h1 : Position.do_move_chance z chance_move Position.blank with
    | none => rw [h1] at h; cases h
    | some p1 =>
      rw [h1] at h
      simp only [Option.bind] at h
      have inv1 := (update_tile_index_inv z _ _ _ (blank_inv z) h1).1
      have hc : center ∈ generate_horizontal_tiles_info := List.getElem?_mem hcenter
      rcases generated_wf_or_empty center (Or.inr hc) with hw | he
      · cases htile : p1.tile with
        | none =>
          rw [process_all_siblings_none z center p1 (Or.inr htile)] at h
          cases h
        | some t =>
          obtain ⟨q, e, inv, -⟩ := process_all_siblings_spec z center t p1 hw
            (inv_tile z p1 inv1 t htile) inv1 htile
          rw [e] at h
          cases h
          exact inv
      · rw [process_all_siblings_none z center p1 (Or.inl he)] at h
        cases h
  · cases h

theorem step_inv (z : Zobrist) (p q : Position) (hp : p.Inv z) (h : Step z p q) :
    q.Inv z ∧ (∀ x, p.filled.test x = true → q.filled.test x = true) := by
  cases h with
  | play_chance index _ h =>
    obtain ⟨inv, -, hf, -⟩ := update_tile_index_inv z _ _ _ hp h
    exact ⟨inv, fun x hx => by rw [hf]; exact hx⟩
  | chance chance_move h =>
    obtain ⟨inv, -, hf, -⟩ := update_tile_index_inv z _ _ _ hp h
    exact ⟨inv, fun x hx => by rw [hf]; exact hx⟩
  | place T hT h =>
    obtain ⟨inv, hf⟩ := do_move_inv z T p q hp (Or.inl (registry_wf T hT)) h
    exact ⟨inv, fun x hx => (hf x).mpr (Or.inl hx)⟩
  | move m h =>
    unfold Position.do_move_player at h
    split at h
    · rename_i tile_info hti
      split at h
      · have hmem : tile_info ∈ generate_vertical_tiles_info ∨
            tile_info ∈ generate_horizontal_tiles_info := by
          split at hti
          · exact Or.inl (List.getElem?_mem hti)
          · exact Or.inr (List.getElem?_mem hti)
        obtain ⟨inv, hf⟩ := do_move_inv z tile_info p q hp (generated_wf_or_empty _ hmem) h
        exact ⟨inv, fun x hx => (hf x).mpr (Or.inl hx)⟩
      · cases h
    · cases h

theorem reachable_from_inv (z : Zobrist) (p q : Position) (hp : p.Inv z)
    (h : ReachableFrom z p q) :
    q.Inv z ∧ (∀ x, p.filled.test x = true → q.filled.test x = true) := by
  induction h with
  | refl => exact ⟨hp, fun _ hx => hx⟩
  | step q r _ hs ih =>
    obtain ⟨inv, hf⟩ := step_inv z q r ih.1 hs
    exact ⟨inv, fun x hx => hf x (ih.2 x hx)⟩

/-- Every reachable position satisfies the representation invariant. -/
theorem reachable_inv (z : Zobrist) (q : Position) (h : Reachable z q) : q.Inv z := by
  obtain ⟨s, p, hc, hr⟩ := h
  exact (reachable_from_inv z p q (create_inv z s p hc) hr).1

end Box

namespace Box

/-! ## Sample data -/

set_option maxRecDepth 100000 in
theorem opening_created : Position.create sample_keys (chars "Hh123456h") = some opening := by
  have h : (Position.create sample_keys (chars "Hh123456h")).isSome = true := by decide!
  unfold opening
  cases hc : Position.create sample_keys (chars "Hh123456h") with
  | none => rw [hc] at h; cases h
  | some p => rfl

set_option maxRecDepth 100000 in
theorem sample_tile_mem : sample_tile ∈ ALL_TILES_INFO := by
  have h : ALL_TILES_INFO.head?.isSome = true := by decide!
  unfold sample_tile
  cases hc : ALL_TILES_INFO with
  | nil => rw [hc] at h; cases h
  | cons a l => simp

set_option maxRecDepth 100000 in
theorem opening_tile : opening.tile = some (chars "123456") := by decide!

theorem opening_reachable : Reachable sample_keys opening :=
  ⟨chars "Hh123456h", opening, opening_created, ReachableFrom.refl⟩

/-! ## Moves never clear a filled dot -/

theorem update_color_filled (z : Zobrist) (dot color : Nat) (p q : Position)
    (h : p.update_color z dot color = some q) (x : Nat) (hx : p.filled.test x = true) :
    q.filled.test x = true := by
  unfold Position.update_color at h
  simp only at h
  split at h
  · split at h
    · cases h
    · split at h
      · cases h
      · cases h
        show (p.filled.set dot).test x = true
        rw [Bitboard.test_set, hx]
        rfl
  · cases h
    exact hx

theorem process_siblings_filled (z : Zobrist) (T : TileInfo) (i : Nat) (p q : Position)
    (h : p.process_siblings z T i = some q) (x : Nat) (hx : p.filled.test x = true) :
    q.filled.test x = true := by
  unfold Position.process_siblings at h
  split at h
  · split at h
    · cases h1 : Position.update_color z _ _ p with
      | none => rw [h1] at h; cases h
      | some p1 =>
        rw [h1] at h
        exact update_color_filled z _ _ p1 q h x (update_color_filled z _ _ p p1 h1 x hx)
    · cases h
  · cases h

theorem process_list_filled (z : Zobrist) (T : TileInfo) :
    ∀ (l : List Nat) (p q : Position),
      l.foldlM (fun q i => Position.process_siblings z T i q) p = some q →
      ∀ x, p.filled.test x = true → q.filled.test x = true := by
  intro l
  induction l with
  | nil => intro p q h x hx; cases h; exact hx
  | cons a rest ih =>
    intro p q h x hx
    rw [List.foldlM_cons] at h
    cases h1 : Position.process_siblings z T a p with
    | none => rw [h1] at h; cases h
    | some p1 =>
      rw [h1] at h
      exact ih p1 q h x (process_siblings_filled z T a p p1 h1 x hx)

theorem do_move_filled (z : Zobrist) (T : TileInfo) (p q : Position)
    (h : p.do_move z T = some q) (x : Nat) (hx : p.filled.test x = true) :
    q.filled.test x = true := by
  unfold Position.do_move at h
  cases h1 : Position.process_all_siblings z T p with
  | none => rw [h1] at h; cases h
  | some p1 =>
    rw [h1] at h
    have h2 := process_list_filled z T _ p p1 h1 x hx
    have h3 : p1.increment_turn = some q := h
    unfold Position.increment_turn at h3
    split at h3
    · cases h3; exact h2
    · split at h3
      · cases h3; exact h2
      · cases h3

theorem update_tile_index_filled (z : Zobrist) (index : Int) (p q : Position)
    (h : p.update_tile_index z index = some q) : q.filled = p.filled := by
  unfold Position.update_tile_index at h
  by_cases h1 : p.tile_index = index
  · rw [if_pos h1] at h; cases h; rfl
  · rw [if_neg h1] at h
    simp only at h
    by_cases h0 : 0 ≤ index
    · rw [if_pos h0] at h
      cases ht : TILES_PERMUTATIONS[index.toNat]? with
      | none => rw [ht] at h; cases h
      | some t => rw [ht] at h; cases h; rfl
    · rw [if_neg h0] at h; cases h

theorem step_filled (z : Zobrist) (p q : Position) (h : Step z p q) (x : Nat)
    (hx : p.filled.test x = true) : q.filled.test x = true := by
  cases h with
  | play_chance index _ h => rw [update_tile_index_filled z _ p q h]; exact hx
  | chance chance_move h => rw [update_tile_index_filled z _ p q h]; exact hx
  | place T _ h => exact do_move_filled z T p q h x hx
  | move m h =>
    unfold Position.do_move_player at h
    split at h
    · split at h
      · exact do_move_filled z _ p q h x hx
      · cases h
    · cases h

theorem reachable_from_filled (z : Zobrist) (p q : Position) (h : ReachableFrom z p q) (x : Nat)
    (hx : p.filled.test x = true) : q.filled.test x = true := by
  induction h with
  | refl => exact hx
  | step q r _ hs ih => exact step_filled z q r hs x ih

theorem count_matches_mono (T : TileInfo) (a b : Bitboard)
    (h : ∀ x, a.test x = true → b.test x = true) : T.count_matches a ≤ T.count_matches b := by
  unfold TileInfo.count_matches Bitboard.count_matches Bitboard.popcount
  apply List.countP_mono_left
  intro x _ hx
  rw [Nat.testBit_and, Bool.and_eq_true] at hx ⊢
  exact ⟨hx.1, h x hx.2⟩

end Box

/-! ## The exact score -/

namespace Box

/-- The lowest set bit of a non-zero value: `countr_zero_loop` finds it, and
`v & (v - 1)` clears it and nothing else. -/
theorem countr_zero_loop_spec :
    ∀ (fuel v n : Nat), 0 < v → v < 2 ^ fuel →
      n ≤ countr_zero_loop fuel v n ∧
      countr_zero_loop fuel v n - n < fuel ∧
      v.testBit (countr_zero_loop fuel v n - n) = true ∧
      (∀ j, j < countr_zero_loop fuel v n - n → v.testBit j = false) ∧
      (∀ i, (v &&& (v - 1)).testBit i =
        (v.testBit i && decide (i ≠ countr_zero_loop fuel v n - n))) := by
  intro fuel
  induction fuel with
  | zero => intro v n h0 hv; simp at hv; omega
  | succ fuel ih =>
    intro v n h0 hv
    unfold countr_zero_loop
    by_cases hodd : v % 2 = 1
    · rw [if_pos hodd]
      simp only [Nat.sub_self]
      refine ⟨Nat.le_refl _, by omega, by simp [hodd], fun j hj => by omega, ?_⟩
      intro i
      rw [Nat.testBit_and]
      cases i with
      | zero =>
        have : (v - 1) % 2 = 0 := by omega
        simp [hodd, this]
      | succ i =>
        have : (v - 1) / 2 = v / 2 := by omega
        simp [Nat.testBit_succ, this]
    · rw [if_neg hodd]
      have hv2 : v / 2 < 2 ^ fuel := by
        rw [Nat.pow_succ] at hv; omega
      have h02 : 0 < v / 2 := by omega
      obtain ⟨h1, h2, h3, h4, h5⟩ := ih (v / 2) (n + 1) h02 hv2
      have hk : countr_zero_loop fuel (v / 2) (n + 1) - n =
          (countr_zero_loop fuel (v / 2) (n + 1) - (n + 1)) + 1 := by omega
      refine ⟨by omega, by omega, ?_, ?_, ?_⟩
      · rw [hk, Nat.testBit_succ]; exact h3
      · intro j hj
        cases j with
        | zero => simp [hodd]
        | succ j =>
          rw [Nat.testBit_succ]
          exact h4 j (by omega)
      · intro i
        rw [hk]
        cases i with
        | zero =>
          rw [Nat.testBit_and]
          simp [hodd]
        | succ i =>
          have e : (v &&& (v - 1)) / 2 = (v / 2) &&& (v / 2 - 1) := by
            have : (v - 1) / 2 = v / 2 - 1 := by omega
            rw [← this]
            apply Nat.eq_of_testBit_eq
            intro j
            simp [Nat.testBit_div_two]
          rw [Nat.testBit_succ, e, h5 i, Nat.testBit_succ]
          simp

theorem countr_zero_spec (v : Nat) (h0 : 0 < v) (hv : v < 2 ^ 16) :
    countr_zero v < 16 ∧ v.testBit (countr_zero v) = true ∧
    (∀ j, j < countr_zero v → v.testBit j = false) ∧
    (∀ i, ((v &&& (v - 1)) % 2 ^ 16).testBit i =
      (v.testBit i && decide (i ≠ countr_zero v))) := by
  obtain ⟨-, h2, h3, h4, h5⟩ := countr_zero_loop_spec 16 v 0 h0 hv
  simp only [Nat.sub_zero] at h2 h3 h4 h5
  refine ⟨h2, h3, h4, ?_⟩
  intro i
  have hlt : v &&& (v - 1) < 2 ^ 16 := Nat.lt_of_le_of_lt Nat.and_le_left hv
  rw [Nat.mod_eq_of_lt hlt]
  exact h5 i

theorem sum_split_bit (v v' k : Nat) (g : Nat → Int) (hk : k < 16) (hvk : v.testBit k = true)
    (hv' : ∀ i, v'.testBit i = (v.testBit i && decide (i ≠ k))) :
    ∑ i ∈ Finset.range 16, (if v.testBit i = true then g i else 0) =
      g k + ∑ i ∈ Finset.range 16, (if v'.testBit i = true then g i else 0) := by
  have e : ∀ i ∈ Finset.range 16, (if v.testBit i = true then g i else 0) =
      (if i = k then g i else 0) + (if v'.testBit i = true then g i else 0) := by
    intro i _
    rw [hv' i]
    by_cases hik : i = k
    · subst hik; simp [hvk]
    · simp [hik]
  rw [Finset.sum_congr rfl e, Finset.sum_add_distrib, Finset.sum_ite_eq']
  simp [hk]

theorem bits_zero (v lo : Nat) (hb : ∀ i, v.testBit i = true → lo ≤ i ∧ i < 16) (hlo : 16 ≤ lo) :
    v = 0 := by
  by_contra h
  obtain ⟨i, hi⟩ := Nat.ne_zero_implies_bit_true h
  have := hb i hi
  omega

theorem bits_lt (v lo : Nat) (hb : ∀ i, v.testBit i = true → lo ≤ i ∧ i < 16) : v < 2 ^ 16 := by
  apply Nat.lt_pow_two_of_testBit
  intro i hi
  by_contra h
  have := hb i (by simpa using h)
  omega

theorem get_score_inner_eq (p : Position) (col color row : Nat) :
    ∀ (fuel temp : Nat) (score : Int) (lo : Nat),
      (∀ i, temp.testBit i = true → lo ≤ i ∧ i < 16) → 16 ≤ fuel + lo →
      p.get_score_inner col color row fuel temp score =
        some (score + ∑ i ∈ Finset.range 16,
          if temp.testBit i = true then pair_term p col color row i else 0) := by
  intro fuel
  induction fuel with
  | zero =>
    intro temp score lo hb hf
    have h0 : temp = 0 := bits_zero temp lo hb (by omega)
    subst h0
    simp [Position.get_score_inner]
  | succ fuel ih =>
    intro temp score lo hb hf
    unfold Position.get_score_inner
    by_cases h0 : temp > 0
    · rw [if_pos h0]
      obtain ⟨k16, kbit, klow, kclr⟩ := countr_zero_spec temp h0 (bits_lt temp lo hb)
      have hklo : lo ≤ countr_zero temp := (hb _ kbit).1
      simp only
      by_cases hbrk : (col : Int) + ((countr_zero temp : Int) - row) ≥ COLS
      · rw [if_pos hbrk]
        have hz : ∑ i ∈ Finset.range 16,
            (if temp.testBit i = true then pair_term p col color row i else 0) = 0 := by
          apply Finset.sum_eq_zero
          intro i _
          by_cases hi : temp.testBit i = true
          · rw [if_pos hi]
            have hki : countr_zero temp ≤ i := by
              by_contra hlt
              rw [klow i (by omega)] at hi
              cases hi
            unfold pair_term
            rw [if_neg]
            intro hcon
            have := hcon.1
            omega
          · rw [if_neg hi]
        rw [hz, Int.add_zero]
      · rw [if_neg hbrk]
        have hb' : ∀ i, ((temp &&& (temp - 1)) % 2 ^ 16).testBit i = true →
            countr_zero temp + 1 ≤ i ∧ i < 16 := by
          intro i hi
          rw [kclr i] at hi
          simp only [Bool.and_eq_true, decide_eq_true_eq] at hi
          have h1 := hb i hi.1
          have h2 : countr_zero temp ≤ i := by
            by_contra hlt
            rw [klow i (by omega)] at hi
            exact absurd hi.1 (by simp)
          omega
        rw [ih _ _ (countr_zero temp + 1) hb' (by omega)]
        rw [sum_split_bit temp _ (countr_zero temp) _ k16 kbit kclr]
        have hterm : (if (p.columns color ((col : Int) + ((countr_zero temp : Int) - row)).toNat).test2
              row ((row : Int) + ((countr_zero temp : Int) - row)).toNat = true
            then score + ((countr_zero temp : Int) - row) else score) =
            score + pair_term p col color row (countr_zero temp) := by
          unfold pair_term
          have hlt : (col : Int) + ((countr_zero temp : Int) - row) < COLS := by omega
          by_cases ht : (p.columns color ((col : Int) + ((countr_zero temp : Int) - row)).toNat).test2
              row ((row : Int) + ((countr_zero temp : Int) - row)).toNat = true
          · rw [if_pos ht, if_pos ⟨hlt, ht⟩]
          · rw [if_neg ht, if_neg (fun h => ht h.2), Int.add_zero]
        rw [hterm, Int.add_assoc]
    · rw [if_neg h0]
      have h00 : temp = 0 := by omega
      subst h00
      simp

theorem get_score_outer_eq (p : Position) (col color : Nat) :
    ∀ (fuel v : Nat) (score : Int) (lo : Nat),
      (∀ i, v.testBit i = true → lo ≤ i ∧ i < 16) → 16 ≤ fuel + lo →
      p.get_score_outer col color fuel v score =
        some (score + ∑ r ∈ Finset.range 16,
          if v.testBit r = true then row_term p col color v r else 0) := by
  intro fuel
  induction fuel with
  | zero =>
    intro v score lo hb hf
    have h0 : v = 0 := bits_zero v lo hb (by omega)
    subst h0
    simp [Position.get_score_outer]
  | succ fuel ih =>
    intro v score lo hb hf
    unfold Position.get_score_outer
    by_cases h0 : v > 0
    · rw [if_pos h0]
      obtain ⟨k16, kbit, klow, kclr⟩ := countr_zero_spec v h0 (bits_lt v lo hb)
      have hklo : lo ≤ countr_zero v := (hb _ kbit).1
      have hge : ∀ i, v.testBit i = true → countr_zero v ≤ i := by
        intro i hi
        by_contra hlt
        rw [klow i (by omega)] at hi
        cases hi
      have hb' : ∀ i, ((v &&& (v - 1)) % 2 ^ 16).testBit i = true →
          countr_zero v + 1 ≤ i ∧ i < 16 := by
        intro i hi
        rw [kclr i] at hi
        simp only [Bool.and_eq_true, decide_eq_true_eq] at hi
        have h1 := hb i hi.1
        have h2 := hge i hi.1
        omega
      simp only
      rw [get_score_inner_eq p col color (countr_zero v) 16 _ score (countr_zero v + 1) hb'
        (by omega)]
      simp only [Option.bind]
      rw [ih _ _ (countr_zero v + 1) hb' (by omega)]
      rw [sum_split_bit v _ (countr_zero v) (row_term p col color v) k16 kbit kclr]
      have e1 : ∑ i ∈ Finset.range 16,
          (if ((v &&& (v - 1)) % 2 ^ 16).testBit i = true
            then pair_term p col color (countr_zero v) i else 0) =
          row_term p col color v (countr_zero v) := by
        unfold row_term
        apply Finset.sum_congr rfl
        intro i _
        rw [kclr i]
        by_cases hi : v.testBit i = true
        · have := hge i hi
          by_cases hik : i = countr_zero v
          · have h1 : ¬ countr_zero v < i := by omega
            simp [hi, hik]
          · have h1 : countr_zero v < i := by omega
            simp [hi, hik, h1]
        · simp [hi]
      have e2 : ∑ r ∈ Finset.range 16,
          (if ((v &&& (v - 1)) % 2 ^ 16).testBit r = true
            then row_term p col color ((v &&& (v - 1)) % 2 ^ 16) r else 0) =
          ∑ r ∈ Finset.range 16,
          (if ((v &&& (v - 1)) % 2 ^ 16).testBit r = true
            then row_term p col color v r else 0) := by
        apply Finset.sum_congr rfl
        intro r _
        by_cases hr : ((v &&& (v - 1)) % 2 ^ 16).testBit r = true
        · rw [if_pos hr, if_pos hr]
          have hr' := (hb' r hr).1
          unfold row_term
          apply Finset.sum_congr rfl
          intro i _
          rw [kclr i]
          by_cases hri : r < i
          · have : i ≠ countr_zero v := by omega
            simp [hri, this]
          · simp [hri]
        · rw [if_neg hr, if_neg hr]
      rw [e1, e2, Int.add_assoc]
    · rw [if_neg h0]
      have h00 : v = 0 := by omega
      subst h00
      simp

theorem get_score_col_eq (p : Position) (col color : Nat)
    (hv : ∀ i, (p.columns color col).value.testBit i = true → i < 16) :
    p.get_score_col col color =
      some (∑ r ∈ Finset.range 16,
        if (p.columns color col).value.testBit r = true
        then row_term p col color (p.columns color col).value r else 0) := by
  unfold Position.get_score_col
  rw [get_score_outer_eq p col color 16 _ 0 0 (fun i hi => ⟨Nat.zero_le _, hv i hi⟩) (by omega)]
  rw [Int.zero_add]

theorem foldlM_score (f : Nat → Option Int) (g : Nat → Int) :
    ∀ (l : List Nat) (acc : Int), (∀ col ∈ l, f col = some (g col)) →
      l.foldlM (fun score col => (f col).map (score + ·)) acc =
        some (acc + (l.map g).sum) := by
  intro l
  induction l with
  | nil => intro acc _; simp
  | cons a l ih =>
    intro acc h
    rw [List.foldlM_cons, h a (List.mem_cons_self _ _)]
    simp only [Option.map_some', Option.bind_eq_bind, Option.some_bind, List.map_cons,
      List.sum_cons]
    rw [ih (acc + g a) (fun col hc => h col (List.mem_cons_of_mem _ hc)), Int.add_assoc]

theorem sum_shift (r : Nat) (hr : r < 16) (P : Nat → Prop) [DecidablePred P] :
    ∑ i ∈ Finset.range 16, (if r < i ∧ P (i - r) then (((i - r : Nat) : Int)) else 0) =
      ∑ b ∈ Finset.range 16, (if 1 ≤ b ∧ r + b < 16 ∧ P b then (b : Int) else 0) := by
  apply Finset.sum_bij_ne_zero (fun i _ _ => i - r)
  · intro a h1 _
    rw [Finset.mem_range] at h1 ⊢
    omega
  · intro a1 _ h12 a2 _ h22 he
    have g1 : r < a1 := by
      by_contra hn
      apply h12
      rw [if_neg (fun h => hn h.1)]
    have g2 : r < a2 := by
      by_contra hn
      apply h22
      rw [if_neg (fun h => hn h.1)]
    omega
  · intro b hb hg
    have hc : 1 ≤ b ∧ r + b < 16 ∧ P b := by
      by_contra hn
      apply hg
      rw [if_neg hn]
    have hsub : r + b - r = b := by omega
    refine ⟨r + b, Finset.mem_range.mpr hc.2.1, ?_, hsub⟩
    rw [hsub, if_pos ⟨by omega, hc.2.2⟩]
    have : (0 : Int) < b := by omega
    omega
  · intro a h1 h2
    have g1 : r < a ∧ P (a - r) := by
      by_contra hn
      apply h2
      rw [if_neg hn]
    rw [Finset.mem_range] at h1
    rw [if_pos g1, if_pos ⟨by omega, by omega, g1.2⟩]

/-- Under column coherence the value added by a round of the outer loop is the
sum of the sides of the squares whose top left corner is the dot `(r, col)`. -/
theorem row_sum_eq (p : Position) (c col r : Nat) (hcoh : p.ColumnsCoherent c)
    (hcol : col < COLS) (hr : r < 16) :
    (if (p.columns c col).value.testBit r = true
      then row_term p col c (p.columns c col).value r else 0) =
    ∑ b ∈ Finset.range ROWS,
      if 1 ≤ b ∧ r + b < ROWS ∧ col + b < COLS ∧ p.square c r col b then (b : Int) else 0 := by
  have hs := sum_shift r hr
    (fun b => col + b < COLS ∧ p.square c r col b)
  simp only [ROWS] at hs ⊢
  rw [← hs]
  unfold row_term
  by_cases hbit : (p.columns c col).value.testBit r = true
  · rw [if_pos hbit]
    apply Finset.sum_congr rfl
    intro i hi
    rw [Finset.mem_range] at hi
    by_cases hri : r < i
    · have e1 : ((col : Int) + ((i : Int) - r)).toNat = col + (i - r) := by omega
      have e2 : ((r : Int) + ((i : Int) - r)).toNat = i := by omega
      have e3 : (i : Int) - r = ((i - r : Nat) : Int) := by omega
      have hri' : r + (i - r) = i := by omega
      unfold pair_term
      have key : ((p.columns c col).value.testBit i = true ∧
          (col : Int) + ((i : Int) - r) < COLS ∧
          (p.columns c ((col : Int) + ((i : Int) - r)).toNat).test2 r
            ((r : Int) + ((i : Int) - r)).toNat = true) ↔
          (col + (i - r) < COLS ∧ p.square c r col (i - r)) := by
        rw [e1, e2, Column.test2_iff]
        unfold Position.square
        rw [hri']
        constructor
        · rintro ⟨hbi, hcbi, hb1, hb2⟩
          have hcb : col + (i - r) < COLS := by simp only [COLS] at hcbi ⊢; omega
          exact ⟨hcb, ((hcoh col r hcol).mp hbit).2, ((hcoh _ r hcb).mp hb1).2,
            ((hcoh col i hcol).mp hbi).2, ((hcoh _ i hcb).mp hb2).2⟩
        · rintro ⟨hcb, -, s2, s3, s4⟩
          have hi' : i < ROWS := hi
          have hr' : r < ROWS := hr
          exact ⟨(hcoh col i hcol).mpr ⟨hi', s3⟩, by simp only [COLS] at hcb ⊢; omega,
            (hcoh _ r hcb).mpr ⟨hr', s2⟩, (hcoh _ i hcb).mpr ⟨hi', s4⟩⟩
      split_ifs with h1 h2 h3 h3 h3
      · exact e3
      · exact absurd (key.mp ⟨h1.1, h2.1, h2.2⟩) (fun h => h3 ⟨hri, h⟩)
      · exact absurd (key.mpr h3.2) (fun h => h2 h.2)
      · rfl
      · exact absurd (key.mpr h3.2) (fun h => h1 ⟨h.1, hri⟩)
      · rfl
    · rw [if_neg (fun h => hri h.2), if_neg (fun h => hri h.1)]
  · rw [if_neg hbit]
    symm
    apply Finset.sum_eq_zero
    intro i _
    rw [if_neg]
    intro hcon
    apply hbit
    exact (hcoh col r hcol).mpr ⟨by simp only [ROWS]; omega, hcon.2.2.1⟩

theorem list_sum_range (g : Nat → Int) (n : Nat) :
    ((List.range n).map g).sum = ∑ i ∈ Finset.range n, g i := by
  induction n with
  | zero => simp
  | succ n ih =>
    rw [List.range_succ, List.map_append, List.sum_append, ih, Finset.sum_range_succ]
    simp

/-- Under column coherence for the color index `c`, `get_score(c)` returns
the sum of the sides of the squares of that color. -/
theorem get_score_sum (p : Position) (c : Nat) (hcoh : p.ColumnsCoherent c) :
    p.get_score c = some ((score_of_squares p c : Nat) : Int) := by
  unfold Position.get_score
  have hcolv : ∀ col ∈ List.range COLS, p.get_score_col col c =
      some (∑ r ∈ Finset.range ROWS, ∑ b ∈ Finset.range ROWS,
        if 1 ≤ b ∧ r + b < ROWS ∧ col + b < COLS ∧ p.square c r col b then (b : Int) else 0) := by
    intro col hcol
    have hcol' : col < COLS := List.mem_range.mp hcol
    rw [get_score_col_eq p col c (fun i hi => ((hcoh col i hcol').mp hi).1)]
    congr 1
    apply Finset.sum_congr rfl
    intro r hr
    exact row_sum_eq p c col r hcoh hcol' (Finset.mem_range.mp hr)
  rw [foldlM_score _ _ _ 0 hcolv, Int.zero_add, list_sum_range]
  congr 1
  unfold score_of_squares
  push_cast
  rfl

theorem inv_coherent (z : Zobrist) (p : Position) (hp : p.Inv z) (c : Nat)
    (hc : c < MAX_COLORS) : p.ColumnsCoherent c :=
  fun col r hcol => hp.columns_iff c col r hc hcol

theorem one_square_coherent : one_square.ColumnsCoherent 0 := by
  intro col r hcol
  show (if 0 = 0 ∧ (col = 0 ∨ col = 1) then (⟨3⟩ : Column) else ⟨0⟩).value.testBit r = true ↔
    r < ROWS ∧ (if r * COLS + col = 0 ∨ r * COLS + col = 1 ∨ r * COLS + col = 20 ∨
      r * COLS + col = 21 then 49 else WHITE) = 0 + 49
  by_cases h : col = 0 ∨ col = 1
  · rw [if_pos ⟨rfl, h⟩]
    by_cases hr : r < 2
    · have h3 : (3 : Nat).testBit r = true := by
        have : r = 0 ∨ r = 1 := by omega
        rcases this with rfl | rfl <;> decide
      have hd : r * COLS + col = 0 ∨ r * COLS + col = 1 ∨ r * COLS + col = 20 ∨
          r * COLS + col = 21 := by
        simp only [COLS]; omega
      rw [if_pos hd]
      exact ⟨fun _ => ⟨by simp only [ROWS]; omega, rfl⟩, fun _ => h3⟩
    · have h3 : (3 : Nat).testBit r = false := by
        apply Nat.testBit_lt_two_pow
        calc 3 < 2 ^ 2 := by decide
          _ ≤ 2 ^ r := Nat.pow_le_pow_right (by decide) (by omega)
      have hd : ¬ (r * COLS + col = 0 ∨ r * COLS + col = 1 ∨ r * COLS + col = 20 ∨
          r * COLS + col = 21) := by
        simp only [COLS]; omega
      rw [if_neg hd]
      show (3 : Nat).testBit r = true ↔ _
      rw [h3]
      exact ⟨fun hh => Bool.noConfusion hh, fun hh => absurd hh.2 (by decide)⟩
  · rw [if_neg (fun hh => h hh.2)]
    have hd : ¬ (r * COLS + col = 0 ∨ r * COLS + col = 1 ∨ r * COLS + col = 20 ∨
        r * COLS + col = 21) := by
      simp only [COLS] at hcol ⊢; omega
    rw [if_neg hd]
    show (0 : Nat).testBit r = true ↔ _
    rw [Nat.zero_testBit]
    exact ⟨fun hh => Bool.noConfusion hh, fun hh => absurd hh.2 (by decide)⟩

theorem one_square_corners (d : Nat) :
    one_square.colors d = 0 + 49 ↔
      d = 0 * COLS + 0 ∨ d = 0 * COLS + (0 + 1) ∨ d = (0 + 1) * COLS + 0 ∨
        d = (0 + 1) * COLS + (0 + 1) := by
  show (if d = 0 ∨ d = 1 ∨ d = 20 ∨ d = 21 then 49 else WHITE) = 0 + 49 ↔ _
  simp only [COLS, WHITE]
  by_cases h : d = 0 ∨ d = 1 ∨ d = 20 ∨ d = 21
  · rw [if_pos h]
    simp only [true_iff]
    omega
  · rw [if_neg h]
    constructor
    · intro h1; omega
    · intro h1; omega

/-- On a board whose dots of color index `k` are the four corners of one
square, the sum over the squares of that color is the side of that square. -/
theorem single_square_sum (p : Position) (k r c b : Nat) (hb : 1 ≤ b) (hrb : r + b < ROWS)
    (hcb : c + b < COLS)
    (hcorners : ∀ d, p.colors d = k + 49 ↔
      d = r * COLS + c ∨ d = r * COLS + (c + b) ∨ d = (r + b) * COLS + c ∨
        d = (r + b) * COLS + (c + b)) :
    score_of_squares p k = b := by
  have hcond : ∀ col r' b', col < COLS → r' < ROWS →
      ((1 ≤ b' ∧ r' + b' < ROWS ∧ col + b' < COLS ∧ p.square k r' col b') ↔
        (col = c ∧ r' = r ∧ b' = b)) := by
    intro col r' b' hcol hr'
    unfold Position.square
    rw [hcorners, hcorners, hcorners, hcorners]
    simp only [ROWS, COLS] at *
    constructor
    · rintro ⟨h1, h2, h3, s1, s2, s3, s4⟩
      omega
    · rintro ⟨rfl, rfl, rfl⟩
      omega
  unfold score_of_squares
  rw [Finset.sum_eq_single c]
  · rw [Finset.sum_eq_single r]
    · rw [Finset.sum_eq_single b]
      · rw [if_pos ((hcond c r b (by omega) (by omega)).mpr ⟨rfl, rfl, rfl⟩)]
      · intro b' _ hne
        rw [if_neg]
        intro h
        exact hne ((hcond c r b' (by omega) (by omega)).mp h).2.2
      · intro h
        exfalso; apply h; rw [Finset.mem_range]; omega
    · intro r' hr' hne
      apply Finset.sum_eq_zero
      intro b' _
      rw [if_neg]
      intro h
      exact hne ((hcond c r' b' (by omega) (Finset.mem_range.mp hr')).mp h).2.1
    · intro h
      exfalso; apply h; rw [Finset.mem_range]; omega
  · intro col hcol hne
    apply Finset.sum_eq_zero
    intro r' hr'
    apply Finset.sum_eq_zero
    intro b' _
    rw [if_neg]
    intro h
    exact hne ((hcond col r' b' (Finset.mem_range.mp hcol) (Finset.mem_range.mp hr')).mp h).1
  · intro h
    exfalso; apply h; rw [Finset.mem_range]; omega

end Box

/-! ## The search on a root without a stored state -/

namespace Box

theorem mem_take_iff (l : List TileInfo) (n : Nat) (x : TileInfo) :
    x ∈ l.take n ↔ ∃ j, j < n ∧ l[j]? = some x := by
  rw [List.mem_iff_getElem?]
  constructor
  · rintro ⟨j, hj⟩
    rw [List.getElem?_take] at hj
    split at hj
    · rename_i h; exact ⟨j, h, hj⟩
    · cases hj
  · rintro ⟨j, hjn, hj⟩
    exact ⟨j, by rw [List.getElem?_take, if_pos hjn]; exact hj⟩

theorem update_condidates_loop_subset (filled : Bitboard) :
    ∀ (fuel : Nat) (c : List TileInfo) (i len : Nat) (r : List TileInfo × Nat),
      Position.update_condidates_loop filled fuel c i len = some r →
      ∀ x ∈ r.1.take r.2, x ∈ c.take len := by
  intro fuel
  induction fuel with
  | zero =>
    intro c i len r h x hx
    unfold Position.update_condidates_loop at h
    split at h
    · cases h
    · cases h; exact hx
  | succ fuel ih =>
    intro c i len r h x hx
    unfold Position.update_condidates_loop at h
    split at h
    · rename_i hlt
      split at h
      · cases h
      · rename_i tile_info hti
        split at h
        · split at h
          · cases h
          · rename_i last hlast
            have hx' := ih _ _ _ _ h x hx
            rw [mem_take_iff] at hx' ⊢
            obtain ⟨j, hj, hjx⟩ := hx'
            by_cases hji : i = j
            · subst hji
              rw [List.getElem?_set] at hjx
              simp only [if_true] at hjx
              split at hjx
              · cases hjx
                exact ⟨len - 1, by omega, hlast⟩
              · cases hjx
            · rw [List.getElem?_set_ne hji] at hjx
              exact ⟨j, by omega, hjx⟩
        · exact ih _ _ _ _ h x hx
    · cases h; exact hx

theorem update_condidates_subset (p q : Position) (h : p.update_condidates = some q) :
    q.filled = p.filled ∧ ∀ x ∈ q.candidates, x ∈ p.candidates := by
  unfold Position.update_condidates at h
  cases hl : Position.update_condidates_loop p.filled p.candidates.length p.candidates 0
      p.candidates.length with
  | none => rw [hl] at h; cases h
  | some r =>
    rw [hl] at h
    cases h
    refine ⟨rfl, fun x hx => ?_⟩
    have := update_condidates_loop_subset p.filled _ _ _ _ r hl x hx
    exact List.mem_of_mem_take this

theorem end_game_of_subset (p q : Position) (hf : q.filled = p.filled)
    (hc : ∀ x ∈ q.candidates, x ∈ p.candidates) (h : p.end_game = true) :
    q.end_game = true := by
  unfold Position.end_game at h ⊢
  rw [Bool.not_eq_true'] at h ⊢
  rw [← Bool.not_eq_true, List.any_eq_true] at h ⊢
  rintro ⟨x, hx, hpm⟩
  apply h
  refine ⟨x, hc x hx, ?_⟩
  unfold Position.possible_move at hpm ⊢
  rw [hf] at hpm
  exact hpm

variable {F : Type} [DoubleOps F]

theorem simulate_tree_terminal (z : Zobrist) (fuel : Nat) (sim : Simulation F)
    (h : sim.pos.end_game = true) : Simulation.simulate_tree z fuel sim = some sim := by
  cases fuel with
  | zero => unfold Simulation.simulate_tree; simp [h]
  | succ n => unfold Simulation.simulate_tree; simp [h]

/-- A simulation started on a terminal position leaves the store as it is. -/
theorem run_terminal (z : Zobrist) (fuel : Nat) (store : StateStore F) (pos : Position)
    (color : Nat) (G : Globals F) (h : pos.end_game = true) (r : StateStore F × Globals F)
    (hr : Simulation.run z fuel store pos color G = some r) : r.1 = store := by
  unfold Simulation.run at hr
  simp only at hr
  rw [simulate_tree_terminal z fuel _ h] at hr
  simp only at hr
  split at hr
  · cases hr
  · rename_i pos' g hp
    unfold Simulation.backup at hr
    simp only at hr
    split at hr
    · cases hr
    · simp only [List.foldlM_nil, Option.pure_def, Option.map_some', Option.some.injEq] at hr
      rw [← hr]

/-- Started on an empty store and a terminal position, the first loop of
`get_best_move` fails or leaves the store empty. -/
theorem main_loop_terminal (z : Zobrist) (fuel : Nat) (clock : Nat → Bool) (pos : Position)
    (color : Nat) (h : pos.end_game = true) :
    ∀ (n s t : Nat) (G : Globals F) (r : Nat × Nat × StateStore F × Globals F),
      main_loop z fuel clock pos color n s t ⟨[]⟩ G = some r → r.2.2.1.Q = [] := by
  intro n s t G r hr
  cases n with
  | zero =>
    unfold main_loop at hr
    cases hr
    rfl
  | succ n =>
    unfold main_loop at hr
    split at hr
    · split at hr
      · cases hr
      · rename_i store G' hrun
        have hs := run_terminal z fuel ⟨[]⟩ pos color G h (store, G') hrun
        simp only at hs
        subst hs
        simp [StateStore.get] at hr
    · cases hr
      rfl

/-- Whenever the first loop leaves the store empty, `get_best_move` does not
return: `state_store.get(pos)` is the null pointer, which the code goes on to
dereference. -/
theorem get_best_move_null_root (z : Zobrist) (fuel : Nat) (clock : Nat → Bool)
    (pos : Position) (color : Nat) (G : Globals F)
    (h : ∀ (pos' : Position) (G' : Globals F) (r : Nat × Nat × StateStore F × Globals F),
      pos.update_condidates = some pos' →
      main_loop z fuel clock pos' color MAX_ITERATIONS 0 0 ⟨[]⟩ G' = some r → r.2.2.1.Q = []) :
    get_best_move z fuel clock pos color G = none := by
  unfold get_best_move
  simp only
  split
  · rfl
  next G' _ =>
    split
    · rfl
    next pos' hu =>
      split
      · rfl
      next s t store G'' hm =>
        have hq := h pos' G' _ hu hm
        simp only at hq
        have hroot : store.get z pos' = none := by
          unfold StateStore.get
          rw [hq]
          rfl
        rw [hroot]
        split
        · rfl
        · split
          · rfl
          · rfl

/-- On a terminal position no simulation creates a root state, so
`get_best_move` does not return. -/
theorem get_best_move_terminal_fails (z : Zobrist) (fuel : Nat) (clock : Nat → Bool)
    (pos : Position) (color : Nat) (G : Globals F) (h : pos.end_game = true) :
    get_best_move z fuel clock pos color G = none := by
  apply get_best_move_null_root
  intro pos' G' r hu hm
  obtain ⟨hf, hc⟩ := update_condidates_subset pos pos' hu
  exact main_loop_terminal z fuel clock pos' color (end_game_of_subset pos pos' hf hc h)
    _ _ _ _ r hm

/-- When the first time test already fails, the first loop runs zero times, the
store stays empty and `get_best_move` does not return. -/
theorem get_best_move_no_time_fails (z : Zobrist) (fuel : Nat) (clock : Nat → Bool)
    (pos : Position) (color : Nat) (G : Globals F) (h : clock 0 = false) :
    get_best_move z fuel clock pos color G = none := by
  apply get_best_move_null_root
  intro pos' G' r _ hm
  have e : MAX_ITERATIONS = 99999 + 1 := rfl
  rw [e] at hm
  unfold main_loop at hm
  rw [h] at hm
  simp only [Bool.false_eq_true, if_false] at hm
  cases hm
  rfl

/-- The overlap count of a well-formed placement is the number of its dots
that are filled. -/
theorem count_matches_eq_dots (T : TileInfo) (hT : T.WF) (f : Bitboard) :
    T.count_matches f = (T.dots.filter (fun d => f.test d)).length := by
  rw [TileInfo.count_matches_eq]
  apply List.Perm.length_eq
  rw [List.perm_ext_iff_of_nodup ((List.nodup_range _).filter _) (hT.nodup.filter _)]
  intro d
  simp only [List.mem_filter, List.mem_range, Bool.and_eq_true]
  rw [hT.covered d]
  constructor
  · rintro ⟨-, h1, h2⟩
    exact ⟨h1, h2⟩
  · rintro ⟨h1, h2⟩
    have := hT.bound d h1
    refine ⟨?_, h1, h2⟩
    simp only [TOTAL_DOTS, ROWS, COLS, Bitboard.WIDTH] at this ⊢
    omega

theorem dots_of_lines (t : TileInfo) (f g : Nat → Nat)
    (hs : t.siblings = (List.range TILE_DOTS).map (fun i => (f i, g (TILE_DOTS - i - 1)))) :
    t.dots = (List.range TILE_DOTS).flatMap (fun i => [f i, g (5 - i)]) := by
  simp [TileInfo.dots, hs, range_tile_dots, TILE_DOTS]

/-- The dots of a placement of the registry, from its anchor. -/
theorem registry_dots (T : TileInfo) (hT : T ∈ ALL_TILES_INFO) :
    ∃ dot, dot < TOTAL_DOTS ∧
      ((dot / 20 + 5 < 16 ∧ dot % 20 + 1 < 20 ∧ T.dots = vertical_dots dot) ∨
       (dot / 20 + 1 < 16 ∧ dot % 20 + 5 < 20 ∧ T.dots = horizontal_dots dot)) := by
  obtain ⟨t, k, rfl, hv, ht⟩ := mem_registry T hT
  show ∃ dot, dot < TOTAL_DOTS ∧
      ((dot / 20 + 5 < 16 ∧ dot % 20 + 1 < 20 ∧ t.dots = vertical_dots dot) ∨
       (dot / 20 + 1 < 16 ∧ dot % 20 + 5 < 20 ∧ t.dots = horizontal_dots dot))
  rcases ht with h | h
  · unfold generate_vertical_tiles_info at h
    obtain ⟨dot, hd, rfl⟩ := List.mem_map.mp h
    refine ⟨dot, List.mem_range.mp hd, Or.inl ?_⟩
    obtain ⟨ht, -, hs, -, -, -⟩ := generate_tile_info_valid _ _ _ _ _ hv
    have h5 := ht 5 (by decide)
    simp only [valid_dot, cols_cast, decide_eq_true_eq, Nat.cast_ofNat] at h5
    have e1 : ∀ i, cell_dot (fun i : Nat => ((dot : Int) / COLS + i, (dot : Int) % COLS + 1)) i
        = (dot / 20 + i) * 20 + dot % 20 + 1 := by
      intro i
      simp only [cell_dot, get_dot, cols_cast]
      omega
    have e2 : ∀ i, cell_dot (fun i : Nat => ((dot : Int) / COLS + i, (dot : Int) % COLS)) i
        = (dot / 20 + i) * 20 + dot % 20 := by
      intro i
      simp only [cell_dot, get_dot, cols_cast]
      omega
    refine ⟨by omega, by omega, ?_⟩
    rw [dots_of_lines _ _ _ hs]
    simp only [e1, e2, vertical_dots]
  · unfold generate_horizontal_tiles_info at h
    obtain ⟨dot, hd, rfl⟩ := List.mem_map.mp h
    refine ⟨dot, List.mem_range.mp hd, Or.inr ?_⟩
    obtain ⟨-, ht, hs, -, -, -⟩ := generate_tile_info_valid _ _ _ _ _ hv
    have h5 := ht 5 (by decide)
    simp only [valid_dot, cols_cast, decide_eq_true_eq, Nat.cast_ofNat] at h5
    have e1 : ∀ i, cell_dot (fun i : Nat => ((dot : Int) / COLS, (dot : Int) % COLS + i)) i
        = dot / 20 * 20 + dot % 20 + i := by
      intro i
      simp only [cell_dot, get_dot, cols_cast]
      omega
    have e2 : ∀ i, cell_dot (fun i : Nat => ((dot : Int) / COLS + 1, (dot : Int) % COLS + i)) i
        = (dot / 20 + 1) * 20 + dot % 20 + i := by
      intro i
      simp only [cell_dot, get_dot, cols_cast]
      omega
    refine ⟨by omega, by omega, ?_⟩
    rw [dots_of_lines _ _ _ hs]
    simp only [e1, e2, horizontal_dots]

set_option maxRecDepth 1000000 in
theorem finished_played :
    (finished_game.foldlM (play_legal sample_keys) opening).map (fun p => p.filled.bits) =
      some finished_bits := by
  decide!

set_option maxRecDepth 1000000 in
theorem finished_table :
    ∀ dot < 320,
      (dot / 20 + 5 < 16 → dot % 20 + 1 < 20 →
        4 < ((vertical_dots dot).filter (fun d => finished_bits.testBit d)).length) ∧
      (dot / 20 + 1 < 16 → dot % 20 + 5 < 20 →
        4 < ((horizontal_dots dot).filter (fun d => finished_bits.testBit d)).length) := by
  decide!

set_option maxRecDepth 1000000 in
theorem opening_open : opening.end_game = false := by decide!

/-! ### Moves leave the candidate list alone -/

theorem update_color_candidates (z : Zobrist) (dot color : Nat) (p q : Position)
    (h : p.update_color z dot color = some q) : q.candidates = p.candidates := by
  unfold Position.update_color at h
  simp only at h
  split at h
  · split at h
    · cases h
    · split at h
      · cases h
      · cases h; rfl
  · cases h; rfl

theorem process_siblings_candidates (z : Zobrist) (T : TileInfo) (i : Nat) (p q : Position)
    (h : p.process_siblings z T i = some q) : q.candidates = p.candidates := by
  unfold Position.process_siblings at h
  split at h
  · split at h
    · cases h1 : Position.update_color z _ _ p with
      | none => rw [h1] at h; cases h
      | some p1 =>
        rw [h1] at h
        rw [update_color_candidates z _ _ p1 q h, update_color_candidates z _ _ p p1 h1]
    · cases h
  · cases h

theorem process_list_candidates (z : Zobrist) (T : TileInfo) :
    ∀ (l : List Nat) (p q : Position),
      l.foldlM (fun q i => Position.process_siblings z T i q) p = some q →
      q.candidates = p.candidates := by
  intro l
  induction l with
  | nil => intro p q h; cases h; rfl
  | cons a rest ih =>
    intro p q h
    rw [List.foldlM_cons] at h
    cases h1 : Position.process_siblings z T a p with
    | none => rw [h1] at h; cases h
    | some p1 =>
      rw [h1] at h
      rw [ih p1 q h, process_siblings_candidates z T a p p1 h1]

theorem do_move_candidates (z : Zobrist) (T : TileInfo) (p q : Position)
    (h : p.do_move z T = some q) : q.candidates = p.candidates := by
  unfold Position.do_move at h
  cases h1 : Position.process_all_siblings z T p with
  | none => rw [h1] at h; cases h
  | some p1 =>
    rw [h1] at h
    have h2 := process_list_candidates z T _ p p1 h1
    have h3 : p1.increment_turn = some q := h
    unfold Position.increment_turn at h3
    split at h3
    · cases h3; exact h2
    · split at h3
      · cases h3; exact h2
      · cases h3

theorem update_tile_index_candidates (z : Zobrist) (index : Int) (p q : Position)
    (h : p.update_tile_index z index = some q) : q.candidates = p.candidates := by
  unfold Position.update_tile_index at h
  by_cases h1 : p.tile_index = index
  · rw [if_pos h1] at h; cases h; rfl
  · rw [if_neg h1] at h
    simp only at h
    by_cases h0 : 0 ≤ index
    · rw [if_pos h0] at h
      cases ht : TILES_PERMUTATIONS[index.toNat]? with
      | none => rw [ht] at h; cases h
      | some t => rw [ht] at h; cases h; rfl
    · rw [if_neg h0] at h; cases h

theorem do_move_player_candidates (z : Zobrist) (m : PlayerMove) (p q : Position)
    (h : p.do_move_player z m = some q) : q.candidates = p.candidates := by
  unfold Position.do_move_player at h
  split at h
  · split at h
    · exact do_move_candidates z _ p q h
    · cases h
  · cases h

theorem create_candidates (z : Zobrist) (s : List Nat) (p : Position)
    (h : Position.create z s = some p) : p.candidates = ALL_TILES_INFO := by
  unfold Position.create at h
  split at h
  · cases h1 : Position.do_move_chance z _ Position.blank with
    | none => rw [h1] at h; cases h
    | some p1 =>
      rw [h1] at h
      have h2 : Position.process_all_siblings z _ p1 = some p := h
      rw [process_list_candidates z _ _ p1 p h2, update_tile_index_candidates z _ _ p1 h1]
      rfl
  · cases h

theorem play_legal_spec (z : Zobrist) (p q : Position) (m : PlayerMove)
    (h : play_legal z p m = some q) : Step z p q ∧ q.candidates = p.candidates := by
  unfold play_legal at h
  split at h
  · exact ⟨Step.move p q m h, do_move_player_candidates z m p q h⟩
  · cases h

theorem play_game_spec (z : Zobrist) :
    ∀ (l : List PlayerMove) (p q : Position), l.foldlM (play_legal z) p = some q →
      ReachableFrom z p q ∧ q.candidates = p.candidates := by
  intro l
  induction l using List.reverseRecOn with
  | nil => intro p q h; cases h; exact ⟨ReachableFrom.refl, rfl⟩
  | append_singleton l a ih =>
    intro p q h
    rw [List.foldlM_append] at h
    cases h1 : List.foldlM (play_legal z) p l with
    | none => rw [h1] at h; cases h
    | some p1 =>
      rw [h1] at h
      have h2 : play_legal z p1 a = some q := by
        simpa [List.foldlM_cons] using h
      obtain ⟨r1, c1⟩ := ih p p1 h1
      obtain ⟨s2, c2⟩ := play_legal_spec z p1 q a h2
      exact ⟨ReachableFrom.step p1 q r1 s2, by rw [c2, c1]⟩

/-! ### A finished game -/

theorem finished_eq : finished_game.foldlM (play_legal sample_keys) opening = some finished := by
  have h := finished_played
  unfold finished
  cases hc : finished_game.foldlM (play_legal sample_keys) opening with
  | none => rw [hc] at h; cases h
  | some p => rfl

theorem finished_filled : finished.filled.bits = finished_bits := by
  have h := finished_played
  rw [finished_eq] at h
  exact Option.some.inj h

theorem finished_reachable : Reachable sample_keys finished :=
  ⟨chars "Hh123456h", opening, opening_created,
    (play_game_spec sample_keys finished_game opening finished finished_eq).1⟩

theorem finished_candidates : finished.candidates = ALL_TILES_INFO := by
  rw [(play_game_spec sample_keys finished_game opening finished finished_eq).2]
  exact create_candidates sample_keys _ opening opening_created

/-- At the end of `finished_game` every placement of the registry covers more
than `MAX_OVERLAPS` filled dots: no placement is legal. -/
theorem finished_terminal : finished.end_game = true := by
  unfold Position.end_game
  rw [Bool.not_eq_true', ← Bool.not_eq_true, List.any_eq_true]
  rintro ⟨T, hT, hpm⟩
  rw [finished_candidates] at hT
  have hw := registry_wf T hT
  have hcnt := count_matches_eq_dots T hw finished.filled
  have hover : 4 < T.count_matches finished.filled := by
    rw [hcnt]
    have hfun : (fun d => finished.filled.test d) = (fun d => finished_bits.testBit d) := by
      funext d
      unfold Bitboard.test
      rw [finished_filled]
    rw [hfun]
    obtain ⟨dot, hd, h | h⟩ := registry_dots T hT
    · rw [h.2.2]
      exact (finished_table dot hd).1 h.1 h.2.1
    · rw [h.2.2]
      exact (finished_table dot hd).2 h.1 h.2.1
  unfold Position.possible_move at hpm
  simp only [MAX_OVERLAPS] at hpm
  have h0 : T.count_matches finished.filled ≠ 0 := by omega
  rw [if_pos h0] at hpm
  have := of_decide_eq_true hpm
  omega

end Box
namespace Box

/-! ## The permutation table and `find_tile_index` -/

theorem chars_tile : chars "123456" = [49, 50, 51, 52, 53, 54] := by decide

set_option maxRecDepth 1000000 in
theorem tiles_sorted_table :
    ((TILES_PERMUTATIONS.zip TILES_PERMUTATIONS.tail).all
      (fun ab => decide (ab.1 < ab.2))) = true := by
  decide!

set_option maxRecDepth 1000000 in
theorem tiles_perm_table :
    (TILES_PERMUTATIONS.all (fun t => decide (t.length = 6) &&
      [49, 50, 51, 52, 53, 54].all (fun c => t.contains c))) = true := by
  decide!

theorem chain_of_zip_tail :
    ∀ (l : List (List Nat)), (l.zip l.tail).all (fun ab => decide (ab.1 < ab.2)) = true →
      l.Chain' (fun a b => a < b) := by
  intro l
  induction l with
  | nil => intro _; exact List.chain'_nil
  | cons a rest ih =>
    intro h
    cases rest with
    | nil => exact List.chain'_singleton a
    | cons b rest2 =>
      simp only [List.tail_cons, List.zip_cons_cons, List.all_cons, Bool.and_eq_true,
        decide_eq_true_eq] at h
      refine List.chain'_cons.mpr ⟨h.1, ih ?_⟩
      simpa using h.2

set_option maxRecDepth 100000 in
/-- The table is strictly increasing in the lexicographic order of strings. -/
theorem tiles_pairwise : TILES_PERMUTATIONS.Pairwise (fun a b => a < b) := by
  have h := chain_of_zip_tail TILES_PERMUTATIONS tiles_sorted_table
  exact List.chain'_iff_pairwise.mp h

theorem tiles_nodup : TILES_PERMUTATIONS.Nodup :=
  tiles_pairwise.imp (fun h => ne_of_lt h)

theorem tiles_perm (t : List Nat) (ht : t ∈ TILES_PERMUTATIONS) :
    t.Perm (chars "123456") := by
  have h := tiles_perm_table
  rw [List.all_eq_true] at h
  have h2 := h t ht
  rw [Bool.and_eq_true, List.all_eq_true] at h2
  have hlen : t.length = 6 := of_decide_eq_true h2.1
  rw [chars_tile]
  have hsub : [49, 50, 51, 52, 53, 54] ⊆ t := by
    intro c hc
    have := h2.2 c hc
    simpa using this
  have hnd : ([49, 50, 51, 52, 53, 54] : List Nat).Nodup := by decide
  have hsp : List.Subperm [49, 50, 51, 52, 53, 54] t := hnd.subperm hsub
  exact (hsp.perm_of_length_le (by rw [hlen]; rfl)).symm

/-- Every arrangement of `"123456"` is an entry of the table. -/
theorem tiles_complete (s : List Nat) (hs : s.Perm (chars "123456")) :
    s ∈ TILES_PERMUTATIONS := by
  have hnd : (chars "123456").Nodup := by rw [chars_tile]; decide
  have hsub : TILES_PERMUTATIONS.toFinset ⊆ (chars "123456").permutations.toFinset := by
    intro t ht
    rw [List.mem_toFinset] at ht ⊢
    exact List.mem_permutations.mpr (tiles_perm t ht)
  have hcard : (chars "123456").permutations.toFinset.card ≤ TILES_PERMUTATIONS.toFinset.card := by
    rw [List.toFinset_card_of_nodup tiles_nodup,
      List.toFinset_card_of_nodup (List.nodup_permutations _ hnd), List.length_permutations,
      tiles_length, chars_tile]
    decide
  have heq := Finset.eq_of_subset_of_card_le hsub hcard
  have : s ∈ (chars "123456").permutations.toFinset :=
    List.mem_toFinset.mpr (List.mem_permutations.mpr hs)
  rw [← heq] at this
  exact List.mem_toFinset.mp this

/-- The loop of `std::lower_bound` on a strictly increasing vector returns
the partition point of `x`. -/
theorem lower_bound_loop_spec (v : List (List Nat)) (x : List Nat)
    (hs : v.Pairwise (fun a b => a < b)) :
    ∀ (fuel first len : Nat), len ≤ fuel → first + len ≤ v.length →
      (∀ j, j < first → v.getD j [] < x) →
      (∀ j, first + len ≤ j → j < v.length → ¬ v.getD j [] < x) →
      lower_bound_loop v x fuel first len ≤ v.length ∧
      (∀ j, j < lower_bound_loop v x fuel first len → v.getD j [] < x) ∧
      (∀ j, lower_bound_loop v x fuel first len ≤ j → j < v.length → ¬ v.getD j [] < x) := by
  have hmono : ∀ i j, i < j → j < v.length → v.getD i [] < v.getD j [] := by
    intro i j hij hj
    rw [List.getD_eq_getElem _ _ (by omega : i < v.length), List.getD_eq_getElem _ _ hj]
    exact List.pairwise_iff_getElem.mp hs i j (by omega) hj hij
  intro fuel
  induction fuel with
  | zero =>
    intro first len hl hb h1 h2
    have : len = 0 := by omega
    subst this
    unfold lower_bound_loop
    exact ⟨by omega, h1, fun j hj hjl => h2 j (by omega) hjl⟩
  | succ n ih =>
    intro first len hl hb h1 h2
    unfold lower_bound_loop
    by_cases hlen : len > 0
    · rw [if_pos hlen]
      simp only
      by_cases hmid : v.getD (first + len / 2) [] < x
      · rw [if_pos hmid]
        have hhalf : len / 2 < len := Nat.div_lt_self hlen (by decide)
        apply ih
        · omega
        · omega
        · intro j hj
          by_cases hjm : j = first + len / 2
          · rw [hjm]; exact hmid
          · exact lt_trans (hmono j (first + len / 2) (by omega) (by omega)) hmid
        · intro j hj hjl
          exact h2 j (by omega) hjl
      · rw [if_neg hmid]
        have hhalf : len / 2 < len := Nat.div_lt_self hlen (by decide)
        apply ih
        · omega
        · omega
        · exact h1
        · intro j hj hjl hlt
          by_cases hjm : j = first + len / 2
          · rw [hjm] at hlt; exact hmid hlt
          · exact hmid (lt_trans (hmono (first + len / 2) j (by omega) hjl) hlt)
    · rw [if_neg hlen]
      have : len = 0 := by omega
      subst this
      exact ⟨by omega, h1, fun j hj hjl => h2 j (by omega) hjl⟩

theorem find_tile_index_spec (x : List Nat) :
    ∃ k, k ≤ TILES_PERMUTATIONS.length ∧
      (∀ j, j < k → TILES_PERMUTATIONS.getD j [] < x) ∧
      (∀ j, k ≤ j → j < TILES_PERMUTATIONS.length → ¬ TILES_PERMUTATIONS.getD j [] < x) ∧
      find_tile_index x =
        if k ≠ TILES_PERMUTATIONS.length ∧ TILES_PERMUTATIONS.getD k [] = x then (k : Int)
        else -1 := by
  obtain ⟨h1, h2, h3⟩ := lower_bound_loop_spec TILES_PERMUTATIONS x tiles_pairwise
    TILES_PERMUTATIONS.length 0 TILES_PERMUTATIONS.length (le_refl _) (by omega)
    (fun j hj => absurd hj (Nat.not_lt_zero j)) (fun j hj hjl => by omega)
  exact ⟨_, h1, h2, h3, rfl⟩

theorem find_tile_index_entry (i : Nat) (hi : i < TILES_PERMUTATIONS.length) :
    find_tile_index (TILES_PERMUTATIONS.get ⟨i, hi⟩) = (i : Int) := by
  obtain ⟨k, hk, h2, h3, he⟩ := find_tile_index_spec (TILES_PERMUTATIONS.get ⟨i, hi⟩)
  have hget : TILES_PERMUTATIONS.getD i [] = TILES_PERMUTATIONS.get ⟨i, hi⟩ := by
    rw [List.getD_eq_getElem _ _ hi]; rfl
  have hki : k = i := by
    rcases Nat.lt_trichotomy k i with h | h | h
    · exfalso
      have hlt : TILES_PERMUTATIONS.getD k [] < TILES_PERMUTATIONS.getD i [] := by
        rw [List.getD_eq_getElem _ _ (by omega : k < TILES_PERMUTATIONS.length),
          List.getD_eq_getElem _ _ hi]
        exact List.pairwise_iff_getElem.mp tiles_pairwise k i (by omega) hi h
      rw [hget] at hlt
      exact h3 k (le_refl _) (by omega) hlt
    · exact h
    · exfalso
      have := h2 i h
      rw [hget] at this
      exact lt_irrefl _ this
  rw [he, hki, if_pos ⟨by omega, hget⟩]

theorem find_tile_index_absent (s : List Nat) (hs : s ∉ TILES_PERMUTATIONS) :
    find_tile_index s = -1 := by
  obtain ⟨k, hk, _, _, he⟩ := find_tile_index_spec s
  rw [he, if_neg]
  rintro ⟨hne, heq⟩
  apply hs
  rw [← heq, List.getD_eq_getElem _ _ (by omega : k < TILES_PERMUTATIONS.length)]
  exact List.getElem_mem _

end Box

/-! ## Moves and invariants of reachable positions -/

namespace Box

set_option maxRecDepth 100000 in
theorem center_overfull : MAX_OVERLAPS < center_tile.count_matches opening.filled := by
  decide!

/-- C4. On a position that satisfies the representation invariant and holds
a drawn tile `t`, `do_move(T)` for a placement `T` of the registry succeeds and
leaves a position in which both dots of the sibling pair of index `i` have the
color `t[i]` (for `i = 0 .. 5`), every dot not covered by `T` keeps its color,
`turn` grew by exactly 1, the side to move went from 1 to 2 or from 2 to 1, and
`tile_index` and `tile` are unchanged. -/
theorem do_move_effect (z : Zobrist) (p : Position) (T : TileInfo) (t : List Nat)
    (hp : p.Inv z) (htile : p.tile = some t) (hT : T ∈ ALL_TILES_INFO) :
    ∃ q, p.do_move z T = some q ∧
      (∀ i < TILE_DOTS, ∃ d1 d2 c, T.siblings[i]? = some (d1, d2) ∧ t[i]? = some c ∧
        q.colors d1 = c ∧ q.colors d2 = c) ∧
      (∀ d, T.bitboard.test d = false → q.colors d = p.colors d) ∧
      q.turn = p.turn + 1 ∧
      ((p.player = PLAYER_1 ∧ q.player = PLAYER_2) ∨
        (p.player = PLAYER_2 ∧ q.player = PLAYER_1)) ∧
      q.tile_index = p.tile_index ∧ q.tile = p.tile := by
  have hw := registry_wf T hT
  obtain ⟨q, e, -, k1, k2, -, f1, f2, -, f4, f5, f6⟩ :=
    do_move_spec z T t p hw (inv_tile z p hp t htile) hp htile
  refine ⟨q, e, ?_, ?_, f4, ?_, f2, f1⟩
  · intro i hi
    have hil : i < T.siblings.length := by rw [hw.len]; exact hi
    have hit : i < t.length := by rw [(inv_tile z p hp t htile).1]; exact hi
    have hs : T.siblings[i]? = some T.siblings[i] := List.getElem?_eq_getElem hil
    have hpd : T.pair_dots i = [T.siblings[i].1, T.siblings[i].2] := by
      unfold TileInfo.pair_dots; rw [hs]; rfl
    have h1 := k2 i hi T.siblings[i].1 (by rw [hpd]; simp)
    have h2 := k2 i hi T.siblings[i].2 (by rw [hpd]; simp)
    rw [List.getElem?_eq_getElem hit] at h1 h2
    exact ⟨T.siblings[i].1, T.siblings[i].2, t[i], hs, List.getElem?_eq_getElem hit,
      (Option.some.inj h1).symm, (Option.some.inj h2).symm⟩
  · intro d hd
    apply k1
    intro hmem
    rw [(hw.covered d).mpr hmem] at hd
    cases hd
  · rcases hp.player_ok with h | h
    · exact Or.inl ⟨h, f5 h⟩
    · exact Or.inr ⟨h, f6 h⟩

theorem do_move_effect_witness :
    opening.Inv sample_keys ∧ opening.tile = some (chars "123456") ∧
    sample_tile ∈ ALL_TILES_INFO ∧
    ∃ q, opening.do_move sample_keys sample_tile = some q ∧
      (∀ i < TILE_DOTS, ∃ d1 d2 c, sample_tile.siblings[i]? = some (d1, d2) ∧
        (chars "123456")[i]? = some c ∧ q.colors d1 = c ∧ q.colors d2 = c) ∧
      (∀ d, sample_tile.bitboard.test d = false → q.colors d = opening.colors d) ∧
      q.turn = opening.turn + 1 ∧
      ((opening.player = PLAYER_1 ∧ q.player = PLAYER_2) ∨
        (opening.player = PLAYER_2 ∧ q.player = PLAYER_1)) ∧
      q.tile_index = opening.tile_index ∧ q.tile = opening.tile :=
  ⟨reachable_inv sample_keys opening opening_reachable, opening_tile, sample_tile_mem,
    do_move_effect sample_keys opening sample_tile (chars "123456")
      (reachable_inv sample_keys opening opening_reachable) opening_tile sample_tile_mem⟩

/-- C5. In every position reachable from the constructor by chance moves and
player moves, a dot is in `filled` if and only if its color is not `WHITE`. -/
theorem filled_iff_colored (z : Zobrist) (q : Position) (h : Reachable z q) (d : Nat) :
    q.filled.test d = true ↔ q.colors d ≠ WHITE :=
  (reachable_inv z q h).filled_iff d

theorem filled_iff_colored_witness :
    Reachable sample_keys opening ∧
    (opening.filled.test 147 = true ↔ opening.colors 147 ≠ WHITE) :=
  ⟨opening_reachable, filled_iff_colored sample_keys opening opening_reachable 147⟩

/-- C6. In every position reachable from the constructor by chance moves and
player moves, for a color index `c` in `0 .. 5`, a column `col` in `0 .. 19` and
a row `r` in `0 .. 15`, bit `r` of `columns[c][col]` is set if and only if
`colors[r * COLS + col] - '1'` is `c`; hence a dot is recorded in the column
bitmap of at most one color. -/
theorem columns_coherent (z : Zobrist) (q : Position) (h : Reachable z q) (c col r : Nat)
    (hc : c < MAX_COLORS) (hcol : col < COLS) (hr : r < ROWS) :
    ((q.columns c col).test r = true ↔ color_index (q.colors (r * COLS + col)) = (c : Int)) ∧
    (∀ c', c' < MAX_COLORS → (q.columns c' col).test r = true →
      (q.columns c col).test r = true → c' = c) := by
  have inv := reachable_inv z q h
  have key : ∀ k, k < MAX_COLORS →
      ((q.columns k col).test r = true ↔ color_index (q.colors (r * COLS + col)) = (k : Int)) := by
    intro k hk
    rw [Column.test_iff, inv.columns_iff k col r hk hcol]
    unfold color_index
    constructor
    · rintro ⟨-, h2⟩; rw [h2]; push_cast; omega
    · intro h2; exact ⟨hr, by omega⟩
  refine ⟨key c hc, ?_⟩
  intro c' hc' h1 h2
  have e1 := (key c' hc').mp h1
  have e2 := (key c hc).mp h2
  omega

theorem columns_coherent_witness :
    Reachable sample_keys opening ∧ 0 < MAX_COLORS ∧ 7 < COLS ∧ 7 < ROWS ∧
    (((opening.columns 0 7).test 7 = true ↔
        color_index (opening.colors (7 * COLS + 7)) = ((0 : Nat) : Int)) ∧
      (∀ c', c' < MAX_COLORS → (opening.columns c' 7).test 7 = true →
        (opening.columns 0 7).test 7 = true → c' = 0)) :=
  ⟨opening_reachable, by decide, by decide, by decide,
    columns_coherent sample_keys opening opening_reachable 0 7 7 (by decide) (by decide)
      (by decide)⟩

/-- C7. For every table of Zobrist keys and every position reachable from the
constructor by chance moves and player moves, the incrementally maintained
`get_hash()` equals `compute_hash()`, the hash recomputed from `colors`,
`tile_index` and the side to move. -/
theorem hash_coherent (z : Zobrist) (q : Position) (h : Reachable z q) :
    q.get_hash z = q.compute_hash z := by
  have inv := reachable_inv z q h
  have hc : q.compute_hash z =
      (if q.player = PLAYER_1 then
        (if q.tile_index ≠ -1 then dots_hash z q.colors ALL_DOTS ^^^ z.tiles q.tile_index.toNat
          else dots_hash z q.colors ALL_DOTS) ^^^ z.player_1
      else if q.player = PLAYER_2 then
        (if q.tile_index ≠ -1 then dots_hash z q.colors ALL_DOTS ^^^ z.tiles q.tile_index.toNat
          else dots_hash z q.colors ALL_DOTS) ^^^ z.player_2
      else
        (if q.tile_index ≠ -1 then dots_hash z q.colors ALL_DOTS ^^^ z.tiles q.tile_index.toNat
          else dots_hash z q.colors ALL_DOTS)) := rfl
  have hz : q.zobrist_hash =
      (if q.tile_index ≠ -1 then dots_hash z q.colors ALL_DOTS ^^^ z.tiles q.tile_index.toNat
        else dots_hash z q.colors ALL_DOTS) := by
    rw [inv.hash]
    split
    · rfl
    · rw [Nat.xor_zero]
  rw [hc]
  unfold Position.get_hash
  rw [← hz]
  rcases inv.player_ok with h1 | h2
  · rw [if_pos h1, if_pos h1]
  · have h1 : ¬ q.player = PLAYER_1 := by rw [h2]; decide
    rw [if_neg h1, if_neg h1, if_pos h2]

theorem hash_coherent_witness :
    Reachable sample_keys opening ∧
    opening.get_hash sample_keys = opening.compute_hash sample_keys :=
  ⟨opening_reachable, hash_coherent sample_keys opening opening_reachable⟩

/-- C8. If a placement `T` covers more than `MAX_OVERLAPS` filled dots in a
position `p`, then in every position `q` obtained from `p` by further chance
moves and player moves `T` still covers more than `MAX_OVERLAPS` filled dots
and `possible_move(T)` is false: no move ever clears a filled dot, so the
overlap count never decreases. -/
theorem overfull_stays_illegal (z : Zobrist) (p q : Position) (T : TileInfo)
    (hover : MAX_OVERLAPS < T.count_matches p.filled) (hr : ReachableFrom z p q) :
    (∀ d, p.filled.test d = true → q.filled.test d = true) ∧
    T.count_matches p.filled ≤ T.count_matches q.filled ∧
    MAX_OVERLAPS < T.count_matches q.filled ∧ q.possible_move T = false := by
  have hmono := reachable_from_filled z p q hr
  have hle := count_matches_mono T p.filled q.filled hmono
  have hq : MAX_OVERLAPS < T.count_matches q.filled := Nat.lt_of_lt_of_le hover hle
  refine ⟨hmono, hle, hq, ?_⟩
  unfold Position.possible_move
  simp only [MAX_OVERLAPS] at hq ⊢
  have h0 : T.count_matches q.filled ≠ 0 := by omega
  rw [if_pos h0]
  simp only [decide_eq_false_iff_not]
  omega

theorem overfull_stays_illegal_witness :
    MAX_OVERLAPS < center_tile.count_matches opening.filled ∧
    ReachableFrom sample_keys opening finished ∧
    ((∀ d, opening.filled.test d = true → finished.filled.test d = true) ∧
      center_tile.count_matches opening.filled ≤ center_tile.count_matches finished.filled ∧
      MAX_OVERLAPS < center_tile.count_matches finished.filled ∧
      finished.possible_move center_tile = false) :=
  ⟨center_overfull, (play_game_spec sample_keys finished_game opening finished finished_eq).1,
    overfull_stays_illegal sample_keys opening finished center_tile center_overfull
      (play_game_spec sample_keys finished_game opening finished finished_eq).1⟩

end Box

/-! ## The exact score counts squares -/

namespace Box

/-- C2. In a position whose column bitmaps of the color index `c` agree with
`colors` (as they do in every reachable position, for each of the six colors),
`get_score(c)` returns the sum, over the axis-aligned squares of side `b ≥ 1`
inside the 16x20 grid whose four corner dots have that color, of the side `b`,
each square counted once. -/
theorem get_score_counts_squares (p : Position) (c : Nat) (hcoh : p.ColumnsCoherent c) :
    p.get_score c =
      some ((∑ col ∈ Finset.range COLS, ∑ r ∈ Finset.range ROWS, ∑ b ∈ Finset.range ROWS,
        if 1 ≤ b ∧ r + b < ROWS ∧ col + b < COLS ∧ p.square c r col b then b else 0 : Nat) : Int) :=
  get_score_sum p c hcoh

theorem get_score_counts_squares_witness :
    opening.ColumnsCoherent 0 ∧
    opening.get_score 0 =
      some ((∑ col ∈ Finset.range COLS, ∑ r ∈ Finset.range ROWS, ∑ b ∈ Finset.range ROWS,
        if 1 ≤ b ∧ r + b < ROWS ∧ col + b < COLS ∧ opening.square 0 r col b then b else 0
          : Nat) : Int) :=
  ⟨inv_coherent sample_keys opening (reachable_inv sample_keys opening opening_reachable) 0
      (by decide),
    get_score_counts_squares opening 0
      (inv_coherent sample_keys opening (reachable_inv sample_keys opening opening_reachable) 0
        (by decide))⟩

/-- C3. For a row `r`, a column `c` and a side `b ≥ 1` with `r + b < 16` and
`c + b < 20`, on a board (with coherent column bitmaps) whose dots of the color
index `k` are exactly the four corners `(r,c)`, `(r,c+b)`, `(r+b,c)`,
`(r+b,c+b)`, `get_score(k)` returns `b`. -/
theorem single_square_score (p : Position) (k r c b : Nat) (hcoh : p.ColumnsCoherent k)
    (hb : 1 ≤ b) (hrb : r + b < ROWS) (hcb : c + b < COLS)
    (hcorners : ∀ d, p.colors d = k + 49 ↔
      d = r * COLS + c ∨ d = r * COLS + (c + b) ∨ d = (r + b) * COLS + c ∨
        d = (r + b) * COLS + (c + b)) :
    p.get_score k = some (b : Int) := by
  rw [get_score_sum p k hcoh, single_square_sum p k r c b hb hrb hcb hcorners]

theorem single_square_score_witness :
    one_square.ColumnsCoherent 0 ∧ 1 ≤ 1 ∧ 0 + 1 < ROWS ∧ 0 + 1 < COLS ∧
    (∀ d, one_square.colors d = 0 + 49 ↔
      d = 0 * COLS + 0 ∨ d = 0 * COLS + (0 + 1) ∨ d = (0 + 1) * COLS + 0 ∨
        d = (0 + 1) * COLS + (0 + 1)) ∧
    one_square.get_score 0 = some ((1 : Nat) : Int) :=
  ⟨one_square_coherent, by decide, by decide, by decide, one_square_corners,
    single_square_score one_square 0 0 0 1 one_square_coherent (by decide) (by decide)
      (by decide) one_square_corners⟩

end Box
namespace Box

/-! ## Claims on the search entry point -/

variable {F : Type} [DoubleOps F]

/-- C9 (the code diverges). `finished` is reached from the opening "Hh123456h"
by nineteen legal placements and no placement is legal in it; called on it,
`get_best_move` returns nothing at all, neither a move nor a "no move" value,
whatever the clock, the globals and the fuel: no simulation creates a root
state, `state_store.get(pos)` is the null pointer, and it is dereferenced. -/
theorem get_best_move_at_finished (fuel : Nat) (clock : Nat → Bool) (color : Nat)
    (G : Globals F) :
    Reachable sample_keys finished ∧ finished.end_game = true ∧
      get_best_move sample_keys fuel clock finished color G = none :=
  ⟨finished_reachable, finished_terminal,
    get_best_move_terminal_fails sample_keys fuel clock finished color G finished_terminal⟩

/-- C10 (the code diverges). The opening "Hh123456h" is not terminal; called on
it with a clock that has already run out (every test
`get_delta_time_since(start) < max_time` fails, so both loops run zero times),
`get_best_move` returns no move, whatever the globals and the fuel: the store
is still empty, `root` is the null pointer, and `root->select_most_visited()`
dereferences it. -/
theorem get_best_move_at_opening_without_time (fuel : Nat) (color : Nat) (G : Globals F) :
    Reachable sample_keys opening ∧ opening.end_game = false ∧
      get_best_move sample_keys fuel (fun _ => false) opening color G = none :=
  ⟨opening_reachable, opening_open,
    get_best_move_no_time_fails sample_keys fuel (fun _ => false) opening color G rfl⟩

end Box
namespace Box

/-! ## Claims on the tables and on dot names -/

/-- C11. `TILES_PERMUTATIONS` holds 720 entries, which are exactly the
arrangements of `"123456"`, in strictly increasing lexicographic order;
`find_tile_index` returns `i` on the entry of index `i`, and `-1` on every
string that is not an entry. -/
theorem tiles_permutations_table :
    TILES_PERMUTATIONS.length = 720 ∧
    (∀ s, s ∈ TILES_PERMUTATIONS ↔ s.Perm (chars "123456")) ∧
    (∀ i j (hi : i < TILES_PERMUTATIONS.length) (hj : j < TILES_PERMUTATIONS.length), i < j →
      List.Lex (fun a b : Nat => a < b) (TILES_PERMUTATIONS.get ⟨i, hi⟩)
        (TILES_PERMUTATIONS.get ⟨j, hj⟩)) ∧
    (∀ i (hi : i < TILES_PERMUTATIONS.length),
      find_tile_index (TILES_PERMUTATIONS.get ⟨i, hi⟩) = (i : Int)) ∧
    (∀ s, s ∉ TILES_PERMUTATIONS → find_tile_index s = -1) := by
  refine ⟨tiles_length, fun s => ⟨tiles_perm s, tiles_complete s⟩, ?_, find_tile_index_entry,
    find_tile_index_absent⟩
  intro i j hi hj hij
  exact List.pairwise_iff_getElem.mp tiles_pairwise i j hi hj hij

/-- C12. For a dot `d` in `0 .. 319`, `show_dot(d)` is the two-character
string made of the row letter `'A' + d / 20` (in `'A' .. 'P'`) and the column
letter `'a' + d % 20` (in `'a' .. 't'`), and `parse_dot(show_dot(d)) = d`;
for a row letter `a` in `'A' .. 'P'` and a column letter `b` in `'a' .. 't'`,
`parse_dot` of the name is a dot in `0 .. 319` and `show_dot` gives the name
back. -/
theorem dot_name_round_trip (d a b : Nat) (hd : d < TOTAL_DOTS) (ha : 65 ≤ a ∧ a ≤ 80)
    (hb : 97 ≤ b ∧ b ≤ 116) :
    (show_dot d = [65 + d / 20, 97 + d % 20] ∧ 65 + d / 20 ≤ 80 ∧ 97 + d % 20 ≤ 116) ∧
    parse_dot (show_dot d) = (d : Int) ∧
    (0 ≤ parse_dot [a, b] ∧ parse_dot [a, b] < TOTAL_DOTS) ∧
    show_dot (parse_dot [a, b]) = [a, b] := by
  simp only [TOTAL_DOTS, ROWS, COLS] at hd ⊢
  have hshow : show_dot d = [65 + d / 20, 97 + d % 20] := by
    unfold show_dot
    simp only [COLS]
    have e1 : ((d : Int).tdiv ((20 : Nat) : Int) + 65) % 256 = ((65 + d / 20 : Nat) : Int) := by
      rw [Int.tdiv_eq_ediv (Int.ofNat_nonneg _) (Int.ofNat_nonneg _)]
      omega
    have e2 : ((d : Int).tmod ((20 : Nat) : Int) + 97) % 256 = ((97 + d % 20 : Nat) : Int) := by
      rw [Int.tmod_eq_emod (Int.ofNat_nonneg _) (Int.ofNat_nonneg _)]
      omega
    rw [e1, e2, Int.toNat_ofNat, Int.toNat_ofNat]
  have hparse : parse_dot [a, b] = ((20 * (a - 65) + (b - 97) : Nat) : Int) := by
    unfold parse_dot
    simp only [List.getD_cons_zero, List.getD_cons_succ, COLS]
    omega
  refine ⟨⟨hshow, by omega, by omega⟩, ?_, ?_, ?_⟩
  · rw [hshow]
    unfold parse_dot
    simp only [List.getD_cons_zero, List.getD_cons_succ, COLS]
    omega
  · rw [hparse]
    omega
  · rw [hparse]
    unfold show_dot
    simp only [COLS]
    have e1 : (((20 * (a - 65) + (b - 97) : Nat) : Int).tdiv ((20 : Nat) : Int) + 65) % 256 =
        ((a : Nat) : Int) := by
      rw [Int.tdiv_eq_ediv (Int.ofNat_nonneg _) (Int.ofNat_nonneg _)]
      omega
    have e2 : (((20 * (a - 65) + (b - 97) : Nat) : Int).tmod ((20 : Nat) : Int) + 97) % 256 =
        ((b : Nat) : Int) := by
      rw [Int.tmod_eq_emod (Int.ofNat_nonneg _) (Int.ofNat_nonneg _)]
      omega
    rw [e1, e2, Int.toNat_ofNat, Int.toNat_ofNat]

theorem dot_name_round_trip_witness :
    (147 < TOTAL_DOTS ∧ (65 ≤ 72 ∧ 72 ≤ 80) ∧ (97 ≤ 104 ∧ 104 ≤ 116)) ∧
    (show_dot ((147 : Nat) : Int) = [65 + 147 / 20, 97 + 147 % 20] ∧ 65 + 147 / 20 ≤ 80 ∧
      97 + 147 % 20 ≤ 116) ∧
    parse_dot (show_dot ((147 : Nat) : Int)) = ((147 : Nat) : Int) ∧
    (0 ≤ parse_dot [72, 104] ∧ parse_dot [72, 104] < TOTAL_DOTS) ∧
    show_dot (parse_dot [72, 104]) = [72, 104] :=
  ⟨by decide, dot_name_round_trip 147 72 104 (by decide) (by decide) (by decide)⟩

end Box
namespace Box

/-! ## Shape of the placements of the registry -/

set_option maxRecDepth 1000000 in
theorem registry_listing :
    ALL_TILES_INFO.map (fun T => (T.code, T.orientation, T.dot)) =
      (List.range 434).map (fun k =>
        if k < 209 then (k, VERTICAL, k / 19 * 20 + k % 19)
        else (k, HORIZONTAL, (k - 209) / 15 * 20 + (k - 209) % 15)) := by
  decide!

theorem registry_length : ALL_TILES_INFO.length = ALL_TILES_COUNT := by
  have h := congrArg List.length registry_listing
  simpa using h

theorem registry_entry (k : Nat) (hk : k < ALL_TILES_COUNT) :
    ∃ T, ALL_TILES_INFO[k]? = some T ∧ T.code = k ∧
      (k < 209 → T.orientation = VERTICAL ∧ T.dot = k / 19 * 20 + k % 19) ∧
      (209 ≤ k → T.orientation = HORIZONTAL ∧ T.dot = (k - 209) / 15 * 20 + (k - 209) % 15) := by
  have hlen := registry_length
  have hk2 : k < ALL_TILES_INFO.length := by rw [hlen]; exact hk
  have h := congrArg (fun l => l[k]?) registry_listing
  simp only [List.getElem?_map, List.getElem?_range hk, List.getElem?_eq_getElem hk2,
    Option.map_some', Option.some.injEq] at h
  refine ⟨ALL_TILES_INFO[k], List.getElem?_eq_getElem hk2, ?_, ?_, ?_⟩
  · by_cases h2 : k < 209
    · rw [if_pos h2] at h
      exact (Prod.mk.inj h).1
    · rw [if_neg h2] at h
      exact (Prod.mk.inj h).1
  · intro h2
    rw [if_pos h2] at h
    have := (Prod.mk.inj h).2
    exact ⟨(Prod.mk.inj this).1, (Prod.mk.inj this).2⟩
  · intro h2
    rw [if_neg (by omega)] at h
    have := (Prod.mk.inj h).2
    exact ⟨(Prod.mk.inj this).1, (Prod.mk.inj this).2⟩

/-- The sibling pairs of a placement of the registry, from its anchor and its
orientation. -/
theorem registry_shape (T : TileInfo) (hT : T ∈ ALL_TILES_INFO) :
    T.dot < TOTAL_DOTS ∧
    ((T.orientation = VERTICAL ∧ T.dot / 20 + 5 < 16 ∧ T.dot % 20 + 1 < 20 ∧
        T.siblings = (List.range TILE_DOTS).map (fun i =>
          ((T.dot / 20 + i) * 20 + (T.dot % 20 + 1), (T.dot / 20 + (5 - i)) * 20 + T.dot % 20))) ∨
     (T.orientation = HORIZONTAL ∧ T.dot / 20 + 1 < 16 ∧ T.dot % 20 + 5 < 20 ∧
        T.siblings = (List.range TILE_DOTS).map (fun i =>
          (T.dot / 20 * 20 + (T.dot % 20 + i), (T.dot / 20 + 1) * 20 + (T.dot % 20 + (5 - i)))))) := by
  obtain ⟨t, k, rfl, hv, ht⟩ := mem_registry T hT
  show t.dot < TOTAL_DOTS ∧
    ((t.orientation = VERTICAL ∧ t.dot / 20 + 5 < 16 ∧ t.dot % 20 + 1 < 20 ∧
        t.siblings = (List.range TILE_DOTS).map (fun i =>
          ((t.dot / 20 + i) * 20 + (t.dot % 20 + 1), (t.dot / 20 + (5 - i)) * 20 + t.dot % 20))) ∨
     (t.orientation = HORIZONTAL ∧ t.dot / 20 + 1 < 16 ∧ t.dot % 20 + 5 < 20 ∧
        t.siblings = (List.range TILE_DOTS).map (fun i =>
          (t.dot / 20 * 20 + (t.dot % 20 + i), (t.dot / 20 + 1) * 20 + (t.dot % 20 + (5 - i))))))
  rcases ht with h | h
  · unfold generate_vertical_tiles_info at h
    obtain ⟨dot, hd, rfl⟩ := List.mem_map.mp h
    have hd320 : dot < 320 := List.mem_range.mp hd
    obtain ⟨ht, -, hs, -, hdot, ho⟩ := generate_tile_info_valid _ _ _ _ _ hv
    have h5 := ht 5 (by decide)
    simp only [valid_dot, cols_cast, decide_eq_true_eq, Nat.cast_ofNat] at h5
    have hdd : (get_dot ((dot : Int) / COLS) ((dot : Int) % COLS)).toNat = dot := by
      simp only [get_dot, cols_cast]
      omega
    dsimp only
    rw [hdot, ho, hs, hdd]
    refine ⟨hd320, Or.inl ⟨rfl, by omega, by omega, ?_⟩⟩
    apply List.map_congr_left
    intro i hi
    have hi6 : i < 6 := List.mem_range.mp hi
    simp only [cell_dot, get_dot, cols_cast, TILE_DOTS, Prod.mk.injEq]
    constructor <;> omega
  · unfold generate_horizontal_tiles_info at h
    obtain ⟨dot, hd, rfl⟩ := List.mem_map.mp h
    have hd320 : dot < 320 := List.mem_range.mp hd
    obtain ⟨-, ht, hs, -, hdot, ho⟩ := generate_tile_info_valid _ _ _ _ _ hv
    have h5 := ht 5 (by decide)
    simp only [valid_dot, cols_cast, decide_eq_true_eq, Nat.cast_ofNat] at h5
    have hdd : (get_dot ((dot : Int) / COLS) ((dot : Int) % COLS)).toNat = dot := by
      simp only [get_dot, cols_cast]
      omega
    dsimp only
    rw [hdot, ho, hs, hdd]
    refine ⟨hd320, Or.inr ⟨rfl, by omega, by omega, ?_⟩⟩
    apply List.map_congr_left
    intro i hi
    have hi6 : i < 6 := List.mem_range.mp hi
    simp only [cell_dot, get_dot, cols_cast, TILE_DOTS, Prod.mk.injEq]
    constructor <;> omega

end Box
namespace Box

/-! ## The neighbors of a placement -/

theorem Bitboard.test_and (a b : Bitboard) (d : Nat) :
    (a.and b).test d = (a.test d && b.test d) := by
  unfold Bitboard.and Bitboard.test
  exact Nat.testBit_and _ _ _

theorem Bitboard.test_not (a : Bitboard) (d : Nat) (hd : d < Bitboard.WIDTH) :
    a.not.test d = !a.test d := by
  unfold Bitboard.not Bitboard.test
  simp only
  rw [Nat.testBit_xor, Nat.testBit_two_pow_sub_one]
  simp [hd]

/-- Bits of a board obtained by a loop whose body only adds bits. -/
theorem test_foldl_add {α : Type} (g : Bitboard → α → Bitboard) (P : α → Nat → Prop)
    (hg : ∀ b a d, (g b a).test d = true ↔ b.test d = true ∨ P a d) :
    ∀ (l : List α) (b : Bitboard) (d : Nat),
      (l.foldl g b).test d = true ↔ b.test d = true ∨ ∃ a ∈ l, P a d := by
  intro l
  induction l with
  | nil => intro b d; simp
  | cons a rest ih =>
    intro b d
    rw [List.foldl_cons, ih, hg]
    constructor
    · rintro ((h | h) | ⟨x, hx, h⟩)
      · exact Or.inl h
      · exact Or.inr ⟨a, List.mem_cons_self _ _, h⟩
      · exact Or.inr ⟨x, List.mem_cons_of_mem _ hx, h⟩
    · rintro (h | ⟨x, hx, h⟩)
      · exact Or.inl (Or.inl h)
      · rcases List.mem_cons.mp hx with rfl | hx
        · exact Or.inl (Or.inr h)
        · exact Or.inr ⟨x, hx, h⟩

/-- The dots set by the three nested loops of
`generate_tile_neighbors_bitboard`. -/
theorem neighbors_loop_test (siblings : List (Nat × Nat)) (d : Nat) :
    (siblings.foldl
      (fun b s => [s.1, s.2].foldl
        (fun b dot => (get_neighbors_of_dot dot).foldl (fun b n => b.set n.toNat) b) b)
      Bitboard.zero).test d = true ↔
    ∃ s ∈ siblings, ∃ dot ∈ [s.1, s.2], ∃ n ∈ get_neighbors_of_dot dot, n.toNat = d := by
  have h1 : ∀ (b : Bitboard) (n : Int) (d : Nat),
      (b.set n.toNat).test d = true ↔ b.test d = true ∨ n.toNat = d := by
    intro b n d
    rw [Bitboard.test_set]
    simp
  have h2 : ∀ (b : Bitboard) (dot : Nat) (d : Nat),
      ((get_neighbors_of_dot dot).foldl (fun b n => b.set n.toNat) b).test d = true ↔
        b.test d = true ∨ ∃ n ∈ get_neighbors_of_dot dot, n.toNat = d :=
    fun b dot d => test_foldl_add _ (fun n d => n.toNat = d) h1 _ b d
  have h3 : ∀ (b : Bitboard) (s : Nat × Nat) (d : Nat),
      ([s.1, s.2].foldl
        (fun b dot => (get_neighbors_of_dot dot).foldl (fun b n => b.set n.toNat) b) b).test d
          = true ↔
        b.test d = true ∨ ∃ dot ∈ [s.1, s.2], ∃ n ∈ get_neighbors_of_dot dot, n.toNat = d :=
    fun b s d => test_foldl_add _ (fun dot d => ∃ n ∈ get_neighbors_of_dot dot, n.toNat = d)
      h2 _ b d
  rw [test_foldl_add _
    (fun s d => ∃ dot ∈ [s.1, s.2], ∃ n ∈ get_neighbors_of_dot dot, n.toNat = d) h3]
  simp [Bitboard.test_zero]

/-- The list returned by `get_neighbors(dot)` holds the dots orthogonally
adjacent to `dot`. -/
theorem get_neighbors_adjacent (e d : Nat) (he : e < TOTAL_DOTS) :
    (∃ n ∈ get_neighbors_of_dot e, n.toNat = d) ↔ adjacent d e := by
  simp only [TOTAL_DOTS, ROWS, COLS] at he
  unfold get_neighbors_of_dot get_neighbors adjacent
  simp only [valid_dot, get_dot, cols_cast, TOTAL_DOTS, ROWS, COLS, decide_eq_true_eq,
    Nat.cast_ofNat]
  constructor
  · rintro ⟨n, hn, rfl⟩
    simp only [List.mem_append, List.mem_ite_nil_right, List.mem_singleton] at hn
    rcases hn with ((⟨hv, rfl⟩ | ⟨hv, rfl⟩) | ⟨hv, rfl⟩) | ⟨hv, rfl⟩ <;> omega
  · intro h
    refine ⟨(d : Int), ?_, Int.toNat_ofNat d⟩
    simp only [List.mem_append, List.mem_ite_nil_right, List.mem_singleton]
    omega

/-- A valid placement produced by the generators carries the neighbors
computed by `generate_tile_neighbors_bitboard` from its own siblings and
bitboard. -/
theorem generate_tile_info_neighbors (code dot : Nat) (o : Nat)
    (topCell bottomCell : Nat → Int × Int)
    (hv : (generate_tile_info code dot o topCell bottomCell).valid = true) :
    (generate_tile_info code dot o topCell bottomCell).neighbors_bitboard =
      generate_tile_neighbors_bitboard (generate_tile_info code dot o topCell bottomCell) := by
  obtain ⟨ht, hb, -, -, -, -⟩ := generate_tile_info_valid code dot o topCell bottomCell hv
  have htop : ∀ i ∈ List.range TILE_DOTS, valid_dot (topCell i).1 (topCell i).2 = true :=
    fun i hi => ht i (List.mem_range.mp hi)
  have hbot : ∀ i ∈ List.range TILE_DOTS, valid_dot (bottomCell i).1 (bottomCell i).2 = true :=
    fun i hi => hb i (List.mem_range.mp hi)
  have e1 := fill_dots_ok topCell (List.range TILE_DOTS)
    { siblings := [], bitboard := Bitboard.zero, neighbors_bitboard := Bitboard.zero,
      code := code, dot := dot, orientation := o } [] htop
  have a1 : ((List.range TILE_DOTS).foldl (fun b i => b.set (cell_dot topCell i))
      Bitboard.zero).any = true := foldl_set_any _ _ _ (by decide)
  have a2 : ((List.range TILE_DOTS).foldl (fun b i => b.set (cell_dot bottomCell i))
      ((List.range TILE_DOTS).foldl (fun b i => b.set (cell_dot topCell i))
      Bitboard.zero)).any = true := foldl_set_any _ _ _ (by decide)
  have hgen : generate_tile_info code dot o topCell bottomCell =
      { siblings := fill_siblings ((List.range TILE_DOTS).map (cell_dot topCell))
          ((List.range TILE_DOTS).map (cell_dot bottomCell)),
        bitboard := (List.range TILE_DOTS).foldl (fun b i => b.set (cell_dot bottomCell i))
          ((List.range TILE_DOTS).foldl (fun b i => b.set (cell_dot topCell i))
            Bitboard.zero),
        neighbors_bitboard := generate_tile_neighbors_bitboard
          { siblings := fill_siblings ((List.range TILE_DOTS).map (cell_dot topCell))
              ((List.range TILE_DOTS).map (cell_dot bottomCell)),
            bitboard := (List.range TILE_DOTS).foldl
              (fun b i => b.set (cell_dot bottomCell i))
              ((List.range TILE_DOTS).foldl (fun b i => b.set (cell_dot topCell i))
                Bitboard.zero),
            neighbors_bitboard := Bitboard.zero, code := code, dot := dot,
            orientation := o },
        code := code, dot := dot, orientation := o } := by
    unfold generate_tile_info
    simp only [e1]
    simp only [TileInfo.valid, a1, Bool.not_true, Bool.false_eq_true, if_false]
    rw [fill_dots_ok bottomCell (List.range TILE_DOTS) _ [] hbot]
    simp only [TileInfo.valid, a2, Bool.not_true, Bool.false_eq_true, if_false,
      List.nil_append]
  rw [hgen]
  rfl

theorem mem_dots (T : TileInfo) (e : Nat) :
    e ∈ T.dots ↔ ∃ s ∈ T.siblings, e ∈ [s.1, s.2] := by
  unfold TileInfo.dots
  rw [List.mem_flatMap]

/-- The neighbors of a placement of the registry: the dots of the grid that it
does not cover and that are orthogonally adjacent to a dot that it covers. -/
theorem registry_neighbors (T : TileInfo) (hT : T ∈ ALL_TILES_INFO) (d : Nat)
    (hd : d < Bitboard.WIDTH) :
    T.neighbors_bitboard.test d = true ↔
      T.bitboard.test d = false ∧ ∃ e, T.bitboard.test e = true ∧ adjacent d e := by
  have hw := registry_wf T hT
  obtain ⟨t, k, rfl, hv, ht⟩ := mem_registry T hT
  have hnb : t.neighbors_bitboard = generate_tile_neighbors_bitboard t := by
    rcases ht with h | h
    · unfold generate_vertical_tiles_info at h
      obtain ⟨dot, -, rfl⟩ := List.mem_map.mp h
      exact generate_tile_info_neighbors _ _ _ _ _ hv
    · unfold generate_horizontal_tiles_info at h
      obtain ⟨dot, -, rfl⟩ := List.mem_map.mp h
      exact generate_tile_info_neighbors _ _ _ _ _ hv
  show t.neighbors_bitboard.test d = true ↔
      t.bitboard.test d = false ∧ ∃ e, t.bitboard.test e = true ∧ adjacent d e
  have hcov : ∀ e, t.bitboard.test e = true ↔ e ∈ t.dots := hw.covered
  have hbound : ∀ e ∈ t.dots, e < TOTAL_DOTS := hw.bound
  rw [hnb]
  unfold generate_tile_neighbors_bitboard
  simp only
  rw [Bitboard.test_and, Bitboard.test_not _ _ hd, Bool.and_eq_true, neighbors_loop_test]
  constructor
  · rintro ⟨⟨s, hs, dot, hdot, hn⟩, hnot⟩
    have hmem : dot ∈ t.dots := (mem_dots t dot).mpr ⟨s, hs, hdot⟩
    refine ⟨by simpa using hnot, dot, (hcov dot).mpr hmem, ?_⟩
    exact (get_neighbors_adjacent dot d (hbound dot hmem)).mp hn
  · rintro ⟨hnot, e, he, hadj⟩
    have hmem : e ∈ t.dots := (hcov e).mp he
    obtain ⟨s, hs, hes⟩ := (mem_dots t e).mp hmem
    refine ⟨⟨s, hs, e, hes, ?_⟩, by simpa using hnot⟩
    exact (get_neighbors_adjacent e d (hbound e hmem)).mpr hadj

end Box
namespace Box

/-! ## Claims on the registry of placements -/

theorem dots_length (T : TileInfo) (hw : T.WF) : T.dots.length = 12 := by
  unfold TileInfo.dots
  rw [List.length_flatMap]
  have : (List.map (List.length ∘ fun s : Nat × Nat => [s.1, s.2]) T.siblings) =
      List.replicate T.siblings.length 2 := by
    rw [List.eq_replicate_iff]
    refine ⟨by simp, ?_⟩
    intro b hb
    obtain ⟨x, -, rfl⟩ := List.mem_map.mp hb
    rfl
  rw [this, hw.len]
  rfl

/-- C13. `ALL_TILES_INFO` has 434 entries. The vertical placement anchored at
row `r ≤ 10` and column `c ≤ 18` is the entry of index `19 r + c`, the
horizontal placement anchored at row `r ≤ 14` and column `c ≤ 14` is the entry
of index `209 + 15 r + c`, and there is no other entry: the 209 vertical ones
come first, then the 225 horizontal ones, each group by increasing anchor dot.
The entry of index `k` has the code `k`, and its twelve dots lie on the
grid. -/
theorem registry_enumeration :
    ALL_TILES_INFO.length = 434 ∧
    (∀ r c, r ≤ 10 → c ≤ 18 → ∃ T, ALL_TILES_INFO[19 * r + c]? = some T ∧
      T.code = 19 * r + c ∧ T.orientation = VERTICAL ∧ T.dot = r * COLS + c) ∧
    (∀ r c, r ≤ 14 → c ≤ 14 → ∃ T, ALL_TILES_INFO[209 + (15 * r + c)]? = some T ∧
      T.code = 209 + (15 * r + c) ∧ T.orientation = HORIZONTAL ∧ T.dot = r * COLS + c) ∧
    (∀ k T, ALL_TILES_INFO[k]? = some T →
      T.code = k ∧ k < 434 ∧ T.dots.length = 12 ∧ (∀ d ∈ T.dots, d < TOTAL_DOTS) ∧
      ((k < 209 ∧ T.orientation = VERTICAL ∧ T.dot / COLS ≤ 10 ∧ T.dot % COLS ≤ 18 ∧
          k = 19 * (T.dot / COLS) + T.dot % COLS) ∨
       (209 ≤ k ∧ T.orientation = HORIZONTAL ∧ T.dot / COLS ≤ 14 ∧ T.dot % COLS ≤ 14 ∧
          k = 209 + (15 * (T.dot / COLS) + T.dot % COLS)))) ∧
    (∀ j k Tj Tk, j < k → (k < 209 ∨ 209 ≤ j) → ALL_TILES_INFO[j]? = some Tj →
      ALL_TILES_INFO[k]? = some Tk → Tj.dot < Tk.dot) := by
  have hshape : ∀ k T, ALL_TILES_INFO[k]? = some T →
      T.code = k ∧ k < 434 ∧
      ((k < 209 ∧ T.orientation = VERTICAL ∧ T.dot = k / 19 * 20 + k % 19) ∨
       (209 ≤ k ∧ T.orientation = HORIZONTAL ∧
          T.dot = (k - 209) / 15 * 20 + (k - 209) % 15)) := by
    intro k T hk
    have hlt : k < ALL_TILES_INFO.length := (List.getElem?_eq_some_iff.mp hk).1
    rw [registry_length] at hlt
    obtain ⟨T', hT', hc, h1, h2⟩ := registry_entry k hlt
    rw [hk] at hT'
    cases hT'
    refine ⟨hc, hlt, ?_⟩
    by_cases h : k < 209
    · exact Or.inl ⟨h, h1 h⟩
    · exact Or.inr ⟨by omega, h2 (by omega)⟩
  refine ⟨registry_length, ?_, ?_, ?_, ?_⟩
  · intro r c hr hc
    obtain ⟨T, hT, hcode, h1, -⟩ := registry_entry (19 * r + c)
      (by simp only [ALL_TILES_COUNT]; omega)
    have h := h1 (by omega)
    refine ⟨T, hT, hcode, h.1, ?_⟩
    rw [h.2]
    simp only [COLS]
    omega
  · intro r c hr hc
    obtain ⟨T, hT, hcode, -, h2⟩ := registry_entry (209 + (15 * r + c))
      (by simp only [ALL_TILES_COUNT]; omega)
    have h := h2 (by omega)
    refine ⟨T, hT, hcode, h.1, ?_⟩
    rw [h.2]
    simp only [COLS]
    omega
  · intro k T hk
    obtain ⟨hc, hlt, h⟩ := hshape k T hk
    have hmem : T ∈ ALL_TILES_INFO := List.getElem?_mem hk
    have hw := registry_wf T hmem
    have hlen : T.dots.length = 12 := dots_length T hw
    refine ⟨hc, hlt, hlen, hw.bound, ?_⟩
    simp only [COLS]
    rcases h with ⟨h1, h2, h3⟩ | ⟨h1, h2, h3⟩
    · exact Or.inl ⟨h1, h2, by omega, by omega, by omega⟩
    · exact Or.inr ⟨h1, h2, by omega, by omega, by omega⟩
  · intro j k Tj Tk hjk hgrp hj hk
    obtain ⟨-, hj434, h1⟩ := hshape j Tj hj
    obtain ⟨-, hk434, h2⟩ := hshape k Tk hk
    rcases h1 with ⟨a1, -, a3⟩ | ⟨a1, -, a3⟩ <;> rcases h2 with ⟨b1, -, b3⟩ | ⟨b1, -, b3⟩ <;>
      omega

/-- C14. For a placement of the registry anchored at row `r` and column `c`
and for `i = 0 .. 5`: if it is vertical its sibling pair of index `i` is
`(dot(r + i, c + 1), dot(r + 5 - i, c))`, if it is horizontal it is
`(dot(r, c + i), dot(r + 1, c + 5 - i))`. The twelve sibling dots are pairwise
distinct and are exactly the bits set in the bitboard of the placement. -/
theorem siblings_layout (T : TileInfo) (hT : T ∈ ALL_TILES_INFO) :
    (T.orientation = VERTICAL ∨ T.orientation = HORIZONTAL) ∧
    (T.orientation = VERTICAL → ∀ i < TILE_DOTS, T.siblings[i]? =
      some ((T.dot / COLS + i) * COLS + (T.dot % COLS + 1),
        (T.dot / COLS + (5 - i)) * COLS + T.dot % COLS)) ∧
    (T.orientation = HORIZONTAL → ∀ i < TILE_DOTS, T.siblings[i]? =
      some (T.dot / COLS * COLS + (T.dot % COLS + i),
        (T.dot / COLS + 1) * COLS + (T.dot % COLS + (5 - i)))) ∧
    T.siblings.length = TILE_DOTS ∧ T.dots.length = 12 ∧ T.dots.Nodup ∧
    (∀ d, T.bitboard.test d = true ↔ d ∈ T.dots) := by
  have hw := registry_wf T hT
  obtain ⟨-, hs⟩ := registry_shape T hT
  have hlen : T.dots.length = 12 := dots_length T hw
  refine ⟨?_, ?_, ?_, hw.len, hlen, hw.nodup, hw.covered⟩
  · rcases hs with h | h
    · exact Or.inl h.1
    · exact Or.inr h.1
  · intro ho i hi
    rcases hs with h | h
    · rw [h.2.2.2, List.getElem?_map, List.getElem?_range hi]
      rfl
    · rw [h.1] at ho
      exact absurd ho (by decide)
  · intro ho i hi
    rcases hs with h | h
    · rw [h.1] at ho
      exact absurd ho (by decide)
    · rw [h.2.2.2, List.getElem?_map, List.getElem?_range hi]
      rfl

theorem siblings_layout_witness :
    sample_tile ∈ ALL_TILES_INFO ∧
    ((sample_tile.orientation = VERTICAL ∨ sample_tile.orientation = HORIZONTAL) ∧
    (sample_tile.orientation = VERTICAL → ∀ i < TILE_DOTS, sample_tile.siblings[i]? =
      some ((sample_tile.dot / COLS + i) * COLS + (sample_tile.dot % COLS + 1),
        (sample_tile.dot / COLS + (5 - i)) * COLS + sample_tile.dot % COLS)) ∧
    (sample_tile.orientation = HORIZONTAL → ∀ i < TILE_DOTS, sample_tile.siblings[i]? =
      some (sample_tile.dot / COLS * COLS + (sample_tile.dot % COLS + i),
        (sample_tile.dot / COLS + 1) * COLS + (sample_tile.dot % COLS + (5 - i)))) ∧
    sample_tile.siblings.length = TILE_DOTS ∧ sample_tile.dots.length = 12 ∧
    sample_tile.dots.Nodup ∧
    (∀ d, sample_tile.bitboard.test d = true ↔ d ∈ sample_tile.dots)) :=
  ⟨sample_tile_mem, siblings_layout sample_tile sample_tile_mem⟩

/-- C15. For a placement `T` of the registry and a dot `d` in `0 .. 319`: `d`
is in `T.neighbors_bitboard` if and only if `d` is not covered by `T` and is
orthogonally adjacent, inside the grid, to a dot covered by `T`; no dot is in
both `neighbors_bitboard` and `bitboard`. -/
theorem neighbors_layout (T : TileInfo) (hT : T ∈ ALL_TILES_INFO) (d : Nat)
    (hd : d < TOTAL_DOTS) :
    (T.neighbors_bitboard.test d = true ↔
      T.bitboard.test d = false ∧ ∃ e, T.bitboard.test e = true ∧ adjacent d e) ∧
    (∀ x, ¬ (T.neighbors_bitboard.test x = true ∧ T.bitboard.test x = true)) := by
  refine ⟨registry_neighbors T hT d ?_, ?_⟩
  · simp only [TOTAL_DOTS, ROWS, COLS, Bitboard.WIDTH] at hd ⊢
    omega
  · rintro x ⟨h1, h2⟩
    have hw := registry_wf T hT
    have hx : x < TOTAL_DOTS := hw.bound x ((hw.covered x).mp h2)
    have hx2 : x < Bitboard.WIDTH := by
      simp only [TOTAL_DOTS, ROWS, COLS, Bitboard.WIDTH] at hx ⊢
      omega
    have := ((registry_neighbors T hT x hx2).mp h1).1
    rw [h2] at this
    cases this

theorem neighbors_layout_witness :
    (sample_tile ∈ ALL_TILES_INFO ∧ 2 < TOTAL_DOTS) ∧
    (sample_tile.neighbors_bitboard.test 2 = true ↔
      sample_tile.bitboard.test 2 = false ∧
        ∃ e, sample_tile.bitboard.test e = true ∧ adjacent 2 e) ∧
    (∀ x, ¬ (sample_tile.neighbors_bitboard.test x = true ∧
      sample_tile.bitboard.test x = true)) :=
  ⟨⟨sample_tile_mem, by decide⟩, neighbors_layout sample_tile sample_tile_mem 2 (by decide)⟩

end Box
namespace Box

/-! ## The opening position -/

theorem chars_Hh : chars "Hh" = [72, 104] := by decide

theorem chars_Ih : chars "Ih" = [73, 104] := by decide

theorem chars_h : chars "h" = [104] := by decide

set_option maxRecDepth 1000000 in
theorem center_table :
    CENTER_TILE_INFO.map (fun T => T.siblings) =
      some [(147, 172), (148, 171), (149, 170), (150, 169), (151, 168), (152, 167)] := by
  decide!

theorem center_created : CENTER_TILE_INFO = some center_tile := by
  have h := center_table
  unfold center_tile
  cases hc : CENTER_TILE_INFO with
  | none => rw [hc] at h; cases h
  | some T => rfl

theorem center_siblings :
    center_tile.siblings =
      [(147, 172), (148, 171), (149, 170), (150, 169), (151, 168), (152, 167)] := by
  have h := center_table
  rw [center_created] at h
  exact Option.some.inj h

theorem center_wf : center_tile.WF := by
  have hc : center_tile ∈ generate_horizontal_tiles_info :=
    List.getElem?_mem center_created
  rcases generated_wf_or_empty center_tile (Or.inr hc) with hw | he
  · exact hw
  · rw [center_siblings] at he
    cases he

theorem center_dots :
    center_tile.dots = [147, 172, 148, 171, 149, 170, 150, 169, 151, 168, 152, 167] := by
  unfold TileInfo.dots
  rw [center_siblings]
  rfl

/-- Drawing the tile of index `i` on a position whose tile is another one. -/
theorem update_tile_index_some (z : Zobrist) (i : Nat) (t : List Nat) (p : Position)
    (ht : TILES_PERMUTATIONS[i]? = some t) (hne : p.tile_index ≠ (i : Int)) :
    ∃ q, p.update_tile_index z (i : Int) = some q ∧ q.tile = some t ∧
      q.tile_index = (i : Int) := by
  unfold Position.update_tile_index
  rw [if_neg hne]
  simp only
  rw [if_pos (Int.ofNat_nonneg i), Int.toNat_ofNat, ht]
  exact ⟨_, rfl, rfl, rfl⟩

/-- The constructor applied to the opening descriptor of the tile `t`. -/
theorem create_spec (z : Zobrist) (t : List Nat) (ht : t ∈ TILES_PERMUTATIONS) :
    ∃ q, Position.create z (chars "Hh" ++ t ++ chars "h") = some q ∧ q.Inv z ∧
      (∀ x, x ∉ center_tile.dots → q.colors x = WHITE) ∧
      (∀ i < TILE_DOTS, ∀ x ∈ center_tile.pair_dots i, t[i]? = some (q.colors x)) ∧
      (∀ x, q.filled.test x = true ↔ x ∈ center_tile.dots) ∧
      q.turn = 0 ∧ q.player = PLAYER_1 ∧ q.tile_index = find_tile_index t ∧
      q.tile = some t ∧ q.candidates = ALL_TILES_INFO := by
  obtain ⟨i, hi, hget⟩ := List.mem_iff_getElem.mp ht
  have hok := tiles_ok t ht
  have hfind : find_tile_index t = (i : Int) := by
    have := find_tile_index_entry i hi
    rw [List.get_eq_getElem, hget] at this
    exact this
  have hlookup : TILES_PERMUTATIONS[i]? = some t := by
    rw [List.getElem?_eq_getElem hi, hget]
  have hparse : parse_moves (chars "Hh" ++ t ++ chars "h") =
      some (t, ⟨parse_dot (chars "Hh" ++ t ++ chars "h"),
        (chars "Hh" ++ t ++ chars "h").getD 8 0⟩) := by
    unfold parse_moves
    have hlen : (chars "Hh" ++ t ++ chars "h").length = 6 + 3 := by
      rw [chars_Hh, chars_h]
      simp [hok.1]
    rw [if_pos hlen]
    have hdrop : ((chars "Hh" ++ t ++ chars "h").drop 2).take 6 = t := by
      rw [chars_Hh, chars_h]
      simp only [List.cons_append, List.nil_append, List.drop_succ_cons, List.drop_zero]
      rw [List.take_append_of_le_length (by omega), List.take_of_length_le (by omega)]
    rw [hdrop]
  obtain ⟨p1, h1, htile, hidx⟩ := update_tile_index_some z i t Position.blank hlookup
    (by show (-1 : Int) ≠ (i : Int); omega)
  obtain ⟨inv1, hcol1, hfil1, -, hturn1, hpl1, hcand1⟩ :=
    update_tile_index_inv z _ _ _ (blank_inv z) h1
  obtain ⟨q, e, inv, hout, hin, hfil, hframe⟩ :=
    process_all_siblings_spec z center_tile t p1 center_wf hok inv1 htile
  refine ⟨q, ?_, inv, ?_, hin, ?_, ?_, ?_, ?_, ?_, ?_⟩
  · unfold Position.create
    rw [hparse, center_created]
    simp only
    unfold Position.do_move_chance
    rw [hfind, h1]
    exact e
  · intro x hx
    rw [hout x hx, hcol1]
    rfl
  · intro x
    rw [hfil x, hfil1]
    simp [Position.blank, Bitboard.test_zero]
  · rw [hframe.2.2.1, hturn1]; rfl
  · rw [hframe.2.2.2.1, hpl1]; rfl
  · rw [hframe.2.1, hidx, hfind]
  · rw [hframe.1, htile]
  · rw [hframe.2.2.2.2, hcand1]; rfl

end Box
namespace Box

/-! ## Claims on the opening position and on the end of the game -/

set_option maxRecDepth 100000 in
theorem opening_filled_eq (z : Zobrist) (t : List Nat) (ht : t ∈ TILES_PERMUTATIONS)
    (q : Position) (hq : Position.create z (chars "Hh" ++ t ++ chars "h") = some q) :
    q.filled = opening.filled := by
  obtain ⟨q', e', -, -, -, hf', -⟩ := create_spec z t ht
  rw [hq] at e'
  cases e'
  have h0 : chars "123456" ∈ TILES_PERMUTATIONS := tiles_complete _ (List.Perm.refl _)
  obtain ⟨o, eo, -, -, -, hfo, -⟩ := create_spec sample_keys (chars "123456") h0
  have hs : chars "Hh" ++ chars "123456" ++ chars "h" = chars "Hh123456h" := by decide
  rw [hs, opening_created] at eo
  cases eo
  have hb : q.filled.bits = opening.filled.bits := by
    apply Nat.eq_of_testBit_eq
    intro x
    have h1 := hf' x
    have h2 := hfo x
    unfold Bitboard.test at h1 h2
    cases hx : q.filled.bits.testBit x <;> cases hy : opening.filled.bits.testBit x
    · rfl
    · exact absurd (h1.mpr (h2.mp hy)) (by rw [hx]; decide)
    · exact absurd (h2.mpr (h1.mp hx)) (by rw [hy]; decide)
    · rfl
  cases hq1 : q.filled with
  | mk b1 =>
    cases hq2 : opening.filled with
    | mk b2 =>
      rw [hq1, hq2] at hb
      exact congrArg Bitboard.mk hb

/-- C16. For an arrangement `p` of `"123456"`, the constructor applied to
`"Hh" + p + "h"` returns a position in which `colors[parse_dot("Hh") + i]` is
`p[i]` and `colors[parse_dot("Ih") + i]` is `p[5 - i]` for `i = 0 .. 5`, every
other dot is `WHITE`, the filled dots are these twelve, `turn` is 0, player 1
is to move and `tile_index` is `find_tile_index(p)`. -/
theorem opening_position (z : Zobrist) (p : List Nat) (hp : p.Perm (chars "123456")) :
    ∃ q, Position.create z (chars "Hh" ++ p ++ chars "h") = some q ∧
      (∀ i < TILE_DOTS, p[i]? = some (q.colors ((parse_dot (chars "Hh")).toNat + i))) ∧
      (∀ i < TILE_DOTS, p[5 - i]? = some (q.colors ((parse_dot (chars "Ih")).toNat + i))) ∧
      (∀ d, (∀ i < TILE_DOTS, d ≠ (parse_dot (chars "Hh")).toNat + i ∧
          d ≠ (parse_dot (chars "Ih")).toNat + i) → q.colors d = WHITE) ∧
      (∀ d, q.filled.test d = true ↔ ∃ i < TILE_DOTS,
          d = (parse_dot (chars "Hh")).toNat + i ∨ d = (parse_dot (chars "Ih")).toNat + i) ∧
      ((List.range TOTAL_DOTS).filter (fun d => q.filled.test d)).length = 12 ∧
      q.turn = 0 ∧ q.player = PLAYER_1 ∧ q.tile_index = find_tile_index p := by
  have hHh : (parse_dot (chars "Hh")).toNat = 147 := by decide
  have hIh : (parse_dot (chars "Ih")).toNat = 167 := by decide
  obtain ⟨q, e, -, hout, hin, hf, hturn, hpl, hidx, -, -⟩ :=
    create_spec z p (tiles_complete p hp)
  rw [hHh, hIh]
  have hmem : ∀ d, d ∈ center_tile.dots ↔ ∃ i < TILE_DOTS, d = 147 + i ∨ d = 167 + i := by
    intro d
    rw [center_dots]
    simp only [TILE_DOTS, List.mem_cons, List.mem_singleton, List.not_mem_nil, or_false]
    constructor
    · intro h
      have : (147 ≤ d ∧ d ≤ 152) ∨ (167 ≤ d ∧ d ≤ 172) := by omega
      rcases this with h1 | h1
      · exact ⟨d - 147, by omega, Or.inl (by omega)⟩
      · exact ⟨d - 167, by omega, Or.inr (by omega)⟩
    · rintro ⟨i, hi, h | h⟩ <;> omega
  have hpair : ∀ i < TILE_DOTS, center_tile.pair_dots i = [147 + i, 172 - i] := by
    intro i hi
    simp only [TILE_DOTS] at hi
    unfold TileInfo.pair_dots
    rw [center_siblings]
    interval_cases i <;> rfl
  refine ⟨q, e, ?_, ?_, ?_, ?_, ?_, hturn, hpl, hidx⟩
  · intro i hi
    apply hin i hi
    rw [hpair i hi]
    exact List.mem_cons_self _ _
  · intro i hi
    simp only [TILE_DOTS] at hi
    apply hin (5 - i) (by simp only [TILE_DOTS]; omega)
    rw [hpair (5 - i) (by simp only [TILE_DOTS]; omega)]
    have : 172 - (5 - i) = 167 + i := by omega
    rw [this]
    exact List.mem_cons_of_mem _ (List.mem_cons_self _ _)
  · intro d hd
    apply hout
    rw [hmem]
    rintro ⟨i, hi, h | h⟩
    · exact (hd i hi).1 h
    · exact (hd i hi).2 h
  · intro d
    rw [hf, hmem]
  · have hfun : (fun d => q.filled.test d) = (fun d => decide (d ∈ center_tile.dots)) := by
      funext d
      cases hx : q.filled.test d
      · have : d ∉ center_tile.dots := fun hc => by
          rw [(hf d).mpr hc] at hx; cases hx
        exact (decide_eq_false this).symm
      · exact (decide_eq_true ((hf d).mp hx)).symm
    rw [hfun, center_dots]
    decide

theorem opening_position_witness :
    (chars "123456").Perm (chars "123456") ∧
    ∃ q, Position.create sample_keys (chars "Hh" ++ chars "123456" ++ chars "h") = some q ∧
      (∀ i < TILE_DOTS,
        (chars "123456")[i]? = some (q.colors ((parse_dot (chars "Hh")).toNat + i))) ∧
      (∀ i < TILE_DOTS,
        (chars "123456")[5 - i]? = some (q.colors ((parse_dot (chars "Ih")).toNat + i))) ∧
      (∀ d, (∀ i < TILE_DOTS, d ≠ (parse_dot (chars "Hh")).toNat + i ∧
          d ≠ (parse_dot (chars "Ih")).toNat + i) → q.colors d = WHITE) ∧
      (∀ d, q.filled.test d = true ↔ ∃ i < TILE_DOTS,
          d = (parse_dot (chars "Hh")).toNat + i ∨ d = (parse_dot (chars "Ih")).toNat + i) ∧
      ((List.range TOTAL_DOTS).filter (fun d => q.filled.test d)).length = 12 ∧
      q.turn = 0 ∧ q.player = PLAYER_1 ∧ q.tile_index = find_tile_index (chars "123456") :=
  ⟨List.Perm.refl _, opening_position sample_keys (chars "123456") (List.Perm.refl _)⟩

/-- C17. On the position that the constructor builds from the opening
descriptor `"Hh" + t + "h"` (with the whole registry as candidates)
`end_game()` is false; on a position whose 320 dots are all filled, the
candidates being placements of the registry, `end_game()` is true. -/
theorem end_game_cases (z : Zobrist) (t : List Nat) (p : Position)
    (ht : t.Perm (chars "123456"))
    (hfull : ∀ d < TOTAL_DOTS, p.filled.test d = true)
    (hcand : ∀ T ∈ p.candidates, T ∈ ALL_TILES_INFO) :
    (∃ q, Position.create z (chars "Hh" ++ t ++ chars "h") = some q ∧
      q.candidates = ALL_TILES_INFO ∧ q.end_game = false) ∧
    p.end_game = true := by
  constructor
  · obtain ⟨q, e, -, -, -, -, -, -, -, -, hc⟩ := create_spec z t (tiles_complete t ht)
    refine ⟨q, e, hc, ?_⟩
    have hfil := opening_filled_eq z t (tiles_complete t ht) q e
    have hco : opening.candidates = ALL_TILES_INFO :=
      create_candidates sample_keys _ opening opening_created
    have ho := opening_open
    unfold Position.end_game at ho ⊢
    unfold Position.possible_move at ho ⊢
    rw [hc, hfil]
    rw [hco] at ho
    exact ho
  · unfold Position.end_game
    rw [Bool.not_eq_true', ← Bool.not_eq_true, List.any_eq_true]
    rintro ⟨T, hT, hpm⟩
    have hw := registry_wf T (hcand T hT)
    have hcnt := count_matches_eq_dots T hw p.filled
    have hall : T.dots.filter (fun d => p.filled.test d) = T.dots := by
      rw [List.filter_eq_self]
      intro d hd
      exact hfull d (hw.bound d hd)
    rw [hall, dots_length T hw] at hcnt
    unfold Position.possible_move at hpm
    simp only [MAX_OVERLAPS] at hpm
    rw [hcnt] at hpm
    simp at hpm

theorem end_game_cases_witness :
    ((chars "123456").Perm (chars "123456") ∧
      (∀ d < TOTAL_DOTS, full_board.filled.test d = true) ∧
      (∀ T ∈ full_board.candidates, T ∈ ALL_TILES_INFO)) ∧
    (∃ q, Position.create sample_keys (chars "Hh" ++ chars "123456" ++ chars "h") = some q ∧
      q.candidates = ALL_TILES_INFO ∧ q.end_game = false) ∧
    full_board.end_game = true :=
  ⟨⟨List.Perm.refl _,
      fun d hd => by
        show (2 ^ TOTAL_DOTS - 1).testBit d = true
        rw [Nat.testBit_two_pow_sub_one]
        exact decide_eq_true hd,
      fun T hT => hT⟩,
    end_game_cases sample_keys (chars "123456") full_board (List.Perm.refl _)
      (fun d hd => by
        show (2 ^ TOTAL_DOTS - 1).testBit d = true
        rw [Nat.testBit_two_pow_sub_one]
        exact decide_eq_true hd)
      (fun T hT => hT)⟩

end Box
namespace Box

/-! ## The pessimist score -/

theorem row_term_nonneg (p : Position) (col color v row : Nat) :
    0 ≤ row_term p col color v row := by
  unfold row_term
  apply Finset.sum_nonneg
  intro i _
  split_ifs with h
  · unfold pair_term
    split_ifs
    · omega
    · exact le_refl _
  · exact le_refl _

/-- With 16-bit column bitmaps `get_score(color)` returns, and what it returns
is not negative. -/
theorem get_score_nonneg (p : Position) (c : Nat)
    (hcol : ∀ col < COLS, (p.columns c col).value < 2 ^ 16) :
    ∃ s, p.get_score c = some s ∧ 0 ≤ s := by
  have hbits : ∀ col < COLS, ∀ i, (p.columns c col).value.testBit i = true → i < 16 := by
    intro col hc i hi
    by_contra hge
    have h1 : (p.columns c col).value < 2 ^ i :=
      lt_of_lt_of_le (hcol col hc) (Nat.pow_le_pow_right (by decide) (by omega))
    rw [Nat.testBit_lt_two_pow h1] at hi
    cases hi
  have h := foldlM_score (fun col => p.get_score_col col c)
    (fun col => ∑ r ∈ Finset.range 16,
        if (p.columns c col).value.testBit r = true
        then row_term p col c (p.columns c col).value r else 0)
    (List.range COLS) 0
    (fun col hc => get_score_col_eq p col c (hbits col (List.mem_range.mp hc)))
  refine ⟨_, h, ?_⟩
  rw [zero_add]
  apply List.sum_nonneg
  intro x hx
  obtain ⟨col, -, rfl⟩ := List.mem_map.mp hx
  apply Finset.sum_nonneg
  intro r _
  split_ifs
  · exact row_term_nonneg _ _ _ _ _
  · exact le_refl _

theorem get_scores_eq (p : Position) (s : Nat → Int)
    (h : ∀ c < MAX_COLORS, p.get_score c = some (s c)) :
    p.get_scores = some [s 0, s 1, s 2, s 3, s 4, s 5] := by
  unfold Position.get_scores
  have e : ALL_COLORS = [0, 1, 2, 3, 4, 5] := by decide
  rw [e]
  have h0 := h 0 (by decide)
  have h1 := h 1 (by decide)
  have h2 := h 2 (by decide)
  have h3 := h 3 (by decide)
  have h4 := h 4 (by decide)
  have h5 := h 5 (by decide)
  simp only [List.mapM, List.mapM.loop, h0, h1, h2, h3, h4, h5, Option.bind_eq_bind,
    Option.some_bind, Option.pure_def, List.reverse_cons, List.reverse_nil, List.nil_append,
    List.cons_append, bind_pure_comp, Option.map_some', Functor.map]

/-- The loop of `get_pessimist_score`: the running maximum ends on the
largest score of the colors other than `k`, or on its initial value. -/
theorem pessimist_loop_spec (scores : List Int) (s : Nat → Int) (k : Int)
    (hs : ∀ c < MAX_COLORS, scores[c]? = some (s c)) :
    ∀ (l : List Nat) (init : Int), (∀ c ∈ l, c < MAX_COLORS) →
      ∃ m, l.foldlM
          (fun (s2 : Int) (c : Nat) =>
            if (c : Int) ≠ k then (scores[c]?).map (fun s => max s2 s) else some s2)
          init = some m ∧
        init ≤ m ∧ (∀ c ∈ l, (c : Int) ≠ k → s c ≤ m) ∧
        (m = init ∨ ∃ c ∈ l, (c : Int) ≠ k ∧ s c = m) := by
  intro l
  induction l with
  | nil =>
    intro init _
    exact ⟨init, rfl, le_refl _, fun c hc => absurd hc (List.not_mem_nil c), Or.inl rfl⟩
  | cons a rest ih =>
    intro init hl
    have ha : a < MAX_COLORS := hl a (List.mem_cons_self _ _)
    have hrest : ∀ c ∈ rest, c < MAX_COLORS := fun c hc => hl c (List.mem_cons_of_mem _ hc)
    rw [List.foldlM_cons]
    by_cases hak : (a : Int) ≠ k
    · rw [if_pos hak, hs a ha]
      obtain ⟨m, e, h1, h2, h3⟩ := ih (max init (s a)) hrest
      refine ⟨m, e, le_trans (le_max_left _ _) h1, ?_, ?_⟩
      · intro c hc hck
        rcases List.mem_cons.mp hc with rfl | hc
        · exact le_trans (le_max_right _ _) h1
        · exact h2 c hc hck
      · rcases h3 with h3 | ⟨c, hc, hck, hcm⟩
        · rcases max_choice init (s a) with hmax | hmax
          · exact Or.inl (by rw [h3, hmax])
          · exact Or.inr ⟨a, List.mem_cons_self _ _, hak, by rw [h3, hmax]⟩
        · exact Or.inr ⟨c, List.mem_cons_of_mem _ hc, hck, hcm⟩
    · rw [if_neg hak]
      obtain ⟨m, e, h1, h2, h3⟩ := ih init hrest
      refine ⟨m, e, h1, ?_, ?_⟩
      · intro c hc hck
        rcases List.mem_cons.mp hc with rfl | hc
        · exact absurd hck hak
        · exact h2 c hc hck
      · rcases h3 with h3 | ⟨c, hc, hck, hcm⟩
        · exact Or.inl h3
        · exact Or.inr ⟨c, List.mem_cons_of_mem _ hc, hck, hcm⟩

/-- The value of `get_pessimist_score` from the six scores. -/
theorem get_pessimist_score_eq (p : Position) (s : Nat → Int) (me : Nat)
    (hme : me < MAX_COLORS)
    (h : ∀ c < MAX_COLORS, p.get_score c = some (s c)) (h0 : ∀ c < MAX_COLORS, 0 ≤ s c) :
    ∃ c', c' < MAX_COLORS ∧ c' ≠ me ∧ (∀ c < MAX_COLORS, c ≠ me → s c ≤ s c') ∧
      p.get_pessimist_score (me + 49) = some (s me - s c') := by
  have hs : ∀ c < MAX_COLORS, [s 0, s 1, s 2, s 3, s 4, s 5][c]? = some (s c) := by
    intro c hc
    simp only [MAX_COLORS] at hc
    interval_cases c <;> rfl
  have hidx : color_index (me + 49) = (me : Int) := by
    unfold color_index
    omega
  obtain ⟨m, e, hm0, hle, hex⟩ := pessimist_loop_spec [s 0, s 1, s 2, s 3, s 4, s 5] s
    (me : Int) hs ALL_COLORS 0 (fun c hc => List.mem_range.mp hc)
  have hval : p.get_pessimist_score (me + 49) = some (s me - m) := by
    unfold Position.get_pessimist_score
    rw [get_scores_eq p s h]
    simp only [hidx]
    rw [if_pos (Int.ofNat_nonneg me), Int.toNat_ofNat, hs me hme]
    simp only
    rw [e]
    rfl
  have hle' : ∀ c < MAX_COLORS, c ≠ me → s c ≤ m := by
    intro c hc hne
    exact hle c (List.mem_range.mpr hc) (by omega)
  rcases hex with hinit | ⟨c', hc', hne, hcm⟩
  · obtain ⟨c', hc', hne⟩ : ∃ c', c' < MAX_COLORS ∧ c' ≠ me := by
      by_cases h00 : me = 0
      · exact ⟨1, by decide, by omega⟩
      · exact ⟨0, by decide, fun hh => h00 hh.symm⟩
    have hz : s c' = m := by
      have h1 := hle' c' hc' hne
      have h2 := h0 c' hc'
      omega
    refine ⟨c', hc', hne, ?_, ?_⟩
    · intro c hc hcne
      rw [hz]
      exact hle' c hc hcne
    · rw [hz]
      exact hval
  · refine ⟨c', List.mem_range.mp hc', by omega, ?_, ?_⟩
    · intro c hc hcne
      rw [hcm]
      exact hle' c hc hcne
    · rw [hcm]
      exact hval

end Box
namespace Box

/-! ## Claim on the pessimist score -/

theorem one_square_columns :
    ∀ c < MAX_COLORS, ∀ col < COLS, (one_square.columns c col).value < 2 ^ 16 := by
  intro c _ col _
  simp only [one_square]
  split <;> decide

/-- C18. On a position whose column bitmaps are 16-bit values, the six calls
`get_score(c)` return scores that are not negative, and for an own color of
index `me` in `0 .. 5` (the character `'1' + me`) `get_pessimist_score` returns
`get_score(me)` minus the largest of the scores of the five other colors. -/
theorem pessimist_margin (p : Position) (me : Nat) (hme : me < MAX_COLORS)
    (hcol : ∀ c < MAX_COLORS, ∀ col < COLS, (p.columns c col).value < 2 ^ 16) :
    ∃ score : Nat → Int,
      (∀ c < MAX_COLORS, p.get_score c = some (score c) ∧ 0 ≤ score c) ∧
      ∃ c', c' < MAX_COLORS ∧ c' ≠ me ∧ (∀ c < MAX_COLORS, c ≠ me → score c ≤ score c') ∧
        p.get_pessimist_score (me + 49) = some (score me - score c') := by
  have hsc : ∀ c < MAX_COLORS,
      p.get_score c = some ((p.get_score c).getD 0) ∧ 0 ≤ (p.get_score c).getD 0 := by
    intro c hc
    obtain ⟨s, hs, h0⟩ := get_score_nonneg p c (hcol c hc)
    rw [hs]
    exact ⟨rfl, h0⟩
  exact ⟨fun c => (p.get_score c).getD 0, hsc,
    get_pessimist_score_eq p _ me hme (fun c hc => (hsc c hc).1) (fun c hc => (hsc c hc).2)⟩

theorem pessimist_margin_witness :
    (0 < MAX_COLORS ∧
      ∀ c < MAX_COLORS, ∀ col < COLS, (one_square.columns c col).value < 2 ^ 16) ∧
    ∃ score : Nat → Int,
      (∀ c < MAX_COLORS, one_square.get_score c = some (score c) ∧ 0 ≤ score c) ∧
      ∃ c', c' < MAX_COLORS ∧ c' ≠ 0 ∧ (∀ c < MAX_COLORS, c ≠ 0 → score c ≤ score c') ∧
        one_square.get_pessimist_score (0 + 49) = some (score 0 - score c') :=
  ⟨⟨by decide, one_square_columns⟩,
    pessimist_margin one_square 0 (by decide) one_square_columns⟩

end Box
namespace Box

/-! ## The color weights -/

/-- The loop that sets `opponent_color_index`, run on the indices
`a .. a + n - 1`: it returns the first index that passes the test, or `-1`. -/
theorem opponent_loop_spec {F : Type} [DoubleMath F] (w : Nat → F) (thr : F) :
    ∀ (n a : Nat),
      (opponent_loop w thr (List.range' a n) = -1 ∧
        ∀ c, a ≤ c → c < a + n → DoubleMath.le (w c) thr = false) ∨
      (∃ c, a ≤ c ∧ c < a + n ∧ opponent_loop w thr (List.range' a n) = (c : Int) ∧
        DoubleMath.le (w c) thr = true ∧
        ∀ c', a ≤ c' → c' < c → DoubleMath.le (w c') thr = false) := by
  intro n
  induction n with
  | zero =>
    intro a
    exact Or.inl ⟨rfl, fun c h1 h2 => by omega⟩
  | succ n ih =>
    intro a
    rw [List.range'_succ]
    unfold opponent_loop
    cases hle : DoubleMath.le (w a) thr
    · simp only [Bool.false_eq_true, if_false]
      rcases ih (a + 1) with ⟨h1, h2⟩ | ⟨c, h1, h2, h3, h4, h5⟩
      · refine Or.inl ⟨h1, fun c hc1 hc2 => ?_⟩
        by_cases hca : c = a
        · rw [hca]; exact hle
        · exact h2 c (by omega) (by omega)
      · refine Or.inr ⟨c, by omega, by omega, h3, h4, fun c' hc1 hc2 => ?_⟩
        by_cases hca : c' = a
        · rw [hca]; exact hle
        · exact h5 c' (by omega) hc2
    · simp only [if_true]
      exact Or.inr ⟨a, le_refl _, by omega, rfl, hle, fun c' hc1 hc2 => by omega⟩

/-- The loop computing `min_eval`, in exact arithmetic. -/
theorem min_loop_spec {F : Type} [LinearOrderedField F] [DoubleOps F] [DoubleMath F]
    (ex : ExactArithmetic F) (impact : Nat → F) (k : Int) :
    ∀ (l : List Nat) (init : F),
      l.foldl
          (fun (m : F) (i : Nat) =>
            if (i : Int) ≠ k then (if DoubleOps.lt (impact i) m then impact i else m) else m)
          init ≤ init ∧
      (∀ c ∈ l, (c : Int) ≠ k →
        l.foldl
          (fun (m : F) (i : Nat) =>
            if (i : Int) ≠ k then (if DoubleOps.lt (impact i) m then impact i else m) else m)
          init ≤ impact c) ∧
      (l.foldl
          (fun (m : F) (i : Nat) =>
            if (i : Int) ≠ k then (if DoubleOps.lt (impact i) m then impact i else m) else m)
          init = init ∨
        ∃ c ∈ l, (c : Int) ≠ k ∧ impact c =
          l.foldl
            (fun (m : F) (i : Nat) =>
              if (i : Int) ≠ k then (if DoubleOps.lt (impact i) m then impact i else m) else m)
            init) := by
  intro l
  induction l with
  | nil =>
    intro init
    exact ⟨le_refl _, fun c hc => absurd hc (List.not_mem_nil c), Or.inl rfl⟩
  | cons a rest ih =>
    intro init
    rw [List.foldl_cons]
    by_cases hak : (a : Int) ≠ k
    · rw [if_pos hak]
      by_cases hlt : DoubleOps.lt (impact a) init = true
      · rw [if_pos hlt]
        have hlt' : impact a < init := (ex.lt_iff _ _).mp hlt
        obtain ⟨h1, h2, h3⟩ := ih (impact a)
        refine ⟨le_trans h1 (le_of_lt hlt'), ?_, ?_⟩
        · intro c hc hck
          rcases List.mem_cons.mp hc with rfl | hc
          · exact h1
          · exact h2 c hc hck
        · rcases h3 with h3 | ⟨c, hc, hck, hcm⟩
          · exact Or.inr ⟨a, List.mem_cons_self _ _, hak, h3.symm⟩
          · exact Or.inr ⟨c, List.mem_cons_of_mem _ hc, hck, hcm⟩
      · rw [if_neg hlt]
        have hge : init ≤ impact a := not_lt.mp (fun h => hlt ((ex.lt_iff _ _).mpr h))
        obtain ⟨h1, h2, h3⟩ := ih init
        refine ⟨h1, ?_, ?_⟩
        · intro c hc hck
          rcases List.mem_cons.mp hc with rfl | hc
          · exact le_trans h1 hge
          · exact h2 c hc hck
        · rcases h3 with h3 | ⟨c, hc, hck, hcm⟩
          · exact Or.inl h3
          · exact Or.inr ⟨c, List.mem_cons_of_mem _ hc, hck, hcm⟩
    · rw [if_neg hak]
      obtain ⟨h1, h2, h3⟩ := ih init
      refine ⟨h1, ?_, ?_⟩
      · intro c hc hck
        rcases List.mem_cons.mp hc with rfl | hc
        · exact absurd hck hak
        · exact h2 c hc hck
      · rcases h3 with h3 | ⟨c, hc, hck, hcm⟩
        · exact Or.inl h3
        · exact Or.inr ⟨c, List.mem_cons_of_mem _ hc, hck, hcm⟩

/-- The loop computing `sum_evals`, in exact arithmetic. -/
theorem sum_loop_spec {F : Type} [LinearOrderedField F] [DoubleOps F] [DoubleMath F]
    (ex : ExactArithmetic F) (f : Nat → F) (k : Int) :
    ∀ (l : List Nat) (init : F),
      l.foldl (fun (s : F) (i : Nat) => if (i : Int) ≠ k then DoubleOps.add s (f i) else s) init =
        init + (l.map (fun (i : Nat) => if (i : Int) ≠ k then f i else 0)).sum := by
  intro l
  induction l with
  | nil => intro init; simp
  | cons a rest ih =>
    intro init
    rw [List.foldl_cons, ih, List.map_cons, List.sum_cons]
    by_cases hak : (a : Int) ≠ k
    · rw [if_pos hak, if_pos hak, ex.add_eq]
      ring
    · rw [if_neg hak, if_neg hak]
      ring

theorem sum_others {F : Type} [LinearOrderedField F] (g : Nat → F) (me : Nat) (hme : me < 6) :
    ((List.range 6).map (fun (i : Nat) => if (i : Int) ≠ (me : Int) then g i else 0)).sum =
      ∑ c ∈ (Finset.range 6).erase me, g c := by
  have h1 : ((List.range 6).map (fun (i : Nat) => if (i : Int) ≠ (me : Int) then g i else 0)).sum =
      ∑ i ∈ Finset.range 6, (if (i : Int) ≠ (me : Int) then g i else 0) := by
    have e : List.range 6 = [0, 1, 2, 3, 4, 5] := by decide
    rw [e]
    simp only [List.map_cons, List.map_nil, List.sum_cons, List.sum_nil,
      Finset.sum_range_succ, Finset.sum_range_zero]
    ring
  rw [h1, ← Finset.add_sum_erase _ _ (Finset.mem_range.mpr hme)]
  simp only [ne_eq, not_true_eq_false, if_false, zero_add]
  apply Finset.sum_congr rfl
  intro c hc
  have : c ≠ me := (Finset.mem_erase.mp hc).1
  rw [if_pos (by omega)]

/-- The weights written by `update_weigths`, in exact arithmetic: `m` is the
smallest total of the colors other than `me`. -/
theorem update_weigths_spec {F : Type} [LinearOrderedField F] [DoubleOps F] [DoubleMath F]
    (ex : ExactArithmetic F) (G : Globals F) (total : Nat → F) (me : Nat)
    (hme : me < MAX_COLORS) (hfin : ∀ c < MAX_COLORS, total c ≤ DoubleMath.highest) :
    ∃ m : F, (∃ c', c' < MAX_COLORS ∧ c' ≠ me ∧ total c' = m) ∧
      (∀ c < MAX_COLORS, c ≠ me → m ≤ total c) ∧
      (update_weigths G total (me + 49)).weights me = 1 ∧
      ∀ c < MAX_COLORS, c ≠ me →
        (update_weigths G total (me + 49)).weights c =
          -(DoubleMath.pow 10 (2 / 10 * (total c - m))) /
            ∑ c' ∈ (Finset.range 6).erase me, DoubleMath.pow 10 (2 / 10 * (total c' - m)) := by
  have hidx : color_index (me + 49) = (me : Int) := by
    unfold color_index
    omega
  obtain ⟨h1, h2, h3⟩ := min_loop_spec ex total (me : Int) (List.range MAX_COLORS)
    DoubleMath.highest
  have hle : ∀ c < MAX_COLORS, c ≠ me →
      (List.range MAX_COLORS).foldl
          (fun (m : F) (i : Nat) =>
            if (i : Int) ≠ (me : Int) then (if DoubleOps.lt (total i) m then total i else m)
            else m)
          DoubleMath.highest ≤ total c :=
    fun c hc hne => h2 c (List.mem_range.mpr hc) (by omega)
  refine ⟨_, ?_, hle, ?_, ?_⟩
  · rcases h3 with h3 | ⟨c, hc, hck, hcm⟩
    · obtain ⟨c', hc', hne⟩ : ∃ c', c' < MAX_COLORS ∧ c' ≠ me := by
        by_cases h00 : me = 0
        · exact ⟨1, by decide, by omega⟩
        · exact ⟨0, by decide, fun hh => h00 hh.symm⟩
      refine ⟨c', hc', hne, le_antisymm ?_ (hle c' hc' hne)⟩
      rw [h3]
      exact hfin c' hc'
    · exact ⟨c, List.mem_range.mp hc, by omega, hcm⟩
  · show (if me < MAX_COLORS then
        (if (me : Int) = color_index (me + 49) then (DoubleOps.ofInt 1 : F) else _)
        else G.weights me) = 1
    rw [if_pos hme, hidx, if_pos rfl, ex.ofInt_eq]
    simp
  · intro c hc hne
    show (if c < MAX_COLORS then
        (if (c : Int) = color_index (me + 49) then (DoubleOps.ofInt 1 : F) else _)
        else G.weights c) = _
    rw [if_pos hc, hidx, if_neg (by omega)]
    rw [ex.div_eq, ex.neg_eq, ex.mul_eq, ex.sub_eq, sum_loop_spec ex, ex.ofInt_eq, ex.ofInt_eq,
      ex.decimal_eq]
    simp only [hidx, ex.mul_eq, ex.sub_eq]
    rw [sum_others _ me hme]
    simp

end Box
namespace Box

/-! ## Claims on the color weights -/

/-- The operations chosen on the rationals are exact. -/
theorem rat_exact : ExactArithmetic ℚ where
  ofInt_eq := fun _ => rfl
  add_eq := fun _ _ => rfl
  sub_eq := fun _ _ => rfl
  mul_eq := fun _ _ => rfl
  div_eq := fun _ _ => rfl
  neg_eq := fun _ => rfl
  lt_iff := fun _ _ => decide_eq_true_iff
  le_iff := fun _ _ => decide_eq_true_iff
  decimal_eq := fun _ _ => rfl
  pow_pos := fun _ _ hb => zpow_pos hb _

/-- The real numbers, with the real power as `pow`, are an exact arithmetic. -/
theorem real_exact :
    ∃ (ops : DoubleOps ℝ) (math : DoubleMath ℝ), @ExactArithmetic ℝ _ ops math ∧
      ∀ b x : ℝ, math.pow b x = b ^ x := by
  classical
  let ops : DoubleOps ℝ :=
    { ofInt := fun n => (n : ℝ), add := fun a b => a + b, sub := fun a b => a - b,
      mul := fun a b => a * b, div := fun a b => a / b, neg := fun a => -a,
      sqrt := Real.sqrt, log := Real.log, lt := fun a b => decide (a < b),
      lowest := -(2 : ℝ) ^ 1024, toSize := fun a => (Int.floor a).toNat }
  let math : DoubleMath ℝ :=
    { pow := fun b x => b ^ x, le := fun a b => decide (a ≤ b),
      highest := (2 : ℝ) ^ 1024, decimal := fun m k => (m : ℝ) / 10 ^ k }
  refine ⟨ops, math, ?_, fun _ _ => rfl⟩
  exact @ExactArithmetic.mk ℝ _ ops math (fun _ => rfl) (fun _ _ => rfl) (fun _ _ => rfl)
    (fun _ _ => rfl) (fun _ _ => rfl) (fun _ => rfl) (fun _ _ => decide_eq_true_iff)
    (fun _ _ => decide_eq_true_iff) (fun _ _ => rfl)
    (fun _ x hb => Real.rpow_pos_of_pos hb x)

theorem sample_totals_finite :
    ∀ c < MAX_COLORS, sample_totals c ≤ (DoubleMath.highest : ℚ) := by
  intro c hc
  show (c : ℚ) ≤ (2 : ℚ) ^ 1024
  have h1 : (c : ℚ) ≤ 6 := by
    have : c ≤ 6 := le_of_lt hc
    exact_mod_cast this
  have h2 : (6 : ℚ) ≤ (2 : ℚ) ^ 1024 := by norm_num
  exact le_trans h1 h2

/-- C19. In exact arithmetic, for an own color of index `me` in `0 .. 5` and
six totals not above `numeric_limits<double>::max()`, after
`update_weigths(total, me)`: `weights[me]` is 1; every other weight lies in
`[-1, 0)`; the five other weights add up to `-1`; and with `m` the smallest of
the five other totals, the weight of each other color `c` is
`-pow(10, 0.2 (total[c] - m))` divided by the sum of these powers over the five
other colors. -/
theorem update_weigths_exact {F : Type} [LinearOrderedField F] [DoubleOps F] [DoubleMath F]
    (ex : ExactArithmetic F) (G : Globals F) (total : Nat → F) (me : Nat)
    (hme : me < MAX_COLORS) (hfin : ∀ c < MAX_COLORS, total c ≤ DoubleMath.highest) :
    (update_weigths G total (me + 49)).weights me = 1 ∧
    (∀ c < MAX_COLORS, c ≠ me →
      -1 ≤ (update_weigths G total (me + 49)).weights c ∧
        (update_weigths G total (me + 49)).weights c < 0) ∧
    ∑ c ∈ (Finset.range MAX_COLORS).erase me, (update_weigths G total (me + 49)).weights c = -1 ∧
    ∃ m : F, (∃ c', c' < MAX_COLORS ∧ c' ≠ me ∧ total c' = m) ∧
      (∀ c < MAX_COLORS, c ≠ me → m ≤ total c) ∧
      ∀ c < MAX_COLORS, c ≠ me →
        (update_weigths G total (me + 49)).weights c =
          -(DoubleMath.pow 10 (2 / 10 * (total c - m))) /
            ∑ c' ∈ (Finset.range MAX_COLORS).erase me,
              DoubleMath.pow 10 (2 / 10 * (total c' - m)) := by
  obtain ⟨m, hm1, hm2, hw1, hw2⟩ := update_weigths_spec ex G total me hme hfin
  have h10 : (0 : F) < 10 := by norm_num
  have hpos : ∀ c, (0 : F) < DoubleMath.pow 10 (2 / 10 * (total c - m)) :=
    fun c => ex.pow_pos 10 _ h10
  have hmem : ∀ c, c < MAX_COLORS → c ≠ me → c ∈ (Finset.range 6).erase me :=
    fun c hc hne => Finset.mem_erase.mpr ⟨hne, Finset.mem_range.mpr hc⟩
  have hle : ∀ c, c < MAX_COLORS → c ≠ me →
      DoubleMath.pow 10 (2 / 10 * (total c - m)) ≤
        ∑ c' ∈ (Finset.range 6).erase me, DoubleMath.pow 10 (2 / 10 * (total c' - m)) :=
    fun c hc hne =>
      Finset.single_le_sum (f := fun c' => DoubleMath.pow (10 : F) (2 / 10 * (total c' - m)))
        (fun i _ => le_of_lt (hpos i)) (hmem c hc hne)
  have hS : (0 : F) <
      ∑ c' ∈ (Finset.range 6).erase me, DoubleMath.pow 10 (2 / 10 * (total c' - m)) := by
    obtain ⟨c', hc', hne, -⟩ := hm1
    exact lt_of_lt_of_le (hpos c') (hle c' hc' hne)
  refine ⟨hw1, ?_, ?_, m, hm1, hm2, hw2⟩
  · intro c hc hne
    rw [hw2 c hc hne]
    constructor
    · rw [le_div_iff₀ hS]
      have := hle c hc hne
      linarith
    · apply div_neg_of_neg_of_pos _ hS
      have := hpos c
      linarith
  · have hsum : ∑ c ∈ (Finset.range MAX_COLORS).erase me,
        (update_weigths G total (me + 49)).weights c =
        ∑ c ∈ (Finset.range 6).erase me,
          -(DoubleMath.pow 10 (2 / 10 * (total c - m))) /
            ∑ c' ∈ (Finset.range 6).erase me, DoubleMath.pow 10 (2 / 10 * (total c' - m)) := by
      apply Finset.sum_congr rfl
      intro c hc
      have h1 := Finset.mem_erase.mp hc
      exact hw2 c (Finset.mem_range.mp h1.2) h1.1
    rw [hsum, ← Finset.sum_div, Finset.sum_neg_distrib, neg_div, div_self (ne_of_gt hS)]

theorem update_weigths_exact_witness :
    (0 < MAX_COLORS ∧ ∀ c < MAX_COLORS, sample_totals c ≤ (DoubleMath.highest : ℚ)) ∧
    (update_weigths sample_globals sample_totals (0 + 49)).weights 0 = 1 ∧
    (∀ c < MAX_COLORS, c ≠ 0 →
      -1 ≤ (update_weigths sample_globals sample_totals (0 + 49)).weights c ∧
        (update_weigths sample_globals sample_totals (0 + 49)).weights c < 0) ∧
    ∑ c ∈ (Finset.range MAX_COLORS).erase 0,
      (update_weigths sample_globals sample_totals (0 + 49)).weights c = -1 ∧
    ∃ m : ℚ, (∃ c', c' < MAX_COLORS ∧ c' ≠ 0 ∧ sample_totals c' = m) ∧
      (∀ c < MAX_COLORS, c ≠ 0 → m ≤ sample_totals c) ∧
      ∀ c < MAX_COLORS, c ≠ 0 →
        (update_weigths sample_globals sample_totals (0 + 49)).weights c =
          -(DoubleMath.pow 10 (2 / 10 * (sample_totals c - m))) /
            ∑ c' ∈ (Finset.range MAX_COLORS).erase 0,
              DoubleMath.pow 10 (2 / 10 * (sample_totals c' - m)) :=
  ⟨⟨by decide, sample_totals_finite⟩,
    update_weigths_exact rat_exact sample_globals sample_totals 0 (by decide)
      sample_totals_finite⟩

/-- C20. After `update_weigths`, whatever the arithmetic, `opponent_color_index`
is `-1` exactly when no color index `c` in `0 .. 5` has `weights[c] <= -0.67`,
and it is `c` exactly when `c` is the lowest index with `weights[c] <= -0.67`. -/
theorem opponent_color_index_lowest {F : Type} [DoubleOps F] [DoubleMath F] (G : Globals F)
    (impact : Nat → F) (my_color : Nat) :
    ((update_weigths G impact my_color).opponent_color_index = -1 ↔
      ∀ c < MAX_COLORS, DoubleMath.le ((update_weigths G impact my_color).weights c)
        (DoubleOps.neg (DoubleMath.decimal 67 2)) = false) ∧
    (∀ c < MAX_COLORS, ((update_weigths G impact my_color).opponent_color_index = (c : Int) ↔
      DoubleMath.le ((update_weigths G impact my_color).weights c)
          (DoubleOps.neg (DoubleMath.decimal 67 2)) = true ∧
        ∀ c' < c, DoubleMath.le ((update_weigths G impact my_color).weights c')
          (DoubleOps.neg (DoubleMath.decimal 67 2)) = false)) ∧
    ((update_weigths G impact my_color).opponent_color_index = -1 ∨
      ∃ c < MAX_COLORS, (update_weigths G impact my_color).opponent_color_index = (c : Int)) := by
  have hopp : (update_weigths G impact my_color).opponent_color_index =
      opponent_loop (update_weigths G impact my_color).weights
        (DoubleOps.neg (DoubleMath.decimal 67 2)) (List.range' 0 MAX_COLORS) := by
    rw [← List.range_eq_range']
    rfl
  rw [hopp]
  rcases opponent_loop_spec (update_weigths G impact my_color).weights
      (DoubleOps.neg (DoubleMath.decimal 67 2)) MAX_COLORS 0 with ⟨h1, h2⟩ | ⟨c, -, h2, h3, h4, h5⟩
  · rw [h1]
    refine ⟨⟨fun _ c hc => h2 c (Nat.zero_le c) (by omega), fun _ => rfl⟩, ?_, Or.inl rfl⟩
    intro c hc
    constructor
    · intro h
      omega
    · rintro ⟨h, -⟩
      rw [h2 c (Nat.zero_le c) (by omega)] at h
      cases h
  · rw [h3]
    refine ⟨⟨fun h => by omega, fun h => ?_⟩, ?_, Or.inr ⟨c, by omega, rfl⟩⟩
    · rw [h c (by omega)] at h4
      cases h4
    · intro d hd
      constructor
      · intro h
        have : c = d := by omega
        subst this
        exact ⟨h4, fun c' hc' => h5 c' (Nat.zero_le c') hc'⟩
      · rintro ⟨hd1, hd2⟩
        rcases Nat.lt_trichotomy c d with hlt | heq | hgt
        · rw [hd2 c hlt] at h4
          cases h4
        · rw [heq]
        · rw [h5 d (Nat.zero_le d) hgt] at hd1
          cases hd1

end Box
namespace Box

/-! ## The running statistics of an action -/

/-- Sum of the squared deviations from `m`, from the sum and the sum of
squares. -/
theorem sum_sq_dev {F : Type} [LinearOrderedField F] (m : F) :
    ∀ (vs : List F), (vs.map (fun v => (v - m) ^ 2)).sum =
      (vs.map (fun v => v ^ 2)).sum - 2 * m * vs.sum + (vs.length : F) * m ^ 2 := by
  intro vs
  induction vs with
  | nil => simp
  | cons a rest ih =>
    simp only [List.map_cons, List.sum_cons, List.length_cons, Nat.cast_succ, ih]
    ring

/-- Invariant of `ActionInfo::update` in exact arithmetic: after the samples
`vs`, `visits` is their number, `value` times `visits` is their sum and
`value_squares` is the sum of their squares minus `visits` times `value`
squared. -/
theorem welford_invariant {F : Type} [LinearOrderedField F] [DoubleOps F] [DoubleMath F]
    (ex : ExactArithmetic F) (T : TileInfo) :
    ∀ (vs : List F),
      (vs.foldl ActionInfo.update (ActionInfo.create T)).visits = (vs.length : Int) ∧
      (vs.foldl ActionInfo.update (ActionInfo.create T)).value * (vs.length : F) = vs.sum ∧
      (vs.foldl ActionInfo.update (ActionInfo.create T)).value_squares =
        (vs.map (fun v => v ^ 2)).sum -
          (vs.length : F) * (vs.foldl ActionInfo.update (ActionInfo.create T)).value ^ 2 ∧
      (vs ≠ [] → (vs.foldl ActionInfo.update (ActionInfo.create T)).K =
        DoubleOps.sqrt
          (((vs.foldl ActionInfo.update (ActionInfo.create T)).value_squares + 100) /
            (vs.length : F))) := by
  intro vs
  induction vs using List.reverseRecOn with
  | nil =>
    refine ⟨rfl, ?_, ?_, fun h => absurd rfl h⟩
    · simp
    · show (DoubleOps.ofInt 0 : F) = _
      rw [ex.ofInt_eq]
      simp
  | append_singleton l v ih =>
    obtain ⟨h1, h2, h3, -⟩ := ih
    rw [List.foldl_append, List.foldl_cons, List.foldl_nil]
    generalize List.foldl ActionInfo.update (ActionInfo.create T) l = a at h1 h2 h3 ⊢
    have hn : ((l.length : F) + 1) ≠ 0 := by positivity
    have hvis : (a.update v).visits = ((l ++ [v]).length : Int) := by
      show a.visits + 1 = _
      rw [h1]
      simp
    have hval : (a.update v).value = a.value + (v - a.value) / ((l.length : F) + 1) := by
      show DoubleOps.add a.value (DoubleOps.div (DoubleOps.sub v a.value)
        (DoubleOps.ofInt (a.visits + 1))) = _
      rw [ex.add_eq, ex.div_eq, ex.sub_eq, ex.ofInt_eq, h1]
      simp
    have hsq : (a.update v).value_squares =
        a.value_squares + (v - a.value) * (v - (a.update v).value) := by
      show DoubleOps.add a.value_squares (DoubleOps.mul (DoubleOps.sub v a.value)
        (DoubleOps.sub v (a.update v).value)) = _
      rw [ex.add_eq, ex.mul_eq, ex.sub_eq, ex.sub_eq]
    have hK : (a.update v).K =
        DoubleOps.sqrt (((a.update v).value_squares + 100) / ((l.length : F) + 1)) := by
      show DoubleOps.sqrt (DoubleOps.div (DoubleOps.add (a.update v).value_squares
        (DoubleOps.ofInt (10 * 10))) (DoubleOps.ofInt (a.visits + 1))) = _
      rw [ex.div_eq, ex.add_eq, ex.ofInt_eq, ex.ofInt_eq, h1]
      norm_num
    have hlen : (((l ++ [v]).length : Nat) : F) = (l.length : F) + 1 := by simp
    refine ⟨hvis, ?_, ?_, fun _ => ?_⟩
    · rw [hlen, hval, List.sum_append, ← h2]
      simp only [List.sum_cons, List.sum_nil, add_zero]
      field_simp
      ring
    · rw [hsq, hlen, h3, hval, List.map_append, List.sum_append]
      simp only [List.map_cons, List.map_nil, List.sum_cons, List.sum_nil, add_zero]
      field_simp
      ring
    · rw [hK, hlen]

end Box
namespace Box

/-! ## Claim on the running statistics -/

theorem rat_sqrt_36 : (DoubleOps.sqrt (36 : ℚ) : ℚ) = 6 := by
  show Rat.sqrt 36 = 6
  have h : (36 : ℚ) = 6 * 6 := by norm_num
  rw [h, Rat.sqrt_eq]
  norm_num

/-- C21. In exact arithmetic, starting from a fresh `ActionInfo` and after
`update(v_1), ..., update(v_n)` with `n ≥ 1`: `visits` is `n`, `value` is the
arithmetic mean of the samples, `value_squares` is the sum of the
`(v_i - value)^2`, and `K` is `sqrt((value_squares + 100) / n)`. For the
samples `0, 2, 4` this gives the value 2, the value_squares 8 and, `sqrt(36)`
being 6, the `K` 6. -/
theorem welford_identity {F : Type} [LinearOrderedField F] [DoubleOps F] [DoubleMath F]
    (ex : ExactArithmetic F) (T : TileInfo) (vs : List F) (hn : vs ≠ [])
    (hsqrt : DoubleOps.sqrt (36 : F) = 6) :
    ((vs.foldl ActionInfo.update (ActionInfo.create T)).visits = (vs.length : Int) ∧
      (vs.foldl ActionInfo.update (ActionInfo.create T)).value = vs.sum / (vs.length : F) ∧
      (vs.foldl ActionInfo.update (ActionInfo.create T)).value_squares =
        (vs.map (fun v =>
          (v - (vs.foldl ActionInfo.update (ActionInfo.create T)).value) ^ 2)).sum ∧
      (vs.foldl ActionInfo.update (ActionInfo.create T)).K =
        DoubleOps.sqrt
          (((vs.foldl ActionInfo.update (ActionInfo.create T)).value_squares + 100) /
            (vs.length : F))) ∧
    (([0, 2, 4] : List F).foldl ActionInfo.update (ActionInfo.create T)).value = 2 ∧
    (([0, 2, 4] : List F).foldl ActionInfo.update (ActionInfo.create T)).value_squares = 8 ∧
    (([0, 2, 4] : List F).foldl ActionInfo.update (ActionInfo.create T)).K = 6 := by
  have key : ∀ (ws : List F), ws ≠ [] →
      (ws.foldl ActionInfo.update (ActionInfo.create T)).visits = (ws.length : Int) ∧
      (ws.foldl ActionInfo.update (ActionInfo.create T)).value = ws.sum / (ws.length : F) ∧
      (ws.foldl ActionInfo.update (ActionInfo.create T)).value_squares =
        (ws.map (fun v =>
          (v - (ws.foldl ActionInfo.update (ActionInfo.create T)).value) ^ 2)).sum ∧
      (ws.foldl ActionInfo.update (ActionInfo.create T)).K =
        DoubleOps.sqrt
          (((ws.foldl ActionInfo.update (ActionInfo.create T)).value_squares + 100) /
            (ws.length : F)) := by
    intro ws hws
    obtain ⟨h1, h2, h3, h4⟩ := welford_invariant ex T ws
    have hlen : (ws.length : F) ≠ 0 := by
      have : ws.length ≠ 0 := fun h => hws (List.length_eq_zero.mp h)
      exact_mod_cast this
    refine ⟨h1, ?_, ?_, h4 hws⟩
    · rw [← h2]
      field_simp
    · rw [sum_sq_dev, h3, ← h2]
      ring
  refine ⟨key vs hn, ?_⟩
  obtain ⟨-, k2, k3, k4⟩ := key [0, 2, 4] (by simp)
  have hv : (([0, 2, 4] : List F).foldl ActionInfo.update (ActionInfo.create T)).value = 2 := by
    rw [k2]
    norm_num
  have hs : (([0, 2, 4] : List F).foldl ActionInfo.update
      (ActionInfo.create T)).value_squares = 8 := by
    rw [k3, hv]
    norm_num
  refine ⟨hv, hs, ?_⟩
  rw [k4, hs]
  have : ((8 : F) + 100) / (([0, 2, 4] : List F).length : F) = 36 := by norm_num
  rw [this, hsqrt]

theorem welford_identity_witness :
    (([1, 3] : List ℚ) ≠ [] ∧ (DoubleOps.sqrt (36 : ℚ) : ℚ) = 6) ∧
    ((([1, 3] : List ℚ).foldl ActionInfo.update (ActionInfo.create sample_tile)).visits =
        (([1, 3] : List ℚ).length : Int) ∧
      (([1, 3] : List ℚ).foldl ActionInfo.update (ActionInfo.create sample_tile)).value =
        ([1, 3] : List ℚ).sum / (([1, 3] : List ℚ).length : ℚ) ∧
      (([1, 3] : List ℚ).foldl ActionInfo.update (ActionInfo.create sample_tile)).value_squares =
        (([1, 3] : List ℚ).map (fun v =>
          (v - (([1, 3] : List ℚ).foldl ActionInfo.update
            (ActionInfo.create sample_tile)).value) ^ 2)).sum ∧
      (([1, 3] : List ℚ).foldl ActionInfo.update (ActionInfo.create sample_tile)).K =
        DoubleOps.sqrt
          (((([1, 3] : List ℚ).foldl ActionInfo.update
            (ActionInfo.create sample_tile)).value_squares + 100) /
            (([1, 3] : List ℚ).length : ℚ))) ∧
    (([0, 2, 4] : List ℚ).foldl ActionInfo.update (ActionInfo.create sample_tile)).value = 2 ∧
    (([0, 2, 4] : List ℚ).foldl ActionInfo.update
      (ActionInfo.create sample_tile)).value_squares = 8 ∧
    (([0, 2, 4] : List ℚ).foldl ActionInfo.update (ActionInfo.create sample_tile)).K = 6 :=
  ⟨⟨by simp, rat_sqrt_36⟩,
    welford_identity rat_exact sample_tile [1, 3] (by simp) rat_sqrt_36⟩

end Box
namespace Box

/-! ## TileSet: bits and count -/

theorem and_shift_ne_zero (w k : Nat) : ((w &&& (1 <<< k)) != 0) = w.testBit k := by
  have h := Column.test_iff ⟨w⟩ k
  unfold Column.test at h
  simp only at h
  cases h1 : ((w &&& (1 <<< k)) != 0) <;> cases h2 : w.testBit k
  · rfl
  · rw [h1, h2] at h; exact absurd (h.mpr rfl) (by decide)
  · rw [h1, h2] at h; exact absurd (h.mp rfl) (by decide)
  · rfl

theorem TileSet.test_eq (s : TileSet) (c : Nat) :
    s.test c = (s.data.getD (c / 64) 0).testBit (c % 64) := by
  unfold TileSet.test
  exact and_shift_ne_zero _ _

theorem TileSet.empty_wf : TileSet.empty.WF := by
  refine ⟨by decide, ?_⟩
  intro w hw
  have : w = 0 := by
    unfold TileSet.empty at hw
    exact (List.mem_replicate.mp hw).2
  rw [this]
  decide

theorem TileSet.test_empty (c : Nat) : TileSet.empty.test c = false := by
  rw [TileSet.test_eq]
  have : TileSet.empty.data.getD (c / 64) 0 = 0 := by
    unfold TileSet.empty
    simp only [List.getD_eq_getElem?_getD, List.getElem?_replicate]
    split <;> rfl
  rw [this]
  exact Nat.zero_testBit _

theorem getD_set (l : List Nat) (i j a : Nat) (hi : i < l.length) :
    (l.set i a).getD j 0 = if j = i then a else l.getD j 0 := by
  simp only [List.getD_eq_getElem?_getD, List.getElem?_set]
  by_cases h : i = j
  · subst h
    simp [hi]
  · rw [if_neg h, if_neg (fun hh => h hh.symm)]

theorem TileSet.set_wf (s : TileSet) (c : Nat) (hs : s.WF) : (s.set c).WF := by
  refine ⟨?_, ?_⟩
  · show (s.data.set _ _).length = _
    rw [List.length_set]
    exact hs.1
  · intro w hw
    rcases List.mem_or_eq_of_mem_set hw with h | h
    · exact hs.2 w h
    · rw [h]
      exact Nat.mod_lt _ (by decide)

theorem TileSet.clear_wf (s : TileSet) (c : Nat) (hs : s.WF) : (s.clear c).WF := by
  refine ⟨?_, ?_⟩
  · show (s.data.set _ _).length = _
    rw [List.length_set]
    exact hs.1
  · intro w hw
    rcases List.mem_or_eq_of_mem_set hw with h | h
    · exact hs.2 w h
    · rw [h]
      exact lt_of_le_of_lt Nat.and_le_right (by
        have : 2 ^ 64 - 1 - 1 <<< (c % TileSet.CHUNK_SIZE) ≤ 2 ^ 64 - 1 := Nat.sub_le _ _
        omega)

theorem TileSet.test_after_set (s : TileSet) (c d : Nat) (hs : s.WF)
    (hc : c < 64 * TileSet.NUM_CHUNKS) :
    (s.set c).test d = (s.test d || decide (d = c)) := by
  rw [TileSet.test_eq, TileSet.test_eq]
  show ((s.data.set (c / 64) _).getD (d / 64) 0).testBit (d % 64) = _
  have hlen : c / 64 < s.data.length := by
    rw [hs.1]
    simp only [TileSet.NUM_CHUNKS, TileSet.SIZE, TileSet.CHUNK_SIZE, ALL_TILES_COUNT] at hc ⊢
    omega
  rw [getD_set _ _ _ _ hlen]
  by_cases h : d / 64 = c / 64
  · rw [if_pos h, Nat.testBit_mod_two_pow, Nat.testBit_or, Nat.one_shiftLeft,
      Nat.testBit_two_pow, h]
    have h64 : d % 64 < 64 := Nat.mod_lt _ (by decide)
    have e : decide (c % TileSet.CHUNK_SIZE = d % 64) = decide (d = c) := by
      simp only [TileSet.CHUNK_SIZE]
      by_cases hdc : d = c
      · subst hdc; simp
      · have : c % 64 ≠ d % 64 := by omega
        simp [hdc, this]
    rw [e]
    simp [h64]
  · rw [if_neg h]
    have : d ≠ c := fun hh => h (by rw [hh])
    simp [this]

theorem TileSet.test_after_clear (s : TileSet) (c d : Nat) (hs : s.WF)
    (hc : c < 64 * TileSet.NUM_CHUNKS) :
    (s.clear c).test d = (s.test d && !decide (d = c)) := by
  rw [TileSet.test_eq, TileSet.test_eq]
  show ((s.data.set (c / 64) _).getD (d / 64) 0).testBit (d % 64) = _
  have hlen : c / 64 < s.data.length := by
    rw [hs.1]
    simp only [TileSet.NUM_CHUNKS, TileSet.SIZE, TileSet.CHUNK_SIZE, ALL_TILES_COUNT] at hc ⊢
    omega
  rw [getD_set _ _ _ _ hlen]
  by_cases h : d / 64 = c / 64
  · rw [if_pos h, Nat.testBit_and, Nat.one_shiftLeft, h]
    have h64 : d % 64 < 64 := Nat.mod_lt _ (by decide)
    have hk : c % TileSet.CHUNK_SIZE < 64 := Nat.mod_lt _ (by decide)
    have hmask : (2 ^ 64 - 1 - 2 ^ (c % TileSet.CHUNK_SIZE)).testBit (d % 64) =
        !decide (d = c) := by
      have hx : 2 ^ 64 - 1 - 2 ^ (c % TileSet.CHUNK_SIZE) =
          (2 ^ 64 - 1) ^^^ 2 ^ (c % TileSet.CHUNK_SIZE) := by
        apply Nat.eq_of_testBit_eq
        intro i
        rw [Nat.testBit_xor, Nat.testBit_two_pow_sub_one, Nat.testBit_two_pow]
        by_cases hi : i < 64
        · have hle : 2 ^ (c % TileSet.CHUNK_SIZE) ≤ 2 ^ 64 - 1 := by
            have := Nat.pow_lt_pow_right (by decide : 1 < 2) hk
            omega
          have e2 : 2 ^ 64 - 1 - 2 ^ (c % TileSet.CHUNK_SIZE) =
              2 ^ 64 - (2 ^ (c % TileSet.CHUNK_SIZE) + 1) := by omega
          rw [e2, Nat.testBit_two_pow_sub_succ (by omega), Nat.testBit_two_pow]
          simp [hi]
        · have hlt : 2 ^ 64 - 1 - 2 ^ (c % TileSet.CHUNK_SIZE) < 2 ^ i :=
            lt_of_lt_of_le (Nat.lt_of_le_of_lt (Nat.sub_le _ _) (by decide : 2 ^ 64 - 1 < 2 ^ 64))
              (Nat.pow_le_pow_right (by decide) (by omega))
          rw [Nat.testBit_lt_two_pow hlt]
          have : c % TileSet.CHUNK_SIZE ≠ i := by omega
          simp [hi, this]
      rw [hx, Nat.testBit_xor, Nat.testBit_two_pow_sub_one, Nat.testBit_two_pow]
      simp only [TileSet.CHUNK_SIZE]
      by_cases hdc : d = c
      · subst hdc; simp [h64]
      · have : c % 64 ≠ d % 64 := by omega
        simp [hdc, this, h64]
    rw [hmask]
  · rw [if_neg h]
    have : d ≠ c := fun hh => h (by rw [hh])
    simp [this]

end Box
namespace Box

/-! ## Claim on fingerprints -/

/-- What `PositionInfoEqual` compares. -/
theorem info_equal_iff (a b : Info) :
    PositionInfoEqual a b = true ↔
      a.tile_index = b.tile_index ∧ a.player = b.player ∧
        ∀ c < MAX_COLORS, ∀ col < COLS, a.columns c col = b.columns c col := by
  unfold PositionInfoEqual
  simp only [Bool.and_eq_true, decide_eq_true_eq, List.all_eq_true, List.mem_range]
  constructor
  · rintro ⟨⟨h1, h2⟩, h3⟩
    exact ⟨h1, h2, h3⟩
  · rintro ⟨h1, h2, h3⟩
    exact ⟨⟨h1, h2⟩, h3⟩

/-- In positions that satisfy the representation invariant the column
bitmaps determine the colors. -/
theorem colors_of_columns (z : Zobrist) (p q : Position) (hp : p.Inv z) (hq : q.Inv z)
    (h : ∀ c < MAX_COLORS, ∀ col < COLS, p.columns c col = q.columns c col) :
    p.colors = q.colors := by
  have key : ∀ (a b : Position), a.Inv z → b.Inv z →
      (∀ c < MAX_COLORS, ∀ col < COLS, a.columns c col = b.columns c col) →
      ∀ d, d < TOTAL_DOTS → is_color (a.colors d) → b.colors d = a.colors d := by
    intro a b ha hb hab d hd hc
    have hcol : d % COLS < COLS := Nat.mod_lt _ (by decide)
    have hrow : d / COLS < ROWS := by
      simp only [TOTAL_DOTS, ROWS, COLS] at hd ⊢
      omega
    have hdd : d / COLS * COLS + d % COLS = d := Nat.div_add_mod' d COLS
    unfold is_color at hc
    have hidx : a.colors d - 49 < MAX_COLORS := by
      simp only [MAX_COLORS]
      omega
    have h1 := (ha.columns_iff (a.colors d - 49) (d % COLS) (d / COLS) hidx hcol).mpr
      ⟨hrow, by rw [hdd]; omega⟩
    rw [hab _ hidx _ hcol] at h1
    have h2 := ((hb.columns_iff (a.colors d - 49) (d % COLS) (d / COLS) hidx hcol).mp h1).2
    rw [hdd] at h2
    omega
  funext d
  by_cases hd : d < TOTAL_DOTS
  · rcases hp.colors_ok d with hw | hc
    · rcases hq.colors_ok d with hw' | hc'
      · rw [hw, hw']
      · have := key q p hq hp (fun c hc col hcol => (h c hc col hcol).symm) d hd hc'
        rw [this]
    · exact (key p q hp hq h d hd hc).symm
  · rw [hp.white_outside d (by omega), hq.white_outside d (by omega)]

/-- For positions that satisfy the representation invariant, equal keys have
equal hashes. -/
theorem info_equal_hash (z : Zobrist) (p q : Position) (hp : p.Inv z) (hq : q.Inv z)
    (h : PositionInfoEqual (p.get_info z) (q.get_info z) = true) :
    (p.get_info z).hash = (q.get_info z).hash := by
  obtain ⟨h1, h2, h3⟩ := (info_equal_iff _ _).mp h
  have hti : p.tile_index = q.tile_index := h1
  have hpl : p.player = q.player := by
    have : ((p.player : Nat) : Int) = ((q.player : Nat) : Int) := h2
    exact_mod_cast this
  have hcol := colors_of_columns z p q hp hq h3
  show p.get_hash z = q.get_hash z
  unfold Position.get_hash
  rw [hp.hash, hq.hash, hcol, hti, hpl]

/-- C24. The fingerprints `get_info()` of two positions reachable under the
same Zobrist tables compare equal under `PositionInfoEqual`, the key equality
of the `StateStore`, exactly when all four of their components match:
`columns`, `hash`, `tile_index` and `player`. The functor reads `tile_index`,
`player` and `columns`; the hashes of two equal keys are equal as well, the
hash of a reachable position being determined by the other three. -/
theorem fingerprints_equal_iff (z : Zobrist) (p q : Position)
    (hp : Reachable z p) (hq : Reachable z q) :
    PositionInfoEqual (p.get_info z) (q.get_info z) = true ↔
      (∀ c < MAX_COLORS, ∀ col < COLS,
          (p.get_info z).columns c col = (q.get_info z).columns c col) ∧
        (p.get_info z).hash = (q.get_info z).hash ∧
        (p.get_info z).tile_index = (q.get_info z).tile_index ∧
        (p.get_info z).player = (q.get_info z).player := by
  constructor
  · intro h
    obtain ⟨h1, h2, h3⟩ := (info_equal_iff _ _).mp h
    exact ⟨h3, info_equal_hash z p q (reachable_inv z p hp) (reachable_inv z q hq) h, h1, h2⟩
  · rintro ⟨h3, -, h1, h2⟩
    exact (info_equal_iff _ _).mpr ⟨h1, h2, h3⟩

theorem fingerprints_equal_iff_witness :
    (Reachable sample_keys opening ∧ Reachable sample_keys finished) ∧
    (PositionInfoEqual (opening.get_info sample_keys) (finished.get_info sample_keys) = true ↔
      (∀ c < MAX_COLORS, ∀ col < COLS,
          (opening.get_info sample_keys).columns c col =
            (finished.get_info sample_keys).columns c col) ∧
        (opening.get_info sample_keys).hash = (finished.get_info sample_keys).hash ∧
        (opening.get_info sample_keys).tile_index =
          (finished.get_info sample_keys).tile_index ∧
        (opening.get_info sample_keys).player = (finished.get_info sample_keys).player) :=
  ⟨⟨opening_reachable, finished_reachable⟩,
    fingerprints_equal_iff sample_keys opening finished opening_reachable finished_reachable⟩

end Box
namespace Box

/-! ## The most visited action -/

/-- The loop of `select_most_visited()` run on the actions `l`, numbered from
`k`, with the running maximum `acc`. -/
theorem most_visited_loop {F : Type} :
    ∀ (l : List (ActionInfo F)) (k : Nat) (acc : Int × Option Nat),
      ((∀ a ∈ l, a.visits ≤ acc.1) ∧
        (l.enumFrom k).foldl
          (fun (acc : Int × Option Nat) (ia : Nat × ActionInfo F) =>
            if acc.1 < ia.2.visits then (ia.2.visits, some ia.1) else acc) acc = acc) ∨
      (∃ i a, l[i]? = some a ∧ acc.1 < a.visits ∧
        (l.enumFrom k).foldl
          (fun (acc : Int × Option Nat) (ia : Nat × ActionInfo F) =>
            if acc.1 < ia.2.visits then (ia.2.visits, some ia.1) else acc) acc =
            (a.visits, some (k + i)) ∧
        (∀ b ∈ l, b.visits ≤ a.visits) ∧
        (∀ j b, j < i → l[j]? = some b → b.visits < a.visits)) := by
  intro l
  induction l with
  | nil =>
    intro k acc
    exact Or.inl ⟨fun a ha => absurd ha (List.not_mem_nil a), rfl⟩
  | cons x rest ih =>
    intro k acc
    rw [List.enumFrom_cons, List.foldl_cons]
    by_cases hx : acc.1 < x.visits
    · rw [if_pos hx]
      rcases ih (k + 1) (x.visits, some k) with ⟨h1, h2⟩ | ⟨i, a, h1, h2, h3, h4, h5⟩
      · refine Or.inr ⟨0, x, List.getElem?_cons_zero, hx, ?_, ?_, ?_⟩
        · rw [h2]
          rfl
        · intro b hb
          rcases List.mem_cons.mp hb with rfl | hb
          · exact le_refl _
          · exact h1 b hb
        · intro j b hj
          exact absurd hj (Nat.not_lt_zero j)
      · refine Or.inr ⟨i + 1, a, by rw [List.getElem?_cons_succ]; exact h1, lt_trans hx h2, ?_, ?_, ?_⟩
        · rw [h3]
          have : k + 1 + i = k + (i + 1) := by omega
          rw [this]
        · intro b hb
          rcases List.mem_cons.mp hb with rfl | hb
          · exact le_of_lt h2
          · exact h4 b hb
        · intro j b hj hb
          cases j with
          | zero =>
            rw [List.getElem?_cons_zero] at hb
            have : x = b := Option.some.inj hb
            rw [← this]
            exact h2
          | succ j =>
            rw [List.getElem?_cons_succ] at hb
            exact h5 j b (by omega) hb
    · rw [if_neg hx]
      rcases ih (k + 1) acc with ⟨h1, h2⟩ | ⟨i, a, h1, h2, h3, h4, h5⟩
      · refine Or.inl ⟨?_, h2⟩
        intro b hb
        rcases List.mem_cons.mp hb with rfl | hb
        · exact not_lt.mp hx
        · exact h1 b hb
      · refine Or.inr ⟨i + 1, a, by rw [List.getElem?_cons_succ]; exact h1, h2, ?_, ?_, ?_⟩
        · rw [h3]
          have : k + 1 + i = k + (i + 1) := by omega
          rw [this]
        · intro b hb
          rcases List.mem_cons.mp hb with rfl | hb
          · exact le_trans (not_lt.mp hx) (le_of_lt h2)
          · exact h4 b hb
        · intro j b hj hb
          cases j with
          | zero =>
            rw [List.getElem?_cons_zero] at hb
            have : x = b := Option.some.inj hb
            rw [← this]
            exact lt_of_le_of_lt (not_lt.mp hx) h2
          | succ j =>
            rw [List.getElem?_cons_succ] at hb
            exact h5 j b (by omega) hb

/-- C28. On a state with at least one expanded action, the visit counts being
above `numeric_limits<int>::lowest()`, `select_most_visited()` returns an action
whose `visits` is the greatest of all expanded actions, and every action added
before it has fewer visits; with no expanded action it returns the null
pointer. -/
theorem most_visited_first_max {F : Type} (st : StateInfo F)
    (hvis : ∀ a ∈ st.actions, -(2 : Int) ^ 31 < a.visits) :
    (st.actions ≠ [] → ∃ i a, st.select_most_visited = some i ∧ st.actions[i]? = some a ∧
      (∀ b ∈ st.actions, b.visits ≤ a.visits) ∧
      (∀ j b, j < i → st.actions[j]? = some b → b.visits < a.visits)) ∧
    (st.actions = [] → st.select_most_visited = none) := by
  constructor
  · intro hne
    unfold StateInfo.select_most_visited
    rw [List.enum]
    rcases most_visited_loop st.actions 0 (-(2 : Int) ^ 31, none) with
      ⟨h1, -⟩ | ⟨i, a, h1, -, h3, h4, h5⟩
    · exfalso
      obtain ⟨x, hx⟩ := List.exists_mem_of_ne_nil _ hne
      have := h1 x hx
      have := hvis x hx
      simp only at *
      omega
    · refine ⟨i, a, ?_, h1, h4, h5⟩
      rw [h3]
      simp
  · intro he
    unfold StateInfo.select_most_visited
    rw [he]
    rfl

theorem most_visited_first_max_witness :
    (∀ a ∈ sample_state.actions, -(2 : Int) ^ 31 < a.visits) ∧
    (sample_state.actions ≠ [] → ∃ i a, sample_state.select_most_visited = some i ∧
      sample_state.actions[i]? = some a ∧
      (∀ b ∈ sample_state.actions, b.visits ≤ a.visits) ∧
      (∀ j b, j < i → sample_state.actions[j]? = some b → b.visits < a.visits)) ∧
    (sample_state.actions = [] → sample_state.select_most_visited = none) :=
  ⟨by
      intro a ha
      simp only [sample_state, List.mem_cons, List.mem_singleton, List.not_mem_nil,
        or_false] at ha
      rcases ha with rfl | rfl | rfl <;> decide,
    most_visited_first_max sample_state (by
      intro a ha
      simp only [sample_state, List.mem_cons, List.mem_singleton, List.not_mem_nil,
        or_false] at ha
      rcases ha with rfl | rfl | rfl <;> decide)⟩

end Box
namespace Box

/-! ## Random moves -/

theorem mem_dropLast_of {α : Type} (l : List α) (x : α) (h : x ∈ l.dropLast) : x ∈ l :=
  List.dropLast_subset l h

theorem remove_candidate_filled (p : Position) (c : Nat) :
    (p.remove_candidate c).filled = p.filled := by
  unfold Position.remove_candidate
  split <;> rfl

theorem remove_candidate_subset (p : Position) (c : Nat) :
    ∀ x ∈ (p.remove_candidate c).candidates, x ∈ p.candidates := by
  intro x hx
  unfold Position.remove_candidate at hx
  split at hx
  · rename_i back hb
    have h1 : x ∈ p.candidates.set c back := mem_dropLast_of _ _ hx
    rcases List.mem_or_eq_of_mem_set h1 with h | h
    · exact h
    · rw [h]
      exact List.mem_of_mem_getLast? hb
  · exact hx

/-- What the loop of `get_random_move()` returns, when it returns. -/
theorem get_random_move_spec :
    ∀ (fuel : Nat) (g : FastRandom) (p : Position)
      (r : Option TileInfo × Position × FastRandom),
      p.get_random_move fuel g = some r →
      r.2.1.filled = p.filled ∧ (∀ x ∈ r.2.1.candidates, x ∈ p.candidates) ∧
      (∀ info, r.1 = some info → info ∈ p.candidates ∧ p.possible_move info = true) ∧
      (r.1 = none → r.2.1.candidates = []) := by
  intro fuel
  induction fuel with
  | zero =>
    intro g p r h
    unfold Position.get_random_move at h
    split at h
    · rename_i he
      cases h
      exact ⟨rfl, fun x hx => hx, (fun info hi => by cases hi),
        fun _ => List.isEmpty_iff.mp he⟩
    · cases h
  | succ n ih =>
    intro g p r h
    unfold Position.get_random_move at h
    split at h
    · rename_i he
      cases h
      exact ⟨rfl, fun x hx => hx, (fun info hi => by cases hi),
        fun _ => List.isEmpty_iff.mp he⟩
    · simp only at h
      split at h
      · cases h
      · rename_i info hinfo
        have hmem : info ∈ p.candidates := List.getElem?_mem hinfo
        split at h
        · rename_i hc
          split at h
          · rename_i hle
            cases h
            refine ⟨remove_candidate_filled _ _, remove_candidate_subset _ _, ?_,
              fun hn => by cases hn⟩
            intro info' hi
            cases hi
            refine ⟨hmem, ?_⟩
            unfold Position.possible_move
            simp only
            rw [if_pos hc]
            exact decide_eq_true hle
          · obtain ⟨h1, h2, h3, h4⟩ := ih _ _ r h
            rw [remove_candidate_filled] at h1
            refine ⟨h1, fun x hx => remove_candidate_subset _ _ x (h2 x hx), ?_, h4⟩
            intro info' hi
            obtain ⟨k1, k2⟩ := h3 info' hi
            refine ⟨remove_candidate_subset _ _ _ k1, ?_⟩
            unfold Position.possible_move at k2 ⊢
            rw [remove_candidate_filled] at k2
            exact k2
        · rename_i hc
          split at h
          · rename_i hnb
            cases h
            refine ⟨remove_candidate_filled _ _, remove_candidate_subset _ _, ?_,
              fun hn => by cases hn⟩
            intro info' hi
            cases hi
            refine ⟨hmem, ?_⟩
            unfold Position.possible_move
            simp only
            rw [if_neg hc]
            exact hnb
          · exact ih _ _ r h

set_option maxRecDepth 1000000 in
theorem sample_draw_eq : draw_board.get_random_move 1 ⟨6⟩ = some sample_draw := by
  have h : (draw_board.get_random_move 1 ⟨6⟩).isSome = true := by decide!
  unfold sample_draw
  cases hc : draw_board.get_random_move 1 ⟨6⟩ with
  | none => rw [hc] at h; cases h
  | some r => rfl

/-- C26. Whenever `get_random_move()` returns a placement, that placement was
in the candidate list and `possible_move` is true for it in the position;
whenever it returns the null pointer the candidate list is empty. The board is
left as it was and no candidate is added. -/
theorem random_move_sound (fuel : Nat) (g : FastRandom) (p : Position)
    (r : Option TileInfo × Position × FastRandom) (h : p.get_random_move fuel g = some r) :
    (∀ info, r.1 = some info → info ∈ p.candidates ∧ p.possible_move info = true) ∧
    (r.1 = none → r.2.1.candidates = []) ∧
    r.2.1.filled = p.filled ∧ (∀ x ∈ r.2.1.candidates, x ∈ p.candidates) := by
  obtain ⟨h1, h2, h3, h4⟩ := get_random_move_spec fuel g p r h
  exact ⟨h3, h4, h1, h2⟩

theorem random_move_sound_witness :
    draw_board.get_random_move 1 ⟨6⟩ = some sample_draw ∧
    (∀ info, sample_draw.1 = some info →
      info ∈ draw_board.candidates ∧ draw_board.possible_move info = true) ∧
    (sample_draw.1 = none → sample_draw.2.1.candidates = []) ∧
    sample_draw.2.1.filled = draw_board.filled ∧
    (∀ x ∈ sample_draw.2.1.candidates, x ∈ draw_board.candidates) :=
  ⟨sample_draw_eq, random_move_sound 1 ⟨6⟩ draw_board sample_draw sample_draw_eq⟩

end Box
namespace Box

/-! ## TileSet: for_each -/

/-- Filtering a range by the bits of a word: the lowest set bit comes first,
followed by what the remaining bits give. -/
theorem filter_lowest (P Q : Nat → Bool) (k n : Nat) (hk : k < n)
    (hlow : ∀ j, j < k → P j = false) (hPk : P k = true)
    (hQ : ∀ i, Q i = (P i && decide (i ≠ k))) :
    (List.range n).filter P = k :: (List.range n).filter Q := by
  have hsplit : List.range n = List.range' 0 k ++ k :: List.range' (k + 1) (n - k - 1) := by
    rw [List.range_eq_range']
    have h1 := List.range'_append 0 k (n - k) 1
    simp only [Nat.one_mul, Nat.zero_add] at h1
    have h2 : n - k + k = n := by omega
    rw [h2] at h1
    rw [← h1]
    have h3 : n - k = (n - k - 1) + 1 := by omega
    rw [h3, List.range'_succ]
    simp
  rw [hsplit, List.filter_append, List.filter_append, List.filter_cons, List.filter_cons]
  have e1 : List.filter P (List.range' 0 k) = [] := by
    rw [List.filter_eq_nil_iff]
    intro a ha
    have := (List.mem_range'_1.mp ha).2
    rw [hlow a (by omega)]
    decide
  have e2 : List.filter Q (List.range' 0 k) = [] := by
    rw [List.filter_eq_nil_iff]
    intro a ha
    have := (List.mem_range'_1.mp ha).2
    rw [hQ, hlow a (by omega)]
    simp
  have e3 : Q k = false := by
    rw [hQ]
    simp
  have e4 : List.filter P (List.range' (k + 1) (n - k - 1)) =
      List.filter Q (List.range' (k + 1) (n - k - 1)) := by
    apply List.filter_congr
    intro a ha
    have := (List.mem_range'_1.mp ha).1
    rw [hQ]
    have : a ≠ k := by omega
    simp [this]
  rw [e1, e2, hPk, e3, e4]
  simp

theorem filter_zero_bits (n : Nat) :
    (List.range n).filter (fun i => (0 : Nat).testBit i) = [] := by
  rw [List.filter_eq_nil_iff]
  intro a _
  rw [Nat.zero_testBit]
  decide

set_option maxRecDepth 100000 in
/-- One round of the loop of `for_each`, as the definition states it. -/
theorem for_each_chunk_unfold {β : Type} (func : β → TileInfo → Option β)
    (chunk fuel current : Nat) (acc : β) :
    TileSet.for_each_chunk func chunk (fuel + 1) current acc =
      if current ≠ 0 then
        match ALL_TILES_INFO[chunk * 64 + countr_zero_loop 64 current 0]? with
        | none => none
        | some tile_info =>
          (func acc tile_info).bind
            (TileSet.for_each_chunk func chunk fuel (current &&& (current - 1)))
      else some acc := rfl

/-- One round of the loop of `for_each`. -/
theorem for_each_chunk_step {β : Type} (func : β → TileInfo → Option β)
    (chunk fuel current : Nat) (acc : β) :
    TileSet.for_each_chunk func chunk (fuel + 1) current acc =
      if current ≠ 0 then
        (ALL_TILES_INFO[chunk * 64 + countr_zero_loop 64 current 0]?).bind
          (fun tile_info => (func acc tile_info).bind
            (TileSet.for_each_chunk func chunk fuel (current &&& (current - 1))))
      else some acc := by
  rw [for_each_chunk_unfold]
  generalize ALL_TILES_INFO[chunk * 64 + countr_zero_loop 64 current 0]? = entry
  cases entry <;> rfl

theorem for_each_chunk_stop {β : Type} (func : β → TileInfo → Option β)
    (chunk current : Nat) (acc : β) :
    TileSet.for_each_chunk func chunk 0 current acc =
      if current ≠ 0 then none else some acc := rfl

/-- The loop of `for_each` on one chunk visits the set bits of the word in
ascending order. -/
theorem for_each_chunk_eq {β : Type} (func : β → TileInfo → Option β) (chunk : Nat) :
    ∀ (fuel current : Nat) (acc : β) (lo : Nat),
      (∀ i, current.testBit i = true → lo ≤ i ∧ i < 64) → 64 ≤ fuel + lo →
      TileSet.for_each_chunk func chunk fuel current acc =
        ((List.range 64).filter (fun i => current.testBit i)).foldlM
          (fun acc i => (ALL_TILES_INFO[chunk * 64 + i]?).bind (func acc)) acc := by
  intro fuel
  induction fuel with
  | zero =>
    intro current acc lo hb hf
    have h0 : current = 0 := by
      apply Nat.eq_of_testBit_eq
      intro i
      rw [Nat.zero_testBit]
      cases hi : current.testBit i
      · rfl
      · have := hb i hi
        omega
    subst h0
    rw [for_each_chunk_stop, filter_zero_bits 64, if_neg (fun h => h rfl)]
    rfl
  | succ n ih =>
    intro current acc lo hb hf
    rw [for_each_chunk_step]
    by_cases h0 : current = 0
    · subst h0
      rw [filter_zero_bits 64, if_neg (fun h => h rfl)]
      rfl
    · rw [if_pos h0]
      have hpos : 0 < current := Nat.pos_of_ne_zero h0
      have hlt : current < 2 ^ 64 := by
        apply Nat.lt_pow_two_of_testBit
        intro i hi
        cases hc : current.testBit i
        · rfl
        · have := (hb i hc).2
          omega
      obtain ⟨-, h2, h3, h4, h5⟩ := countr_zero_loop_spec 64 current 0 hpos hlt
      simp only [Nat.sub_zero] at h2 h3 h4 h5
      have hk := hb _ h3
      have hfl := filter_lowest (fun i => current.testBit i)
        (fun i => (current &&& (current - 1)).testBit i) (countr_zero_loop 64 current 0) 64 h2
        h4 h3 h5
      rw [hfl, List.foldlM_cons]
      generalize ALL_TILES_INFO[chunk * 64 + countr_zero_loop 64 current 0]? = entry
      cases entry with
      | none => rfl
      | some T =>
        simp only [Option.some_bind]
        cases hf1 : func acc T with
        | none => rfl
        | some acc1 =>
          simp only [Option.some_bind, Option.bind_eq_bind]
          apply ih (current &&& (current - 1)) acc1 (countr_zero_loop 64 current 0 + 1)
          · intro i hi
            rw [h5] at hi
            simp only [Bool.and_eq_true, decide_eq_true_eq] at hi
            have hlo : countr_zero_loop 64 current 0 ≤ i := by
              by_contra hcon
              have := h4 i (by omega)
              rw [this] at hi
              exact absurd hi.1 (by decide)
            have := hb i hi.1
            omega
          · omega

end Box

namespace Box

/-- A fold over the concatenation of blocks is the fold, block by block. -/
theorem foldlM_flatMap {α β γ : Type} (g : β → γ → Option β) (blocks : α → List γ) :
    ∀ (l : List α) (init : β),
      (l.flatMap blocks).foldlM g init =
        l.foldlM (fun acc a => (blocks a).foldlM g acc) init := by
  intro l
  induction l with
  | nil => intro init; rfl
  | cons a l ih =>
    intro init
    rw [List.flatMap_cons, List.foldlM_append, List.foldlM_cons]
    cases h : (blocks a).foldlM g init with
    | none => rfl
    | some acc => exact ih acc

theorem foldlM_map_index {β : Type} (g : β → Nat → Option β) (f : Nat → Nat) :
    ∀ (l : List Nat) (init : β),
      (l.map f).foldlM g init = l.foldlM (fun acc i => g acc (f i)) init := by
  intro l
  induction l with
  | nil => intro init; rfl
  | cons a l ih =>
    intro init
    rw [List.map_cons, List.foldlM_cons, List.foldlM_cons]
    cases h : g init (f a) with
    | none => rfl
    | some acc => exact ih acc

theorem range_chunks :
    List.range (TileSet.NUM_CHUNKS * 64) =
      (List.range TileSet.NUM_CHUNKS).flatMap (fun chunk =>
        (List.range 64).map (fun i => chunk * 64 + i)) := by
  decide!

/-- The set bits of the words, chunk by chunk, are the codes below
`NUM_CHUNKS * 64` that `test` accepts. -/
theorem chunk_bits (s : TileSet) :
    (List.range TileSet.NUM_CHUNKS).flatMap (fun chunk =>
        ((List.range 64).filter (fun i => (s.data.getD chunk 0).testBit i)).map
          (fun i => chunk * 64 + i)) =
      (List.range (TileSet.NUM_CHUNKS * 64)).filter (fun c => s.test c) := by
  rw [range_chunks, List.filter_flatMap]
  congr 1
  funext chunk
  rw [List.filter_map]
  congr 1
  apply List.filter_congr
  intro i hi
  have hi64 : i < 64 := List.mem_range.mp hi
  simp only [Function.comp_apply]
  rw [TileSet.test_eq]
  have h1 : (chunk * 64 + i) / 64 = chunk := by omega
  have h2 : (chunk * 64 + i) % 64 = i := by omega
  rw [h1, h2]

/-- The visits of `for_each`, as a fold over the codes below `NUM_CHUNKS * 64`
whose bit is set. -/
theorem for_each_eq {β : Type} (s : TileSet) (hs : s.WF) (func : β → TileInfo → Option β)
    (init : β) :
    s.for_each func init =
      ((List.range (TileSet.NUM_CHUNKS * 64)).filter (fun c => s.test c)).foldlM
        (fun acc c => (ALL_TILES_INFO[c]?).bind (func acc)) init := by
  rw [← chunk_bits, foldlM_flatMap]
  unfold TileSet.for_each
  congr 1
  funext acc chunk
  rw [foldlM_map_index]
  apply for_each_chunk_eq func chunk 64 _ acc 0
  · intro i hi
    refine ⟨Nat.zero_le _, ?_⟩
    by_contra hcon
    have hw : s.data.getD chunk 0 < 2 ^ 64 := by
      rw [List.getD_eq_getElem?_getD]
      cases hg : s.data[chunk]? with
      | none => simp
      | some w => exact hs.2 w (List.mem_iff_getElem?.mpr ⟨_, hg⟩)
    have := Nat.testBit_lt_two_pow (Nat.lt_of_lt_of_le hw
      (Nat.pow_le_pow_right (by decide) (Nat.le_of_not_lt hcon)))
    rw [this] at hi
    exact absurd hi (by decide)
  · exact Nat.le_refl _

/-- The codes of a set whose bits all lie below `ALL_TILES_COUNT`. -/
theorem codes_eq (s : TileSet) (hb : ∀ c, s.test c = true → c < ALL_TILES_COUNT) :
    (List.range (TileSet.NUM_CHUNKS * 64)).filter (fun c => s.test c) = s.codes := by
  unfold TileSet.codes
  have hsplit : List.range (TileSet.NUM_CHUNKS * 64) =
      List.range ALL_TILES_COUNT ++ List.range' ALL_TILES_COUNT 14 := by
    have h1 := List.range'_append 0 ALL_TILES_COUNT 14 1
    simp only [Nat.one_mul, Nat.zero_add] at h1
    have e : TileSet.NUM_CHUNKS * 64 = 14 + ALL_TILES_COUNT := by decide
    rw [List.range_eq_range', List.range_eq_range', h1, e]
  rw [hsplit, List.filter_append]
  have : List.filter (fun c => s.test c) (List.range' ALL_TILES_COUNT 14) = [] := by
    rw [List.filter_eq_nil_iff]
    intro a ha h
    have h1 := (List.mem_range'_1.mp ha).1
    have h2 := hb a h
    omega
  rw [this, List.append_nil]

/-- A fold that looks every index up in a table is the fold over the
entries found. -/
theorem foldlM_lookup {β : Type} (table : List TileInfo) (func : β → TileInfo → Option β) :
    ∀ (l : List Nat) (init : β), (∀ c ∈ l, c < table.length) →
      l.foldlM (fun acc c => (table[c]?).bind (func acc)) init =
        (l.filterMap (fun c => table[c]?)).foldlM func init := by
  intro l
  induction l with
  | nil => intro init _; rfl
  | cons c l ih =>
    intro init hl
    have hc : c < table.length := hl c (List.mem_cons_self _ _)
    obtain ⟨T, hT⟩ : ∃ T, table[c]? = some T := ⟨_, List.getElem?_eq_getElem hc⟩
    rw [List.foldlM_cons, List.filterMap_cons, hT]
    simp only [Option.some_bind, List.foldlM_cons]
    cases h : func init T with
    | none => rfl
    | some acc => exact ih acc (fun d hd => hl d (List.mem_cons_of_mem _ hd))

theorem map_code_lookup (table : List TileInfo)
    (hcode : ∀ (c : Nat) (T : TileInfo), table[c]? = some T → T.code = c) :
    ∀ (l : List Nat), (∀ c ∈ l, c < table.length) →
      (l.filterMap (fun c => table[c]?)).map TileInfo.code = l := by
  intro l
  induction l with
  | nil => intro _; rfl
  | cons c l ih =>
    intro hl
    have hc : c < table.length := hl c (List.mem_cons_self _ _)
    obtain ⟨T, hT⟩ : ∃ T, table[c]? = some T := ⟨_, List.getElem?_eq_getElem hc⟩
    rw [List.filterMap_cons, hT]
    simp only [List.map_cons, hcode c T hT]
    rw [ih (fun d hd => hl d (List.mem_cons_of_mem _ hd))]

theorem mem_lookup (table : List TileInfo)
    (hcode : ∀ (c : Nat) (T : TileInfo), table[c]? = some T → T.code = c) (l : List Nat) (T : TileInfo)
    (hT : T ∈ l.filterMap (fun c => table[c]?)) : table[T.code]? = some T := by
  obtain ⟨c, -, hc⟩ := List.mem_filterMap.mp hT
  rw [hcode c T hc]
  exact hc

theorem registry_code (c : Nat) (T : TileInfo) (h : ALL_TILES_INFO[c]? = some T) :
    T.code = c := by
  have hc : c < ALL_TILES_COUNT := by
    rw [← registry_length]
    exact (List.getElem?_eq_some_iff.mp h).1
  obtain ⟨T2, h2, h3, -⟩ := registry_entry c hc
  rw [h2] at h
  rw [← Option.some.inj h]
  exact h3

end Box

namespace Box

/-! ## Claim C23 -/

theorem foldlM_collect {α γ : Type} (f : α → γ) :
    ∀ (l : List α) (init : List γ),
      l.foldlM (fun acc a => some (acc ++ [f a])) init = some (init ++ l.map f) := by
  intro l
  induction l with
  | nil => intro init; simp
  | cons a l ih =>
    intro init
    rw [List.foldlM_cons]
    simp only [Option.some_bind, Option.bind_eq_bind]
    rw [ih]
    simp

theorem codes_mem (s : TileSet) (hb : ∀ c, s.test c = true → c < ALL_TILES_COUNT) (c : Nat) :
    c ∈ s.codes ↔ s.test c = true := by
  unfold TileSet.codes
  rw [List.mem_filter, List.mem_range]
  exact ⟨fun h => h.2, fun h => ⟨hb c h, h⟩⟩

theorem codes_ascending (s : TileSet) : s.codes.Pairwise (fun a b => a < b) := by
  unfold TileSet.codes
  exact List.Pairwise.filter _ (List.pairwise_lt_range _)

/-- C23: for a set of 64-bit words whose set bits are codes of the registry,
`for_each(visit)` runs `visit` over a list of placements that holds one entry
for each code whose bit is set and none for any other code, in strictly
ascending order of the codes; each entry is the registry entry at its code,
so its `code` field is that code. Collecting the codes visited gives the set
codes in ascending order. -/
theorem for_each_ascending (s : TileSet) (hs : s.WF)
    (hb : ∀ c, s.test c = true → c < ALL_TILES_COUNT)
    {β : Type} (visit : β → TileInfo → Option β) (init : β) :
    ∃ tiles : List TileInfo,
      s.for_each visit init = tiles.foldlM visit init ∧
      tiles.map TileInfo.code = s.codes ∧
      (∀ c, c ∈ s.codes ↔ s.test c = true) ∧
      s.codes.Pairwise (fun a b => a < b) ∧
      (∀ T ∈ tiles, ALL_TILES_INFO[T.code]? = some T) ∧
      s.for_each (fun acc T => some (acc ++ [T.code])) [] = some s.codes := by
  have hlt : ∀ c ∈ s.codes, c < ALL_TILES_INFO.length := by
    intro c hc
    rw [registry_length]
    exact hb c ((codes_mem s hb c).mp hc)
  have hmap := map_code_lookup ALL_TILES_INFO registry_code s.codes hlt
  refine ⟨s.codes.filterMap (fun c => ALL_TILES_INFO[c]?), ?_, hmap, codes_mem s hb,
    codes_ascending s, mem_lookup ALL_TILES_INFO registry_code s.codes, ?_⟩
  · rw [for_each_eq s hs, codes_eq s hb]
    exact foldlM_lookup ALL_TILES_INFO visit s.codes init hlt
  · rw [for_each_eq s hs, codes_eq s hb, foldlM_lookup ALL_TILES_INFO _ s.codes [] hlt,
      foldlM_collect, hmap]
    rfl

theorem single_code_bits (c : Nat) :
    (TileSet.empty.set 5).test c = true → c < ALL_TILES_COUNT := by
  intro h
  rw [TileSet.test_after_set _ _ _ TileSet.empty_wf (by decide), TileSet.test_empty] at h
  simp only [Bool.false_or, decide_eq_true_eq] at h
  rw [h]
  decide

theorem for_each_ascending_witness :
    (TileSet.empty.set 5).WF ∧
    (∀ c, (TileSet.empty.set 5).test c = true → c < ALL_TILES_COUNT) ∧
    ∃ tiles : List TileInfo,
      (TileSet.empty.set 5).for_each (fun (acc : Nat) T => some (acc + T.code)) 0 =
        tiles.foldlM (fun (acc : Nat) T => some (acc + T.code)) 0 ∧
      tiles.map TileInfo.code = (TileSet.empty.set 5).codes ∧
      (∀ c, c ∈ (TileSet.empty.set 5).codes ↔ (TileSet.empty.set 5).test c = true) ∧
      (TileSet.empty.set 5).codes.Pairwise (fun a b => a < b) ∧
      (∀ T ∈ tiles, ALL_TILES_INFO[T.code]? = some T) ∧
      (TileSet.empty.set 5).for_each (fun acc T => some (acc ++ [T.code])) [] =
        some (TileSet.empty.set 5).codes :=
  ⟨TileSet.set_wf _ _ TileSet.empty_wf, single_code_bits,
    for_each_ascending (TileSet.empty.set 5) (TileSet.set_wf _ _ TileSet.empty_wf)
      single_code_bits (fun (acc : Nat) T => some (acc + T.code)) 0⟩

end Box
namespace Box

/-! ## bonus -/

theorem bonus_round (p : Position) (row col color r : Nat) (score : Int) :
    (if row ≠ r then
      if col ≥ Int.natAbs ((row : Int) - r) ∧
          (p.columns color (col - Int.natAbs ((row : Int) - r))).test2 row r = true
      then (if col + Int.natAbs ((row : Int) - r) < COLS ∧
            (p.columns color (col + Int.natAbs ((row : Int) - r))).test2 row r = true
          then score + (Int.natAbs ((row : Int) - r) : Int) else score) +
            (Int.natAbs ((row : Int) - r) : Int)
      else (if col + Int.natAbs ((row : Int) - r) < COLS ∧
            (p.columns color (col + Int.natAbs ((row : Int) - r))).test2 row r = true
          then score + (Int.natAbs ((row : Int) - r) : Int) else score)
    else score) = score + bonus_term p row col color r := by
  unfold bonus_term
  split_ifs <;> omega

theorem bonus_loop_eq (p : Position) (row col color : Nat) :
    ∀ (fuel v : Nat) (score : Int) (lo : Nat),
      (∀ i, v.testBit i = true → lo ≤ i ∧ i < 16) → 16 ≤ fuel + lo →
      p.bonus_loop row col color fuel v score =
        some (score + ∑ r ∈ Finset.range 16,
          if v.testBit r = true then bonus_term p row col color r else 0) := by
  intro fuel
  induction fuel with
  | zero =>
    intro v score lo hb hf
    have h0 : v = 0 := bits_zero v lo hb (by omega)
    subst h0
    simp [Position.bonus_loop]
  | succ fuel ih =>
    intro v score lo hb hf
    unfold Position.bonus_loop
    by_cases h0 : v > 0
    · rw [if_pos h0]
      obtain ⟨k16, kbit, klow, kclr⟩ := countr_zero_spec v h0 (bits_lt v lo hb)
      have hklo : lo ≤ countr_zero v := (hb _ kbit).1
      have hge : ∀ i, v.testBit i = true → countr_zero v ≤ i := by
        intro i hi
        by_contra hlt
        rw [klow i (by omega)] at hi
        cases hi
      have hb' : ∀ i, ((v &&& (v - 1)) % 2 ^ 16).testBit i = true →
          countr_zero v + 1 ≤ i ∧ i < 16 := by
        intro i hi
        rw [kclr i] at hi
        simp only [Bool.and_eq_true, decide_eq_true_eq] at hi
        have h1 := hb i hi.1
        have h2 := hge i hi.1
        omega
      simp only
      rw [bonus_round, ih _ _ (countr_zero v + 1) hb' (by omega),
        sum_split_bit v _ (countr_zero v) (bonus_term p row col color) k16 kbit kclr,
        Int.add_assoc]
    · rw [if_neg h0]
      have h00 : v = 0 := by omega
      subst h00
      simp

theorem bonus_eq (p : Position) (row col color : Nat)
    (hv : ∀ i, (p.columns color col).value.testBit i = true → i < 16) :
    p.bonus row col color =
      some (∑ r ∈ Finset.range 16,
        if (p.columns color col).value.testBit r = true
        then bonus_term p row col color r else 0) := by
  unfold Position.bonus
  rw [bonus_loop_eq p row col color 16 _ 0 0 (fun i hi => ⟨Nat.zero_le _, hv i hi⟩) (by omega)]
  rw [Int.zero_add]

theorem natAbs_side (row r : Nat) : Int.natAbs ((row : Int) - r) = side row r := by
  unfold side
  split_ifs <;> omega

/-- Under column coherence a round of the loop of `bonus` adds the sides of
the squares to the right and to the left that the dot would close. -/
theorem bonus_term_eq (p : Position) (c row col r : Nat) (hcoh : p.ColumnsCoherent c)
    (hrow : row < ROWS) (hcol : col < COLS) (hr : r < ROWS) :
    (if (p.columns c col).value.testBit r = true then bonus_term p row col c r else 0) =
      ∑ s ∈ Finset.range 2, corner_term p c row col r s := by
  have hbit : (p.columns c col).value.testBit r = true ↔ p.colors (r * COLS + col) = c + 49 := by
    rw [hcoh col r hcol]
    exact ⟨fun h => h.2, fun h => ⟨hr, h⟩⟩
  have htest : ∀ col2, col2 < COLS →
      ((p.columns c col2).test2 row r = true ↔
        p.colors (row * COLS + col2) = c + 49 ∧ p.colors (r * COLS + col2) = c + 49) := by
    intro col2 h2
    rw [Column.test2_iff, hcoh col2 row h2, hcoh col2 r h2]
    exact ⟨fun h => ⟨h.1.2, h.2.2⟩, fun h => ⟨⟨hrow, h.1⟩, ⟨hr, h.2⟩⟩⟩
  rw [Finset.sum_range_succ, Finset.sum_range_one]
  unfold bonus_term corner_term
  rw [natAbs_side]
  have hle : side row r ≤ col → col - side row r < COLS := fun _ =>
    Nat.lt_of_le_of_lt (Nat.sub_le _ _) hcol
  by_cases h1 : (p.columns c col).value.testBit r = true
  · have h1' := hbit.mp h1
    rw [if_pos h1]
    by_cases h2 : row = r
    · subst h2
      simp
    · have h2' : r ≠ row := fun h => h2 h.symm
      rw [if_pos h2]
      congr 1
      · by_cases h3 : col + side row r < COLS
        · simp only [h3, htest _ h3, h2', h1', true_and, ne_eq, not_false_eq_true, if_true]
        · simp [h3]
      · by_cases h3 : side row r ≤ col
        · simp only [ge_iff_le, h3, htest _ (hle h3), h2', h1', true_and, ne_eq,
            not_false_eq_true, if_true, one_ne_zero, if_false]
        · simp [h3]
  · have h1' : ¬ p.colors (r * COLS + col) = c + 49 := fun h => h1 (hbit.mpr h)
    rw [if_neg h1]
    simp [h1']

/-- Under column coherence `bonus(row, col, c)` returns the marginal score of
the dot `(row, col)` for the color of index `c`. -/
theorem bonus_marginal (p : Position) (c row col : Nat) (hcoh : p.ColumnsCoherent c)
    (hrow : row < ROWS) (hcol : col < COLS) :
    p.bonus row col c = some (marginal_score p c row col) := by
  rw [bonus_eq p row col c (fun i hi => ((hcoh col i hcol).mp hi).1)]
  unfold marginal_score
  congr 1
  apply Finset.sum_congr rfl
  intro r hr
  exact bonus_term_eq p c row col r hcoh hrow hcol (Finset.mem_range.mp hr)

end Box
namespace Box

/-! ## The squares closed by painting one dot -/

theorem side_pos (row r : Nat) (h : r ≠ row) : 1 ≤ side row r := by
  unfold side
  split_ifs <;> omega

/-- The squares of a color after a dot has been painted with it: what the
painted board has more than the board before. -/
theorem new_square (p q : Position) (c row col : Nat) (hcol : col < 20)
    (hne : p.colors (row * 20 + col) ≠ c + 49)
    (hq : ∀ x, q.colors x = c + 49 ↔ (x = row * 20 + col ∨ p.colors x = c + 49))
    (col0 r0 b : Nat) (hb : 1 ≤ b) (hcb : col0 + b < 20) :
    (q.square c r0 col0 b ∧ ¬ p.square c r0 col0 b) ↔
      ((r0 = row ∧ col0 = col ∧ p.colors (r0 * 20 + (col0 + b)) = c + 49 ∧
          p.colors ((r0 + b) * 20 + col0) = c + 49 ∧
          p.colors ((r0 + b) * 20 + (col0 + b)) = c + 49) ∨
       (r0 = row ∧ col0 + b = col ∧ p.colors (r0 * 20 + col0) = c + 49 ∧
          p.colors ((r0 + b) * 20 + col0) = c + 49 ∧
          p.colors ((r0 + b) * 20 + (col0 + b)) = c + 49) ∨
       (r0 + b = row ∧ col0 = col ∧ p.colors (r0 * 20 + col0) = c + 49 ∧
          p.colors (r0 * 20 + (col0 + b)) = c + 49 ∧
          p.colors ((r0 + b) * 20 + (col0 + b)) = c + 49) ∨
       (r0 + b = row ∧ col0 + b = col ∧ p.colors (r0 * 20 + col0) = c + 49 ∧
          p.colors (r0 * 20 + (col0 + b)) = c + 49 ∧
          p.colors ((r0 + b) * 20 + col0) = c + 49)) := by
  unfold Position.square
  simp only [COLS]
  rw [hq, hq, hq, hq]
  have e1 : r0 * 20 + col0 = row * 20 + col ↔ r0 = row ∧ col0 = col := by omega
  have e2 : r0 * 20 + (col0 + b) = row * 20 + col ↔ r0 = row ∧ col0 + b = col := by omega
  have e3 : (r0 + b) * 20 + col0 = row * 20 + col ↔ r0 + b = row ∧ col0 = col := by omega
  have e4 : (r0 + b) * 20 + (col0 + b) = row * 20 + col ↔ r0 + b = row ∧ col0 + b = col := by
    omega
  rw [e1, e2, e3, e4]
  constructor
  · rintro ⟨⟨h1, h2, h3, h4⟩, hn⟩
    rcases h1 with ⟨a1, a2⟩ | h1
    · have f2 : p.colors (r0 * 20 + (col0 + b)) = c + 49 := by
        rcases h2 with ⟨-, x⟩ | h2
        · omega
        · exact h2
      have f3 : p.colors ((r0 + b) * 20 + col0) = c + 49 := by
        rcases h3 with ⟨x, -⟩ | h3
        · omega
        · exact h3
      have f4 : p.colors ((r0 + b) * 20 + (col0 + b)) = c + 49 := by
        rcases h4 with ⟨x, -⟩ | h4
        · omega
        · exact h4
      exact Or.inl ⟨a1, a2, f2, f3, f4⟩
    · rcases h2 with ⟨a1, a2⟩ | h2
      · have f3 : p.colors ((r0 + b) * 20 + col0) = c + 49 := by
          rcases h3 with ⟨x, -⟩ | h3
          · omega
          · exact h3
        have f4 : p.colors ((r0 + b) * 20 + (col0 + b)) = c + 49 := by
          rcases h4 with ⟨x, -⟩ | h4
          · omega
          · exact h4
        exact Or.inr (Or.inl ⟨a1, a2, h1, f3, f4⟩)
      · rcases h3 with ⟨a1, a2⟩ | h3
        · have f4 : p.colors ((r0 + b) * 20 + (col0 + b)) = c + 49 := by
            rcases h4 with ⟨-, x⟩ | h4
            · omega
            · exact h4
          exact Or.inr (Or.inr (Or.inl ⟨a1, a2, h1, h2, f4⟩))
        · rcases h4 with ⟨a1, a2⟩ | h4
          · exact Or.inr (Or.inr (Or.inr ⟨a1, a2, h1, h2, h3⟩))
          · exact absurd ⟨h1, h2, h3, h4⟩ hn
  · rintro (⟨a1, a2, f2, f3, f4⟩ | ⟨a1, a2, f1, f3, f4⟩ | ⟨a1, a2, f1, f2, f4⟩ |
      ⟨a1, a2, f1, f2, f3⟩)
    · refine ⟨⟨Or.inl ⟨a1, a2⟩, Or.inr f2, Or.inr f3, Or.inr f4⟩, fun hn => hne ?_⟩
      rw [← a1, ← a2]
      exact hn.1
    · refine ⟨⟨Or.inr f1, Or.inl ⟨a1, a2⟩, Or.inr f3, Or.inr f4⟩, fun hn => hne ?_⟩
      rw [← a1, ← a2]
      exact hn.2.1
    · refine ⟨⟨Or.inr f1, Or.inr f2, Or.inl ⟨a1, a2⟩, Or.inr f4⟩, fun hn => hne ?_⟩
      rw [← a1, ← a2]
      exact hn.2.2.1
    · refine ⟨⟨Or.inr f1, Or.inr f2, Or.inr f3, Or.inl ⟨a1, a2⟩⟩, fun hn => hne ?_⟩
      rw [← a1, ← a2]
      exact hn.2.2.2


/-- The sides of the new squares, summed over all anchors and sides, are the
marginal score of the painted dot. -/
theorem new_squares_sum (p : Position) (c row col : Nat) (hrow : row < 16) (hcol : col < 20) :
    ∑ x ∈ Finset.range 20 ×ˢ (Finset.range 16 ×ˢ Finset.range 16),
      (if 1 ≤ x.2.2 ∧ x.2.1 + x.2.2 < 16 ∧ x.1 + x.2.2 < 20 ∧
        ((x.2.1 = row ∧ x.1 = col ∧ p.colors (x.2.1 * 20 + (x.1 + x.2.2)) = c + 49 ∧
            p.colors ((x.2.1 + x.2.2) * 20 + x.1) = c + 49 ∧
            p.colors ((x.2.1 + x.2.2) * 20 + (x.1 + x.2.2)) = c + 49) ∨
         (x.2.1 = row ∧ x.1 + x.2.2 = col ∧ p.colors (x.2.1 * 20 + x.1) = c + 49 ∧
            p.colors ((x.2.1 + x.2.2) * 20 + x.1) = c + 49 ∧
            p.colors ((x.2.1 + x.2.2) * 20 + (x.1 + x.2.2)) = c + 49) ∨
         (x.2.1 + x.2.2 = row ∧ x.1 = col ∧ p.colors (x.2.1 * 20 + x.1) = c + 49 ∧
            p.colors (x.2.1 * 20 + (x.1 + x.2.2)) = c + 49 ∧
            p.colors ((x.2.1 + x.2.2) * 20 + (x.1 + x.2.2)) = c + 49) ∨
         (x.2.1 + x.2.2 = row ∧ x.1 + x.2.2 = col ∧ p.colors (x.2.1 * 20 + x.1) = c + 49 ∧
            p.colors (x.2.1 * 20 + (x.1 + x.2.2)) = c + 49 ∧
            p.colors ((x.2.1 + x.2.2) * 20 + x.1) = c + 49))
      then (x.2.2 : Int) else 0) =
    ∑ y ∈ Finset.range 16 ×ˢ Finset.range 2, corner_term p c row col y.1 y.2 := by
  apply Finset.sum_bij_ne_zero
    (fun x _ _ => (2 * x.2.1 + x.2.2 - row, if x.1 = col then 0 else 1))
  · rintro ⟨col0, r0, b⟩ hx hf
    have hg : _ := of_not_not (fun hn => hf (if_neg hn))
    simp only at hg
    simp only [Finset.mem_product, Finset.mem_range]
    refine ⟨?_, by split_ifs <;> omega⟩
    obtain ⟨g1, g2, g3, g4⟩ := hg
    rcases g4 with ⟨a1, a2, -⟩ | ⟨a1, a2, -⟩ | ⟨a1, a2, -⟩ | ⟨a1, a2, -⟩ <;> omega
  · rintro ⟨col0, r0, b⟩ hx hf ⟨col1, r1, b1⟩ hx1 hf1 heq
    have hg : _ := of_not_not (fun hn => hf (if_neg hn))
    have hg1 : _ := of_not_not (fun hn => hf1 (if_neg hn))
    simp only at hg hg1
    simp only [Prod.mk.injEq] at heq ⊢
    obtain ⟨g1, g2, g3, g4⟩ := hg
    obtain ⟨k1, k2, k3, k4⟩ := hg1
    have u : (r0 = row ∨ r0 + b = row) ∧ (col0 = col ∨ col0 + b = col) := by
      rcases g4 with ⟨a1, a2, -⟩ | ⟨a1, a2, -⟩ | ⟨a1, a2, -⟩ | ⟨a1, a2, -⟩ <;> omega
    have u1 : (r1 = row ∨ r1 + b1 = row) ∧ (col1 = col ∨ col1 + b1 = col) := by
      rcases k4 with ⟨a1, a2, -⟩ | ⟨a1, a2, -⟩ | ⟨a1, a2, -⟩ | ⟨a1, a2, -⟩ <;> omega
    obtain ⟨e1, e2⟩ := heq
    have hr : r0 = r1 ∧ b = b1 := by omega
    refine ⟨?_, hr.1, hr.2⟩
    split_ifs at e2 <;> omega
  · rintro ⟨r, s⟩ hy hg
    simp only [Finset.mem_product, Finset.mem_range] at hy
    have hE : _ := of_not_not (fun hn => hg (if_neg hn))
    simp only [COLS] at hE
    obtain ⟨n1, n2, n3⟩ := hE
    have hs := side_pos row r n1
    by_cases hs0 : s = 0
    · subst hs0
      rw [if_pos rfl] at n3
      obtain ⟨m1, m2, m3⟩ := n3
      by_cases hlt : r < row
      · have hside : side row r = row - r := by unfold side; rw [if_pos hlt]
        rw [hside] at m1 m2 m3
        have e : r + (row - r) = row := by omega
        refine ⟨(col, r, row - r), ?_, ?_, ?_⟩
        · simp only [Finset.mem_product, Finset.mem_range]
          omega
        · dsimp only
          rw [if_pos]
          · omega
          · refine ⟨by omega, by omega, by omega, Or.inr (Or.inr (Or.inl ⟨e, rfl, n2, m3, ?_⟩))⟩
            rw [e]
            exact m2
        · dsimp only
          rw [if_pos rfl, Prod.mk.injEq]
          exact ⟨by omega, rfl⟩
      · have hside : side row r = r - row := by unfold side; rw [if_neg hlt]
        rw [hside] at m1 m2 m3
        have e : row + (r - row) = r := by omega
        refine ⟨(col, row, r - row), ?_, ?_, ?_⟩
        · simp only [Finset.mem_product, Finset.mem_range]
          omega
        · dsimp only
          rw [if_pos]
          · omega
          · refine ⟨by omega, by omega, by omega, Or.inl ⟨rfl, rfl, m2, ?_, ?_⟩⟩
            · rw [e]
              exact n2
            · rw [e]
              exact m3
        · dsimp only
          rw [if_pos rfl, Prod.mk.injEq]
          exact ⟨by omega, rfl⟩
    · have hs1 : s = 1 := by omega
      subst hs1
      rw [if_neg (by decide)] at n3
      obtain ⟨m1, m2, m3⟩ := n3
      by_cases hlt : r < row
      · have hside : side row r = row - r := by unfold side; rw [if_pos hlt]
        rw [hside] at m1 m2 m3
        have e : r + (row - r) = row := by omega
        have e2 : col - (row - r) + (row - r) = col := by omega
        refine ⟨(col - (row - r), r, row - r), ?_, ?_, ?_⟩
        · simp only [Finset.mem_product, Finset.mem_range]
          omega
        · dsimp only
          rw [if_pos]
          · omega
          · refine ⟨by omega, by omega, by omega,
              Or.inr (Or.inr (Or.inr ⟨e, e2, m3, ?_, ?_⟩))⟩
            · rw [e2]
              exact n2
            · rw [e]
              exact m2
        · dsimp only
          rw [if_neg (by omega), Prod.mk.injEq]
          exact ⟨by omega, rfl⟩
      · have hside : side row r = r - row := by unfold side; rw [if_neg hlt]
        rw [hside] at m1 m2 m3
        have e : row + (r - row) = r := by omega
        have e2 : col - (r - row) + (r - row) = col := by omega
        refine ⟨(col - (r - row), row, r - row), ?_, ?_, ?_⟩
        · simp only [Finset.mem_product, Finset.mem_range]
          omega
        · dsimp only
          rw [if_pos]
          · omega
          · refine ⟨by omega, by omega, by omega, Or.inr (Or.inl ⟨rfl, e2, m2, ?_, ?_⟩)⟩
            · rw [e]
              exact m3
            · rw [e, e2]
              exact n2
        · dsimp only
          rw [if_neg (by omega), Prod.mk.injEq]
          exact ⟨by omega, rfl⟩
  · rintro ⟨col0, r0, b⟩ hx hf
    have hg : _ := of_not_not (fun hn => hf (if_neg hn))
    simp only at hg
    simp only
    rw [if_pos hg]
    obtain ⟨g1, g2, g3, g4⟩ := hg
    unfold corner_term
    simp only [COLS]
    rcases g4 with ⟨a1, a2, f1, f2, f3⟩ | ⟨a1, a2, f1, f2, f3⟩ | ⟨a1, a2, f1, f2, f3⟩ |
      ⟨a1, a2, f1, f2, f3⟩
    · subst a1 a2
      have e : 2 * r0 + b - r0 = r0 + b := by omega
      have hside : side r0 (r0 + b) = b := by unfold side; split_ifs <;> omega
      rw [e, hside, if_pos rfl, if_pos]
      exact ⟨by omega, f2, by rw [if_pos rfl]; exact ⟨g3, f1, f3⟩⟩
    · subst a1 a2
      have e : 2 * r0 + b - r0 = r0 + b := by omega
      have hside : side r0 (r0 + b) = b := by unfold side; split_ifs <;> omega
      have hc : ¬ col0 = col0 + b := by omega
      have e2 : col0 + b - b = col0 := by omega
      rw [e, hside, if_neg hc, if_pos]
      refine ⟨by omega, f3, ?_⟩
      rw [if_neg (by decide), e2]
      exact ⟨by omega, f1, f2⟩
    · subst a1 a2
      have e : 2 * r0 + b - (r0 + b) = r0 := by omega
      have hside : side (r0 + b) r0 = b := by unfold side; split_ifs <;> omega
      rw [e, hside, if_pos rfl, if_pos]
      exact ⟨by omega, f1, by rw [if_pos rfl]; exact ⟨g3, f3, f2⟩⟩
    · subst a1 a2
      have e : 2 * r0 + b - (r0 + b) = r0 := by omega
      have hside : side (r0 + b) r0 = b := by unfold side; split_ifs <;> omega
      have hc : ¬ col0 = col0 + b := by omega
      have e2 : col0 + b - b = col0 := by omega
      rw [e, hside, if_neg hc, if_pos]
      refine ⟨by omega, f2, ?_⟩
      rw [if_neg (by decide), e2]
      exact ⟨by omega, f3, f1⟩

end Box
namespace Box

theorem square_mono (p q : Position) (c : Nat)
    (hq : ∀ x, p.colors x = c + 49 → q.colors x = c + 49) (r0 col0 b : Nat)
    (h : p.square c r0 col0 b) : q.square c r0 col0 b :=
  ⟨hq _ h.1, hq _ h.2.1, hq _ h.2.2.1, hq _ h.2.2.2⟩

/-- Painting one dot with a color it does not have raises the sum of the
squares of that color by the marginal score of the dot. -/
theorem paint_squares (p q : Position) (c row col : Nat) (hrow : row < ROWS) (hcol : col < COLS)
    (hne : p.colors (row * COLS + col) ≠ c + 49)
    (hq : ∀ x, q.colors x = c + 49 ↔ (x = row * COLS + col ∨ p.colors x = c + 49)) :
    (score_of_squares q c : Int) = score_of_squares p c + marginal_score p c row col := by
  simp only [COLS, ROWS] at hrow hcol hne hq
  have hmono : ∀ x, p.colors x = c + 49 → q.colors x = c + 49 := fun x h => (hq x).mpr (Or.inr h)
  unfold marginal_score
  simp only [ROWS]
  rw [← Finset.sum_product _ _ (fun y => corner_term p c row col y.1 y.2),
    ← new_squares_sum p c row col hrow hcol]
  unfold score_of_squares
  simp only [COLS, ROWS]
  push_cast
  rw [Finset.sum_product]
  simp only [Finset.sum_product, ← Finset.sum_add_distrib]
  apply Finset.sum_congr rfl
  intro col0 _
  apply Finset.sum_congr rfl
  intro r0 _
  apply Finset.sum_congr rfl
  intro b _
  by_cases hG : 1 ≤ b ∧ r0 + b < 16 ∧ col0 + b < 20
  · have hn := new_square p q c row col hcol hne hq col0 r0 b hG.1 hG.2.2
    simp only [hG.1, hG.2.1, hG.2.2, true_and, ← hn]
    by_cases hp : p.square c r0 col0 b
    · have hqs := square_mono p q c hmono r0 col0 b hp
      simp [hp, hqs]
    · by_cases hqs : q.square c r0 col0 b <;> simp [hp, hqs]
  · have e : ∀ (P : Prop) [Decidable P],
        (if 1 ≤ b ∧ r0 + b < 16 ∧ col0 + b < 20 ∧ P then (b : Int) else 0) = 0 :=
      fun P _ => if_neg (fun h => hG ⟨h.1, h.2.1, h.2.2.1⟩)
    rw [e, e, e]
    rfl

end Box
namespace Box

theorem modify_column_same (columns : Nat → Nat → Column) (c col : Nat) (f : Column → Column) :
    Position.modify_column columns c col f c col = f (columns c col) := by
  unfold Position.modify_column
  rw [if_pos ⟨rfl, rfl⟩]

theorem modify_column_other (columns : Nat → Nat → Column) (c col col2 : Nat)
    (f : Column → Column) (h : col2 ≠ col) :
    Position.modify_column columns c col f c col2 = columns c col2 := by
  unfold Position.modify_column
  rw [if_neg (fun hh => h hh.2)]

/-- The value of `bonus(row, col, c)` does not read the bit `row` of
`columns[c][col]`: it is the same after any change of that column which keeps
the other bits. -/
theorem bonus_ignores_bit (p : Position) (c row col : Nat) (f : Column → Column)
    (hv : ∀ i, (p.columns c col).value.testBit i = true → i < 16)
    (hfv : ∀ i, (f (p.columns c col)).value.testBit i = true → i < 16)
    (hf : ∀ i, i ≠ row →
      (f (p.columns c col)).value.testBit i = (p.columns c col).value.testBit i) :
    ({ p with columns := Position.modify_column p.columns c col f }).bonus row col c =
      p.bonus row col c := by
  rw [bonus_eq p row col c hv, bonus_eq _ row col c (by
    show ∀ i, (Position.modify_column p.columns c col f c col).value.testBit i = true → i < 16
    rw [modify_column_same]
    exact hfv)]
  congr 1
  apply Finset.sum_congr rfl
  intro r _
  show (if (Position.modify_column p.columns c col f c col).value.testBit r = true
      then bonus_term _ row col c r else 0) = _
  rw [modify_column_same]
  by_cases hr : row = r
  · have e : ∀ q : Position, bonus_term q row col c r = 0 := by
      intro q
      unfold bonus_term
      rw [if_neg (not_not.mpr hr)]
    rw [e, e]
    simp
  · have hb : 1 ≤ Int.natAbs ((row : Int) - r) := by omega
    rw [hf r (fun h => hr h.symm)]
    congr 1
    unfold bonus_term
    rw [if_pos hr, if_pos hr]
    show (if _ ∧ (Position.modify_column p.columns c col f c _).test2 row r = true then _ else _) +
      (if _ ∧ (Position.modify_column p.columns c col f c _).test2 row r = true then _ else _) = _
    have e1 := modify_column_other p.columns c col (col + Int.natAbs ((row : Int) - r)) f
      (by omega)
    by_cases hg : col ≥ Int.natAbs ((row : Int) - r)
    · have e2 := modify_column_other p.columns c col (col - Int.natAbs ((row : Int) - r)) f
        (by omega)
      simp only [e1, e2]
    · simp only [e1, hg, false_and, if_false]

end Box

namespace Box

/-! ## Claim C30 -/

set_option maxRecDepth 100000 in
theorem opening_white (x : Nat) (hx : x ∉ center_tile.dots) : opening.colors x = WHITE := by
  have h0 : chars "123456" ∈ TILES_PERMUTATIONS := tiles_complete _ (List.Perm.refl _)
  obtain ⟨o, eo, -, hw, -⟩ := create_spec sample_keys (chars "123456") h0
  have hs : chars "Hh" ++ chars "123456" ++ chars "h" = chars "Hh123456h" := by decide
  rw [hs, opening_created] at eo
  cases eo
  exact hw x hx

theorem set_keeps_bits (v : Column) (row : Nat)
    (hv : ∀ i, v.value.testBit i = true → i < 16) :
    (∀ i, (v.set row).value.testBit i = true → i < 16) ∧
    (∀ i, i ≠ row → (v.set row).value.testBit i = v.value.testBit i) := by
  constructor
  · intro i hi
    rw [Column.testBit_set, Bool.and_eq_true, decide_eq_true_eq] at hi
    exact hi.1
  · intro i hir
    rw [Column.testBit_set]
    cases hb : v.value.testBit i
    · have : ¬ row = i := fun h => hir h.symm
      simp [this]
    · have := hv i hb
      simp [this]

theorem unset_keeps_bits (v : Column) (row : Nat) (hrow : row < 16)
    (hv : ∀ i, v.value.testBit i = true → i < 16) :
    (∀ i, (v.unset row).value.testBit i = true → i < 16) ∧
    (∀ i, i ≠ row → (v.unset row).value.testBit i = v.value.testBit i) := by
  have h32 : row < 32 := by omega
  constructor
  · intro i hi
    rw [Column.testBit_unset _ _ _ h32, Bool.and_eq_true, decide_eq_true_eq] at hi
    exact hi.1
  · intro i hir
    rw [Column.testBit_unset _ _ _ h32]
    cases hb : v.value.testBit i
    · simp
    · have := hv i hb
      have h2 : ¬ row = i := fun h => hir h.symm
      simp [this, h2]

/-- C30: in a reachable position, for a color index `c` and a dot of the
board whose color is not that color, `get_score(c)` after
`update_color(dot, c)` is `get_score(c)` before plus `bonus(row, col, c)`
evaluated before the repaint, `(row, col)` being the coordinates of the dot;
and `bonus(row, col, c)` is the same whether the bit `row` of
`columns[c][col]` is set or cleared. -/
theorem repaint_gain_is_bonus (z : Zobrist) (p : Position) (hp : Reachable z p) (c dot : Nat)
    (hc : c < MAX_COLORS) (hd : dot < TOTAL_DOTS) (hne : p.colors dot ≠ c + 49) :
    (∃ q s b, p.update_color z dot (c + 49) = some q ∧ p.get_score c = some s ∧
      p.bonus (dot / COLS) (dot % COLS) c = some b ∧ q.get_score c = some (s + b)) ∧
    ({ p with columns := (Position.modify_column p.columns c (dot % COLS)
        (fun x => x.set (dot / COLS))) }).bonus (dot / COLS) (dot % COLS) c =
      p.bonus (dot / COLS) (dot % COLS) c ∧
    ({ p with columns := (Position.modify_column p.columns c (dot % COLS)
        (fun x => x.unset (dot / COLS))) }).bonus (dot / COLS) (dot % COLS) c =
      p.bonus (dot / COLS) (dot % COLS) c := by
  have hinv := reachable_inv z p hp
  have hcoh := inv_coherent z p hinv c hc
  have hcol : dot % COLS < COLS := Nat.mod_lt _ (by decide)
  have hrow : dot / COLS < ROWS := by
    simp only [TOTAL_DOTS, ROWS, COLS] at hd ⊢
    omega
  have hdot : dot / COLS * COLS + dot % COLS = dot := by
    simp only [COLS]
    omega
  have hv : ∀ i, (p.columns c (dot % COLS)).value.testBit i = true → i < 16 :=
    fun i hi => ((hcoh (dot % COLS) i hcol).mp hi).1
  refine ⟨?_, ?_, ?_⟩
  · have hcolor : is_color (c + 49) := by
      unfold is_color
      simp only [MAX_COLORS] at hc
      omega
    obtain ⟨q, e, qinv, hqc, -⟩ := update_color_spec z p dot (c + 49) hinv hd hcolor
    refine ⟨q, _, _, e, get_score_sum p c hcoh,
      bonus_marginal p c (dot / COLS) (dot % COLS) hcoh hrow hcol, ?_⟩
    rw [get_score_sum q c (inv_coherent z q qinv c hc)]
    congr 1
    apply paint_squares p q c (dot / COLS) (dot % COLS) hrow hcol
    · rw [hdot]
      exact hne
    · intro x
      rw [hqc x, hdot]
      by_cases hx : x = dot
      · simp [hx]
      · simp [hx]
  · exact bonus_ignores_bit p c (dot / COLS) (dot % COLS) _ hv
      (set_keeps_bits _ _ hv).1 (set_keeps_bits _ _ hv).2
  · exact bonus_ignores_bit p c (dot / COLS) (dot % COLS) _ hv
      (unset_keeps_bits _ _ hrow hv).1 (unset_keeps_bits _ _ hrow hv).2

theorem repaint_gain_is_bonus_witness :
    Reachable sample_keys opening ∧ 0 < MAX_COLORS ∧ 0 < TOTAL_DOTS ∧
    opening.colors 0 ≠ 0 + 49 ∧
    (∃ q s b, opening.update_color sample_keys 0 (0 + 49) = some q ∧
      opening.get_score 0 = some s ∧
      opening.bonus (0 / COLS) (0 % COLS) 0 = some b ∧ q.get_score 0 = some (s + b)) ∧
    ({ opening with columns := (Position.modify_column opening.columns 0 (0 % COLS)
        (fun x => x.set (0 / COLS))) }).bonus (0 / COLS) (0 % COLS) 0 =
      opening.bonus (0 / COLS) (0 % COLS) 0 ∧
    ({ opening with columns := (Position.modify_column opening.columns 0 (0 % COLS)
        (fun x => x.unset (0 / COLS))) }).bonus (0 / COLS) (0 % COLS) 0 =
      opening.bonus (0 / COLS) (0 % COLS) 0 :=
  ⟨opening_reachable, by decide, by decide,
    by rw [opening_white 0 (by rw [center_dots]; decide)]; decide,
    repaint_gain_is_bonus sample_keys opening opening_reachable 0 0 (by decide) (by decide)
      (by rw [opening_white 0 (by rw [center_dots]; decide)]; decide)⟩

end Box
namespace Box

/-! ## The two dots of a sibling pair share no square with a third dot outside
the placement -/

theorem sibling_mem_dots (T : TileInfo) (j : Nat) (a b : Nat)
    (h : T.siblings[j]? = some (a, b)) : a ∈ T.dots ∧ b ∈ T.dots := by
  unfold TileInfo.dots
  constructor
  · exact List.mem_flatMap.mpr ⟨(a, b), List.getElem?_mem h, by simp⟩
  · exact List.mem_flatMap.mpr ⟨(a, b), List.getElem?_mem h, by simp⟩

theorem map_range_get {α : Type} (F : Nat → α) (n j : Nat) (hj : j < n) :
    ((List.range n).map F)[j]? = some (F j) := by
  rw [List.getElem?_map, List.getElem?_range hj]
  rfl

/-- Geometry of a sibling pair `(d1, d2)` of a placement of the registry: the
two dots lie in different columns, and a square with `d2` and `d1` among its
corners has, on the column of `d2`, a corner that the placement covers too. -/
theorem pair_apart (T : TileInfo) (hT : T ∈ ALL_TILES_INFO) (i d1 d2 : Nat)
    (hs : T.siblings[i]? = some (d1, d2)) :
    d1 < 320 ∧ d2 < 320 ∧ d1 ≠ d2 ∧
    (∀ r, r * 20 + d2 % 20 ≠ d1) ∧
    (∀ r col2, r < 16 → col2 < 20 → r ≠ d2 / 20 →
      (col2 + side (d2 / 20) r = d2 % 20 ∨ d2 % 20 + side (d2 / 20) r = col2) →
      (d2 / 20 * 20 + col2 = d1 ∨ r * 20 + col2 = d1) →
      r * 20 + d2 % 20 ∈ T.dots) := by
  obtain ⟨-, hshape⟩ := registry_shape T hT
  have hi : i < 6 := by
    have := (List.getElem?_eq_some_iff.mp hs).1
    rw [(registry_wf T hT).len] at this
    exact this
  rcases hshape with ⟨-, hR, hC, hsib⟩ | ⟨-, hR, hC, hsib⟩
  · have hget : ∀ j, j < 6 → T.siblings[j]? =
        some ((T.dot / 20 + j) * 20 + (T.dot % 20 + 1), (T.dot / 20 + (5 - j)) * 20 + T.dot % 20) := by
      intro j hj
      rw [hsib]
      exact map_range_get _ _ j hj
    have h12 := hget i hi
    rw [hs] at h12
    have e1 := (Prod.mk.inj (Option.some.inj h12)).1
    have e2 := (Prod.mk.inj (Option.some.inj h12)).2
    refine ⟨by omega, by omega, by omega, fun r => by omega, ?_⟩
    intro r col2 hr hcol2 hne hside hcorner
    unfold side at hside
    have hj := (sibling_mem_dots T (5 - i) _ _ (hget (5 - i) (by omega))).2
    have e : r * 20 + d2 % 20 = (T.dot / 20 + (5 - (5 - i))) * 20 + T.dot % 20 := by
      split_ifs at hside <;> omega
    rw [e]
    exact hj
  · have hget : ∀ j, j < 6 → T.siblings[j]? =
        some (T.dot / 20 * 20 + (T.dot % 20 + j), (T.dot / 20 + 1) * 20 + (T.dot % 20 + (5 - j))) := by
      intro j hj
      rw [hsib]
      exact map_range_get _ _ j hj
    have h12 := hget i hi
    rw [hs] at h12
    have e1 := (Prod.mk.inj (Option.some.inj h12)).1
    have e2 := (Prod.mk.inj (Option.some.inj h12)).2
    refine ⟨by omega, by omega, by omega, fun r => by omega, ?_⟩
    intro r col2 hr hcol2 hne hside hcorner
    unfold side at hside
    have hj := (sibling_mem_dots T (5 - i) _ _ (hget (5 - i) (by omega))).1
    have e : r * 20 + d2 % 20 = T.dot / 20 * 20 + (T.dot % 20 + (5 - i)) := by
      split_ifs at hside <;> omega
    rw [e]
    exact hj

end Box
namespace Box

/-- Painting the first dot of a sibling pair does not change the marginal
score of the second one, when no dot of the placement has the color. -/
theorem marginal_after_sibling (p p1 : Position) (T : TileInfo) (hT : T ∈ ALL_TILES_INFO)
    (i d1 d2 : Nat) (hs : T.siblings[i]? = some (d1, d2)) (c : Nat)
    (hwhite : ∀ d ∈ T.dots, p.colors d ≠ c + 49)
    (hp1 : ∀ x, p1.colors x = c + 49 ↔ (x = d1 ∨ p.colors x = c + 49)) :
    marginal_score p1 c (d2 / COLS) (d2 % COLS) = marginal_score p c (d2 / COLS) (d2 % COLS) := by
  obtain ⟨-, h2, -, g1, g2⟩ := pair_apart T hT i d1 d2 hs
  unfold marginal_score
  apply Finset.sum_congr rfl
  intro r hr
  apply Finset.sum_congr rfl
  intro s _
  have hr16 : r < 16 := Finset.mem_range.mp hr
  have hcol : d2 % 20 < 20 := Nat.mod_lt _ (by decide)
  unfold corner_term
  simp only [COLS]
  apply if_congr _ rfl rfl
  rw [hp1, hp1, hp1, hp1, hp1]
  constructor
  · rintro ⟨n1, n2, n3⟩
    have hA : p.colors (r * 20 + d2 % 20) = c + 49 := by
      rcases n2 with n2 | n2
      · exact absurd n2 (g1 r)
      · exact n2
    have hAT : r * 20 + d2 % 20 ∉ T.dots := fun h => hwhite _ h hA
    refine ⟨n1, hA, ?_⟩
    by_cases hs0 : s = 0
    · rw [if_pos hs0] at n3 ⊢
      obtain ⟨m1, m2, m3⟩ := n3
      have hno := fun h => hAT (g2 r (d2 % 20 + side (d2 / 20) r) hr16 m1 n1 (Or.inr rfl) h)
      refine ⟨m1, ?_, ?_⟩
      · rcases m2 with m2 | m2
        · exact absurd (Or.inl m2) hno
        · exact m2
      · rcases m3 with m3 | m3
        · exact absurd (Or.inr m3) hno
        · exact m3
    · rw [if_neg hs0] at n3 ⊢
      obtain ⟨m1, m2, m3⟩ := n3
      have hno := fun h => hAT (g2 r (d2 % 20 - side (d2 / 20) r) hr16 (by omega) n1
        (Or.inl (by omega)) h)
      refine ⟨m1, ?_, ?_⟩
      · rcases m2 with m2 | m2
        · exact absurd (Or.inl m2) hno
        · exact m2
      · rcases m3 with m3 | m3
        · exact absurd (Or.inr m3) hno
        · exact m3
  · rintro ⟨n1, n2, n3⟩
    refine ⟨n1, Or.inr n2, ?_⟩
    by_cases hs0 : s = 0
    · rw [if_pos hs0] at n3 ⊢
      exact ⟨n3.1, Or.inr n3.2.1, Or.inr n3.2.2⟩
    · rw [if_neg hs0] at n3 ⊢
      exact ⟨n3.1, Or.inr n3.2.1, Or.inr n3.2.2⟩

/-- Painting the two dots of a sibling pair with a color that no dot of the
placement has raises the sum of the squares of that color by the marginal
scores of the two dots before the placement. -/
theorem pair_paint (p q : Position) (T : TileInfo) (hT : T ∈ ALL_TILES_INFO)
    (i d1 d2 : Nat) (hs : T.siblings[i]? = some (d1, d2)) (c : Nat)
    (hwhite : ∀ d ∈ T.dots, p.colors d ≠ c + 49)
    (hq : ∀ x, q.colors x = c + 49 ↔ (x = d1 ∨ x = d2 ∨ p.colors x = c + 49)) :
    (score_of_squares q c : Int) =
      score_of_squares p c + marginal_score p c (d1 / COLS) (d1 % COLS) +
        marginal_score p c (d2 / COLS) (d2 % COLS) := by
  obtain ⟨h1, h2, h12, -, -⟩ := pair_apart T hT i d1 d2 hs
  have hm := sibling_mem_dots T i d1 d2 hs
  have hdiv : ∀ d, d < 320 → d / COLS < ROWS ∧ d % COLS < COLS ∧ d / COLS * COLS + d % COLS = d := by
    intro d hd
    simp only [COLS, ROWS]
    omega
  have hp1 : ∀ x, ({ p with colors := fun x => if x = d1 then c + 49 else p.colors x } :
      Position).colors x = c + 49 ↔ (x = d1 ∨ p.colors x = c + 49) := by
    intro x
    show (if x = d1 then c + 49 else p.colors x) = c + 49 ↔ _
    by_cases hx : x = d1
    · simp [hx]
    · simp [hx]
  have e1 := paint_squares p { p with colors := fun x => if x = d1 then c + 49 else p.colors x }
    c (d1 / COLS) (d1 % COLS) (hdiv d1 h1).1 (hdiv d1 h1).2.1
    (by rw [(hdiv d1 h1).2.2]; exact hwhite d1 hm.1)
    (by rw [(hdiv d1 h1).2.2]; exact hp1)
  have e2 := paint_squares { p with colors := fun x => if x = d1 then c + 49 else p.colors x } q
    c (d2 / COLS) (d2 % COLS) (hdiv d2 h2).1 (hdiv d2 h2).2.1
    (by
      rw [(hdiv d2 h2).2.2]
      intro h
      rcases (hp1 d2).mp h with h | h
      · exact h12 h.symm
      · exact hwhite d2 hm.2 h)
    (by
      rw [(hdiv d2 h2).2.2]
      intro x
      rw [hq x, hp1 x]
      constructor
      · rintro (h | h | h)
        · exact Or.inr (Or.inl h)
        · exact Or.inl h
        · exact Or.inr (Or.inr h)
      · rintro (h | h | h)
        · exact Or.inr (Or.inl h)
        · exact Or.inl h
        · exact Or.inr (Or.inr h))
  rw [e2, e1, marginal_after_sibling p _ T hT i d1 d2 hs c hwhite hp1]

end Box
namespace Box

/-! ## impact on a placement that covers white dots only -/

theorem getD_bump (res : List Int) (k c : Nat) (v : Int) (hk : k < res.length) :
    (res.set k v).getD c 0 = if c = k then v else res.getD c 0 := by
  simp only [List.getD_eq_getElem?_getD, List.getElem?_set]
  by_cases h : k = c
  · subst h
    simp [hk]
  · rw [if_neg h, if_neg (fun hh => h hh.symm)]

/-- On a white dot `impact` adds to the entry of the incoming color the
marginal score of the dot. -/
theorem impact_dot_white (p : Position) (color dot : Nat) (res : List Int)
    (hcolor : is_color color) (hcoh : p.ColumnsCoherent (color - 49))
    (hd : dot < TOTAL_DOTS) (hw : p.colors dot = WHITE) :
    p.impact_dot color res dot =
      some (res.set (color - 49)
        (res.getD (color - 49) 0 + marginal_score p (color - 49) (dot / COLS) (dot % COLS))) := by
  have hne : p.colors dot ≠ color := by
    rw [hw]
    unfold is_color at hcolor
    simp only [WHITE]
    omega
  have hci : (color_index color).toNat = color - 49 := by
    unfold color_index
    omega
  have hg : 0 ≤ color_index color ∧ color_index color < MAX_COLORS := by
    unfold is_color at hcolor
    unfold color_index
    simp only [MAX_COLORS]
    omega
  have hcol : dot % COLS < COLS := Nat.mod_lt _ (by decide)
  have hrow : dot / COLS < ROWS := by
    simp only [TOTAL_DOTS, ROWS, COLS] at hd ⊢
    omega
  unfold Position.impact_dot
  simp only
  rw [if_pos hne, if_neg (fun h => h.1 hw), if_neg (not_not.mpr hg), if_neg (not_not.mpr hw),
    hci, bonus_marginal p (color - 49) _ _ hcoh hrow hcol]
  rfl

/-- A loop that adds two amounts to one entry of the array at every round. -/
theorem bump_loop (step : List Int → Nat → Option (List Int)) (k : Nat → Nat)
    (m1 m2 : Nat → Int) :
    ∀ (l : List Nat) (res : List Int), res.length = 6 →
      (∀ i ∈ l, k i < 6 ∧ ∀ r : List Int, r.length = 6 → step r i =
        some ((r.set (k i) (r.getD (k i) 0 + m1 i)).set (k i)
          ((r.set (k i) (r.getD (k i) 0 + m1 i)).getD (k i) 0 + m2 i))) →
      ∃ res', l.foldlM step res = some res' ∧ res'.length = 6 ∧
        ∀ c, res'.getD c 0 =
          res.getD c 0 + (l.map (fun i => if c = k i then m1 i + m2 i else 0)).sum := by
  intro l
  induction l with
  | nil =>
    intro res hres _
    exact ⟨res, rfl, hres, fun c => by simp⟩
  | cons i l ih =>
    intro res hres hl
    obtain ⟨hk, hstep⟩ := hl i (List.mem_cons_self _ _)
    have hlen1 : (res.set (k i) (res.getD (k i) 0 + m1 i)).length = 6 := by
      rw [List.length_set]
      exact hres
    have hlen2 : ((res.set (k i) (res.getD (k i) 0 + m1 i)).set (k i)
        ((res.set (k i) (res.getD (k i) 0 + m1 i)).getD (k i) 0 + m2 i)).length = 6 := by
      rw [List.length_set]
      exact hlen1
    obtain ⟨res', e, hlen, hval⟩ := ih _ hlen2 (fun j hj => hl j (List.mem_cons_of_mem _ hj))
    refine ⟨res', ?_, hlen, ?_⟩
    · rw [List.foldlM_cons, hstep res hres]
      exact e
    · intro c
      have a1 := getD_bump res (k i) c (res.getD (k i) 0 + m1 i) (by rw [hres]; exact hk)
      have a3 := getD_bump res (k i) (k i) (res.getD (k i) 0 + m1 i) (by rw [hres]; exact hk)
      have a2 := getD_bump (res.set (k i) (res.getD (k i) 0 + m1 i)) (k i) c
        ((res.set (k i) (res.getD (k i) 0 + m1 i)).getD (k i) 0 + m2 i)
        (by rw [hlen1]; exact hk)
      rw [if_pos rfl] at a3
      rw [hval c, a2, a3, a1, List.map_cons, List.sum_cons]
      by_cases hc : c = k i
      · rw [if_pos hc, if_pos hc, hc]
        omega
      · rw [if_neg hc, if_neg hc, if_neg hc]
        omega

theorem sum_single (g : Nat → Int) (n i0 : Nat) (hi : i0 < n)
    (h : ∀ i, i < n → i ≠ i0 → g i = 0) : ((List.range n).map g).sum = g i0 := by
  rw [list_sum_range]
  apply Finset.sum_eq_single i0
  · intro i hi2 hne
    exact h i (Finset.mem_range.mp hi2) hne
  · intro hn
    exact absurd (Finset.mem_range.mpr hi) hn

/-- In a tile every color stands at exactly one index. -/
theorem tile_color_index (t : List Nat) (ht : t ∈ TILES_PERMUTATIONS) (c : Nat)
    (hc : c < MAX_COLORS) :
    ∃ i0, i0 < 6 ∧ t[i0]? = some (c + 49) ∧ ∀ i, t[i]? = some (c + 49) → i = i0 := by
  have hperm := tiles_perm t ht
  rw [chars_tile] at hperm
  have hmem : c + 49 ∈ t := by
    apply hperm.symm.subset
    simp only [MAX_COLORS] at hc
    have : c = 0 ∨ c = 1 ∨ c = 2 ∨ c = 3 ∨ c = 4 ∨ c = 5 := by omega
    rcases this with h | h | h | h | h | h <;> subst h <;> decide
  have hnd : t.Nodup := hperm.symm.nodup_iff.mp (by decide)
  obtain ⟨i0, hi0, hget⟩ := List.mem_iff_getElem.mp hmem
  have hlen : t.length = 6 := hperm.length_eq
  refine ⟨i0, by rw [← hlen]; exact hi0, ?_, ?_⟩
  · rw [List.getElem?_eq_getElem hi0, hget]
  · intro i hi
    obtain ⟨hil, hie⟩ := List.getElem?_eq_some_iff.mp hi
    exact (List.Nodup.getElem_inj_iff hnd).mp (hie.trans hget.symm)

end Box
namespace Box

/-- The value of `impact` for a placement that covers white dots only: the
entry of a color index is the sum of the marginal scores, before the
placement, of the dots that receive that color. -/
theorem impact_white (z : Zobrist) (p : Position) (hinv : p.Inv z) (T : TileInfo)
    (hT : T ∈ ALL_TILES_INFO) (t : List Nat) (htile : p.tile = some t)
    (hwhite : ∀ d ∈ T.dots, p.colors d = WHITE) :
    ∃ res, p.impact T = some res ∧ res.length = 6 ∧
      ∀ c, res.getD c 0 = ((List.range 6).map (fun i =>
        if c = t.getD i 0 - 49 then
          marginal_score p (t.getD i 0 - 49) ((T.siblings.getD i (0, 0)).1 / COLS)
            ((T.siblings.getD i (0, 0)).1 % COLS) +
          marginal_score p (t.getD i 0 - 49) ((T.siblings.getD i (0, 0)).2 / COLS)
            ((T.siblings.getD i (0, 0)).2 % COLS)
        else 0)).sum := by
  have hw := registry_wf T hT
  have ht := inv_tile z p hinv t htile
  have h := bump_loop
    (fun res i =>
      match T.siblings[i]?, p.tile with
      | some (d1, d2), some tile =>
        match tile[i]? with
        | some color => (p.impact_dot color res d1).bind (fun res => p.impact_dot color res d2)
        | none => none
      | _, _ => none)
    (fun i => t.getD i 0 - 49)
    (fun i => marginal_score p (t.getD i 0 - 49) ((T.siblings.getD i (0, 0)).1 / COLS)
      ((T.siblings.getD i (0, 0)).1 % COLS))
    (fun i => marginal_score p (t.getD i 0 - 49) ((T.siblings.getD i (0, 0)).2 / COLS)
      ((T.siblings.getD i (0, 0)).2 % COLS))
    (List.range 6) (List.replicate MAX_COLORS 0) (by decide) ?_
  · obtain ⟨res, e, hlen, hval⟩ := h
    refine ⟨res, e, hlen, fun c => ?_⟩
    rw [hval c]
    have : (List.replicate MAX_COLORS (0 : Int)).getD c 0 = 0 := by
      simp only [List.getD_eq_getElem?_getD, List.getElem?_replicate]
      split <;> rfl
    rw [this, Int.zero_add]
  · intro i hi
    have hi6 : i < 6 := List.mem_range.mp hi
    have hil : i < T.siblings.length := by rw [hw.len]; exact hi6
    have hit : i < t.length := by rw [ht.1]; exact hi6
    obtain ⟨⟨d1, d2⟩, hs⟩ : ∃ s, T.siblings[i]? = some s := ⟨_, List.getElem?_eq_getElem hil⟩
    obtain ⟨color, hti⟩ : ∃ color, t[i]? = some color := ⟨_, List.getElem?_eq_getElem hit⟩
    have hcolor : is_color color := ht.2 _ (List.getElem?_mem hti)
    have hsd : T.siblings.getD i (0, 0) = (d1, d2) := by
      rw [List.getD_eq_getElem?_getD, hs]
      rfl
    have htd : t.getD i 0 = color := by
      rw [List.getD_eq_getElem?_getD, hti]
      rfl
    have hk : color - 49 < 6 := by
      unfold is_color at hcolor
      omega
    have hcoh := inv_coherent z p hinv (color - 49) hk
    have hm := sibling_mem_dots T i d1 d2 hs
    dsimp only
    rw [hsd, htd]
    refine ⟨hk, ?_⟩
    intro r _
    rw [hs, htile]
    dsimp only
    rw [hti]
    dsimp only
    rw [impact_dot_white p color _ r hcolor hcoh (hw.bound _ hm.1) (hwhite _ hm.1)]
    simp only [Option.some_bind]
    rw [impact_dot_white p color _ _ hcolor hcoh (hw.bound _ hm.2) (hwhite _ hm.2)]

end Box

namespace Box

/-! ## Claim C29 -/

theorem registry_getD (k : Nat) (hk : k < ALL_TILES_COUNT) :
    ALL_TILES_INFO[k]? = some (ALL_TILES_INFO.getD k sample_tile) := by
  have hlt : k < ALL_TILES_INFO.length := by rw [registry_length]; exact hk
  rw [List.getD_eq_getElem?_getD, List.getElem?_eq_getElem hlt]
  rfl

theorem registry_getD_mem (k : Nat) (hk : k < ALL_TILES_COUNT) :
    ALL_TILES_INFO.getD k sample_tile ∈ ALL_TILES_INFO :=
  List.getElem?_mem (registry_getD k hk)

/-- Every placement of the registry is an entry of the vector of its
orientation, at its anchor, with another code. -/
theorem registry_source (T : TileInfo) (hT : T ∈ ALL_TILES_INFO) :
    ∃ t, T = { t with code := T.code } ∧
      ((T.orientation = VERTICAL ∧ VERTICAL_TILES_INFO[T.dot]? = some t) ∨
       (T.orientation = HORIZONTAL ∧ HORIZONTAL_TILES_INFO[T.dot]? = some t)) := by
  obtain ⟨t, k, rfl, hv, ht⟩ := mem_registry T hT
  refine ⟨t, rfl, ?_⟩
  show (t.orientation = VERTICAL ∧ VERTICAL_TILES_INFO[t.dot]? = some t) ∨
    (t.orientation = HORIZONTAL ∧ HORIZONTAL_TILES_INFO[t.dot]? = some t)
  rcases ht with h | h
  · left
    unfold VERTICAL_TILES_INFO
    unfold generate_vertical_tiles_info at h ⊢
    obtain ⟨dot, hd, rfl⟩ := List.mem_map.mp h
    have hd320 : dot < 320 := List.mem_range.mp hd
    obtain ⟨-, -, -, -, hdot, ho⟩ := generate_tile_info_valid _ _ _ _ _ hv
    have hdd : (get_dot ((dot : Int) / COLS) ((dot : Int) % COLS)).toNat = dot := by
      simp only [get_dot, cols_cast]
      omega
    dsimp only at hdot ho ⊢
    rw [hdot, ho, hdd]
    refine ⟨rfl, ?_⟩
    have hget : ALL_DOTS[dot]? = some dot := List.getElem?_range hd320
    rw [List.getElem?_map, hget]
    simp only [Option.map_some', hdd]
  · right
    unfold HORIZONTAL_TILES_INFO
    unfold generate_horizontal_tiles_info at h ⊢
    obtain ⟨dot, hd, rfl⟩ := List.mem_map.mp h
    have hd320 : dot < 320 := List.mem_range.mp hd
    obtain ⟨-, -, -, -, hdot, ho⟩ := generate_tile_info_valid _ _ _ _ _ hv
    have hdd : (get_dot ((dot : Int) / COLS) ((dot : Int) % COLS)).toNat = dot := by
      simp only [get_dot, cols_cast]
      omega
    dsimp only at hdot ho ⊢
    rw [hdot, ho, hdd]
    refine ⟨rfl, ?_⟩
    have hget : ALL_DOTS[dot]? = some dot := List.getElem?_range hd320
    rw [List.getElem?_map, hget]
    simp only [Option.map_some', hdd]

theorem overlap_tile_eq : overlap_tile = { overlap_source with code := 139 } := by
  have hm : overlap_tile ∈ ALL_TILES_INFO := registry_getD_mem 139 (by decide)
  obtain ⟨T, hT, hcode, hv, -⟩ := registry_entry 139 (by decide)
  have hTe : T = overlap_tile := by
    have := registry_getD 139 (by decide)
    rw [hT] at this
    exact Option.some.inj this
  rw [hTe] at hcode hv
  obtain ⟨ho, hdot⟩ := hv (by decide)
  obtain ⟨t, et, hsrc⟩ := registry_source overlap_tile hm
  rcases hsrc with ⟨-, h⟩ | ⟨h, -⟩
  · rw [hdot] at h
    have e : overlap_source = t := by
      unfold overlap_source
      rw [List.getD_eq_getElem?_getD, h]
      rfl
    rw [e, ← hcode]
    exact et
  · rw [ho] at h
    exact absurd h (by decide)

set_option maxRecDepth 100000 in
/-- The sample game, the legality of the sample placement on its last
position, its `impact` there and the score of the color `'3'` before and
after it. -/
theorem overlap_table :
    (([⟨87, VERTICAL⟩, ⟨187, HORIZONTAL⟩] : List PlayerMove).foldlM
      (play_legal sample_keys) opening).map
      (fun p => (p.possible_move overlap_source, p.impact overlap_source, p.get_score 2,
        (p.do_move sample_keys overlap_source).bind (fun q => q.get_score 2))) =
      some (true, some [0, 0, 2, 0, 0, 0], some 0, some 0) := by
  decide!

theorem overlap_played :
    ([⟨87, VERTICAL⟩, ⟨187, HORIZONTAL⟩] : List PlayerMove).foldlM
      (play_legal sample_keys) opening = some overlap_board := by
  have h := overlap_table
  unfold overlap_board
  cases hc : ([⟨87, VERTICAL⟩, ⟨187, HORIZONTAL⟩] : List PlayerMove).foldlM
      (play_legal sample_keys) opening with
  | none => rw [hc] at h; cases h
  | some p => rfl

theorem overlap_facts :
    overlap_board.possible_move overlap_tile = true ∧
    overlap_board.impact overlap_tile = some [0, 0, 2, 0, 0, 0] ∧
    overlap_board.get_score 2 = some 0 ∧
    (overlap_board.do_move sample_keys overlap_tile).bind (fun q => q.get_score 2) = some 0 := by
  have h := overlap_table
  rw [overlap_played, Option.map_some', Option.some.injEq, Prod.mk.injEq, Prod.mk.injEq,
    Prod.mk.injEq] at h
  rw [overlap_tile_eq]
  exact h

/-- C29, counterexample: after the placements at `Eh` vertical and `Jh`
horizontal on the opening position, the vertical placement at `Hg` is legal
and its `impact` credits 2 to the color `'3'`, whose score is 0 before the
placement and 0 after it. -/
theorem impact_overcounts :
    Reachable sample_keys overlap_board ∧ overlap_tile ∈ ALL_TILES_INFO ∧
    overlap_board.possible_move overlap_tile = true ∧
    overlap_board.impact overlap_tile = some [0, 0, 2, 0, 0, 0] ∧
    overlap_board.get_score 2 = some 0 ∧
    (overlap_board.do_move sample_keys overlap_tile).bind (fun q => q.get_score 2) = some 0 :=
  ⟨⟨chars "Hh123456h", opening, opening_created,
      (play_game_spec sample_keys _ opening overlap_board overlap_played).1⟩,
    registry_getD_mem 139 (by decide), overlap_facts⟩

/-- C29, amended: in a reachable position that holds a drawn tile, for a
placement `T` of the registry that covers white dots only, `do_move(T)` and
`impact(T)` succeed and, for every color index `c`, `impact(T)[c]` is
`get_score(c)` after `do_move(T)` minus `get_score(c)` before it. -/
theorem impact_exact_on_white (z : Zobrist) (p : Position) (hp : Reachable z p)
    (T : TileInfo) (hT : T ∈ ALL_TILES_INFO) (t : List Nat) (htile : p.tile = some t)
    (hwhite : ∀ d ∈ T.dots, p.colors d = WHITE) :
    ∃ q res, p.do_move z T = some q ∧ p.impact T = some res ∧ res.length = MAX_COLORS ∧
      ∀ c, c < MAX_COLORS → ∃ s0 s1, p.get_score c = some s0 ∧ q.get_score c = some s1 ∧
        res[c]? = some (s1 - s0) := by
  have hinv := reachable_inv z p hp
  have hw := registry_wf T hT
  have ht := inv_tile z p hinv t htile
  have htm : t ∈ TILES_PERMUTATIONS := by
    rcases hinv.tile_ok with ⟨-, h⟩ | ⟨-, -, t', h1, h2⟩
    · rw [h] at htile
      cases htile
    · rw [h1] at htile
      cases htile
      exact List.getElem?_mem h2
  obtain ⟨q, e, qinv, k1, k2, -⟩ := do_move_spec z T t p hw ht hinv htile
  obtain ⟨res, eres, hlen, hval⟩ := impact_white z p hinv T hT t htile hwhite
  refine ⟨q, res, e, eres, hlen, ?_⟩
  intro c hc
  obtain ⟨i0, hi0, hti0, huniq⟩ := tile_color_index t htm c hc
  have hil : i0 < T.siblings.length := by rw [hw.len]; exact hi0
  obtain ⟨⟨d1, d2⟩, hs⟩ : ∃ s, T.siblings[i0]? = some s := ⟨_, List.getElem?_eq_getElem hil⟩
  have hpd : T.pair_dots i0 = [d1, d2] := by
    unfold TileInfo.pair_dots
    rw [hs]
  have hsd : T.siblings.getD i0 (0, 0) = (d1, d2) := by
    rw [List.getD_eq_getElem?_getD, hs]
    rfl
  have htd : t.getD i0 0 = c + 49 := by
    rw [List.getD_eq_getElem?_getD, hti0]
    rfl
  have hwc : ∀ d ∈ T.dots, p.colors d ≠ c + 49 := by
    intro d hd
    rw [hwhite d hd]
    simp only [WHITE]
    omega
  have hq : ∀ x, q.colors x = c + 49 ↔ (x = d1 ∨ x = d2 ∨ p.colors x = c + 49) := by
    intro x
    constructor
    · intro hx
      by_cases hmem : x ∈ T.dots
      · obtain ⟨i, hi, hxi⟩ := (mem_dots_iff T x).mp hmem
        rw [hw.len] at hi
        have h1 := k2 i hi x hxi
        rw [hx] at h1
        have := huniq i h1
        rw [this, hpd] at hxi
        simp only [List.mem_cons, List.mem_singleton, List.not_mem_nil, or_false] at hxi
        rcases hxi with h | h
        · exact Or.inl h
        · exact Or.inr (Or.inl h)
      · rw [k1 x hmem] at hx
        exact Or.inr (Or.inr hx)
    · rintro (h | h | h)
      · have h1 := k2 i0 hi0 x (by rw [hpd, h]; simp)
        rw [hti0] at h1
        exact (Option.some.inj h1).symm
      · have h1 := k2 i0 hi0 x (by rw [hpd, h]; simp)
        rw [hti0] at h1
        exact (Option.some.inj h1).symm
      · have hmem : x ∉ T.dots := fun hm => hwc x hm h
        rw [k1 x hmem]
        exact h
  have hpaint := pair_paint p q T hT i0 d1 d2 hs c hwc hq
  refine ⟨_, _, get_score_sum p c (inv_coherent z p hinv c hc),
    get_score_sum q c (inv_coherent z q qinv c hc), ?_⟩
  have hcl : c < res.length := by rw [hlen]; exact hc
  have hget : res[c]? = some (res.getD c 0) := by
    rw [List.getD_eq_getElem?_getD, List.getElem?_eq_getElem hcl]
    rfl
  rw [hget, hval c, sum_single _ 6 i0 hi0]
  · have e49 : c + 49 - 49 = c := by omega
    rw [htd, hsd, e49, if_pos rfl, hpaint]
    dsimp only
    exact congrArg some (by omega)
  · intro i hi hne
    rw [if_neg]
    intro hci
    apply hne
    apply huniq
    have hit : i < t.length := by rw [ht.1]; exact hi
    have hcol := ht.2 _ (List.getElem_mem hit)
    have hgd : t.getD i 0 = t[i] := by
      rw [List.getD_eq_getElem?_getD, List.getElem?_eq_getElem hit]
      rfl
    rw [hgd] at hci
    rw [List.getElem?_eq_getElem hit]
    unfold is_color at hcol
    exact congrArg some (by omega)

theorem white_tile_dots :
    white_tile.dots = [107, 132, 108, 131, 109, 130, 110, 129, 111, 128, 112, 127] := by
  have hm : white_tile ∈ ALL_TILES_INFO := registry_getD_mem 291 (by decide)
  obtain ⟨T, hT, -, -, hh⟩ := registry_entry 291 (by decide)
  have hTe : T = white_tile := by
    have := registry_getD 291 (by decide)
    rw [hT] at this
    exact Option.some.inj this
  rw [hTe] at hh
  obtain ⟨ho, hdot⟩ := hh (by decide)
  obtain ⟨-, hshape⟩ := registry_shape white_tile hm
  rcases hshape with ⟨h, -⟩ | ⟨-, -, -, hsib⟩
  · rw [ho] at h
    exact absurd h (by decide)
  · unfold TileInfo.dots
    rw [hsib, hdot]
    decide

theorem white_tile_clear (d : Nat) (hd : d ∈ white_tile.dots) : opening.colors d = WHITE := by
  apply opening_white
  rw [center_dots]
  rw [white_tile_dots] at hd
  simp only [List.mem_cons, List.mem_singleton, List.not_mem_nil, or_false] at hd ⊢
  omega

theorem impact_exact_on_white_witness :
    Reachable sample_keys opening ∧ white_tile ∈ ALL_TILES_INFO ∧
    opening.tile = some (chars "123456") ∧
    (∀ d ∈ white_tile.dots, opening.colors d = WHITE) ∧
    ∃ q res, opening.do_move sample_keys white_tile = some q ∧
      opening.impact white_tile = some res ∧ res.length = MAX_COLORS ∧
      ∀ c, c < MAX_COLORS → ∃ s0 s1, opening.get_score c = some s0 ∧
        q.get_score c = some s1 ∧ res[c]? = some (s1 - s0) :=
  ⟨opening_reachable, registry_getD_mem 291 (by decide), opening_tile, white_tile_clear,
    impact_exact_on_white sample_keys opening opening_reachable white_tile
      (registry_getD_mem 291 (by decide)) (chars "123456") opening_tile white_tile_clear⟩

end Box
namespace Box

/-! ## The loop of get_possible_tiles_set -/

theorem take_set_ge {α : Type} (l : List α) (i n : Nat) (a : α) (h : n ≤ i) :
    (l.set i a).take n = l.take n := by
  apply List.ext_getElem?
  intro j
  rw [List.getElem?_take, List.getElem?_take]
  by_cases hj : j < n
  · rw [if_pos hj, if_pos hj, List.getElem?_set, if_neg (by omega)]
  · rw [if_neg hj, if_neg hj]

/-- The loop shared by `get_possible_tiles_set()` and `get_possible_tiles()`
ends, keeps the candidates that are not over-full, and has pushed the legal
ones in the order of the list it leaves. -/
theorem possible_tiles_loop_spec {β : Type} (p : Position) (push : β → TileInfo → β)
    (orig : List TileInfo) (init : β) :
    ∀ (fuel : Nat) (cands : List TileInfo) (i len : Nat) (res : β),
      len - i ≤ fuel → i ≤ len → len ≤ cands.length →
      (∀ j k, j < len → k < len → cands[j]? = cands[k]? → j = k) →
      (∀ j, j < len → ∃ T, cands[j]? = some T ∧ T ∈ orig) →
      (∀ T ∈ orig, (∃ j, j < len ∧ cands[j]? = some T) ∨
        MAX_OVERLAPS < T.count_matches p.filled) →
      (∀ j, j < i → ∃ T, cands[j]? = some T ∧ T.count_matches p.filled ≤ MAX_OVERLAPS) →
      res = ((cands.take i).filter (fun T => p.possible_move T)).foldl push init →
      ∃ cands' len',
        Position.possible_tiles_loop p.filled push fuel cands i len res =
          some (cands', len',
            ((cands'.take len').filter (fun T => p.possible_move T)).foldl push init) ∧
        len' ≤ cands'.length ∧
        (∀ j k, j < len' → k < len' → cands'[j]? = cands'[k]? → j = k) ∧
        (∀ j, j < len' → ∃ T, cands'[j]? = some T ∧ T ∈ orig) ∧
        (∀ T ∈ orig, (∃ j, j < len' ∧ cands'[j]? = some T) ∨
          MAX_OVERLAPS < T.count_matches p.filled) ∧
        (∀ j, j < len' → ∃ T, cands'[j]? = some T ∧
          T.count_matches p.filled ≤ MAX_OVERLAPS) := by
  intro fuel
  induction fuel with
  | zero =>
    intro cands i len res hf hi hlen hN hS hC hP hR
    have e : i = len := by omega
    subst e
    refine ⟨cands, i, ?_, hlen, hN, hS, hC, hP⟩
    unfold Position.possible_tiles_loop
    rw [if_neg (Nat.lt_irrefl _), hR]
  | succ fuel ih =>
    intro cands i len res hf hi hlen hN hS hC hP hR
    by_cases hil : i < len
    · obtain ⟨ti, hti, -⟩ := hS i hil
      have htake : cands.take (i + 1) = cands.take i ++ [ti] := by
        rw [List.take_succ, hti]
        rfl
      unfold Position.possible_tiles_loop
      rw [if_pos hil, hti]
      simp only
      by_cases hc0 : ti.count_matches p.filled ≠ 0
      · rw [if_pos hc0]
        by_cases hc4 : ti.count_matches p.filled ≤ MAX_OVERLAPS
        · rw [if_pos hc4]
          have hleg : p.possible_move ti = true := by
            unfold Position.possible_move
            simp only
            rw [if_pos hc0]
            exact decide_eq_true hc4
          apply ih cands (i + 1) len _ (by omega) (by omega) hlen hN hS hC
          · intro j hj
            by_cases hji : j = i
            · subst hji
              exact ⟨ti, hti, hc4⟩
            · exact hP j (by omega)
          · rw [htake, List.filter_append, List.foldl_append, ← hR]
            simp [hleg]
        · rw [if_neg hc4]
          obtain ⟨last, hlast, hlo⟩ := hS (len - 1) (by omega)
          rw [hlast]
          simp only
          have hget : ∀ j, j ≠ i → (cands.set i last)[j]? = cands[j]? := by
            intro j hj
            rw [List.getElem?_set, if_neg (fun h => hj h.symm)]
          have hgeti : (cands.set i last)[i]? = some last := by
            rw [List.getElem?_set, if_pos rfl, if_pos (by omega)]
          apply ih (cands.set i last) i (len - 1) res (by omega) (by omega)
            (by rw [List.length_set]; omega)
          · intro j k hj hk hjk
            by_cases hji : j = i
            · by_cases hki : k = i
              · rw [hji, hki]
              · rw [hji, hgeti, hget k hki, ← hlast] at hjk
                have := hN (len - 1) k (by omega) (by omega) hjk
                omega
            · by_cases hki : k = i
              · rw [hki, hgeti, hget j hji, ← hlast] at hjk
                have := hN j (len - 1) (by omega) (by omega) hjk
                omega
              · rw [hget j hji, hget k hki] at hjk
                exact hN j k (by omega) (by omega) hjk
          · intro j hj
            by_cases hji : j = i
            · rw [hji, hgeti]
              exact ⟨last, rfl, hlo⟩
            · rw [hget j hji]
              exact hS j (by omega)
          · intro T hT
            rcases hC T hT with ⟨j, hj, hjT⟩ | h
            · by_cases hji : j = i
              · right
                rw [hji, hti] at hjT
                rw [← Option.some.inj hjT]
                omega
              · by_cases hjl : j = len - 1
                · left
                  rw [hjl, hlast] at hjT
                  exact ⟨i, by omega, by rw [hgeti, hjT]⟩
                · left
                  exact ⟨j, by omega, by rw [hget j hji]; exact hjT⟩
            · exact Or.inr h
          · intro j hj
            rw [hget j (by omega)]
            exact hP j hj
          · rw [take_set_ge _ _ _ _ (Nat.le_refl _)]
            exact hR
      · rw [if_neg hc0]
        have hc4 : ti.count_matches p.filled ≤ MAX_OVERLAPS := by
          have : ti.count_matches p.filled = 0 := not_not.mp hc0
          rw [this]
          exact Nat.zero_le _
        have hP' : ∀ j, j < i + 1 →
            ∃ T, cands[j]? = some T ∧ T.count_matches p.filled ≤ MAX_OVERLAPS := by
          intro j hj
          by_cases hji : j = i
          · subst hji
            exact ⟨ti, hti, hc4⟩
          · exact hP j (by omega)
        have hleg : p.possible_move ti = ti.neighbour_to p.filled := by
          unfold Position.possible_move
          simp only
          rw [if_neg hc0]
        by_cases hnb : ti.neighbour_to p.filled = true
        · rw [if_pos hnb]
          apply ih cands (i + 1) len _ (by omega) (by omega) hlen hN hS hC hP'
          rw [htake, List.filter_append, List.foldl_append, ← hR]
          simp [hleg, hnb]
        · rw [if_neg hnb]
          apply ih cands (i + 1) len _ (by omega) (by omega) hlen hN hS hC hP'
          rw [htake, List.filter_append, List.foldl_append, ← hR]
          simp [hleg, hnb]
    · have e : i = len := by omega
      subst e
      refine ⟨cands, i, ?_, hlen, hN, hS, hC, hP⟩
      unfold Position.possible_tiles_loop
      rw [if_neg (Nat.lt_irrefl _), hR]

end Box
namespace Box

/-! ## The set built by get_possible_tiles_set -/

/-- Setting the codes of a list of placements, one after the other. -/
theorem foldl_set_spec :
    ∀ (L : List TileInfo) (s0 : TileSet), s0.WF →
      (∀ T ∈ L, T.code < 64 * TileSet.NUM_CHUNKS) →
      (L.foldl (fun res t => TileSet.set res t.code) s0).WF ∧
      (∀ code, (L.foldl (fun res t => TileSet.set res t.code) s0).test code = true ↔
        (s0.test code = true ∨ ∃ T ∈ L, T.code = code)) ∧
      (L.foldl (fun res t => TileSet.set res t.code) s0).count = s0.count + L.length := by
  intro L
  induction L with
  | nil =>
    intro s0 h0 _
    refine ⟨h0, fun code => ?_, by simp⟩
    simp
  | cons a L ih =>
    intro s0 h0 hL
    have ha := hL a (List.mem_cons_self _ _)
    obtain ⟨w, t, c⟩ := ih (s0.set a.code) (TileSet.set_wf s0 a.code h0)
      (fun T hT => hL T (List.mem_cons_of_mem _ hT))
    rw [List.foldl_cons]
    refine ⟨w, fun code => ?_, ?_⟩
    · rw [t code, TileSet.test_after_set s0 a.code code h0 ha]
      simp only [Bool.or_eq_true, decide_eq_true_eq, List.mem_cons, exists_eq_or_imp]
      constructor
      · rintro ((h | h) | h)
        · exact Or.inl h
        · exact Or.inr (Or.inl h.symm)
        · exact Or.inr (Or.inr h)
      · rintro (h | h | h)
        · exact Or.inl (Or.inl h)
        · exact Or.inl (Or.inr h.symm)
        · exact Or.inr h
    · rw [c]
      show s0.count + 1 + (L.length : Int) = s0.count + ((L.length + 1 : Nat) : Int)
      omega

/-- A placement of the registry stands at the index of its code. -/
theorem registry_at_code (T : TileInfo) (hT : T ∈ ALL_TILES_INFO) :
    ALL_TILES_INFO[T.code]? = some T ∧ T.code < ALL_TILES_COUNT := by
  obtain ⟨c, hc⟩ := List.mem_iff_getElem?.mp hT
  have h := registry_code c T hc
  rw [h]
  refine ⟨hc, ?_⟩
  rw [← registry_length]
  exact (List.getElem?_eq_some_iff.mp hc).1

theorem registry_code_inj (T1 T2 : TileInfo) (h1 : T1 ∈ ALL_TILES_INFO)
    (h2 : T2 ∈ ALL_TILES_INFO) (h : T1.code = T2.code) : T1 = T2 := by
  have a := (registry_at_code T1 h1).1
  have b := (registry_at_code T2 h2).1
  rw [h, b] at a
  exact (Option.some.inj a).symm

/-- The number of codes of a set whose bits are the codes of a list of
distinct placements of the registry. -/
theorem codes_length (s : TileSet) (L : List TileInfo) (hnd : L.Nodup)
    (hreg : ∀ T ∈ L, T ∈ ALL_TILES_INFO)
    (ht : ∀ code, s.test code = true ↔ ∃ T ∈ L, T.code = code) :
    s.codes.length = L.length ∧ ∀ code, code ∈ s.codes ↔ s.test code = true := by
  have hb : ∀ c, s.test c = true → c < ALL_TILES_COUNT := by
    intro c hc
    obtain ⟨T, hT, rfl⟩ := (ht c).mp hc
    exact (registry_at_code T (hreg T hT)).2
  refine ⟨?_, codes_mem s hb⟩
  have hmapnd : (L.map TileInfo.code).Nodup := by
    apply List.Nodup.map_on _ hnd
    intro x hx y hy hxy
    exact registry_code_inj x y (hreg x hx) (hreg y hy) hxy
  have hcnd : s.codes.Nodup := (codes_ascending s).imp (fun h => Nat.ne_of_lt h)
  have hperm : s.codes.Perm (L.map TileInfo.code) := by
    rw [List.perm_ext_iff_of_nodup hcnd hmapnd]
    intro c
    rw [codes_mem s hb, ht c, List.mem_map]
  rw [hperm.length_eq, List.length_map]

end Box

namespace Box

theorem nodup_take_of_inj {α : Type} (l : List α) (n : Nat) (hn : n ≤ l.length)
    (h : ∀ j k, j < n → k < n → l[j]? = l[k]? → j = k) : (l.take n).Nodup := by
  rw [List.nodup_iff_getElem?_ne_getElem?]
  intro j k hjk hk
  rw [List.length_take, Nat.min_eq_left hn] at hk
  rw [List.getElem?_take, List.getElem?_take, if_pos (by omega), if_pos hk]
  intro he
  have := h j k (by omega) hk he
  omega

/-- The result of `get_possible_tiles_set()` on a position whose candidates are
distinct placements of the registry. -/
theorem get_possible_tiles_set_spec (p : Position) (hnd : p.candidates.Nodup)
    (hreg : ∀ T ∈ p.candidates, T ∈ ALL_TILES_INFO) :
    ∃ s q, p.get_possible_tiles_set = some (s, q) ∧
      (∀ code, s.test code = true ↔
        ∃ T ∈ p.candidates, T.code = code ∧ p.possible_move T = true) ∧
      s.count = (s.codes.length : Int) ∧
      (∀ code, code ∈ s.codes ↔ s.test code = true) ∧
      (∀ T, T ∈ q.candidates ↔
        T ∈ p.candidates ∧ T.count_matches p.filled ≤ MAX_OVERLAPS) ∧
      q.candidates.Nodup ∧ q = { p with candidates := q.candidates } ∧ s.WF := by
  obtain ⟨cands, len, e, hlen, hN, hS, hC, hP⟩ :=
    possible_tiles_loop_spec p (fun res t => TileSet.set res t.code) p.candidates
      TileSet.empty p.candidates.length p.candidates 0 p.candidates.length TileSet.empty
      (by omega) (Nat.zero_le _) (Nat.le_refl _)
      (fun j k hj hk hjk => by
        by_contra hne
        rcases Nat.lt_or_gt_of_ne hne with h | h
        · exact (List.nodup_iff_getElem?_ne_getElem?.mp hnd) j k h hk hjk
        · exact (List.nodup_iff_getElem?_ne_getElem?.mp hnd) k j h hj hjk.symm)
      (fun j hj => ⟨p.candidates[j], List.getElem?_eq_getElem hj, List.getElem_mem hj⟩)
      (fun T hT => by
        obtain ⟨j, hj, hjT⟩ := List.mem_iff_getElem.mp hT
        exact Or.inl ⟨j, hj, by rw [List.getElem?_eq_getElem hj, hjT]⟩)
      (fun j hj => absurd hj (Nat.not_lt_zero _))
      rfl
  have hmem : ∀ T, T ∈ cands.take len ↔
      T ∈ p.candidates ∧ T.count_matches p.filled ≤ MAX_OVERLAPS := by
    intro T
    rw [mem_take_iff cands len]
    constructor
    · rintro ⟨j, hj, hjT⟩
      obtain ⟨T1, h1, h1o⟩ := hS j hj
      obtain ⟨T2, h2, h2c⟩ := hP j hj
      rw [hjT] at h1 h2
      rw [← Option.some.inj h1] at h1o
      rw [← Option.some.inj h2] at h2c
      exact ⟨h1o, h2c⟩
    · rintro ⟨hT, hc⟩
      rcases hC T hT with h | h
      · exact h
      · omega
  have hnd' : (cands.take len).Nodup := nodup_take_of_inj cands len hlen hN
  have hL : ∀ T ∈ (cands.take len).filter (fun T => p.possible_move T), T ∈ ALL_TILES_INFO :=
    fun T hT => hreg T ((hmem T).mp (List.mem_filter.mp hT).1).1
  obtain ⟨hwf, ht, hcount⟩ := foldl_set_spec
    ((cands.take len).filter (fun T => p.possible_move T)) TileSet.empty TileSet.empty_wf
    (fun T hT => by
      have := (registry_at_code T (hL T hT)).2
      simp only [ALL_TILES_COUNT] at this
      have e : 64 * TileSet.NUM_CHUNKS = 448 := by decide
      rw [e]
      omega)
  have ht' : ∀ code,
      (((cands.take len).filter (fun T => p.possible_move T)).foldl
        (fun res t => TileSet.set res t.code) TileSet.empty).test code = true ↔
      ∃ T ∈ (cands.take len).filter (fun T => p.possible_move T), T.code = code := by
    intro code
    rw [ht code, TileSet.test_empty]
    simp
  obtain ⟨hcl, hcm⟩ := codes_length _ _ (hnd'.filter _) hL ht'
  refine ⟨_, { p with candidates := cands.take len }, ?_, ?_, ?_, hcm, hmem, hnd', rfl, hwf⟩
  · unfold Position.get_possible_tiles_set
    rw [e]
    rfl
  · intro code
    rw [ht' code]
    constructor
    · rintro ⟨T, hT, hTc⟩
      obtain ⟨h1, h2⟩ := List.mem_filter.mp hT
      exact ⟨T, ((hmem T).mp h1).1, hTc, h2⟩
    · rintro ⟨T, hT, hTc, hleg⟩
      refine ⟨T, List.mem_filter.mpr ⟨(hmem T).mpr ⟨hT, ?_⟩, hleg⟩, hTc⟩
      unfold Position.possible_move at hleg
      simp only at hleg
      by_cases h0 : T.count_matches p.filled ≠ 0
      · rw [if_pos h0] at hleg
        exact of_decide_eq_true hleg
      · rw [not_not.mp h0]
        exact Nat.zero_le _
  · rw [hcount, hcl]
    show (0 : Int) + _ = _
    omega

end Box

namespace Box

/-! ## Claim C25 -/

/-- C25: on a position whose candidates are distinct placements of the
registry, `get_possible_tiles_set()` returns a set whose bits are exactly the
codes of the candidates that are legal, with `count` equal to the number of
codes in it, and leaves as candidates exactly the previous candidates that
cover at most `MAX_OVERLAPS` filled dots, each once; nothing else of the
position changes. -/
theorem possible_tiles_set_exact (p : Position) (hnd : p.candidates.Nodup)
    (hreg : ∀ T ∈ p.candidates, T ∈ ALL_TILES_INFO) :
    ∃ s q, p.get_possible_tiles_set = some (s, q) ∧
      (∀ code, s.test code = true ↔
        ∃ T ∈ p.candidates, T.code = code ∧ p.possible_move T = true) ∧
      s.count = (s.codes.length : Int) ∧
      (∀ code, code ∈ s.codes ↔ s.test code = true) ∧
      (∀ T, T ∈ q.candidates ↔
        T ∈ p.candidates ∧ T.count_matches p.filled ≤ MAX_OVERLAPS) ∧
      q.candidates.Nodup ∧ q = { p with candidates := q.candidates } := by
  obtain ⟨s, q, h1, h2, h3, h4, h5, h6, h7, -⟩ := get_possible_tiles_set_spec p hnd hreg
  exact ⟨s, q, h1, h2, h3, h4, h5, h6, h7⟩

theorem possible_tiles_set_exact_witness :
    draw_board.candidates.Nodup ∧ (∀ T ∈ draw_board.candidates, T ∈ ALL_TILES_INFO) ∧
    ∃ s q, draw_board.get_possible_tiles_set = some (s, q) ∧
      (∀ code, s.test code = true ↔
        ∃ T ∈ draw_board.candidates, T.code = code ∧ draw_board.possible_move T = true) ∧
      s.count = (s.codes.length : Int) ∧
      (∀ code, code ∈ s.codes ↔ s.test code = true) ∧
      (∀ T, T ∈ q.candidates ↔
        T ∈ draw_board.candidates ∧ T.count_matches draw_board.filled ≤ MAX_OVERLAPS) ∧
      q.candidates.Nodup ∧ q = { draw_board with candidates := q.candidates } :=
  ⟨List.nodup_singleton _,
    fun T hT => by rw [List.mem_singleton.mp hT]; exact sample_tile_mem,
    possible_tiles_set_exact draw_board (List.nodup_singleton _)
      (fun T hT => by rw [List.mem_singleton.mp hT]; exact sample_tile_mem)⟩

end Box
namespace Box

/-! ## The expansion loop of select -/

/-- The loop that keeps the first placement of the greatest value. -/
theorem best_fold {F : Type} [LinearOrder F] [DoubleOps F]
    (hlt : ∀ a b : F, DoubleOps.lt a b = true ↔ a < b) (val : TileInfo → Option F) :
    ∀ (tiles : List TileInfo) (b0 : F) (s0 : Option TileInfo),
      (∀ T ∈ tiles, ∃ v, val T = some v) →
      ∃ b s, tiles.foldlM
          (fun (acc : F × Option TileInfo) T =>
            (val T).map (fun value => if DoubleOps.lt acc.1 value then (value, some T) else acc))
          (b0, s0) = some (b, s) ∧
        b0 ≤ b ∧ (∀ T ∈ tiles, ∀ v, val T = some v → v ≤ b) ∧
        ((b = b0 ∧ s = s0) ∨
          (b0 < b ∧ ∃ pre T post, tiles = pre ++ T :: post ∧ s = some T ∧ val T = some b ∧
            ∀ T2 ∈ pre, ∀ v, val T2 = some v → v < b)) := by
  intro tiles
  induction tiles with
  | nil =>
    intro b0 s0 _
    exact ⟨b0, s0, rfl, le_refl _, fun T hT => absurd hT (List.not_mem_nil _), Or.inl ⟨rfl, rfl⟩⟩
  | cons a rest ih =>
    intro b0 s0 hval
    obtain ⟨va, hva⟩ := hval a (List.mem_cons_self _ _)
    have hrest : ∀ T ∈ rest, ∃ v, val T = some v := fun T hT => hval T (List.mem_cons_of_mem _ hT)
    rw [List.foldlM_cons, hva]
    simp only [Option.map_some', Option.some_bind, Option.bind_eq_bind]
    by_cases hlta : b0 < va
    · rw [if_pos ((hlt b0 va).mpr hlta)]
      obtain ⟨b, s, e, hle, hmax, hcase⟩ := ih va (some a) hrest
      refine ⟨b, s, e, le_trans (le_of_lt hlta) hle, ?_, Or.inr ⟨lt_of_lt_of_le hlta hle, ?_⟩⟩
      · intro T hT v hv
        rcases List.mem_cons.mp hT with h | h
        · rw [h, hva] at hv
          rw [← Option.some.inj hv]
          exact hle
        · exact hmax T h v hv
      · rcases hcase with ⟨hb, hs⟩ | ⟨hb, pre, T, post, hdec, hs, hv, hpre⟩
        · exact ⟨[], a, rest, rfl, hs, by rw [hb]; exact hva,
            fun T2 h2 => absurd h2 (List.not_mem_nil _)⟩
        · refine ⟨a :: pre, T, post, by rw [hdec]; rfl, hs, hv, ?_⟩
          intro T2 h2 v hv2
          rcases List.mem_cons.mp h2 with h | h
          · rw [h, hva] at hv2
            rw [← Option.some.inj hv2]
            exact hb
          · exact hpre T2 h v hv2
    · have hnlt : ¬ DoubleOps.lt b0 va = true := fun h => hlta ((hlt b0 va).mp h)
      rw [if_neg hnlt]
      obtain ⟨b, s, e, hle, hmax, hcase⟩ := ih b0 s0 hrest
      refine ⟨b, s, e, hle, ?_, ?_⟩
      · intro T hT v hv
        rcases List.mem_cons.mp hT with h | h
        · rw [h, hva] at hv
          rw [← Option.some.inj hv]
          exact le_trans (not_lt.mp hlta) hle
        · exact hmax T h v hv
      · rcases hcase with h | ⟨hb, pre, T, post, hdec, hs, hv, hpre⟩
        · exact Or.inl h
        · refine Or.inr ⟨hb, a :: pre, T, post, by rw [hdec]; rfl, hs, hv, ?_⟩
          intro T2 h2 v hv2
          rcases List.mem_cons.mp h2 with h | h
          · rw [h, hva] at hv2
            rw [← Option.some.inj hv2]
            exact lt_of_le_of_lt (not_lt.mp hlta) hb
          · exact hpre T2 h v hv2

/-- Whatever the comparison does, the placement kept by the loop is one of
those visited. -/
theorem best_fold_mem {F : Type} [DoubleOps F] (val : TileInfo → Option F) :
    ∀ (tiles : List TileInfo) (b0 b : F) (s0 s : Option TileInfo),
      tiles.foldlM
          (fun (acc : F × Option TileInfo) T =>
            (val T).map (fun value => if DoubleOps.lt acc.1 value then (value, some T) else acc))
          (b0, s0) = some (b, s) →
      s = s0 ∨ ∃ T ∈ tiles, s = some T := by
  intro tiles
  induction tiles with
  | nil =>
    intro b0 b s0 s h
    have := Option.some.inj h
    exact Or.inl (Prod.mk.inj this).2.symm
  | cons a rest ih =>
    intro b0 b s0 s h
    rw [List.foldlM_cons] at h
    cases hva : val a with
    | none => rw [hva] at h; cases h
    | some va =>
      rw [hva] at h
      simp only [Option.map_some', Option.some_bind, Option.bind_eq_bind] at h
      by_cases hc : DoubleOps.lt b0 va = true
      · rw [if_pos hc] at h
        rcases ih _ _ _ _ h with h1 | ⟨T, hT, h1⟩
        · exact Or.inr ⟨a, List.mem_cons_self _ _, h1⟩
        · exact Or.inr ⟨T, List.mem_cons_of_mem _ hT, h1⟩
      · rw [if_neg hc] at h
        rcases ih _ _ _ _ h with h1 | ⟨T, hT, h1⟩
        · exact Or.inl h1
        · exact Or.inr ⟨T, List.mem_cons_of_mem _ hT, h1⟩

/-- The visits of `for_each` on a sound set: the registry entries of its
codes, in ascending order. -/
theorem for_each_tiles {β : Type} (s : TileSet) (hs : s.Sound)
    (f : β → TileInfo → Option β) (init : β) :
    s.for_each f init =
      (s.codes.filterMap (fun c => ALL_TILES_INFO[c]?)).foldlM f init := by
  have hlt : ∀ c ∈ s.codes, c < ALL_TILES_INFO.length := by
    intro c hc
    rw [registry_length]
    exact hs.2.1 c ((codes_mem s hs.2.1 c).mp hc)
  rw [for_each_eq s hs.1, codes_eq s hs.2.1]
  exact foldlM_lookup ALL_TILES_INFO f s.codes init hlt

theorem tiles_of_codes (s : TileSet) (hs : s.Sound) :
    (s.codes.filterMap (fun c => ALL_TILES_INFO[c]?)).map TileInfo.code = s.codes ∧
    ∀ T ∈ s.codes.filterMap (fun c => ALL_TILES_INFO[c]?),
      ALL_TILES_INFO[T.code]? = some T ∧ T.code ∈ s.codes := by
  have hlt : ∀ c ∈ s.codes, c < ALL_TILES_INFO.length := by
    intro c hc
    rw [registry_length]
    exact hs.2.1 c ((codes_mem s hs.2.1 c).mp hc)
  have hmap := map_code_lookup ALL_TILES_INFO registry_code s.codes hlt
  refine ⟨hmap, fun T hT => ⟨mem_lookup ALL_TILES_INFO registry_code s.codes T hT, ?_⟩⟩
  rw [← hmap]
  exact List.mem_map_of_mem _ hT

/-- Clearing a code of a sound set leaves a sound set with one code less. -/
theorem clear_sound (s : TileSet) (hs : s.Sound) (c : Nat) (hc : c ∈ s.codes) :
    (s.clear c).Sound ∧
    (∀ d, (s.clear c).test d = true ↔ (s.test d = true ∧ d ≠ c)) ∧
    (s.clear c).codes = s.codes.filter (fun d => d ≠ c) ∧
    (s.clear c).codes.length + 1 = s.codes.length := by
  have hc434 : c < ALL_TILES_COUNT := hs.2.1 c ((codes_mem s hs.2.1 c).mp hc)
  have hc448 : c < 64 * TileSet.NUM_CHUNKS := by
    have e : 64 * TileSet.NUM_CHUNKS = 448 := by decide
    simp only [ALL_TILES_COUNT] at hc434
    rw [e]
    omega
  have htest : ∀ d, (s.clear c).test d = (s.test d && !decide (d = c)) :=
    fun d => TileSet.test_after_clear s c d hs.1 hc448
  have hcodes : (s.clear c).codes = s.codes.filter (fun d => d ≠ c) := by
    unfold TileSet.codes
    rw [List.filter_filter]
    apply List.filter_congr
    intro d _
    rw [htest d]
    cases s.test d <;> simp
  have hnd : s.codes.Nodup := (codes_ascending s).imp (fun h => Nat.ne_of_lt h)
  have hlen : (s.clear c).codes.length + 1 = s.codes.length := by
    rw [hcodes]
    have e : s.codes.filter (fun d => d ≠ c) = s.codes.erase c := by
      rw [hnd.erase_eq_filter]
      apply List.filter_congr
      intro d _
      by_cases h : d = c <;> simp [h]
    rw [e, List.length_erase_of_mem hc]
    have : 0 < s.codes.length := List.length_pos_of_mem hc
    omega
  refine ⟨⟨TileSet.clear_wf s c hs.1, ?_, ?_⟩, ?_, hcodes, hlen⟩
  · intro d hd
    rw [htest d, Bool.and_eq_true] at hd
    exact hs.2.1 d hd.1
  · show s.count - 1 = _
    rw [hs.2.2]
    omega
  · intro d
    rw [htest d]
    simp

end Box
namespace Box

theorem any_iff (s : TileSet) (hs : s.Sound) : s.any = true ↔ 0 < s.codes.length := by
  unfold TileSet.any
  rw [decide_eq_true_eq, hs.2.2]
  omega

/-- The expansion loop of `select` on a sound set, when every placement has a
value above `lowest` and `<` is a linear order: it ends, having taken as many
placements as the limit allows or as there are, each one the best of those
left, and cleared them from the set. -/
theorem expand_spec {F : Type} [LinearOrder F] [DoubleOps F]
    (hlt : ∀ a b : F, DoubleOps.lt a b = true ↔ a < b) (stats : Nat → Stats F)
    (pos : Position) (limit : Nat)
    (heval : ∀ T ∈ ALL_TILES_INFO, ∃ v, DotColorStats.evaluate stats pos T = some v ∧
      DoubleOps.lowest < v) :
    ∀ (fuel : Nat) (st : StateInfo F), st.unexpanded_tiles.Sound →
      min (limit - st.actions.length) st.unexpanded_tiles.codes.length ≤ fuel →
      ∃ (picks : List (TileInfo × F)) (u : TileSet),
        StateInfo.expand stats pos limit fuel st =
          some { st with
            actions := st.actions ++
              picks.map (fun x => { ActionInfo.create x.1 with bias := x.2 })
            unexpanded_tiles := u } ∧
        picks.length = min (limit - st.actions.length) st.unexpanded_tiles.codes.length ∧
        expansion_chain stats pos st.unexpanded_tiles.codes picks ∧
        u.Sound ∧
        u.codes = st.unexpanded_tiles.codes.filter
          (fun c => c ∉ picks.map (fun x => x.1.code)) := by
  intro fuel
  induction fuel with
  | zero =>
    intro st hs hf
    have hstop : ¬ (st.actions.length < limit ∧ st.unexpanded_tiles.any = true) := by
      rw [any_iff _ hs]
      omega
    refine ⟨[], st.unexpanded_tiles, ?_, by rw [List.length_nil]; omega, trivial, hs, by simp⟩
    unfold StateInfo.expand
    rw [if_neg hstop]
    simp
  | succ fuel ih =>
    intro st hs hf
    by_cases hcond : st.actions.length < limit ∧ st.unexpanded_tiles.any = true
    · have hpos : 0 < st.unexpanded_tiles.codes.length := (any_iff _ hs).mp hcond.2
      obtain ⟨hmap, htiles⟩ := tiles_of_codes st.unexpanded_tiles hs
      have hvals : ∀ T ∈ st.unexpanded_tiles.codes.filterMap (fun c => ALL_TILES_INFO[c]?),
          ∃ v, DotColorStats.evaluate stats pos T = some v := by
        intro T hT
        obtain ⟨v, hv, -⟩ := heval T (List.getElem?_mem (htiles T hT).1)
        exact ⟨v, hv⟩
      obtain ⟨b, s, e, -, hmax, hcase⟩ := best_fold hlt (DotColorStats.evaluate stats pos)
        (st.unexpanded_tiles.codes.filterMap (fun c => ALL_TILES_INFO[c]?))
        DoubleOps.lowest none hvals
      have hne : st.unexpanded_tiles.codes.filterMap (fun c => ALL_TILES_INFO[c]?) ≠ [] := by
        intro h
        rw [h] at hmap
        rw [← hmap] at hpos
        exact absurd hpos (by simp)
      obtain ⟨hb, pre, T, post, hdec, hsT, hvT, hpre⟩ :
          DoubleOps.lowest < b ∧ ∃ pre T post,
            st.unexpanded_tiles.codes.filterMap (fun c => ALL_TILES_INFO[c]?) =
              pre ++ T :: post ∧ s = some T ∧
            DotColorStats.evaluate stats pos T = some b ∧
            ∀ T2 ∈ pre, ∀ v, DotColorStats.evaluate stats pos T2 = some v → v < b := by
        rcases hcase with ⟨h1, -⟩ | h
        · exfalso
          obtain ⟨T0, hT0⟩ := List.exists_mem_of_ne_nil _ hne
          obtain ⟨v, hv, hlow⟩ := heval T0 (List.getElem?_mem (htiles T0 hT0).1)
          have := hmax T0 hT0 v hv
          rw [h1] at this
          exact absurd hlow (not_lt.mpr this)
        · exact h
      have hTmem : T ∈ st.unexpanded_tiles.codes.filterMap (fun c => ALL_TILES_INFO[c]?) := by
        rw [hdec]
        simp
      obtain ⟨hTreg, hTcode⟩ := htiles T hTmem
      obtain ⟨hs1, -, hcodes1, hlen1⟩ := clear_sound st.unexpanded_tiles hs T.code hTcode
      obtain ⟨picks1, u, e1, hl1, hch1, hu1, huc1⟩ := ih
        { st with
          actions := st.actions ++ [{ ActionInfo.create T with bias := b }]
          unexpanded_tiles := st.unexpanded_tiles.clear T.code } hs1 (by
          show min (limit - (st.actions ++ [_]).length) (st.unexpanded_tiles.clear T.code).codes.length
            ≤ fuel
          rw [List.length_append, List.length_singleton]
          omega)
      refine ⟨(T, b) :: picks1, u, ?_, ?_, ⟨?_, ?_⟩, hu1, ?_⟩
      · unfold StateInfo.expand
        rw [if_pos hcond, for_each_tiles _ hs, e, hsT]
        simp only
        rw [e1]
        simp
      · rw [List.length_cons, hl1]
        show min (limit - (st.actions ++ [_]).length) (st.unexpanded_tiles.clear T.code).codes.length
          + 1 = _
        rw [List.length_append, List.length_singleton]
        omega
      · refine ⟨hTcode, hTreg, hvT, ?_⟩
        intro c hc T2 v2 hT2 hv2
        have hT2mem : T2 ∈ st.unexpanded_tiles.codes.filterMap (fun c => ALL_TILES_INFO[c]?) :=
          List.mem_filterMap.mpr ⟨c, hc, hT2⟩
        refine ⟨hmax T2 hT2mem v2 hv2, fun hv => ?_⟩
        have hc2 : T2.code = c := registry_code c T2 hT2
        rw [hdec] at hT2mem
        rcases List.mem_append.mp hT2mem with h | h
        · have := hpre T2 h v2 hv2
          rw [hv] at this
          exact absurd this (lt_irrefl _)
        · rcases List.mem_cons.mp h with h | h
          · rw [← hc2, h]
          · have hasc := codes_ascending st.unexpanded_tiles
            rw [← hmap, hdec, List.map_append, List.map_cons] at hasc
            have h2 := (List.pairwise_append.mp hasc).2.1
            have h3 := (List.pairwise_cons.mp h2).1 T2.code (List.mem_map_of_mem _ h)
            rw [← hc2]
            exact le_of_lt h3
      · show expansion_chain stats pos
          (st.unexpanded_tiles.codes.filter (fun c => c ≠ T.code)) picks1
        rw [← hcodes1]
        exact hch1
      · rw [huc1]
        show (st.unexpanded_tiles.clear T.code).codes.filter _ = _
        rw [hcodes1, List.filter_filter]
        apply List.filter_congr
        intro c _
        simp only [List.map_cons, List.mem_cons, not_or, Bool.decide_and, ne_eq]
        rw [Bool.and_comm]
    · have hstop : min (limit - st.actions.length) st.unexpanded_tiles.codes.length = 0 := by
        rw [any_iff _ hs] at hcond
        omega
      refine ⟨[], st.unexpanded_tiles, ?_, by rw [List.length_nil]; omega, trivial, hs, by simp⟩
      unfold StateInfo.expand
      rw [if_neg hcond]
      simp

end Box
namespace Box

theorem eval_fold_some {F : Type} [DoubleOps F] (st : StateInfo F) :
    ∀ (l : List (Nat × ActionInfo F)) (acc : F × Option Nat),
      (∀ x ∈ l, 0 ≤ x.2.visits ∧ 1 + x.2.visits < TABLE_SIZE) →
      ∃ r, l.foldlM
        (fun (acc : F × Option Nat) (ia : Nat × ActionInfo F) =>
          (st.eval ia.2).map
            (fun value => if DoubleOps.lt acc.1 value then (value, some ia.1) else acc))
        acc = some r := by
  intro l
  induction l with
  | nil => intro acc _; exact ⟨acc, rfl⟩
  | cons x l ih =>
    intro acc h
    obtain ⟨h0, h1⟩ := h x (List.mem_cons_self _ _)
    rw [List.foldlM_cons]
    unfold StateInfo.eval SQRT
    rw [if_pos ⟨by omega, h1⟩]
    simp only [Option.map_some', Option.some_bind, Option.bind_eq_bind]
    exact ih _ (fun y hy => h y (List.mem_cons_of_mem _ hy))

/-- The method `select(pos)` on a state with a sound set: it returns, and the
state it leaves is the one the expansion loop leaves, at most
`min 64 (floor (sqrt (visits + 1)))` actions being expanded. -/
theorem select_spec {F : Type} [LinearOrder F] [DoubleOps F]
    (hlt : ∀ a b : F, DoubleOps.lt a b = true ↔ a < b)
    (hfloor : ∀ n : Nat,
      DoubleOps.toSize (DoubleOps.sqrt (DoubleOps.ofInt (n : Int) : F)) = Nat.sqrt n)
    (stats : Nat → Stats F) (pos : Position)
    (heval : ∀ T ∈ ALL_TILES_INFO, ∃ v, DotColorStats.evaluate stats pos T = some v ∧
      DoubleOps.lowest < v)
    (st : StateInfo F) (hs : st.unexpanded_tiles.Sound)
    (hv0 : 0 ≤ st.visits) (hv1 : st.visits + 1 < TABLE_SIZE)
    (hact : ∀ a ∈ st.actions, 0 ≤ a.visits ∧ 1 + a.visits < TABLE_SIZE) :
    ∃ (st2 : StateInfo F) (a : Option Nat) (picks : List (TileInfo × F)),
      st.select stats pos = some (st2, a) ∧
      picks.length = min (min 64 (Nat.sqrt (st.visits + 1).toNat) - st.actions.length)
        st.unexpanded_tiles.codes.length ∧
      st2.actions = st.actions ++
        picks.map (fun x => { ActionInfo.create x.1 with bias := x.2 }) ∧
      expansion_chain stats pos st.unexpanded_tiles.codes picks ∧
      st2.unexpanded_tiles.Sound ∧
      st2.unexpanded_tiles.codes = st.unexpanded_tiles.codes.filter
        (fun c => c ∉ picks.map (fun x => x.1.code)) ∧
      st2.visits = st.visits ∧ st2.bonus = st.bonus ∧ st2.player = st.player := by
  have hroot : SQRT (F := F) (st.visits + 1) =
      some (DoubleOps.sqrt (DoubleOps.ofInt (st.visits + 1))) := by
    unfold SQRT
    rw [if_pos ⟨by omega, hv1⟩]
  have hnat : st.visits + 1 = (((st.visits + 1).toNat : Nat) : Int) := by omega
  have hsize : DoubleOps.toSize (DoubleOps.sqrt (DoubleOps.ofInt (st.visits + 1) : F)) =
      Nat.sqrt (st.visits + 1).toNat := by
    rw [← hfloor]
    congr 3
  have hlimit : (if DoubleOps.toSize (DoubleOps.sqrt (DoubleOps.ofInt (st.visits + 1) : F)) > 64
      then 64 else DoubleOps.toSize (DoubleOps.sqrt (DoubleOps.ofInt (st.visits + 1) : F))) =
      min 64 (Nat.sqrt (st.visits + 1).toNat) := by
    rw [hsize]
    split_ifs <;> omega
  obtain ⟨picks, u, e, hl, hch, hu, huc⟩ := expand_spec hlt stats pos
    (min 64 (Nat.sqrt (st.visits + 1).toNat)) heval 64 st hs (by omega)
  obtain ⟨r, hr⟩ := eval_fold_some
    { st with
      actions := st.actions ++ picks.map (fun x => { ActionInfo.create x.1 with bias := x.2 })
      unexpanded_tiles := u }
    (List.enum (st.actions ++ picks.map (fun x => { ActionInfo.create x.1 with bias := x.2 })))
    (DoubleOps.lowest, none) (by
      intro x hx
      have hmem := List.snd_mem_of_mem_enum hx
      rcases List.mem_append.mp hmem with h | h
      · exact hact _ h
      · obtain ⟨y, -, hy⟩ := List.mem_map.mp h
        rw [← hy]
        show (0 : Int) ≤ 0 ∧ (1 : Int) + 0 < TABLE_SIZE
        decide)
  refine ⟨{ st with
      actions := st.actions ++ picks.map (fun x => { ActionInfo.create x.1 with bias := x.2 })
      unexpanded_tiles := u }, r.2, picks, ?_, hl, rfl, hch, hu, huc, rfl, rfl, rfl⟩
  unfold StateInfo.select
  rw [hroot]
  simp only
  rw [hlimit, e]
  simp only
  rw [hr]
  rfl

end Box
namespace Box

/-! ## The invariant of a StateInfo -/

/-- Whatever the values and their comparison, the expansion loop keeps the
invariant of the state. -/
theorem expand_preserves {F : Type} [DoubleOps F] (legal : Nat → Prop)
    (stats : Nat → Stats F) (pos : Position) (limit : Nat) (hlimit : limit ≤ 64) :
    ∀ (fuel : Nat) (st st2 : StateInfo F), st.Inv legal →
      StateInfo.expand stats pos limit fuel st = some st2 →
      st2.Inv legal ∧ st2.visits = st.visits := by
  intro fuel
  induction fuel with
  | zero =>
    intro st st2 hinv h
    unfold StateInfo.expand at h
    split_ifs at h
    cases h
    exact ⟨hinv, rfl⟩
  | succ fuel ih =>
    intro st st2 hinv h
    unfold StateInfo.expand at h
    by_cases hcond : st.actions.length < limit ∧ st.unexpanded_tiles.any = true
    · rw [if_pos hcond, for_each_tiles _ hinv.1] at h
      obtain ⟨hs, hlen, hnd, hdis, hpart⟩ := hinv
      split at h
      · rename_i best selected heq
        rcases best_fold_mem _ _ _ _ _ _ heq with h0 | ⟨T, hT, h0⟩
        · cases h0
        · have hsel : selected = T := Option.some.inj h0
          subst hsel
          obtain ⟨-, hcode⟩ := (tiles_of_codes st.unexpanded_tiles hs).2 selected hT
          have htest := (codes_mem st.unexpanded_tiles hs.2.1 selected.code).mp hcode
          obtain ⟨hs1, ht1, -, -⟩ := clear_sound st.unexpanded_tiles hs selected.code hcode
          have hexp : ({ st with
              actions := st.actions ++ [{ ActionInfo.create selected with bias := best }]
              unexpanded_tiles := st.unexpanded_tiles.clear selected.code } :
                StateInfo F).expanded = st.expanded ++ [selected.code] := by
            unfold StateInfo.expanded
            show (st.actions ++ [_]).map _ = _
            rw [List.map_append]
            rfl
          obtain ⟨hinv2, hv2⟩ := ih _ st2 (by
            refine ⟨hs1, ?_, ?_, ?_, ?_⟩
            · show (st.actions ++ [_]).length ≤ 64
              rw [List.length_append, List.length_singleton]
              omega
            · rw [hexp]
              apply List.Nodup.append hnd (List.nodup_singleton _)
              intro c hc1 hc2
              rw [List.mem_singleton.mp hc2] at hc1
              exact hdis _ htest hc1
            · intro c hc
              rw [hexp]
              have := (ht1 c).mp hc
              intro hmem
              rcases List.mem_append.mp hmem with h1 | h1
              · exact hdis c this.1 h1
              · exact this.2 (List.mem_singleton.mp h1)
            · intro c
              rw [hexp, hpart c]
              show _ ↔ ((st.unexpanded_tiles.clear selected.code).test c = true ∨ _)
              rw [ht1 c, List.mem_append, List.mem_singleton]
              constructor
              · rintro (h1 | h1)
                · by_cases hcc : c = selected.code
                  · exact Or.inr (Or.inr hcc)
                  · exact Or.inl ⟨h1, hcc⟩
                · exact Or.inr (Or.inl h1)
              · rintro (h1 | h1 | h1)
                · exact Or.inl h1.1
                · exact Or.inr h1
                · rw [h1]
                  exact Or.inl htest) h
          exact ⟨hinv2, hv2⟩
      · cases h
    · rw [if_neg hcond] at h
      cases h
      exact ⟨hinv, rfl⟩

theorem select_preserves {F : Type} [DoubleOps F] (legal : Nat → Prop)
    (stats : Nat → Stats F) (pos : Position) (st st2 : StateInfo F) (a : Option Nat)
    (hinv : st.Inv legal) (h : st.select stats pos = some (st2, a)) : st2.Inv legal := by
  unfold StateInfo.select at h
  split at h
  · cases h
  · rename_i root _
    simp only at h
    split at h
    · cases h
    · rename_i st3 hexp
      cases hf : (st3.actions.enum.foldlM
        (fun (acc : F × Option Nat) (ia : Nat × ActionInfo F) =>
          (st3.eval ia.2).map
            (fun value => if DoubleOps.lt acc.1 value then (value, some ia.1) else acc))
        (DoubleOps.lowest, none)) with
      | none => rw [hf] at h; cases h
      | some r =>
        rw [hf] at h
        have h2 := Option.some.inj h
        have h3 : st3 = st2 := (Prod.mk.inj h2).1
        rw [← h3]
        exact (expand_preserves legal stats pos _ (by split_ifs <;> omega) 64 st st3 hinv hexp).1

theorem update_preserves {F : Type} [DoubleOps F] (legal : Nat → Prop)
    (st st2 : StateInfo F) (action : Nat) (score : F)
    (hinv : st.Inv legal) (h : st.update action score = some st2) : st2.Inv legal := by
  unfold StateInfo.update at h
  split at h
  · rename_i a bonus ha _
    cases h
    have hexp : ({ st with
        visits := st.visits + 1, actions := st.actions.set action (a.update score)
        bonus := bonus } : StateInfo F).expanded = st.expanded := by
      unfold StateInfo.expanded
      show (st.actions.set action (a.update score)).map _ = _
      apply List.ext_getElem?
      intro j
      rw [List.getElem?_map, List.getElem?_map, List.getElem?_set]
      by_cases hj : action = j
      · subst hj
        rw [if_pos rfl, ha, if_pos (List.getElem?_eq_some_iff.mp ha).1]
        rfl
      · rw [if_neg hj]
    obtain ⟨hs, hlen, hnd, hdis, hpart⟩ := hinv
    refine ⟨hs, ?_, ?_, ?_, ?_⟩
    · show (st.actions.set action (a.update score)).length ≤ 64
      rw [List.length_set]
      exact hlen
    · rw [hexp]
      exact hnd
    · rw [hexp]
      exact hdis
    · rw [hexp]
      exact hpart
  · cases h

theorem run_preserves {F : Type} [DoubleOps F] (legal : Nat → Prop) :
    ∀ (calls : List (StateInfo.Call F)) (st st2 : StateInfo F), st.Inv legal →
      st.run calls = some st2 → st2.Inv legal := by
  intro calls
  induction calls with
  | nil =>
    intro st st2 hinv h
    cases h
    exact hinv
  | cons call calls ih =>
    intro st st2 hinv h
    unfold StateInfo.run at h
    rw [List.foldlM_cons] at h
    cases hstep : st.step call with
    | none => rw [hstep] at h; cases h
    | some st1 =>
      rw [hstep] at h
      refine ih st1 st2 ?_ h
      cases call with
      | select stats pos =>
        have hstep : (st.select stats pos).map (fun r => r.1) = some st1 := hstep
        cases hsel : st.select stats pos with
        | none => rw [hsel] at hstep; cases hstep
        | some r =>
          rw [hsel] at hstep
          cases hstep
          exact select_preserves legal stats pos st r.1 r.2 hinv hsel
      | update action score =>
        exact update_preserves legal st st1 action score hinv hstep

/-- The constructor `StateInfo(pos)` on a position whose candidates are
distinct placements of the registry: its state satisfies the invariant for
the codes of the legal candidates. -/
theorem state_create_inv {F : Type} [DoubleOps F] (pos : Position) (hnd : pos.candidates.Nodup)
    (hreg : ∀ T ∈ pos.candidates, T ∈ ALL_TILES_INFO) :
    ∃ (st0 : StateInfo F) (q0 : Position), StateInfo.create pos = some (st0, q0) ∧
      st0.Inv (fun c => ∃ T ∈ pos.candidates, T.code = c ∧ pos.possible_move T = true) ∧
      st0.actions = [] ∧ st0.visits = 0 := by
  obtain ⟨s, q, e, ht, hcount, -, -, -, -, hwf⟩ := get_possible_tiles_set_spec pos hnd hreg
  refine ⟨⟨s, [], DoubleOps.ofInt 0, 0, pos.player⟩, q, ?_,
    ⟨⟨hwf, ?_, hcount⟩, Nat.zero_le _, List.nodup_nil, ?_, ?_⟩, rfl, rfl⟩
  · unfold StateInfo.create
    rw [e]
    rfl
  · intro c hc
    obtain ⟨T, hT, hTc, -⟩ := (ht c).mp hc
    rw [← hTc]
    exact (registry_at_code T (hreg T hT)).2
  · intro c _ hmem
    cases hmem
  · intro c
    show _ ↔ (s.test c = true ∨ c ∈ ([] : List Nat))
    rw [ht c]
    simp

end Box
namespace Box

theorem rat_lt (a b : ℚ) : DoubleOps.lt a b = true ↔ a < b :=
  decide_eq_true_iff

theorem rat_floor_sqrt (n : Nat) :
    DoubleOps.toSize (DoubleOps.sqrt (DoubleOps.ofInt (n : Int) : ℚ)) = Nat.sqrt n := by
  show (Int.floor (Rat.sqrt (((n : Int) : ℚ)))).toNat = Nat.sqrt n
  have e : Rat.sqrt (((n : Int) : ℚ)) = ((Nat.sqrt n : Nat) : ℚ) := by
    unfold Rat.sqrt
    simp [Int.sqrt]
  rw [e]
  simp

theorem evaluate_fold_zero (t : List Nat) :
    ∀ (l : List (Nat × Nat)) (k : Nat), k + l.length ≤ t.length →
      (l.enumFrom k).foldlM
        (fun (sum : ℚ) (is : Nat × (Nat × Nat)) =>
          (t[is.1]?).map (fun color =>
            DoubleOps.add
              (DoubleOps.add sum
                ((DotColorStats.reset : Nat → Stats ℚ)
                  (DotColorStats.code is.2.1 color).toNat).value)
              ((DotColorStats.reset : Nat → Stats ℚ)
                (DotColorStats.code is.2.2 color).toNat).value))
        (0 : ℚ) = some 0 := by
  intro l
  induction l with
  | nil => intro k _; rfl
  | cons x l ih =>
    intro k hk
    rw [List.length_cons] at hk
    rw [List.enumFrom_cons, List.foldlM_cons, List.getElem?_eq_getElem (by omega)]
    simp only [Option.map_some', Option.some_bind, Option.bind_eq_bind]
    have e : DoubleOps.add (DoubleOps.add (0 : ℚ)
        ((DotColorStats.reset : Nat → Stats ℚ) (DotColorStats.code x.1 t[k]).toNat).value)
        ((DotColorStats.reset : Nat → Stats ℚ) (DotColorStats.code x.2 t[k]).toNat).value = 0 := by
      show (0 : ℚ) + ((0 : Int) : ℚ) + ((0 : Int) : ℚ) = 0
      simp
    rw [e]
    exact ih (k + 1) (by omega)

/-- With the table `dot_color_stats` just reset every placement of six
sibling pairs has the value 0. -/
theorem evaluate_reset (pos : Position) (t : List Nat) (htile : pos.tile = some t)
    (ht : t.length = 6) (T : TileInfo) (hT : T.siblings.length = 6) :
    DotColorStats.evaluate (DotColorStats.reset : Nat → Stats ℚ) pos T = some 0 := by
  unfold DotColorStats.evaluate
  rw [htile]
  simp only
  have h := evaluate_fold_zero t T.siblings 0 (by omega)
  have e0 : (DoubleOps.ofInt 0 : ℚ) = 0 := by
    show ((0 : Int) : ℚ) = 0
    simp
  rw [List.enum, e0, h]
  simp only [Option.map_some']
  have e1 : DoubleOps.div (0 : ℚ) (DoubleOps.ofInt 12) = 0 := by
    show (0 : ℚ) / _ = 0
    simp
  have e2 : DoubleOps.neg (0 : ℚ) = 0 := by
    show -(0 : ℚ) = 0
    simp
  rw [e1, e2]
  split_ifs <;> rfl

theorem rat_lowest_neg : (DoubleOps.lowest : ℚ) < 0 := by
  show -(2 : ℚ) ^ 1024 < 0
  have : (0 : ℚ) < 2 ^ 1024 := by positivity
  linarith

end Box

namespace Box

/-! ## Claim C27 -/

/-- C27: progressive unpruning. Let `<` on the values be a linear order and
`static_cast<size_t>(sqrt(n))` be the integer square root. On a position
whose candidates are distinct placements of the registry the constructor
`StateInfo(pos)` returns a state without actions nor visits, and every state
reached from it by calls of `select` and `update` has at most 64 expanded
actions, no placement expanded twice, none both expanded and unexpanded, and
the codes expanded or unexpanded are exactly the codes of the initial legal
candidates. On such a state whose visit counts are in the range of the table
`SQRT`, with every placement valued above `lowest`, `select(pos)` returns
after expanding `picks`: as many placements as bring the number of actions to
`min 64 (floor (sqrt (visits + 1)))`, or all the unexpanded ones if they are
fewer; each is the best of those still unexpanded (highest value, lowest code
on ties), is appended as a fresh action whose `bias` is its value, and is
cleared from the unexpanded set. -/
theorem progressive_unpruning {F : Type} [LinearOrder F] [DoubleOps F]
    (hlt : ∀ a b : F, DoubleOps.lt a b = true ↔ a < b)
    (hfloor : ∀ n : Nat,
      DoubleOps.toSize (DoubleOps.sqrt (DoubleOps.ofInt (n : Int) : F)) = Nat.sqrt n)
    (pos0 : Position) (hnd : pos0.candidates.Nodup)
    (hreg : ∀ T ∈ pos0.candidates, T ∈ ALL_TILES_INFO) :
    ∃ (st0 : StateInfo F) (q0 : Position), StateInfo.create pos0 = some (st0, q0) ∧
      st0.actions = [] ∧ st0.visits = 0 ∧
      ∀ (calls : List (StateInfo.Call F)) (st : StateInfo F), st0.run calls = some st →
        (st.actions.length ≤ 64 ∧ st.expanded.Nodup ∧
          (∀ c, st.unexpanded_tiles.test c = true → c ∉ st.expanded) ∧
          (∀ c, (∃ T ∈ pos0.candidates, T.code = c ∧ pos0.possible_move T = true) ↔
            (st.unexpanded_tiles.test c = true ∨ c ∈ st.expanded))) ∧
        ∀ (stats : Nat → Stats F) (pos : Position),
          0 ≤ st.visits → st.visits + 1 < TABLE_SIZE →
          (∀ a ∈ st.actions, 0 ≤ a.visits ∧ 1 + a.visits < TABLE_SIZE) →
          (∀ T ∈ ALL_TILES_INFO, ∃ v, DotColorStats.evaluate stats pos T = some v ∧
            DoubleOps.lowest < v) →
          ∃ (st2 : StateInfo F) (a : Option Nat) (picks : List (TileInfo × F)),
            st.select stats pos = some (st2, a) ∧
            picks.length =
              min (min 64 (Nat.sqrt (st.visits + 1).toNat) - st.actions.length)
                st.unexpanded_tiles.codes.length ∧
            (∀ c, c ∈ st.unexpanded_tiles.codes ↔ st.unexpanded_tiles.test c = true) ∧
            st2.actions = st.actions ++
              picks.map (fun x => { ActionInfo.create x.1 with bias := x.2 }) ∧
            expansion_chain stats pos st.unexpanded_tiles.codes picks ∧
            (∀ c, st2.unexpanded_tiles.test c = true ↔
              (st.unexpanded_tiles.test c = true ∧ c ∉ picks.map (fun x => x.1.code))) := by
  obtain ⟨st0, q0, e, hinv0, ha0, hv0⟩ := state_create_inv (F := F) pos0 hnd hreg
  refine ⟨st0, q0, e, ha0, hv0, ?_⟩
  intro calls st hrun
  obtain ⟨hs, hlen, hnodup, hdis, hpart⟩ := run_preserves _ calls st0 st hinv0 hrun
  refine ⟨⟨hlen, hnodup, hdis, hpart⟩, ?_⟩
  intro stats pos h0 h1 hact heval
  obtain ⟨st2, a, picks, e2, hl, hact2, hch, hs2, hc2, -⟩ :=
    select_spec hlt hfloor stats pos heval st hs h0 h1 hact
  refine ⟨st2, a, picks, e2, hl, codes_mem _ hs.2.1, hact2, hch, ?_⟩
  intro c
  rw [← codes_mem _ hs2.2.1 c, hc2, List.mem_filter, codes_mem _ hs.2.1 c]
  simp

theorem reset_values (T : TileInfo) (hT : T ∈ ALL_TILES_INFO) :
    ∃ v, DotColorStats.evaluate (DotColorStats.reset : Nat → Stats ℚ) opening T = some v ∧
      DoubleOps.lowest < v :=
  ⟨0, evaluate_reset opening (chars "123456") opening_tile (by decide) T (registry_wf T hT).len,
    rat_lowest_neg⟩

theorem progressive_unpruning_witness :
    (∀ a b : ℚ, DoubleOps.lt a b = true ↔ a < b) ∧
    (∀ n : Nat, DoubleOps.toSize (DoubleOps.sqrt (DoubleOps.ofInt (n : Int) : ℚ)) = Nat.sqrt n) ∧
    draw_board.candidates.Nodup ∧ (∀ T ∈ draw_board.candidates, T ∈ ALL_TILES_INFO) ∧
    ∃ (st0 : StateInfo ℚ) (q0 : Position), StateInfo.create draw_board = some (st0, q0) ∧
      st0.run [] = some st0 ∧ st0.actions.length ≤ 64 ∧
      ∃ (st2 : StateInfo ℚ) (a : Option Nat) (picks : List (TileInfo × ℚ)),
        st0.select DotColorStats.reset opening = some (st2, a) ∧
        picks.length =
          min (min 64 (Nat.sqrt (st0.visits + 1).toNat) - st0.actions.length)
            st0.unexpanded_tiles.codes.length ∧
        expansion_chain DotColorStats.reset opening st0.unexpanded_tiles.codes picks := by
  refine ⟨rat_lt, rat_floor_sqrt, List.nodup_singleton _,
    fun T hT => by rw [List.mem_singleton.mp hT]; exact sample_tile_mem, ?_⟩
  obtain ⟨st0, q0, e, ha0, hv0, h⟩ := progressive_unpruning rat_lt rat_floor_sqrt draw_board
    (List.nodup_singleton _)
    (fun T hT => by rw [List.mem_singleton.mp hT]; exact sample_tile_mem)
  obtain ⟨hinv, hsel⟩ := h [] st0 rfl
  obtain ⟨st2, a, picks, e2, hl, -, -, hch, -⟩ := hsel DotColorStats.reset opening
    (by rw [hv0]) (by rw [hv0]; decide) (by rw [ha0]; intro a ha; cases ha) reset_values
  exact ⟨st0, q0, e, rfl, hinv.1, st2, a, picks, e2, hl, hch⟩

end Box
namespace Box

/-! ## At most one strong rival -/

/-- The five rival weights written by `update_weigths` are negative and add up
to `-1`, in exact arithmetic. -/
theorem rival_weights {F : Type} [LinearOrderedField F] [DoubleOps F] [DoubleMath F]
    (ex : ExactArithmetic F) (G : Globals F) (total : Nat → F) (me : Nat)
    (hme : me < MAX_COLORS) (hfin : ∀ c < MAX_COLORS, total c ≤ DoubleMath.highest) :
    (update_weigths G total (me + 49)).weights me = 1 ∧
    (∀ c < MAX_COLORS, c ≠ me → (update_weigths G total (me + 49)).weights c < 0) ∧
    ∑ c ∈ (Finset.range 6).erase me, (update_weigths G total (me + 49)).weights c = -1 := by
  obtain ⟨m, -, -, hw1, hw2⟩ := update_weigths_spec ex G total me hme hfin
  have h10 : (0 : F) < 10 := by norm_num
  have hpos : ∀ c, (0 : F) < DoubleMath.pow 10 (2 / 10 * (total c - m)) :=
    fun c => ex.pow_pos 10 _ h10
  obtain ⟨c0, hc0, hne0⟩ : ∃ c', c' < MAX_COLORS ∧ c' ≠ me := by
    by_cases h00 : me = 0
    · exact ⟨1, by decide, by omega⟩
    · exact ⟨0, by decide, fun hh => h00 hh.symm⟩
  have hS : (0 : F) <
      ∑ c' ∈ (Finset.range 6).erase me, DoubleMath.pow 10 (2 / 10 * (total c' - m)) :=
    Finset.sum_pos (fun c _ => hpos c)
      ⟨c0, Finset.mem_erase.mpr ⟨hne0, Finset.mem_range.mpr hc0⟩⟩
  refine ⟨hw1, ?_, ?_⟩
  · intro c hc hne
    rw [hw2 c hc hne]
    exact div_neg_of_neg_of_pos (neg_neg_of_pos (hpos c)) hS
  · have hsum : ∑ c ∈ (Finset.range 6).erase me, (update_weigths G total (me + 49)).weights c =
        ∑ c ∈ (Finset.range 6).erase me,
          -(DoubleMath.pow 10 (2 / 10 * (total c - m))) /
            ∑ c' ∈ (Finset.range 6).erase me, DoubleMath.pow 10 (2 / 10 * (total c' - m)) := by
      apply Finset.sum_congr rfl
      intro c hc
      have h1 := Finset.mem_erase.mp hc
      exact hw2 c (Finset.mem_range.mp h1.2) h1.1
    rw [hsum, ← Finset.sum_div, Finset.sum_neg_distrib, neg_div, div_self (ne_of_gt hS)]

/-- Two distinct members of a family of negative numbers of sum `-1` are not
both at most `-67/100`. -/
theorem strong_unique {F : Type} [LinearOrderedField F] (s : Finset Nat) (w : Nat → F)
    (hneg : ∀ c ∈ s, w c < 0) (hsum : ∑ c ∈ s, w c = -1) (a b : Nat) (ha : a ∈ s) (hb : b ∈ s)
    (hwa : w a ≤ -(67 / 100)) (hwb : w b ≤ -(67 / 100)) : a = b := by
  by_contra hab
  have hb2 : b ∈ s.erase a := Finset.mem_erase.mpr ⟨fun h => hab h.symm, hb⟩
  have h1 := Finset.add_sum_erase s w ha
  have h2 := Finset.add_sum_erase (s.erase a) w hb2
  have h3 : ∑ c ∈ (s.erase a).erase b, w c ≤ 0 :=
    Finset.sum_nonpos (fun c hc =>
      le_of_lt (hneg c (Finset.mem_of_mem_erase (Finset.mem_of_mem_erase hc))))
  linarith

/-- The scan for the opponent on any list of indices: `-1` when no index of
the list passes the test. -/
theorem opponent_loop_none {F : Type} [DoubleMath F] (w : Nat → F) (thr : F) :
    ∀ l : List Nat, (∀ i ∈ l, DoubleMath.le (w i) thr = false) → opponent_loop w thr l = -1 := by
  intro l
  induction l with
  | nil => intro _; rfl
  | cons a rest ih =>
    intro h
    unfold opponent_loop
    rw [h a (List.mem_cons_self _ _)]
    simp only [Bool.false_eq_true, if_false]
    exact ih (fun i hi => h i (List.mem_cons_of_mem _ hi))

/-- The scan for the opponent on any list of indices that holds `c`, the only
index of the list that passes the test. -/
theorem opponent_loop_only {F : Type} [DoubleMath F] (w : Nat → F) (thr : F) (c : Nat)
    (hc : DoubleMath.le (w c) thr = true) :
    ∀ l : List Nat, c ∈ l → (∀ i ∈ l, DoubleMath.le (w i) thr = true → i = c) →
      opponent_loop w thr l = (c : Int) := by
  intro l
  induction l with
  | nil => intro h; cases h
  | cons a rest ih =>
    intro hmem h
    unfold opponent_loop
    cases hle : DoubleMath.le (w a) thr
    · simp only [Bool.false_eq_true, if_false]
      have hca : c ≠ a := by
        intro e
        rw [e, hle] at hc
        cases hc
      rcases List.mem_cons.mp hmem with e | hr
      · exact absurd e hca
      · exact ih hr (fun i hi => h i (List.mem_cons_of_mem _ hi))
    · simp only [if_true]
      rw [h a (List.mem_cons_self _ _) hle]

/-- C34. In exact arithmetic, for an own color of index `me` in `0 .. 5` and
six totals not above `numeric_limits<double>::max()`, after
`update_weigths(total, me)`: two colors whose weights are both at most `-0.67`
are the same color; the weight of the own color is not at most `-0.67`; the
index `opponent_color_index` is `-1` and no weight is at most `-0.67`, or it is
the only color whose weight is at most `-0.67`, a rival; and the scan that sets
it returns the same index in whatever order it visits the six colors. -/
theorem single_strong_rival {F : Type} [LinearOrderedField F] [DoubleOps F] [DoubleMath F]
    (ex : ExactArithmetic F) (G : Globals F) (total : Nat → F) (me : Nat)
    (hme : me < MAX_COLORS) (hfin : ∀ c < MAX_COLORS, total c ≤ DoubleMath.highest) :
    (∀ c < MAX_COLORS, ∀ c' < MAX_COLORS,
      (update_weigths G total (me + 49)).weights c ≤ -(67 / 100) →
      (update_weigths G total (me + 49)).weights c' ≤ -(67 / 100) → c = c') ∧
    ¬ (update_weigths G total (me + 49)).weights me ≤ -(67 / 100) ∧
    (((update_weigths G total (me + 49)).opponent_color_index = -1 ∧
        ∀ c < MAX_COLORS, ¬ (update_weigths G total (me + 49)).weights c ≤ -(67 / 100)) ∨
      ∃ c < MAX_COLORS, c ≠ me ∧
        (update_weigths G total (me + 49)).opponent_color_index = (c : Int) ∧
        (update_weigths G total (me + 49)).weights c ≤ -(67 / 100) ∧
        ∀ c' < MAX_COLORS,
          (update_weigths G total (me + 49)).weights c' ≤ -(67 / 100) → c' = c) ∧
    ∀ order : List Nat, order.Perm (List.range MAX_COLORS) →
      opponent_loop (update_weigths G total (me + 49)).weights
          (DoubleOps.neg (DoubleMath.decimal 67 2)) order =
        (update_weigths G total (me + 49)).opponent_color_index := by
  obtain ⟨hw1, hneg, hsum⟩ := rival_weights ex G total me hme hfin
  have hown : ¬ (update_weigths G total (me + 49)).weights me ≤ -(67 / 100) := by
    rw [hw1]
    norm_num
  have hthr : (DoubleOps.neg (DoubleMath.decimal 67 2) : F) = -(67 / 100) := by
    rw [ex.neg_eq, ex.decimal_eq]
    norm_num
  have hle : ∀ c, DoubleMath.le ((update_weigths G total (me + 49)).weights c)
      (DoubleOps.neg (DoubleMath.decimal 67 2)) = true ↔
      (update_weigths G total (me + 49)).weights c ≤ -(67 / 100) := by
    intro c
    rw [ex.le_iff, hthr]
  have hmem : ∀ c, c < MAX_COLORS → c ≠ me → c ∈ (Finset.range 6).erase me :=
    fun c hc hne => Finset.mem_erase.mpr ⟨hne, Finset.mem_range.mpr hc⟩
  have huniq : ∀ c < MAX_COLORS, ∀ c' < MAX_COLORS,
      (update_weigths G total (me + 49)).weights c ≤ -(67 / 100) →
      (update_weigths G total (me + 49)).weights c' ≤ -(67 / 100) → c = c' := by
    intro c hc c' hc' h1 h2
    have hne1 : c ≠ me := fun e => hown (e ▸ h1)
    have hne2 : c' ≠ me := fun e => hown (e ▸ h2)
    exact strong_unique ((Finset.range 6).erase me) _
      (fun x hx => hneg x (Finset.mem_range.mp (Finset.mem_of_mem_erase hx))
        (Finset.mem_erase.mp hx).1)
      hsum c c' (hmem c hc hne1) (hmem c' hc' hne2) h1 h2
  have hopp : (update_weigths G total (me + 49)).opponent_color_index =
      opponent_loop (update_weigths G total (me + 49)).weights
        (DoubleOps.neg (DoubleMath.decimal 67 2)) (List.range MAX_COLORS) := rfl
  have hscan : ∀ order : List Nat, order.Perm (List.range MAX_COLORS) →
      (opponent_loop (update_weigths G total (me + 49)).weights
          (DoubleOps.neg (DoubleMath.decimal 67 2)) order = -1 ∧
        ∀ c < MAX_COLORS, ¬ (update_weigths G total (me + 49)).weights c ≤ -(67 / 100)) ∨
      ∃ c < MAX_COLORS, c ≠ me ∧
        opponent_loop (update_weigths G total (me + 49)).weights
          (DoubleOps.neg (DoubleMath.decimal 67 2)) order = (c : Int) ∧
        (update_weigths G total (me + 49)).weights c ≤ -(67 / 100) ∧
        ∀ c' < MAX_COLORS,
          (update_weigths G total (me + 49)).weights c' ≤ -(67 / 100) → c' = c := by
    intro order hperm
    have hin : ∀ i, i ∈ order ↔ i < MAX_COLORS := fun i =>
      (hperm.mem_iff).trans List.mem_range
    by_cases hex : ∃ c < MAX_COLORS,
        (update_weigths G total (me + 49)).weights c ≤ -(67 / 100)
    · obtain ⟨c, hc, hwc⟩ := hex
      refine Or.inr ⟨c, hc, fun e => hown (e ▸ hwc), ?_, hwc,
        fun c' hc' h => huniq c' hc' c hc h hwc⟩
      exact opponent_loop_only _ _ c ((hle c).mpr hwc) order ((hin c).mpr hc)
        (fun i hi h => huniq i ((hin i).mp hi) c hc ((hle i).mp h) hwc)
    · have hno : ∀ c < MAX_COLORS,
          ¬ (update_weigths G total (me + 49)).weights c ≤ -(67 / 100) :=
        fun c hc h => hex ⟨c, hc, h⟩
      refine Or.inl ⟨opponent_loop_none _ _ order (fun i hi => ?_), hno⟩
      cases h : DoubleMath.le ((update_weigths G total (me + 49)).weights i)
        (DoubleOps.neg (DoubleMath.decimal 67 2))
      · rfl
      · exact absurd ((hle i).mp h) (hno i ((hin i).mp hi))
  refine ⟨huniq, hown, ?_, ?_⟩
  · rw [hopp]
    exact hscan _ (List.Perm.refl _)
  · intro order hperm
    rw [hopp]
    rcases hscan order hperm with ⟨h1, h2⟩ | ⟨c, hc, -, h1, h2, -⟩
    · rcases hscan _ (List.Perm.refl (List.range MAX_COLORS)) with ⟨h3, -⟩ | ⟨c', hc', -, -, h4, -⟩
      · rw [h1, h3]
      · exact absurd h4 (h2 c' hc')
    · rcases hscan _ (List.Perm.refl (List.range MAX_COLORS)) with ⟨-, h3⟩ | ⟨c', hc', -, h3, h4, -⟩
      · exact absurd h2 (h3 c hc)
      · rw [h1, h3, huniq c hc c' hc' h2 h4]

theorem single_strong_rival_witness :
    (0 < MAX_COLORS ∧ ∀ c < MAX_COLORS, sample_totals c ≤ (DoubleMath.highest : ℚ)) ∧
    (∀ c < MAX_COLORS, ∀ c' < MAX_COLORS,
      (update_weigths sample_globals sample_totals (0 + 49)).weights c ≤ -(67 / 100) →
      (update_weigths sample_globals sample_totals (0 + 49)).weights c' ≤ -(67 / 100) →
      c = c') ∧
    ¬ (update_weigths sample_globals sample_totals (0 + 49)).weights 0 ≤ -(67 / 100) ∧
    (((update_weigths sample_globals sample_totals (0 + 49)).opponent_color_index = -1 ∧
        ∀ c < MAX_COLORS,
          ¬ (update_weigths sample_globals sample_totals (0 + 49)).weights c ≤ -(67 / 100)) ∨
      ∃ c < MAX_COLORS, c ≠ 0 ∧
        (update_weigths sample_globals sample_totals (0 + 49)).opponent_color_index =
          (c : Int) ∧
        (update_weigths sample_globals sample_totals (0 + 49)).weights c ≤ -(67 / 100) ∧
        ∀ c' < MAX_COLORS,
          (update_weigths sample_globals sample_totals (0 + 49)).weights c' ≤ -(67 / 100) →
            c' = c) ∧
    ∀ order : List Nat, order.Perm (List.range MAX_COLORS) →
      opponent_loop (update_weigths sample_globals sample_totals (0 + 49)).weights
          (DoubleOps.neg (DoubleMath.decimal 67 2)) order =
        (update_weigths sample_globals sample_totals (0 + 49)).opponent_color_index :=
  ⟨⟨by decide, sample_totals_finite⟩,
    single_strong_rival rat_exact sample_globals sample_totals 0 (by decide)
      sample_totals_finite⟩

end Box
namespace Box

/-! ## Counting the filled dots -/

/-- The number of set bits of a board whose set bits are the members of a
list without duplicates. -/
theorem popcount_eq_length (b : Bitboard) (l : List Nat) (hnd : l.Nodup)
    (hb : ∀ d ∈ l, d < Bitboard.WIDTH) (h : ∀ x, b.test x = true ↔ x ∈ l) :
    Bitboard.popcount b.bits = l.length := by
  unfold Bitboard.popcount
  rw [List.countP_eq_length_filter]
  apply List.Perm.length_eq
  rw [List.perm_ext_iff_of_nodup ((List.nodup_range _).filter _) hnd]
  intro d
  simp only [List.mem_filter, List.mem_range]
  constructor
  · rintro ⟨-, h1⟩
    exact (h d).mp h1
  · intro h1
    exact ⟨hb d h1, (h d).mpr h1⟩

/-- Counting along a list without duplicates: the members that pass `g`, the
test `g` being `f` or membership in `l`, are those that pass `f` and the
members of `l` that fail `f`. -/
theorem countP_fill (r : List Nat) (hr : r.Nodup) (f g : Nat → Bool) (l : List Nat)
    (hnd : l.Nodup) (hb : ∀ d ∈ l, d ∈ r) (h : ∀ x, g x = true ↔ f x = true ∨ x ∈ l) :
    r.countP g = r.countP f + (l.filter (fun d => !f d)).length := by
  have hsplit := List.length_eq_countP_add_countP f (r.filter g)
  rw [List.countP_eq_length_filter g, hsplit]
  congr 1
  · rw [List.countP_filter]
    apply List.countP_congr
    intro d _
    simp only [Bool.and_eq_true]
    constructor
    · rintro ⟨h1, -⟩
      exact h1
    · intro h1
      exact ⟨h1, (h d).mpr (Or.inl h1)⟩
  · rw [List.countP_filter, List.countP_eq_length_filter]
    apply List.Perm.length_eq
    rw [List.perm_ext_iff_of_nodup (hr.filter _) (hnd.filter _)]
    intro d
    simp only [List.mem_filter, Bool.and_eq_true, Bool.not_eq_true',
      decide_eq_true_eq, Bool.decide_eq_true, Bool.not_eq_true]
    constructor
    · rintro ⟨-, h1, h2⟩
      rcases (h d).mp h2 with h3 | h3
      · rw [h3] at h1
        cases h1
      · exact ⟨h3, h1⟩
    · rintro ⟨h1, h2⟩
      exact ⟨hb d h1, h2, (h d).mpr (Or.inr h1)⟩

/-- Filling the dots of a list without duplicates adds to the number of set
bits the number of dots of the list that were not filled. -/
theorem popcount_fill (a b : Bitboard) (l : List Nat) (hnd : l.Nodup)
    (hb : ∀ d ∈ l, d < Bitboard.WIDTH) (h : ∀ x, b.test x = true ↔ a.test x = true ∨ x ∈ l) :
    Bitboard.popcount b.bits =
      Bitboard.popcount a.bits + (l.filter (fun d => !a.test d)).length :=
  countP_fill (List.range Bitboard.WIDTH) (List.nodup_range _) (fun d => a.test d)
    (fun d => b.test d) l hnd (fun d hd => List.mem_range.mpr (hb d hd)) h

/-- The complement of a filter. -/
theorem filter_length_split (l : List Nat) (f : Nat → Bool) :
    l.length = (l.filter f).length + (l.filter (fun d => !f d)).length := by
  have := List.length_eq_countP_add_countP f l
  rw [List.countP_eq_length_filter, List.countP_eq_length_filter] at this
  rw [this]
  congr 2
  apply List.filter_congr
  intro d _
  simp

/-- No more than `TOTAL_DOTS` dots are filled in a position that satisfies the
invariant. -/
theorem filled_count_le (z : Zobrist) (p : Position) (hp : p.Inv z) :
    p.filled_count ≤ TOTAL_DOTS := by
  have h := popcount_eq_length p.filled
    ((List.range TOTAL_DOTS).filter (fun d => p.filled.test d))
    ((List.nodup_range _).filter _)
    (fun d hd => by
      have := List.mem_range.mp (List.mem_filter.mp hd).1
      simp only [TOTAL_DOTS, ROWS, COLS, Bitboard.WIDTH] at this ⊢
      omega)
    (fun x => by
      simp only [List.mem_filter, List.mem_range]
      constructor
      · intro hx
        refine ⟨?_, hx⟩
        by_contra hge
        have hw := hp.white_outside x (by omega)
        exact ((hp.filled_iff x).mp hx) hw
      · exact fun hx => hx.2)
  unfold Position.filled_count
  rw [h]
  calc ((List.range TOTAL_DOTS).filter (fun d => p.filled.test d)).length
      ≤ (List.range TOTAL_DOTS).length := List.length_filter_le _ _
    _ = TOTAL_DOTS := List.length_range _

/-- The overlap of a legal placement is at most `MAX_OVERLAPS`. -/
theorem possible_overlap (p : Position) (T : TileInfo) (h : p.possible_move T = true) :
    T.count_matches p.filled ≤ MAX_OVERLAPS := by
  unfold Position.possible_move at h
  simp only at h
  by_cases hc : T.count_matches p.filled ≠ 0
  · rw [if_pos hc] at h
    exact of_decide_eq_true h
  · have : T.count_matches p.filled = 0 := not_not.mp hc
    rw [this]
    exact Nat.zero_le _

/-- A placement of the registry played on a position that holds a tile: the
move is carried out and fills the dots of the placement that were not filled,
twelve minus the overlap. -/
theorem do_move_count (z : Zobrist) (p : Position) (T : TileInfo) (hp : p.Inv z)
    (htile : ∃ t, p.tile = some t) (hT : T ∈ ALL_TILES_INFO) :
    ∃ q, p.do_move z T = some q ∧ q.Inv z ∧
      (∀ x, q.filled.test x = true ↔ p.filled.test x = true ∨ x ∈ T.dots) ∧
      q.filled_count + T.count_matches p.filled = p.filled_count + 12 ∧
      q.tile = p.tile ∧ q.candidates = p.candidates := by
  obtain ⟨t, ht⟩ := htile
  have hw := registry_wf T hT
  obtain ⟨q, e, inv, -, -, hf, h1, -, h2, -⟩ :=
    do_move_spec z T t p hw (inv_tile z p hp t ht) hp ht
  refine ⟨q, e, inv, hf, ?_, h1, h2⟩
  have hb : ∀ d ∈ T.dots, d < Bitboard.WIDTH := by
    intro d hd
    have := hw.bound d hd
    simp only [TOTAL_DOTS, ROWS, COLS, Bitboard.WIDTH] at this ⊢
    omega
  have h3 := popcount_fill p.filled q.filled T.dots hw.nodup hb hf
  have h4 := filter_length_split T.dots (fun d => p.filled.test d)
  rw [dots_length T hw, ← count_matches_eq_dots T hw] at h4
  unfold Position.filled_count
  rw [h3]
  omega

/-- Drawing a tile leaves the board and the invariant. -/
theorem chance_frame (z : Zobrist) (index : Nat) (p q : Position) (hp : p.Inv z)
    (h : p.play_chance_move z index = some q) :
    q.Inv z ∧ q.filled = p.filled ∧ q.candidates = p.candidates ∧
      ((∃ t, p.tile = some t) → ∃ t, q.tile = some t) := by
  obtain ⟨inv, -, hf, -, -, -, hc⟩ := update_tile_index_inv z _ _ _ hp h
  refine ⟨inv, hf, hc, ?_⟩
  rintro ⟨t, ht⟩
  unfold Position.play_chance_move Position.update_tile_index at h
  by_cases h1 : p.tile_index = (index : Int)
  · rw [if_pos h1] at h
    cases h
    exact ⟨t, ht⟩
  · rw [if_neg h1] at h
    simp only at h
    by_cases h0 : 0 ≤ (index : Int)
    · rw [if_pos h0] at h
      cases hl : TILES_PERMUTATIONS[(index : Int).toNat]? with
      | none => rw [hl] at h; cases h
      | some t' => rw [hl] at h; cases h; exact ⟨t', rfl⟩
    · rw [if_neg h0] at h; cases h

/-- Replacing the candidate list leaves the invariant. -/
theorem inv_candidates (z : Zobrist) (p : Position) (l : List TileInfo) (hp : p.Inv z) :
    ({ p with candidates := l } : Position).Inv z :=
  ⟨hp.colors_ok, hp.white_outside, hp.filled_iff, hp.columns_iff, hp.hash, hp.tile_ok,
    hp.player_ok⟩

/-- Along a legal play from a position that holds a tile, every placement
fills between 8 and 12 dots. -/
theorem legal_play_count (z : Zobrist) (p : Position) (hp : p.Inv z)
    (htile : ∃ t, p.tile = some t) (n : Nat) (q : Position) (h : LegalPlay z p n q) :
    q.Inv z ∧ (∃ t, q.tile = some t) ∧ p.filled_count + 8 * n ≤ q.filled_count ∧
      q.filled_count ≤ p.filled_count + 12 * n := by
  induction h with
  | refl => exact ⟨hp, htile, by omega, by omega⟩
  | draw q r n index _ hd ih =>
    obtain ⟨inv, ht, h1, h2⟩ := ih
    obtain ⟨inv2, hf, -, ht2⟩ := chance_frame z index q r inv hd
    refine ⟨inv2, ht2 ht, ?_, ?_⟩
    · unfold Position.filled_count at h1 ⊢
      rw [hf]
      exact h1
    · unfold Position.filled_count at h2 ⊢
      rw [hf]
      exact h2
  | candidates q n l _ ih =>
    obtain ⟨inv, ht, h1, h2⟩ := ih
    exact ⟨inv_candidates z q l inv, ht, h1, h2⟩
  | place q r n T _ hT hleg hd ih =>
    obtain ⟨inv, ht, h1, h2⟩ := ih
    obtain ⟨r', e, inv2, -, hc, ht2, -⟩ := do_move_count z q T inv ht hT
    rw [e] at hd
    cases hd
    have := possible_overlap q T hleg
    simp only [MAX_OVERLAPS] at this
    refine ⟨inv2, ?_, by omega, by omega⟩
    rw [ht2]
    exact ht

/-- The position built by the constructor has twelve filled dots, satisfies
the invariant and holds a tile. -/
theorem create_count (z : Zobrist) (s : List Nat) (p : Position)
    (h : Position.create z s = some p) :
    p.Inv z ∧ (∃ t, p.tile = some t) ∧ p.filled_count = 12 ∧
      p.candidates = ALL_TILES_INFO := by
  have hinv := create_inv z s p h
  unfold Position.create at h
  split at h
  · rename_i chance_move pm center hpm hcenter
    have hce : center = center_tile :=
      (Option.some.inj (center_created.symm.trans hcenter)).symm
    clear hcenter
    rw [hce] at h
    cases h1 : Position.do_move_chance z chance_move Position.blank with
    | none => rw [h1] at h; cases h
    | some p1 =>
      rw [h1] at h
      simp only [Option.bind] at h
      obtain ⟨inv1, -, hf1, -, -, -, hc1⟩ := update_tile_index_inv z _ _ _ (blank_inv z) h1
      cases htile : p1.tile with
      | none =>
        rw [process_all_siblings_none z center_tile p1 (Or.inr htile)] at h
        cases h
      | some t =>
        obtain ⟨q, e, inv, -, -, hf, hfr⟩ := process_all_siblings_spec z center_tile t p1
          center_wf (inv_tile z p1 inv1 t htile) inv1 htile
        rw [e] at h
        cases h
        refine ⟨hinv, ⟨t, by rw [hfr.1, htile]⟩, ?_, by rw [hfr.2.2.2.2, hc1]; rfl⟩
        have hb : ∀ d ∈ center_tile.dots, d < Bitboard.WIDTH := by
          intro d hd
          have := center_wf.bound d hd
          simp only [TOTAL_DOTS, ROWS, COLS, Bitboard.WIDTH] at this ⊢
          omega
        have := popcount_eq_length p.filled center_tile.dots center_wf.nodup hb
          (fun x => by
            rw [hf x, hf1]
            simp [Position.blank, Bitboard.test_zero])
        unfold Position.filled_count
        rw [this, dots_length _ center_wf]
  · cases h

end Box
namespace Box

/-! ## Removing a candidate -/

/-- The list left by `remove_candidate`: the entry of index `c` is taken out,
the others stay. -/
theorem swap_remove_perm {α : Type} (l : List α) (c : Nat) (x back : α)
    (hx : l[c]? = some x) (hb : l.getLast? = some back) :
    l.Perm (x :: (l.set c back).dropLast) := by
  have hl : l.dropLast ++ [back] = l := List.dropLast_append_getLast? back hb
  generalize l.dropLast = init at hl
  subst hl
  by_cases hc : c < init.length
  · have e1 : (init ++ [back]).set c back = init.set c back ++ [back] := by
      rw [List.set_append, if_pos hc]
    rw [e1, List.dropLast_concat]
    rw [List.getElem?_append_left hc] at hx
    have hxe : init[c] = x := by
      rw [List.getElem?_eq_getElem hc] at hx
      exact Option.some.inj hx
    have e2 : init = init.take c ++ x :: init.drop (c + 1) := by
      rw [← hxe]
      exact (List.take_append_drop c init).symm.trans
        (by rw [List.drop_eq_getElem_cons hc])
    have e3 : init.set c back = init.take c ++ back :: init.drop (c + 1) :=
      List.set_eq_take_append_cons_drop.trans (by rw [if_pos hc])
    rw [e3]
    nth_rewrite 1 [e2]
    have p1 : (init.take c ++ x :: init.drop (c + 1) ++ [back]).Perm
        (x :: (init.take c ++ init.drop (c + 1)) ++ [back]) :=
      List.Perm.append_right _ List.perm_middle
    have p2 : (x :: (init.take c ++ back :: init.drop (c + 1))).Perm
        (x :: back :: (init.take c ++ init.drop (c + 1))) :=
      List.Perm.cons _ List.perm_middle
    refine p1.trans (List.Perm.trans ?_ p2.symm)
    rw [List.cons_append]
    refine List.Perm.cons _ ?_
    exact List.perm_append_comm.trans (by rw [List.singleton_append])
  · have hlen : c < (init ++ [back]).length := by
      by_contra hge
      rw [List.getElem?_eq_none (by omega)] at hx
      cases hx
    rw [List.length_append, List.length_singleton] at hlen
    have hce : c = init.length := by omega
    subst hce
    have e1 : (init ++ [back]).set init.length back = init ++ [back] := by
      rw [List.set_append, if_neg (Nat.lt_irrefl _), Nat.sub_self]
      rfl
    rw [e1, List.dropLast_concat]
    rw [List.getElem?_append_right (Nat.le_refl _), Nat.sub_self] at hx
    have : back = x := Option.some.inj hx
    rw [← this]
    exact List.perm_append_comm.trans (by rw [List.singleton_append])

/-- What `remove_candidate(c)` does to a position for an index `c` of the
list. -/
theorem remove_candidate_spec (p : Position) (c : Nat) (x : TileInfo)
    (hx : p.candidates[c]? = some x) :
    ∃ l, p.remove_candidate c = { p with candidates := l } ∧ p.candidates.Perm (x :: l) := by
  have hne : p.candidates ≠ [] := by
    intro h
    rw [h] at hx
    cases hx
  obtain ⟨back, hb⟩ : ∃ back, p.candidates.getLast? = some back := by
    cases h : p.candidates.getLast? with
    | none => exact absurd (List.getLast?_eq_none_iff.mp h) hne
    | some b => exact ⟨b, rfl⟩
  unfold Position.remove_candidate
  rw [hb]
  exact ⟨_, rfl, swap_remove_perm p.candidates c x back hx hb⟩

/-- The index drawn by `less_than(bound)` is below a positive `bound`. -/
theorem less_than_lt (g : FastRandom) (bound : Nat) (hb : 0 < bound) :
    (g.less_than bound).1 < bound := by
  unfold FastRandom.less_than FastRandom.fast_random
  simp only
  have e : ((bound : Int) - 1 - 0 + 1).toNat = bound := by omega
  rw [e]
  have := Nat.mod_lt ((g.seed ^^^ g.seed <<< 13 % 2 ^ 32 ^^^
      (g.seed ^^^ g.seed <<< 13 % 2 ^ 32) >>> 17) ^^^
    (g.seed ^^^ g.seed <<< 13 % 2 ^ 32 ^^^
      (g.seed ^^^ g.seed <<< 13 % 2 ^ 32) >>> 17) <<< 5 % 2 ^ 32) hb
  omega

/-- What the loop of `get_random_move()` leaves, when it returns: the
position with another candidate list, from which only over-full candidates and
the placement returned have been taken out. -/
theorem get_random_move_frame :
    ∀ (fuel : Nat) (g : FastRandom) (p : Position)
      (r : Option TileInfo × Position × FastRandom),
      p.get_random_move fuel g = some r →
      ∃ l, r.2.1 = { p with candidates := l } ∧
      (∀ x ∈ p.candidates, x ∈ l ∨ MAX_OVERLAPS < x.count_matches p.filled ∨ r.1 = some x) ∧
      (p.candidates.Nodup → l.Nodup ∧ ∀ info, r.1 = some info → info ∉ l) := by
  intro fuel
  induction fuel with
  | zero =>
    intro g p r h
    unfold Position.get_random_move at h
    split at h
    · cases h
      exact ⟨p.candidates, rfl, fun x hx => Or.inl hx,
        fun hnd => ⟨hnd, fun info hi => by cases hi⟩⟩
    · cases h
  | succ n ih =>
    intro g p r h
    unfold Position.get_random_move at h
    split at h
    · cases h
      exact ⟨p.candidates, rfl, fun x hx => Or.inl hx,
        fun hnd => ⟨hnd, fun info hi => by cases hi⟩⟩
    · simp only at h
      split at h
      · cases h
      · rename_i info hinfo
        obtain ⟨l1, hfr, hperm⟩ := remove_candidate_spec p _ info hinfo
        rw [hfr] at h
        have hkeep : ∀ x ∈ p.candidates, x = info ∨ x ∈ l1 :=
          fun x hx => List.mem_cons.mp (hperm.mem_iff.mp hx)
        have hnd2 : p.candidates.Nodup → l1.Nodup ∧ info ∉ l1 := by
          intro hnd
          have := (hperm.nodup_iff).mp hnd
          exact ⟨(List.nodup_cons.mp this).2, (List.nodup_cons.mp this).1⟩
        split at h
        · rename_i hc
          split at h
          · rename_i hle
            cases h
            refine ⟨l1, rfl, ?_, ?_⟩
            · intro x hx
              rcases hkeep x hx with e | hin
              · exact Or.inr (Or.inr (by rw [e]))
              · exact Or.inl hin
            · intro hnd
              refine ⟨(hnd2 hnd).1, ?_⟩
              intro info' hi
              cases hi
              exact (hnd2 hnd).2
          · rename_i hgt
            obtain ⟨l, h1, h2, h3⟩ := ih _ _ r h
            refine ⟨l, h1, ?_, ?_⟩
            · intro x hx
              rcases hkeep x hx with e | hin
              · right; left
                rw [e]
                omega
              · exact h2 x hin
            · intro hnd
              exact h3 (hnd2 hnd).1
        · split at h
          · cases h
            refine ⟨l1, rfl, ?_, ?_⟩
            · intro x hx
              rcases hkeep x hx with e | hin
              · exact Or.inr (Or.inr (by rw [e]))
              · exact Or.inl hin
            · intro hnd
              refine ⟨(hnd2 hnd).1, ?_⟩
              intro info' hi
              cases hi
              exact (hnd2 hnd).2
          · exact ih _ _ r h

end Box
namespace Box

/-! ## Playouts are legal plays -/

/-- Legal plays can be chained. -/
theorem legal_play_trans (z : Zobrist) (p q r : Position) (a b : Nat)
    (h1 : LegalPlay z p a q) (h2 : LegalPlay z q b r) : LegalPlay z p (a + b) r := by
  induction h2 with
  | refl => exact h1
  | draw q2 r2 n index _ hd ih => exact LegalPlay.draw p q2 r2 (a + n) index ih hd
  | candidates q2 n l _ ih => exact LegalPlay.candidates p q2 (a + n) l ih
  | place q2 r2 n T _ hT hleg hd ih => exact LegalPlay.place p q2 r2 (a + n) T ih hT hleg hd

/-- One round of a playout: the placement drawn is played on the position,
then a tile is drawn. -/
theorem playout_round (z : Zobrist) (fuel : Nat) (pos pos1 pos2 pos3 : Position)
    (g g1 : FastRandom) (T : TileInfo) (index : Nat) (hp : pos.Inv z)
    (htile : ∃ t, pos.tile = some t) (hreg : ∀ T ∈ pos.candidates, T ∈ ALL_TILES_INFO)
    (h1 : pos.get_random_move fuel g = some (some T, pos1, g1))
    (h2 : pos1.do_move z T = some pos2) (h3 : pos2.play_chance_move z index = some pos3) :
    LegalPlay z pos 1 pos3 ∧ pos3.Inv z ∧ (∃ t, pos3.tile = some t) ∧
      (∀ T ∈ pos3.candidates, T ∈ ALL_TILES_INFO) ∧
      pos.filled_count + 8 ≤ pos3.filled_count ∧ pos3.filled_count ≤ TOTAL_DOTS := by
  obtain ⟨-, hsub, hleg, -⟩ := get_random_move_spec fuel g pos _ h1
  obtain ⟨hmem, hposs⟩ := hleg T rfl
  obtain ⟨l, hfr, -, -⟩ := get_random_move_frame fuel g pos _ h1
  have hfr : pos1 = { pos with candidates := l } := hfr
  have inv1 : pos1.Inv z := by rw [hfr]; exact inv_candidates z pos l hp
  have ht1 : ∃ t, pos1.tile = some t := by rw [hfr]; exact htile
  have hT := hreg T hmem
  obtain ⟨q, e, inv2, -, hc, ht2, hc2⟩ := do_move_count z pos1 T inv1 ht1 hT
  rw [e] at h2
  cases h2
  obtain ⟨inv3, hf3, hc3, ht3⟩ := chance_frame z index pos2 pos3 inv2 h3
  have hposs1 : pos1.possible_move T = true := by rw [hfr]; exact hposs
  have hov := possible_overlap pos1 T hposs1
  simp only [MAX_OVERLAPS] at hov
  have hcnt1 : pos1.filled_count = pos.filled_count := by rw [hfr]; rfl
  have hcnt3 : pos3.filled_count = pos2.filled_count := by
    unfold Position.filled_count
    rw [hf3]
  refine ⟨?_, inv3, ht3 (by rw [ht2]; exact ht1), ?_, by omega, filled_count_le z pos3 inv3⟩
  · have a1 : LegalPlay z pos 0 pos1 := by
      rw [hfr]
      exact LegalPlay.candidates pos pos 0 l (LegalPlay.refl pos)
    have a2 : LegalPlay z pos 1 pos2 := LegalPlay.place pos pos1 pos2 0 T a1 hT hposs1 e
    exact LegalPlay.draw pos pos2 pos3 1 index a2 h3
  · intro T' hT'
    rw [hc3, hc2] at hT'
    exact hreg T' (hsub T' hT')

/-- What a playout returns is reached from its start by a legal play of
fewer placements than its bound of rounds. -/
theorem playout_legal (z : Zobrist) (fuel : Nat) :
    ∀ (n : Nat) (pos : Position) (g : FastRandom) (q : Position) (g2 : FastRandom),
      pos.Inv z → (∃ t, pos.tile = some t) → (∀ T ∈ pos.candidates, T ∈ ALL_TILES_INFO) →
      Simulation.playout z fuel n pos g = some (q, g2) →
      ∃ m, LegalPlay z pos m q ∧ m < n := by
  intro n
  induction n with
  | zero =>
    intro pos g q g2 _ _ _ h
    unfold Simulation.playout at h
    cases h
  | succ n ih =>
    intro pos g q g2 hp htile hreg h
    unfold Simulation.playout at h
    cases h1 : pos.get_random_move fuel g with
    | none => rw [h1] at h; cases h
    | some r =>
      obtain ⟨o, pos1, g1⟩ := r
      rw [h1] at h
      cases o with
      | none =>
        simp only at h
        cases h
        obtain ⟨l, hfr, -⟩ := get_random_move_frame fuel g pos _ h1
        have hfr : q = { pos with candidates := l } := hfr
        rw [hfr]
        exact ⟨0, LegalPlay.candidates pos pos 0 l (LegalPlay.refl pos), Nat.succ_pos n⟩
      | some T =>
        simp only at h
        cases h2 : pos1.do_move z T with
        | none => rw [h2] at h; cases h
        | some pos2 =>
          rw [h2] at h
          simp only at h
          cases h3 : pos2.play_chance_move z
              (g1.less_than TILES_PERMUTATIONS_COUNT).1 with
          | none => rw [h3] at h; cases h
          | some pos3 =>
            rw [h3] at h
            simp only at h
            obtain ⟨a1, inv3, ht3, hreg3, -, -⟩ :=
              playout_round z fuel pos pos1 pos2 pos3 g g1 T _ hp htile hreg h1 h2 h3
            obtain ⟨m, hm, hlt⟩ := ih pos3 _ q g2 inv3 ht3 hreg3 h
            refine ⟨1 + m, legal_play_trans z pos pos3 q 1 m a1 hm, by omega⟩

/-- A playout never uses more rounds than one plus the number of placements
that the free dots allow: beyond that bound its result does not depend on the
bound. -/
theorem playout_stable (z : Zobrist) (fuel : Nat) :
    ∀ (n : Nat) (pos : Position) (g : FastRandom),
      pos.Inv z → (∃ t, pos.tile = some t) → (∀ T ∈ pos.candidates, T ∈ ALL_TILES_INFO) →
      (TOTAL_DOTS - pos.filled_count) / 8 < n → ∀ m, n ≤ m →
      Simulation.playout z fuel m pos g = Simulation.playout z fuel n pos g := by
  intro n
  induction n with
  | zero =>
    intro pos g _ _ _ h
    omega
  | succ n ih =>
    intro pos g hp htile hreg hn m hm
    obtain ⟨m', rfl⟩ : ∃ m', m = m' + 1 := ⟨m - 1, by omega⟩
    unfold Simulation.playout
    cases h1 : pos.get_random_move fuel g with
    | none => rfl
    | some r =>
      obtain ⟨o, pos1, g1⟩ := r
      cases o with
      | none => rfl
      | some T =>
        simp only
        cases h2 : pos1.do_move z T with
        | none => rfl
        | some pos2 =>
          simp only
          cases h3 : pos2.play_chance_move z
              (g1.less_than TILES_PERMUTATIONS_COUNT).1 with
          | none => rfl
          | some pos3 =>
            simp only
            obtain ⟨-, inv3, ht3, hreg3, hc1, hc2⟩ :=
              playout_round z fuel pos pos1 pos2 pos3 g g1 T _ hp htile hreg h1 h2 h3
            simp only [TOTAL_DOTS, ROWS, COLS] at hn hc2 ⊢
            exact ih pos3 _ inv3 ht3 hreg3 (by simp only [TOTAL_DOTS, ROWS, COLS]; omega) m'
              (by omega)

end Box
namespace Box

/-! ## Claim: games are bounded -/

/-- C31. For the position `p0` built by the constructor: it has 12 filled
dots; on any position that satisfies the invariant and holds a tile,
`do_move(T)` for a legal placement `T` of the registry is carried out and
raises the number of filled dots by at least 8 and at most 12, never above
`TOTAL_DOTS = 320`; no legal play from `p0` has more than 38 placements; and a
playout started after `k` placements of a legal play from `p0` plays legal
placements only, fewer than its bound of rounds and at most `38 - k` of them,
so that it never uses more than `39 - k` rounds. -/
theorem games_bounded (z : Zobrist) (s : List Nat) (p0 : Position)
    (h0 : Position.create z s = some p0) :
    p0.filled_count = 12 ∧
    (∀ (p : Position) (T : TileInfo), p.Inv z → (∃ t, p.tile = some t) →
      T ∈ ALL_TILES_INFO → p.possible_move T = true →
      ∃ q, p.do_move z T = some q ∧ p.filled_count + 8 ≤ q.filled_count ∧
        q.filled_count ≤ p.filled_count + 12 ∧ q.filled_count ≤ TOTAL_DOTS) ∧
    (∀ (n : Nat) (q : Position), LegalPlay z p0 n q → n ≤ 38) ∧
    (∀ (k : Nat) (p : Position) (fuel : Nat) (g : FastRandom), LegalPlay z p0 k p →
      (∀ T ∈ p.candidates, T ∈ ALL_TILES_INFO) →
      (∀ (n : Nat) (q : Position) (g2 : FastRandom),
        Simulation.playout z fuel n p g = some (q, g2) →
        ∃ m, LegalPlay z p m q ∧ m < n ∧ k + m ≤ 38) ∧
      ∀ n, 39 - k ≤ n →
        Simulation.playout z fuel n p g = Simulation.playout z fuel (39 - k) p g) := by
  obtain ⟨inv0, ht0, hc0, -⟩ := create_count z s p0 h0
  have hbound : ∀ (n : Nat) (q : Position), LegalPlay z p0 n q → n ≤ 38 := by
    intro n q h
    obtain ⟨inv, -, h1, -⟩ := legal_play_count z p0 inv0 ht0 n q h
    have h2 := filled_count_le z q inv
    simp only [TOTAL_DOTS, ROWS, COLS] at h2
    omega
  refine ⟨hc0, ?_, hbound, ?_⟩
  · intro p T hp htile hT hleg
    obtain ⟨q, e, inv, -, hc, -, -⟩ := do_move_count z p T hp htile hT
    have h1 := possible_overlap p T hleg
    simp only [MAX_OVERLAPS] at h1
    exact ⟨q, e, by omega, by omega, filled_count_le z q inv⟩
  · intro k p fuel g hk hreg
    obtain ⟨inv, ht, h1, -⟩ := legal_play_count z p0 inv0 ht0 k p hk
    refine ⟨?_, ?_⟩
    · intro n q g2 h
      obtain ⟨m, hm, hlt⟩ := playout_legal z fuel n p g q g2 inv ht hreg h
      exact ⟨m, hm, hlt, hbound (k + m) q (legal_play_trans z p0 p q k m hk hm)⟩
    · intro n hn
      have h2 := filled_count_le z p inv
      exact playout_stable z fuel (39 - k) p g inv ht hreg
        (by simp only [TOTAL_DOTS, ROWS, COLS] at h2 ⊢; omega) n hn

theorem games_bounded_witness :
    Position.create sample_keys (chars "Hh123456h") = some opening ∧
    opening.filled_count = 12 ∧
    (∀ (p : Position) (T : TileInfo), p.Inv sample_keys → (∃ t, p.tile = some t) →
      T ∈ ALL_TILES_INFO → p.possible_move T = true →
      ∃ q, p.do_move sample_keys T = some q ∧ p.filled_count + 8 ≤ q.filled_count ∧
        q.filled_count ≤ p.filled_count + 12 ∧ q.filled_count ≤ TOTAL_DOTS) ∧
    (∀ (n : Nat) (q : Position), LegalPlay sample_keys opening n q → n ≤ 38) ∧
    (∀ (k : Nat) (p : Position) (fuel : Nat) (g : FastRandom),
      LegalPlay sample_keys opening k p →
      (∀ T ∈ p.candidates, T ∈ ALL_TILES_INFO) →
      (∀ (n : Nat) (q : Position) (g2 : FastRandom),
        Simulation.playout sample_keys fuel n p g = some (q, g2) →
        ∃ m, LegalPlay sample_keys p m q ∧ m < n ∧ k + m ≤ 38) ∧
      ∀ n, 39 - k ≤ n →
        Simulation.playout sample_keys fuel n p g =
          Simulation.playout sample_keys fuel (39 - k) p g) :=
  ⟨opening_created, games_bounded sample_keys (chars "Hh123456h") opening opening_created⟩

end Box
namespace Box

/-! ## The rectangles of the registry -/

/-- The dots of a placement of the registry are the cells of a rectangle of 6
rows and 2 columns, or of 2 rows and 6 columns, inside the grid. -/
theorem registry_rect (T : TileInfo) (hT : T ∈ ALL_TILES_INFO) :
    ∃ r0 c0 h w, ((h = 6 ∧ w = 2) ∨ (h = 2 ∧ w = 6)) ∧ r0 + h ≤ 16 ∧ c0 + w ≤ 20 ∧
      ∀ d, d ∈ T.dots ↔ (r0 ≤ d / 20 ∧ d / 20 < r0 + h ∧ c0 ≤ d % 20 ∧ d % 20 < c0 + w) := by
  obtain ⟨-, hs⟩ := registry_shape T hT
  generalize T.dot / 20 = r at hs
  generalize T.dot % 20 = c at hs
  rcases hs with ⟨-, hr, hc, hsib⟩ | ⟨-, hr, hc, hsib⟩
  · refine ⟨r, c, 6, 2, Or.inl ⟨rfl, rfl⟩, by omega, by omega, ?_⟩
    intro d
    rw [mem_dots, hsib]
    simp only [List.mem_map, List.mem_range, TILE_DOTS, List.mem_cons, List.mem_singleton,
      List.not_mem_nil, or_false]
    constructor
    · rintro ⟨s, ⟨i, hi, rfl⟩, hd⟩
      dsimp only at hd
      omega
    · intro hd
      by_cases h1 : d % 20 = c + 1
      · refine ⟨_, ⟨d / 20 - r, by omega, rfl⟩, Or.inl ?_⟩
        dsimp only
        omega
      · refine ⟨_, ⟨5 - (d / 20 - r), by omega, rfl⟩, Or.inr ?_⟩
        dsimp only
        omega
  · refine ⟨r, c, 2, 6, Or.inr ⟨rfl, rfl⟩, by omega, by omega, ?_⟩
    intro d
    rw [mem_dots, hsib]
    simp only [List.mem_map, List.mem_range, TILE_DOTS, List.mem_cons, List.mem_singleton,
      List.not_mem_nil, or_false]
    constructor
    · rintro ⟨s, ⟨i, hi, rfl⟩, hd⟩
      dsimp only at hd
      omega
    · intro hd
      by_cases h1 : d / 20 = r
      · refine ⟨_, ⟨d % 20 - c, by omega, rfl⟩, Or.inl ?_⟩
        dsimp only
        omega
      · refine ⟨_, ⟨5 - (d % 20 - c), by omega, rfl⟩, Or.inr ?_⟩
        dsimp only
        omega

/-- Every rectangle of 6 rows and 2 columns, or of 2 rows and 6 columns, inside
the grid is covered by a placement of the registry. -/
theorem rect_in_registry (r0 c0 h w : Nat) (hs : (h = 6 ∧ w = 2) ∨ (h = 2 ∧ w = 6))
    (hr : r0 + h ≤ 16) (hc : c0 + w ≤ 20) :
    ∃ T ∈ ALL_TILES_INFO,
      ∀ d, d ∈ T.dots ↔ (r0 ≤ d / 20 ∧ d / 20 < r0 + h ∧ c0 ≤ d % 20 ∧ d % 20 < c0 + w) := by
  rcases hs with ⟨rfl, rfl⟩ | ⟨rfl, rfl⟩
  · obtain ⟨T, hget, -, hv, -⟩ := registry_entry (r0 * 19 + c0)
      (by simp only [ALL_TILES_COUNT]; omega)
    obtain ⟨ho, hdot⟩ := hv (by omega)
    have hT : T ∈ ALL_TILES_INFO := List.getElem?_mem hget
    have hdot2 : T.dot = r0 * 20 + c0 := by rw [hdot]; omega
    obtain ⟨-, hsh⟩ := registry_shape T hT
    refine ⟨T, hT, ?_⟩
    rcases hsh with ⟨-, -, -, hsib⟩ | ⟨ho2, -⟩
    · have e1 : T.dot / 20 = r0 := by omega
      have e2 : T.dot % 20 = c0 := by omega
      rw [e1, e2] at hsib
      intro d
      rw [mem_dots, hsib]
      simp only [List.mem_map, List.mem_range, TILE_DOTS, List.mem_cons, List.mem_singleton,
        List.not_mem_nil, or_false]
      constructor
      · rintro ⟨s, ⟨i, hi, rfl⟩, hd⟩
        dsimp only at hd
        omega
      · intro hd
        by_cases h1 : d % 20 = c0 + 1
        · refine ⟨_, ⟨d / 20 - r0, by omega, rfl⟩, Or.inl ?_⟩
          dsimp only
          omega
        · refine ⟨_, ⟨5 - (d / 20 - r0), by omega, rfl⟩, Or.inr ?_⟩
          dsimp only
          omega
    · rw [ho] at ho2
      exact absurd ho2 (by decide)
  · obtain ⟨T, hget, -, -, hv⟩ := registry_entry (209 + (r0 * 15 + c0))
      (by simp only [ALL_TILES_COUNT]; omega)
    obtain ⟨ho, hdot⟩ := hv (by omega)
    have hT : T ∈ ALL_TILES_INFO := List.getElem?_mem hget
    have hdot2 : T.dot = r0 * 20 + c0 := by rw [hdot]; omega
    obtain ⟨-, hsh⟩ := registry_shape T hT
    refine ⟨T, hT, ?_⟩
    rcases hsh with ⟨ho2, -⟩ | ⟨-, -, -, hsib⟩
    · rw [ho] at ho2
      exact absurd ho2 (by decide)
    · have e1 : T.dot / 20 = r0 := by omega
      have e2 : T.dot % 20 = c0 := by omega
      rw [e1, e2] at hsib
      intro d
      rw [mem_dots, hsib]
      simp only [List.mem_map, List.mem_range, TILE_DOTS, List.mem_cons, List.mem_singleton,
        List.not_mem_nil, or_false]
      constructor
      · rintro ⟨s, ⟨i, hi, rfl⟩, hd⟩
        dsimp only at hd
        omega
      · intro hd
        by_cases h1 : d / 20 = r0
        · refine ⟨_, ⟨d % 20 - c0, by omega, rfl⟩, Or.inl ?_⟩
          dsimp only
          omega
        · refine ⟨_, ⟨5 - (d % 20 - c0), by omega, rfl⟩, Or.inr ?_⟩
          dsimp only
          omega

/-- Sliding a rectangle towards a marked dot: if a rectangle of the grid has
no marked cell, then a rectangle of the same shape has no marked cell and has a
cell orthogonally adjacent to a marked dot. -/
theorem slide_rect (F : Nat → Prop) (h w : Nat) (hh : 0 < h) (hw : 0 < w) (f : Nat)
    (hf : f < 320) (hF : F f) :
    ∀ (n r0 c0 : Nat), r0 + h ≤ 16 → c0 + w ≤ 20 →
      (∀ d, r0 ≤ d / 20 → d / 20 < r0 + h → c0 ≤ d % 20 → d % 20 < c0 + w → ¬ F d) →
      (c0 - f % 20) + (f % 20 + 1 - (c0 + w)) + (r0 - f / 20) + (f / 20 + 1 - (r0 + h)) ≤ n →
      ∃ r1 c1, r1 + h ≤ 16 ∧ c1 + w ≤ 20 ∧
        (∀ d, r1 ≤ d / 20 → d / 20 < r1 + h → c1 ≤ d % 20 → d % 20 < c1 + w → ¬ F d) ∧
        ∃ d e, (r1 ≤ d / 20 ∧ d / 20 < r1 + h ∧ c1 ≤ d % 20 ∧ d % 20 < c1 + w) ∧ F e ∧
          adjacent e d := by
  intro n
  induction n with
  | zero =>
    intro r0 c0 hr hc hno hdist
    exact absurd hF (hno f (by omega) (by omega) (by omega) (by omega))
  | succ n ih =>
    intro r0 c0 hr hc hno hdist
    by_cases hadj : ∃ d e, (r0 ≤ d / 20 ∧ d / 20 < r0 + h ∧ c0 ≤ d % 20 ∧ d % 20 < c0 + w) ∧
        F e ∧ adjacent e d
    · exact ⟨r0, c0, hr, hc, hno, hadj⟩
    · have hfree : ∀ d e, r0 ≤ d / 20 → d / 20 < r0 + h → c0 ≤ d % 20 → d % 20 < c0 + w →
          adjacent e d → ¬ F e :=
        fun d e h1 h2 h3 h4 ha hFe => hadj ⟨d, e, ⟨h1, h2, h3, h4⟩, hFe, ha⟩
      have hin : ¬ (r0 ≤ f / 20 ∧ f / 20 < r0 + h ∧ c0 ≤ f % 20 ∧ f % 20 < c0 + w) :=
        fun hh => hno f hh.1 hh.2.1 hh.2.2.1 hh.2.2.2 hF
      by_cases hc1 : f % 20 < c0
      · apply ih r0 (c0 - 1) hr (by omega)
        · intro d h1 h2 h3 h4
          by_cases hold : c0 ≤ d % 20
          · exact hno d h1 h2 hold (by omega)
          · apply hfree (d + 1) d (by omega) (by omega) (by omega) (by omega)
            unfold adjacent
            simp only [TOTAL_DOTS, ROWS, COLS]
            omega
        · omega
      · by_cases hc2 : c0 + w ≤ f % 20
        · apply ih r0 (c0 + 1) hr (by omega)
          · intro d h1 h2 h3 h4
            by_cases hold : d % 20 < c0 + w
            · exact hno d h1 h2 (by omega) hold
            · apply hfree (d - 1) d (by omega) (by omega) (by omega) (by omega)
              unfold adjacent
              simp only [TOTAL_DOTS, ROWS, COLS]
              omega
          · omega
        · by_cases hr1 : f / 20 < r0
          · apply ih (r0 - 1) c0 (by omega) hc
            · intro d h1 h2 h3 h4
              by_cases hold : r0 ≤ d / 20
              · exact hno d hold (by omega) h3 h4
              · apply hfree (d + 20) d (by omega) (by omega) (by omega) (by omega)
                unfold adjacent
                simp only [TOTAL_DOTS, ROWS, COLS]
                omega
            · omega
          · have hr2 : r0 + h ≤ f / 20 := by omega
            apply ih (r0 + 1) c0 (by omega) hc
            · intro d h1 h2 h3 h4
              by_cases hold : d / 20 < r0 + h
              · exact hno d (by omega) hold h3 h4
              · apply hfree (d - 20) d (by omega) (by omega) (by omega) (by omega)
                unfold adjacent
                simp only [TOTAL_DOTS, ROWS, COLS]
                omega
            · omega

end Box
namespace Box

/-! ## Claim: a free placement can be slid next to a filled dot -/

/-- A placement of the registry covers no filled dot exactly when its overlap
count is zero. -/
theorem count_zero_iff (T : TileInfo) (hT : T ∈ ALL_TILES_INFO) (filled : Bitboard) :
    T.count_matches filled = 0 ↔ ∀ d ∈ T.dots, ¬ filled.test d = true := by
  rw [count_matches_eq_dots T (registry_wf T hT), List.length_eq_zero, List.filter_eq_nil_iff]

/-- Orthogonal adjacency is symmetric. -/
theorem adjacent_symm (d e : Nat) (h : adjacent d e) : adjacent e d := by
  unfold adjacent at h ⊢
  simp only [TOTAL_DOTS, ROWS, COLS] at h ⊢
  omega

/-- If a placement of the registry covers no filled dot of a board on which
some dot of the grid is filled, then a placement of the registry covers no
filled dot and has a filled neighbor. -/
theorem free_placement_slides (filled : Bitboard) (f : Nat) (hf : f < TOTAL_DOTS)
    (hfill : filled.test f = true) (T : TileInfo) (hT : T ∈ ALL_TILES_INFO)
    (h0 : T.count_matches filled = 0) :
    ∃ T2 ∈ ALL_TILES_INFO, T2.count_matches filled = 0 ∧ T2.neighbour_to filled = true := by
  obtain ⟨r0, c0, h, w, hs, hr, hc, hdots⟩ := registry_rect T hT
  have hh : 0 < h := by rcases hs with ⟨e, -⟩ | ⟨e, -⟩ <;> omega
  have hw : 0 < w := by rcases hs with ⟨-, e⟩ | ⟨-, e⟩ <;> omega
  have hno : ∀ d, r0 ≤ d / 20 → d / 20 < r0 + h → c0 ≤ d % 20 → d % 20 < c0 + w →
      ¬ filled.test d = true :=
    fun d h1 h2 h3 h4 => (count_zero_iff T hT filled).mp h0 d ((hdots d).mpr ⟨h1, h2, h3, h4⟩)
  obtain ⟨r1, c1, hr1, hc1, hno1, d, e, hd, hFe, hadj⟩ :=
    slide_rect (fun d => filled.test d = true) h w hh hw f hf hfill _ r0 c0 hr hc hno
      (Nat.le_refl _)
  obtain ⟨T2, hT2, hdots2⟩ := rect_in_registry r1 c1 h w hs hr1 hc1
  have hw2 := registry_wf T2 hT2
  refine ⟨T2, hT2, ?_, ?_⟩
  · rw [count_zero_iff T2 hT2 filled]
    intro x hx
    obtain ⟨h1, h2, h3, h4⟩ := (hdots2 x).mp hx
    exact hno1 x h1 h2 h3 h4
  · unfold TileInfo.neighbour_to
    rw [Bitboard.any_matches_iff]
    refine ⟨e, ?_, hFe⟩
    have he : e < Bitboard.WIDTH := by
      have := hadj.1
      simp only [TOTAL_DOTS, ROWS, COLS, Bitboard.WIDTH] at this ⊢
      omega
    rw [registry_neighbors T2 hT2 e he]
    constructor
    · cases hte : T2.bitboard.test e with
      | false => rfl
      | true =>
        exfalso
        obtain ⟨h1, h2, h3, h4⟩ := (hdots2 e).mp ((hw2.covered e).mp hte)
        exact hno1 e h1 h2 h3 h4 hFe
    · exact ⟨d, (hw2.covered d).mpr ((hdots2 d).mpr hd), hadj⟩

/-- Where every candidate is over-full, every draw of `get_random_move()`
removes the candidate drawn, and the call returns the null pointer after as
many draws as there are candidates. -/
theorem random_move_drains :
    ∀ (fuel : Nat) (g : FastRandom) (p : Position),
      (∀ T ∈ p.candidates, MAX_OVERLAPS < T.count_matches p.filled) →
      p.candidates.length ≤ fuel →
      ∃ q g2, p.get_random_move fuel g = some (none, q, g2) ∧ q.candidates = [] := by
  intro fuel
  induction fuel with
  | zero =>
    intro g p _ hlen
    have he : p.candidates = [] := List.length_eq_zero.mp (Nat.le_zero.mp hlen)
    refine ⟨p, g, ?_, he⟩
    unfold Position.get_random_move
    rw [he]
    rfl
  | succ n ih =>
    intro g p hall hlen
    by_cases he : p.candidates = []
    · refine ⟨p, g, ?_, he⟩
      unfold Position.get_random_move
      rw [he]
      rfl
    · have hpos : 0 < p.candidates.length := List.length_pos.mpr he
      have hlt := less_than_lt g p.candidates.length hpos
      have hget : p.candidates[(g.less_than p.candidates.length).1]? =
          some (p.candidates[(g.less_than p.candidates.length).1]) :=
        List.getElem?_eq_getElem hlt
      obtain ⟨l, hfr, hperm⟩ := remove_candidate_spec p _ _ hget
      have hov := hall _ (List.getElem_mem hlt)
      simp only [MAX_OVERLAPS] at hov
      have hlenl : l.length ≤ n := by
        have := hperm.length_eq
        rw [List.length_cons] at this
        omega
      obtain ⟨q, g2, e, hq⟩ := ih (g.less_than p.candidates.length).2
        { p with candidates := l }
        (fun T hT => hall T (hperm.mem_iff.mpr (List.mem_cons_of_mem _ hT))) hlenl
      refine ⟨q, g2, ?_, hq⟩
      unfold Position.get_random_move
      have hne : p.candidates.isEmpty = false := by
        cases hc : p.candidates with
        | nil => exact absurd hc he
        | cons a b => rfl
      rw [hne]
      simp only [Bool.false_eq_true, if_false, hget]
      rw [if_pos (by omega), if_neg (by simp only [MAX_OVERLAPS]; omega), hfr]
      exact e

/-- C32. On a board on which some dot of the grid is filled: if a placement of
the registry covers no filled dot, then a placement of the registry covers no
filled dot and has a filled neighbor, so that it is legal; hence, where no
placement of the registry is legal, every placement of the registry covers
more than `MAX_OVERLAPS` filled dots, and `get_random_move()`, on candidates
taken from the registry, returns the null pointer and leaves an empty list
within as many draws as there are candidates. -/
theorem random_move_ends (p : Position) (f : Nat) (hf : f < TOTAL_DOTS)
    (hfill : p.filled.test f = true) (hreg : ∀ T ∈ p.candidates, T ∈ ALL_TILES_INFO) :
    ((∃ T ∈ ALL_TILES_INFO, T.count_matches p.filled = 0) →
      ∃ T ∈ ALL_TILES_INFO, T.count_matches p.filled = 0 ∧ T.neighbour_to p.filled = true ∧
        p.possible_move T = true) ∧
    ((∀ T ∈ ALL_TILES_INFO, p.possible_move T = false) →
      (∀ T ∈ ALL_TILES_INFO, MAX_OVERLAPS < T.count_matches p.filled) ∧
      ∀ (fuel : Nat) (g : FastRandom), p.candidates.length ≤ fuel →
        ∃ q g2, p.get_random_move fuel g = some (none, q, g2) ∧ q.candidates = []) := by
  have hslide : (∃ T ∈ ALL_TILES_INFO, T.count_matches p.filled = 0) →
      ∃ T ∈ ALL_TILES_INFO, T.count_matches p.filled = 0 ∧ T.neighbour_to p.filled = true ∧
        p.possible_move T = true := by
    rintro ⟨T, hT, h0⟩
    obtain ⟨T2, hT2, h1, h2⟩ := free_placement_slides p.filled f hf hfill T hT h0
    refine ⟨T2, hT2, h1, h2, ?_⟩
    unfold Position.possible_move
    simp only
    rw [h1, if_neg (by decide)]
    exact h2
  refine ⟨hslide, ?_⟩
  intro hnone
  have hall : ∀ T ∈ ALL_TILES_INFO, MAX_OVERLAPS < T.count_matches p.filled := by
    intro T hT
    by_contra hle
    have hle : T.count_matches p.filled ≤ MAX_OVERLAPS := by omega
    by_cases h0 : T.count_matches p.filled = 0
    · obtain ⟨T2, hT2, -, -, hleg⟩ := hslide ⟨T, hT, h0⟩
      rw [hnone T2 hT2] at hleg
      cases hleg
    · have hleg : p.possible_move T = true := by
        unfold Position.possible_move
        simp only
        rw [if_pos h0]
        exact decide_eq_true hle
      rw [hnone T hT] at hleg
      cases hleg
  exact ⟨hall, fun fuel g hlen =>
    random_move_drains fuel g p (fun T hT => hall T (hreg T hT)) hlen⟩

theorem finished_dot_filled : finished.filled.test 0 = true := by
  unfold Bitboard.test
  rw [finished_filled]
  decide

theorem random_move_ends_witness :
    ((0 < TOTAL_DOTS ∧ finished.filled.test 0 = true) ∧
      ∀ T ∈ finished.candidates, T ∈ ALL_TILES_INFO) ∧
    ((∃ T ∈ ALL_TILES_INFO, T.count_matches finished.filled = 0) →
      ∃ T ∈ ALL_TILES_INFO, T.count_matches finished.filled = 0 ∧
        T.neighbour_to finished.filled = true ∧ finished.possible_move T = true) ∧
    ((∀ T ∈ ALL_TILES_INFO, finished.possible_move T = false) →
      (∀ T ∈ ALL_TILES_INFO, MAX_OVERLAPS < T.count_matches finished.filled) ∧
      ∀ (fuel : Nat) (g : FastRandom), finished.candidates.length ≤ fuel →
        ∃ q g2, finished.get_random_move fuel g = some (none, q, g2) ∧ q.candidates = []) :=
  ⟨⟨⟨by decide, finished_dot_filled⟩, fun T hT => by rw [finished_candidates] at hT; exact hT⟩,
    random_move_ends finished 0 (by decide) finished_dot_filled
      (fun T hT => by rw [finished_candidates] at hT; exact hT)⟩

end Box
namespace Box

/-! ## Pruning the candidate list -/

/-- The loop of `update_condidates()` is the loop of `get_possible_tiles()`
that collects nothing. -/
theorem update_loop_eq (filled : Bitboard) :
    ∀ (fuel : Nat) (cands : List TileInfo) (i len : Nat),
      Position.update_condidates_loop filled fuel cands i len =
        (Position.possible_tiles_loop filled (fun (r : Unit) _ => r) fuel cands i len ()).map
          (fun r => (r.1, r.2.1)) := by
  intro fuel
  induction fuel with
  | zero =>
    intro cands i len
    unfold Position.update_condidates_loop Position.possible_tiles_loop
    by_cases h : i < len
    · rw [if_pos h, if_pos h]; rfl
    · rw [if_neg h, if_neg h]; rfl
  | succ n ih =>
    intro cands i len
    unfold Position.update_condidates_loop Position.possible_tiles_loop
    by_cases h : i < len
    · rw [if_pos h, if_pos h]
      cases hi : cands[i]? with
      | none => rfl
      | some T =>
        simp only
        by_cases hc : T.count_matches filled > MAX_OVERLAPS
        · have h0 : T.count_matches filled ≠ 0 := by
            simp only [MAX_OVERLAPS] at hc
            omega
          have h4 : ¬ T.count_matches filled ≤ MAX_OVERLAPS := by omega
          rw [if_pos hc, if_pos h0, if_neg h4]
          cases hl : cands[len - 1]? with
          | none => rfl
          | some last =>
            simp only
            exact ih _ _ _
        · have h4 : T.count_matches filled ≤ MAX_OVERLAPS := by omega
          rw [if_neg hc]
          by_cases h0 : T.count_matches filled ≠ 0
          · rw [if_pos h0, if_pos h4]
            exact ih _ _ _
          · rw [if_neg h0]
            by_cases hnb : T.neighbour_to filled = true
            · rw [if_pos hnb]
              exact ih _ _ _
            · rw [if_neg hnb]
              exact ih _ _ _
    · rw [if_neg h, if_neg h]; rfl

/-- The loop shared by `get_possible_tiles_set()` and `get_possible_tiles()`,
run on a list without duplicates: it ends and keeps exactly the candidates
that are not over-full. -/
theorem pruning_loop_spec {β : Type} (p : Position) (push : β → TileInfo → β) (init : β)
    (hnd : p.candidates.Nodup) :
    ∃ cands len res,
      Position.possible_tiles_loop p.filled push p.candidates.length p.candidates 0
        p.candidates.length init = some (cands, len, res) ∧
      (∀ T, T ∈ cands.take len ↔
        T ∈ p.candidates ∧ T.count_matches p.filled ≤ MAX_OVERLAPS) ∧
      (cands.take len).Nodup := by
  obtain ⟨cands, len, e, hlen, hN, hS, hC, hP⟩ :=
    possible_tiles_loop_spec p push p.candidates
      init p.candidates.length p.candidates 0 p.candidates.length init
      (by omega) (Nat.zero_le _) (Nat.le_refl _)
      (fun j k hj hk hjk => by
        by_contra hne
        rcases Nat.lt_or_gt_of_ne hne with h | h
        · exact (List.nodup_iff_getElem?_ne_getElem?.mp hnd) j k h hk hjk
        · exact (List.nodup_iff_getElem?_ne_getElem?.mp hnd) k j h hj hjk.symm)
      (fun j hj => ⟨p.candidates[j], List.getElem?_eq_getElem hj, List.getElem_mem hj⟩)
      (fun T hT => by
        obtain ⟨j, hj, hjT⟩ := List.mem_iff_getElem.mp hT
        exact Or.inl ⟨j, hj, by rw [List.getElem?_eq_getElem hj, hjT]⟩)
      (fun j hj => absurd hj (Nat.not_lt_zero _))
      rfl
  refine ⟨cands, len, _, e, ?_, nodup_take_of_inj cands len hlen hN⟩
  intro T
  rw [mem_take_iff cands len]
  constructor
  · rintro ⟨j, hj, hjT⟩
    obtain ⟨T1, h1, h1o⟩ := hS j hj
    obtain ⟨T2, h2, h2c⟩ := hP j hj
    rw [hjT] at h1 h2
    rw [← Option.some.inj h1] at h1o
    rw [← Option.some.inj h2] at h2c
    exact ⟨h1o, h2c⟩
  · rintro ⟨hT, hc⟩
    rcases hC T hT with h | h
    · exact h
    · omega

/-- The method `update_condidates()` on a list without duplicates: it returns
and leaves the position with the candidates that are not over-full. -/
theorem update_condidates_spec (p : Position) (hnd : p.candidates.Nodup) :
    ∃ l, p.update_condidates = some { p with candidates := l } ∧
      (∀ T, T ∈ l ↔ T ∈ p.candidates ∧ T.count_matches p.filled ≤ MAX_OVERLAPS) ∧
      l.Nodup := by
  obtain ⟨cands, len, res, e, h1, h2⟩ := pruning_loop_spec p (fun (r : Unit) _ => r) () hnd
  refine ⟨cands.take len, ?_, h1, h2⟩
  unfold Position.update_condidates
  rw [update_loop_eq, e]
  rfl

/-- The method `get_possible_tiles()` on a list without duplicates: it returns
and leaves the position with the candidates that are not over-full. -/
theorem get_possible_tiles_spec (p : Position) (hnd : p.candidates.Nodup) :
    ∃ res l, p.get_possible_tiles = some (res, { p with candidates := l }) ∧
      (∀ T, T ∈ l ↔ T ∈ p.candidates ∧ T.count_matches p.filled ≤ MAX_OVERLAPS) ∧
      l.Nodup := by
  obtain ⟨cands, len, res, e, h1, h2⟩ :=
    pruning_loop_spec p (fun (res : List TileInfo) t => res ++ [t]) [] hnd
  refine ⟨res, cands.take len, ?_, h1, h2⟩
  unfold Position.get_possible_tiles
  rw [e]
  rfl

/-- The same for `get_possible_tiles_set()`. -/
theorem get_possible_tiles_set_prunes (p : Position) (hnd : p.candidates.Nodup) :
    ∃ res l, p.get_possible_tiles_set = some (res, { p with candidates := l }) ∧
      (∀ T, T ∈ l ↔ T ∈ p.candidates ∧ T.count_matches p.filled ≤ MAX_OVERLAPS) ∧
      l.Nodup := by
  obtain ⟨cands, len, res, e, h1, h2⟩ :=
    pruning_loop_spec p (fun (res : TileSet) t => TileSet.set res t.code) TileSet.empty hnd
  refine ⟨res, cands.take len, ?_, h1, h2⟩
  unfold Position.get_possible_tiles_set
  rw [e]
  rfl

/-- Pruning the over-full candidates keeps a candidate list complete. -/
theorem complete_pruned (p : Position) (l : List TileInfo) (hc : p.Complete)
    (hl : ∀ T, T ∈ l ↔ T ∈ p.candidates ∧ T.count_matches p.filled ≤ MAX_OVERLAPS)
    (hnd : l.Nodup) : ({ p with candidates := l } : Position).Complete :=
  ⟨hnd, fun T hT => hc.2.1 T ((hl T).mp hT).1,
    fun T hT hov => (hl T).mpr ⟨hc.2.2 T hT hov, hov⟩⟩

/-- A complete candidate list holds every legal placement of the registry. -/
theorem complete_legal (p : Position) (hc : p.Complete) (T : TileInfo)
    (hT : T ∈ ALL_TILES_INFO) (hleg : p.possible_move T = true) : T ∈ p.candidates :=
  hc.2.2 T hT (possible_overlap p T hleg)

/-- A round of a playout keeps the candidate list complete: the placement
returned is taken out of the list, and once played it is over-full. -/
theorem complete_round (z : Zobrist) (q q1 q2 : Position) (fuel : Nat) (g g1 : FastRandom)
    (T : TileInfo) (hq : q.Inv z) (hc : q.Complete)
    (h1 : q.get_random_move fuel g = some (some T, q1, g1))
    (h2 : q1.do_move z T = some q2) :
    q2.Inv z ∧ q2.Complete ∧ T ∈ q.candidates ∧ T ∉ q1.candidates ∧
      q.possible_move T = true ∧ q2.possible_move T = false := by
  obtain ⟨-, hsub, hleg, -⟩ := get_random_move_spec fuel g q _ h1
  obtain ⟨hmem, hposs⟩ := hleg T rfl
  obtain ⟨l, hfr, hkeep, hnd⟩ := get_random_move_frame fuel g q _ h1
  have hfr : q1 = { q with candidates := l } := hfr
  obtain ⟨hndl, hTl⟩ := hnd hc.1
  have hTl : T ∉ l := hTl T rfl
  have inv1 : q1.Inv z := by rw [hfr]; exact inv_candidates z q l hq
  have hT := hc.2.1 T hmem
  have hw := registry_wf T hT
  obtain ⟨inv2, hf2⟩ := do_move_inv z T q1 q2 inv1 (Or.inl hw) h2
  have hc2 := do_move_candidates z T q1 q2 h2
  have hf1 : q1.filled = q.filled := by rw [hfr]
  have hc1 : q1.candidates = l := by rw [hfr]
  have hfull : T.count_matches q2.filled = 12 := by
    rw [count_matches_eq_dots T hw, ← dots_length T hw]
    congr 1
    apply List.filter_eq_self.mpr
    intro d hd
    exact (hf2 d).mpr (Or.inr hd)
  refine ⟨inv2, ⟨?_, ?_, ?_⟩, hmem, by rw [hc1]; exact hTl, hposs, ?_⟩
  · rw [hc2, hc1]
    exact hndl
  · intro X hX
    rw [hc2, hc1] at hX
    have : X ∈ q1.candidates := by rw [hc1]; exact hX
    exact hc.2.1 X (hsub X this)
  · intro X hX hov
    rw [hc2, hc1]
    have hmono : X.count_matches q.filled ≤ X.count_matches q2.filled :=
      count_matches_mono X q.filled q2.filled
        (fun x hx => (hf2 x).mpr (Or.inl (by rw [hf1]; exact hx)))
    rcases hkeep X (hc.2.2 X hX (le_trans hmono hov)) with k | k | k
    · exact k
    · omega
    · have e : X = T := (Option.some.inj k).symm
      rw [e, hfull] at hov
      simp only [MAX_OVERLAPS] at hov
      omega
  · unfold Position.possible_move
    simp only
    rw [hfull, if_pos (by decide)]
    decide

end Box
namespace Box

/-! ## The placement above the opening tile -/

theorem opening_inv : opening.Inv sample_keys :=
  reachable_inv sample_keys opening opening_reachable

/-- The filled dots of the opening position are those of the opening tile. -/
theorem opening_filled_iff (x : Nat) : opening.filled.test x = true ↔ x ∈ center_tile.dots := by
  have h0 : chars "123456" ∈ TILES_PERMUTATIONS := tiles_complete _ (List.Perm.refl _)
  obtain ⟨o, eo, -, -, -, hfo, -⟩ := create_spec sample_keys (chars "123456") h0
  have hs : chars "Hh" ++ chars "123456" ++ chars "h" = chars "Hh123456h" := by decide
  rw [hs, opening_created] at eo
  have e : opening = o := Option.some.inj eo
  rw [e]
  exact hfo x

/-- The placement just above the opening tile covers no filled dot of the
opening position. -/
theorem white_tile_free : white_tile.count_matches opening.filled = 0 := by
  have hm : white_tile ∈ ALL_TILES_INFO := registry_getD_mem 291 (by decide)
  rw [count_zero_iff white_tile hm]
  intro d hd hfd
  exact (opening_inv.filled_iff d).mp hfd (white_tile_clear d hd)

/-- The placement just above the opening tile is legal in the opening
position. -/
theorem white_tile_legal : opening.possible_move white_tile = true := by
  have hm : white_tile ∈ ALL_TILES_INFO := registry_getD_mem 291 (by decide)
  have hw := registry_wf white_tile hm
  have h0 := white_tile_free
  unfold Position.possible_move
  simp only
  rw [h0, if_neg (by decide)]
  unfold TileInfo.neighbour_to
  rw [Bitboard.any_matches_iff]
  refine ⟨147, ?_, ?_⟩
  · rw [registry_neighbors white_tile hm 147 (by decide)]
    constructor
    · cases hc : white_tile.bitboard.test 147 with
      | false => rfl
      | true =>
        exfalso
        have := (hw.covered 147).mp hc
        rw [white_tile_dots] at this
        revert this
        decide
    · refine ⟨127, (hw.covered 127).mpr ?_, by decide⟩
      rw [white_tile_dots]
      decide
  · rw [opening_filled_iff, center_dots]
    decide


/-- One draw of `get_random_move()` that meets a candidate with no filled dot
and a filled neighbor: the candidate is removed and returned. -/
theorem random_move_step (fuel : Nat) (g : FastRandom) (p : Position) (info : TileInfo)
    (hget : p.candidates[(g.less_than p.candidates.length).1]? = some info)
    (h0 : info.count_matches p.filled = 0) (hnb : info.neighbour_to p.filled = true) :
    p.get_random_move (fuel + 1) g =
      some (some info, p.remove_candidate (g.less_than p.candidates.length).1,
        (g.less_than p.candidates.length).2) := by
  have hne : p.candidates.isEmpty = false := by
    cases hc : p.candidates with
    | nil => rw [hc] at hget; cases hget
    | cons a b => rfl
  unfold Position.get_random_move
  rw [hne]
  simp only [Bool.false_eq_true, if_false, hget]
  rw [h0, if_neg (by decide), if_pos hnb]

/-- The draw of `get_random_move()` on the opening position when the generator
holds the seed 11: the index 291 is drawn, and the placement just above the
opening tile is returned. -/
theorem opening_draw :
    opening.get_random_move 1 ⟨11⟩ =
      some (some white_tile, opening.remove_candidate 291, ⟨2974059⟩) := by
  have hcand : opening.candidates = ALL_TILES_INFO :=
    (create_count sample_keys _ opening opening_created).2.2.2
  have hlen : opening.candidates.length = 434 := by rw [hcand, registry_length]
  have hr : (FastRandom.less_than ⟨11⟩ 434) = (291, ⟨2974059⟩) := by decide
  have hget : opening.candidates[291]? = some white_tile := by
    rw [hcand]
    exact registry_getD 291 (by decide)
  have hleg := white_tile_legal
  unfold Position.possible_move at hleg
  simp only at hleg
  rw [white_tile_free, if_neg (by decide)] at hleg
  have h := random_move_step 0 ⟨11⟩ opening white_tile
    (by rw [hlen, hr]; exact hget) white_tile_free hleg
  rw [hlen, hr] at h
  exact h

end Box
namespace Box

/-! ## Claim: the candidate list stays complete -/

/-- The registry has no duplicates. -/
theorem registry_nodup : ALL_TILES_INFO.Nodup := by
  rw [List.nodup_iff_getElem?_ne_getElem?]
  intro i j hij hj he
  have hT : ALL_TILES_INFO[j]? = some ALL_TILES_INFO[j] := List.getElem?_eq_getElem hj
  have h1 := registry_code j _ hT
  rw [← he] at hT
  have h2 := registry_code i _ hT
  omega

/-- The candidate list of the constructor, the whole registry, is complete. -/
theorem complete_of_registry (p : Position) (h : p.candidates = ALL_TILES_INFO) :
    p.Complete := by
  unfold Position.Complete
  rw [h]
  exact ⟨registry_nodup, fun T hT => hT, fun T hT _ => hT⟩

/-- The operations of a playout keep the invariant and a complete candidate
list. -/
theorem playout_ops_complete (z : Zobrist) (p q : Position) (hp : p.Inv z)
    (hc : p.Complete) (h : PlayoutOps z p q) : q.Inv z ∧ q.Complete := by
  induction h with
  | refl => exact ⟨hp, hc⟩
  | round q q1 q2 fuel g g1 T _ h1 h2 ih =>
    obtain ⟨inv2, hc2, -⟩ := complete_round z q q1 q2 fuel g g1 T ih.1 ih.2 h1 h2
    exact ⟨inv2, hc2⟩
  | draw q r index _ hd ih =>
    obtain ⟨inv, hf, hcand, -⟩ := chance_frame z index q r ih.1 hd
    refine ⟨inv, ?_⟩
    unfold Position.Complete
    rw [hcand, hf]
    exact ih.2
  | prune q r _ hu ih =>
    obtain ⟨l, e, hl, hnd⟩ := update_condidates_spec q ih.2.1
    rw [e] at hu
    cases hu
    exact ⟨inv_candidates z q l ih.1, complete_pruned q l ih.2 hl hnd⟩
  | tiles_set q r s _ hu ih =>
    obtain ⟨res, l, e, hl, hnd⟩ := get_possible_tiles_set_prunes q ih.2.1
    rw [e] at hu
    cases hu
    exact ⟨inv_candidates z q l ih.1, complete_pruned q l ih.2 hl hnd⟩
  | tiles q r res0 _ hu ih =>
    obtain ⟨res, l, e, hl, hnd⟩ := get_possible_tiles_spec q ih.2.1
    rw [e] at hu
    cases hu
    exact ⟨inv_candidates z q l ih.1, complete_pruned q l ih.2 hl hnd⟩

/-- C33. Start from a position `p` that satisfies the invariant and whose
candidate list is complete (no duplicates, placements of the registry, every
placement with at most `MAX_OVERLAPS` filled dots among them), and apply any
number of playout rounds (`get_random_move()` then `do_move` of the placement
returned), tile draws and calls of `update_condidates()`,
`get_possible_tiles_set()` or `get_possible_tiles()`. In the position `q`
reached: the candidate list has no duplicates; it holds every placement of the
registry that is legal in `q`, and every one that covers at most `MAX_OVERLAPS`
filled dots; a placement returned by `get_random_move()` was a legal candidate
and is no longer in the list that the call leaves; and when
`get_random_move()` returns the null pointer no placement of the registry is
legal in `q`. -/
theorem candidates_stay_complete (z : Zobrist) (p q : Position) (hp : p.Inv z)
    (hc : p.Complete) (h : PlayoutOps z p q) :
    q.candidates.Nodup ∧
    (∀ T ∈ ALL_TILES_INFO, q.possible_move T = true → T ∈ q.candidates) ∧
    (∀ T ∈ ALL_TILES_INFO, T.count_matches q.filled ≤ MAX_OVERLAPS → T ∈ q.candidates) ∧
    (∀ (fuel : Nat) (g g1 : FastRandom) (T : TileInfo) (q1 : Position),
      q.get_random_move fuel g = some (some T, q1, g1) →
      T ∈ q.candidates ∧ q.possible_move T = true ∧ T ∉ q1.candidates) ∧
    (∀ (fuel : Nat) (g g1 : FastRandom) (q1 : Position),
      q.get_random_move fuel g = some (none, q1, g1) →
      ∀ T ∈ ALL_TILES_INFO, q.possible_move T = false) := by
  obtain ⟨inv, hcq⟩ := playout_ops_complete z p q hp hc h
  refine ⟨hcq.1, fun T hT hleg => complete_legal q hcq T hT hleg, hcq.2.2, ?_, ?_⟩
  · intro fuel g g1 T q1 h1
    obtain ⟨-, -, hleg, -⟩ := get_random_move_spec fuel g q _ h1
    obtain ⟨hmem, hposs⟩ := hleg T rfl
    obtain ⟨l, hfr, -, hnd⟩ := get_random_move_frame fuel g q _ h1
    have hfr : q1 = { q with candidates := l } := hfr
    refine ⟨hmem, hposs, ?_⟩
    rw [hfr]
    exact (hnd hcq.1).2 T rfl
  · intro fuel g g1 q1 h1 T hT
    obtain ⟨-, -, -, hempty⟩ := get_random_move_spec fuel g q _ h1
    obtain ⟨l, hfr, hkeep, -⟩ := get_random_move_frame fuel g q _ h1
    have hfr : q1 = { q with candidates := l } := hfr
    have hl : l = [] := by
      have := hempty rfl
      rw [hfr] at this
      exact this
    cases hleg : q.possible_move T with
    | false => rfl
    | true =>
      exfalso
      have hov := possible_overlap q T hleg
      rcases hkeep T (hcq.2.2 T hT hov) with k | k | k
      · rw [hl] at k
        cases k
      · omega
      · cases k

theorem remove_candidate_tile (p : Position) (c : Nat) :
    (p.remove_candidate c).tile = p.tile := by
  unfold Position.remove_candidate
  split <;> rfl

theorem opening_complete : opening.Complete :=
  complete_of_registry opening (create_count sample_keys _ opening opening_created).2.2.2

theorem candidates_stay_complete_witness :
    ∃ q2, opening.get_random_move 1 ⟨11⟩ =
        some (some white_tile, opening.remove_candidate 291, ⟨2974059⟩) ∧
      (opening.remove_candidate 291).do_move sample_keys white_tile = some q2 ∧
      (opening.Inv sample_keys ∧ opening.Complete ∧ PlayoutOps sample_keys opening q2) ∧
      q2.candidates.Nodup ∧
      (∀ T ∈ ALL_TILES_INFO, q2.possible_move T = true → T ∈ q2.candidates) ∧
      (∀ T ∈ ALL_TILES_INFO, T.count_matches q2.filled ≤ MAX_OVERLAPS →
        T ∈ q2.candidates) ∧
      (∀ (fuel : Nat) (g g1 : FastRandom) (T : TileInfo) (q1 : Position),
        q2.get_random_move fuel g = some (some T, q1, g1) →
        T ∈ q2.candidates ∧ q2.possible_move T = true ∧ T ∉ q1.candidates) ∧
      (∀ (fuel : Nat) (g g1 : FastRandom) (q1 : Position),
        q2.get_random_move fuel g = some (none, q1, g1) →
        ∀ T ∈ ALL_TILES_INFO, q2.possible_move T = false) := by
  obtain ⟨l, hfr, -⟩ := get_random_move_frame 1 ⟨11⟩ opening
    (some white_tile, opening.remove_candidate 291, ⟨2974059⟩) opening_draw
  dsimp only at hfr
  have inv1 : (opening.remove_candidate 291).Inv sample_keys := by
    rw [hfr]
    exact inv_candidates sample_keys opening l opening_inv
  obtain ⟨q2, hmove, -⟩ := do_move_count sample_keys (opening.remove_candidate 291) white_tile
    inv1 ⟨chars "123456", (remove_candidate_tile opening 291).trans opening_tile⟩
    (registry_getD_mem 291 (by decide))
  have hops : PlayoutOps sample_keys opening q2 :=
    PlayoutOps.round opening opening _ q2 1 ⟨11⟩ ⟨2974059⟩ white_tile
      (PlayoutOps.refl opening) opening_draw hmove
  exact ⟨q2, opening_draw, hmove, ⟨opening_inv, opening_complete, hops⟩,
    candidates_stay_complete sample_keys opening q2 opening_inv opening_complete hops⟩

end Box
namespace Box

/-! ## States of the tree hold legal placements -/

/-- The expansion loop appends placements of the registry only. -/
theorem expand_registry {F : Type} [DoubleOps F] (stats : Nat → Stats F) (pos : Position)
    (limit : Nat) :
    ∀ (fuel : Nat) (st st2 : StateInfo F), st.unexpanded_tiles.Sound →
      (∀ a ∈ st.actions, a.tile_info ∈ ALL_TILES_INFO) →
      StateInfo.expand stats pos limit fuel st = some st2 →
      ∀ a ∈ st2.actions, a.tile_info ∈ ALL_TILES_INFO := by
  intro fuel
  induction fuel with
  | zero =>
    intro st st2 _ hreg h
    unfold StateInfo.expand at h
    split_ifs at h
    cases h
    exact hreg
  | succ fuel ih =>
    intro st st2 hs hreg h
    unfold StateInfo.expand at h
    by_cases hcond : st.actions.length < limit ∧ st.unexpanded_tiles.any = true
    · rw [if_pos hcond, for_each_tiles _ hs] at h
      split at h
      · rename_i best selected heq
        rcases best_fold_mem _ _ _ _ _ _ heq with h0 | ⟨T, hT, h0⟩
        · cases h0
        · have hsel : selected = T := Option.some.inj h0
          subst hsel
          obtain ⟨hget, hcode⟩ := (tiles_of_codes st.unexpanded_tiles hs).2 selected hT
          obtain ⟨hs1, -⟩ := clear_sound st.unexpanded_tiles hs selected.code hcode
          refine ih _ st2 hs1 ?_ h
          intro a ha
          have ha : a ∈ st.actions ++ [{ ActionInfo.create selected with bias := best }] := ha
          rcases List.mem_append.mp ha with h1 | h1
          · exact hreg a h1
          · rw [List.mem_singleton.mp h1]
            exact List.getElem?_mem hget
      · cases h
    · rw [if_neg hcond] at h
      cases h
      exact hreg

/-- The method `select(pos)` keeps a state good. -/
theorem select_good {F : Type} [DoubleOps F] (p0 : Position) (stats : Nat → Stats F)
    (pos : Position) (st st2 : StateInfo F) (a : Option Nat) (hg : st.Good p0)
    (h : st.select stats pos = some (st2, a)) : st2.Good p0 := by
  refine ⟨select_preserves _ stats pos st st2 a hg.1 h, ?_⟩
  unfold StateInfo.select at h
  split at h
  · cases h
  · simp only at h
    split at h
    · cases h
    · rename_i st3 hexp
      cases hf : (st3.actions.enum.foldlM
        (fun (acc : F × Option Nat) (ia : Nat × ActionInfo F) =>
          (st3.eval ia.2).map
            (fun value => if DoubleOps.lt acc.1 value then (value, some ia.1) else acc))
        (DoubleOps.lowest, none)) with
      | none => rw [hf] at h; cases h
      | some r =>
        rw [hf] at h
        have h2 := Option.some.inj h
        have h3 : st3 = st2 := (Prod.mk.inj h2).1
        rw [← h3]
        exact expand_registry stats pos _ 64 st st3 hg.1.1 hg.2 hexp

/-- The method `update(action_info, score)` keeps a state good. -/
theorem update_good {F : Type} [DoubleOps F] (p0 : Position) (st st2 : StateInfo F)
    (action : Nat) (score : F) (hg : st.Good p0) (h : st.update action score = some st2) :
    st2.Good p0 := by
  refine ⟨update_preserves _ st st2 action score hg.1 h, ?_⟩
  unfold StateInfo.update at h
  split at h
  · rename_i a bonus ha _
    cases h
    intro b hb
    have hb : b ∈ st.actions.set action (a.update score) := hb
    rcases List.mem_or_eq_of_mem_set hb with h1 | h1
    · exact hg.2 b h1
    · rw [h1]
      exact hg.2 a (List.getElem?_mem ha)
  · cases h

/-- The constructor `StateInfo(pos)` on a position that fits the search: the
state is good for `pos`, and the position left fits the search, with the same
board. -/
theorem create_good {F : Type} [DoubleOps F] (z : Zobrist) (L : List TileInfo)
    (hL : ∀ T ∈ L, T ∈ ALL_TILES_INFO) (pos : Position) (hfit : pos.Fit z L) :
    ∃ (st : StateInfo F) (l : List TileInfo),
      StateInfo.create pos = some (st, { pos with candidates := l }) ∧ st.Good pos ∧
      ({ pos with candidates := l } : Position).Fit z L := by
  obtain ⟨hinv, hnd, hsub⟩ := hfit
  obtain ⟨st0, q0, e, hst, hact, -⟩ :=
    state_create_inv (F := F) pos hnd (fun T hT => hL T (hsub T hT))
  obtain ⟨res, l, e2, hl, hndl⟩ := get_possible_tiles_set_prunes pos hnd
  have hq0 : q0 = { pos with candidates := l } := by
    unfold StateInfo.create at e
    rw [e2] at e
    exact ((Prod.mk.inj (Option.some.inj e)).2).symm
  rw [hq0] at e
  refine ⟨st0, l, e, ⟨hst, ?_⟩, inv_candidates z pos l hinv, hndl,
    fun T hT => hsub T ((hl T).mp hT).1⟩
  intro a ha
  rw [hact] at ha
  cases ha

/-- What `findIdx?` returns is the index of an entry that passes the test. -/
theorem findIdx_spec {α : Type} (f : α → Bool) :
    ∀ (l : List α) (i : Nat), l.findIdx? f = some i → ∃ x, l[i]? = some x ∧ f x = true := by
  intro l
  induction l with
  | nil => intro i h; cases h
  | cons a rest ih =>
    intro i h
    rw [List.findIdx?_cons] at h
    by_cases hf : f a = true
    · rw [if_pos hf] at h
      cases h
      exact ⟨a, List.getElem?_cons_zero, hf⟩
    · rw [if_neg hf] at h
      cases hr : rest.findIdx? f with
      | none => rw [List.findIdx?_succ, hr] at h; cases h
      | some j =>
        rw [List.findIdx?_succ, hr] at h
        cases h
        obtain ⟨x, hx, hfx⟩ := ih j hr
        exact ⟨x, by rw [List.getElem?_cons_succ]; exact hx, hfx⟩

/-- The filled dots of a position that satisfies the invariant are determined
by its column bitmaps. -/
theorem filled_iff_columns (z : Zobrist) (p : Position) (hp : p.Inv z) (d : Nat) :
    p.filled.test d = true ↔
      d < TOTAL_DOTS ∧ ∃ c, c < MAX_COLORS ∧
        (p.columns c (d % COLS)).value.testBit (d / COLS) = true := by
  rw [hp.filled_iff d]
  constructor
  · intro hne
    have hd : d < TOTAL_DOTS := by
      by_contra hge
      exact hne (hp.white_outside d (by omega))
    rcases hp.colors_ok d with h | h
    · exact absurd h hne
    · unfold is_color at h
      refine ⟨hd, p.colors d - 49, by simp only [MAX_COLORS]; omega, ?_⟩
      rw [hp.columns_iff (p.colors d - 49) (d % COLS) (d / COLS)
        (by simp only [MAX_COLORS]; omega) (Nat.mod_lt _ (by decide))]
      refine ⟨?_, ?_⟩
      · simp only [TOTAL_DOTS, ROWS, COLS] at hd ⊢
        omega
      · rw [Nat.div_add_mod']
        omega
  · rintro ⟨hd, c, hc, hbit⟩
    rw [hp.columns_iff c (d % COLS) (d / COLS) hc (Nat.mod_lt _ (by decide))] at hbit
    rw [Nat.div_add_mod'] at hbit
    rw [hbit.2]
    simp only [WHITE]
    omega

/-- Two positions that satisfy the invariant and have the same key fields
have the same filled board. -/
theorem filled_of_key (z : Zobrist) (p q : Position) (hp : p.Inv z) (hq : q.Inv z)
    (h : PositionInfoEqual (p.get_info z) (q.get_info z) = true) : p.filled = q.filled := by
  have hcol : ∀ c < MAX_COLORS, ∀ col < COLS, p.columns c col = q.columns c col := by
    unfold PositionInfoEqual at h
    simp only [Bool.and_eq_true, List.all_eq_true, List.mem_range, decide_eq_true_eq] at h
    intro c hc col hcol
    exact h.2 c hc col hcol
  have hbits : p.filled.bits = q.filled.bits := by
    apply Nat.eq_of_testBit_eq
    intro d
    have h1 := filled_iff_columns z p hp d
    have h2 := filled_iff_columns z q hq d
    have h3 : p.filled.test d = true ↔ q.filled.test d = true := by
      rw [h1, h2]
      constructor
      · rintro ⟨hd, c, hc, hb⟩
        exact ⟨hd, c, hc, by rw [← hcol c hc _ (Nat.mod_lt _ (by decide))]; exact hb⟩
      · rintro ⟨hd, c, hc, hb⟩
        exact ⟨hd, c, hc, by rw [hcol c hc _ (Nat.mod_lt _ (by decide))]; exact hb⟩
    unfold Bitboard.test at h3
    cases ha : p.filled.bits.testBit d <;> cases hb : q.filled.bits.testBit d
    · rfl
    · rw [ha, hb] at h3
      exact absurd (h3.mpr rfl) (by decide)
    · rw [ha, hb] at h3
      exact absurd (h3.mp rfl) (by decide)
    · rfl
  cases hpf : p.filled
  cases hqf : q.filled
  rw [hpf, hqf] at hbits
  simp only at hbits
  rw [hbits]

end Box
namespace Box

/-! ## The store of the search holds good states -/

theorem keeps_refl {F : Type} (a : StateStore F) : a.KeepsKeys a :=
  fun _ e h => ⟨e, h, rfl⟩

theorem keeps_trans {F : Type} (a b c : StateStore F) (h1 : a.KeepsKeys b)
    (h2 : b.KeepsKeys c) : a.KeepsKeys c := by
  intro i e he
  obtain ⟨e2, h3, h4⟩ := h1 i e he
  obtain ⟨e3, h5, h6⟩ := h2 i e2 h3
  exact ⟨e3, h5, h6.trans h4⟩

/-- Replacing the state of an entry keeps the keys. -/
theorem keeps_set {F : Type} (Q : List (Info × StateInfo F)) (i : Nat)
    (entry : Info × StateInfo F) (st : StateInfo F) (h : Q[i]? = some entry) :
    (⟨Q⟩ : StateStore F).KeepsKeys ⟨Q.set i (entry.1, st)⟩ := by
  intro j e he
  have he : Q[j]? = some e := he
  show ∃ e2, (Q.set i (entry.1, st))[j]? = some e2 ∧ e2.1 = e.1
  rw [List.getElem?_set]
  by_cases hij : i = j
  · subst hij
    rw [if_pos rfl, if_pos (List.getElem?_eq_some_iff.mp h).1]
    rw [h] at he
    exact ⟨_, rfl, by rw [← Option.some.inj he]⟩
  · rw [if_neg hij]
    exact ⟨e, he, rfl⟩

/-- Appending an entry keeps the keys. -/
theorem keeps_append {F : Type} (Q : List (Info × StateInfo F)) (x : Info × StateInfo F) :
    (⟨Q⟩ : StateStore F).KeepsKeys ⟨Q ++ [x]⟩ := by
  intro j e he
  have he : Q[j]? = some e := he
  refine ⟨e, ?_, rfl⟩
  show (Q ++ [x])[j]? = some e
  rw [List.getElem?_append_left (List.getElem?_eq_some_iff.mp he).1]
  exact he

/-- Replacing the state of an entry by a state that is good for the same
positions keeps the invariant of the store. -/
theorem inv_set {F : Type} (z : Zobrist) (L : List TileInfo)
    (Q : List (Info × StateInfo F)) (i : Nat) (entry : Info × StateInfo F)
    (st : StateInfo F) (hQ : StateStore.Inv z L ⟨Q⟩) (h : Q[i]? = some entry)
    (hg : ∀ p0, entry.2.Good p0 → st.Good p0) :
    StateStore.Inv z L ⟨Q.set i (entry.1, st)⟩ := by
  intro e he
  have he : e ∈ Q.set i (entry.1, st) := he
  rcases List.mem_or_eq_of_mem_set he with h1 | h1
  · exact hQ e h1
  · obtain ⟨p0, hfit, hkey, hgood⟩ := hQ entry (List.getElem?_mem h)
    rw [h1]
    exact ⟨p0, hfit, hkey, hg p0 hgood⟩

/-- The method `try_create_state(pos)` keeps the invariant of the store, and
leaves a position that fits the search. -/
theorem try_create_good {F : Type} [DoubleOps F] (z : Zobrist) (L : List TileInfo)
    (hL : ∀ T ∈ L, T ∈ ALL_TILES_INFO) (store : StateStore F) (pos : Position)
    (hS : store.Inv z L) (hfit : pos.Fit z L)
    (r : StateStore F × Position × Nat × Bool)
    (h : store.try_create_state z pos = some r) :
    r.1.Inv z L ∧ store.KeepsKeys r.1 ∧ r.2.1.Fit z L := by
  unfold StateStore.try_create_state at h
  split at h
  · cases h
    exact ⟨hS, keeps_refl store, hfit⟩
  · obtain ⟨st, l, e, hg, hfit2⟩ := create_good (F := F) z L hL pos hfit
    rw [e] at h
    cases h
    refine ⟨?_, keeps_append store.Q _, hfit2⟩
    intro entry he
    have he : entry ∈ store.Q ++ [(pos.get_info z, st)] := he
    rcases List.mem_append.mp he with h1 | h1
    · exact hS entry h1
    · rw [List.mem_singleton.mp h1]
      exact ⟨pos, hfit, rfl, hg⟩

/-- The method `next(state_info)` keeps the invariant of the store, and leaves
a position that fits the search. -/
theorem next_good {F : Type} [DoubleOps F] (z : Zobrist) (L : List TileInfo)
    (sim sim2 : Simulation F) (state : Nat) (hS : sim.state_store.Inv z L)
    (hfit : sim.pos.Fit z L) (h : Simulation.next z sim state = some sim2) :
    sim2.state_store.Inv z L ∧ sim.state_store.KeepsKeys sim2.state_store ∧
      sim2.pos.Fit z L := by
  unfold Simulation.next at h
  split at h
  · cases h
  · rename_i entry hentry
    split at h
    · rename_i st action hsel
      split at h
      · cases h
      · rename_i a ha
        split at h
        · cases h
        · rename_i pos hmove
          simp only at h
          cases hch : pos.play_chance_move z
              (sim.globals.gen.less_than TILES_PERMUTATIONS_COUNT).1 with
          | none => rw [hch] at h; cases h
          | some pos2 =>
            rw [hch] at h
            cases h
            have hgood : ∀ p0, entry.2.Good p0 → st.Good p0 :=
              fun p0 hg => select_good p0 _ _ _ _ _ hg hsel
            obtain ⟨p0, -, -, hg0⟩ := hS entry (List.getElem?_mem hentry)
            have hreg : a.tile_info ∈ ALL_TILES_INFO :=
              (hgood p0 hg0).2 a (List.getElem?_mem ha)
            obtain ⟨inv1, -⟩ := do_move_inv z a.tile_info sim.pos pos hfit.1
              (Or.inl (registry_wf _ hreg)) hmove
            have hc1 := do_move_candidates z a.tile_info sim.pos pos hmove
            obtain ⟨inv2, -, hc2, -⟩ := chance_frame z _ pos pos2 inv1 hch
            refine ⟨inv_set z L sim.state_store.Q state entry st hS hentry hgood,
              keeps_set sim.state_store.Q state entry st hentry, inv2, ?_, ?_⟩
            · show pos2.candidates.Nodup
              rw [hc2, hc1]
              exact hfit.2.1
            · intro T hT
              have hT : T ∈ pos2.candidates := hT
              rw [hc2, hc1] at hT
              exact hfit.2.2 T hT
    · cases h

/-- The method `simulate_tree()` keeps the invariant of the store, and leaves a
position that fits the search. -/
theorem simulate_tree_good {F : Type} [DoubleOps F] (z : Zobrist) (L : List TileInfo)
    (hL : ∀ T ∈ L, T ∈ ALL_TILES_INFO) :
    ∀ (fuel : Nat) (sim sim2 : Simulation F), sim.state_store.Inv z L → sim.pos.Fit z L →
      Simulation.simulate_tree z fuel sim = some sim2 →
      sim2.state_store.Inv z L ∧ sim.state_store.KeepsKeys sim2.state_store ∧
        sim2.pos.Fit z L := by
  intro fuel
  induction fuel with
  | zero =>
    intro sim sim2 hS hfit h
    unfold Simulation.simulate_tree at h
    split at h
    · cases h
    · cases h
      exact ⟨hS, keeps_refl _, hfit⟩
  | succ n ih =>
    intro sim sim2 hS hfit h
    unfold Simulation.simulate_tree at h
    split at h
    · split at h
      · cases h
      · rename_i store pos state created htry
        obtain ⟨hS1, hk1, hfit1⟩ := try_create_good z L hL sim.state_store sim.pos hS hfit _ htry
        split at h
        · cases h
        · rename_i sim3 hnext
          obtain ⟨hS3, hk3, hfit3⟩ := next_good z L
            { sim with state_store := store, pos := pos } sim3 state hS1 hfit1 hnext
          split at h
          · cases h
            exact ⟨hS3, keeps_trans _ _ _ hk1 hk3, hfit3⟩
          · obtain ⟨hS4, hk4, hfit4⟩ := ih sim3 sim2 hS3 hfit3 h
            exact ⟨hS4, keeps_trans _ _ _ hk1 (keeps_trans _ _ _ hk3 hk4), hfit4⟩
    · cases h
      exact ⟨hS, keeps_refl _, hfit⟩

/-- The loop of `backup()` over the transitions keeps the invariant of the
store. -/
theorem backup_loop_good {F : Type} [DoubleOps F] (z : Zobrist) (L : List TileInfo)
    (player : Nat) (score : F) :
    ∀ (transitions : List (Nat × Nat)) (Q Q2 : List (Info × StateInfo F)),
      StateStore.Inv z L ⟨Q⟩ →
      transitions.foldlM
        (fun (Q : List (Info × StateInfo F)) (t : Nat × Nat) =>
          match Q[t.1]? with
          | none => none
          | some entry =>
            let adjusted_score := if entry.2.player = player then score else DoubleOps.neg score
            (entry.2.update t.2 adjusted_score).map (fun st => Q.set t.1 (entry.1, st)))
        Q = some Q2 →
      StateStore.Inv z L ⟨Q2⟩ ∧ (⟨Q⟩ : StateStore F).KeepsKeys ⟨Q2⟩ := by
  intro transitions
  induction transitions with
  | nil =>
    intro Q Q2 hS h
    cases h
    exact ⟨hS, keeps_refl _⟩
  | cons t rest ih =>
    intro Q Q2 hS h
    rw [List.foldlM_cons] at h
    cases hq : Q[t.1]? with
    | none => rw [hq] at h; cases h
    | some entry =>
      rw [hq] at h
      simp only at h
      cases hu : entry.2.update t.2
          (if entry.2.player = player then score else DoubleOps.neg score) with
      | none => rw [hu] at h; cases h
      | some st =>
        rw [hu] at h
        have h : rest.foldlM _ (Q.set t.1 (entry.1, st)) = some Q2 := h
        obtain ⟨hS2, hk2⟩ := ih _ Q2
          (inv_set z L Q t.1 entry st hS hq (fun p0 hg => update_good p0 _ _ _ _ hg hu)) h
        exact ⟨hS2, keeps_trans _ _ _ (keeps_set Q t.1 entry st hq) hk2⟩

/-- The method `backup()` keeps the invariant of the store. -/
theorem backup_good {F : Type} [DoubleOps F] (z : Zobrist) (L : List TileInfo)
    (sim sim2 : Simulation F) (hS : sim.state_store.Inv z L)
    (h : Simulation.backup sim = some sim2) :
    sim2.state_store.Inv z L ∧ sim.state_store.KeepsKeys sim2.state_store := by
  unfold Simulation.backup at h
  split at h
  · cases h
  · rename_i score _
    obtain ⟨Q2, hf, heq⟩ := Option.map_eq_some'.mp h
    rw [← heq]
    exact backup_loop_good z L sim.player score sim.transitions sim.state_store.Q Q2 hS hf

/-- A simulation keeps the invariant of the store. -/
theorem run_good {F : Type} [DoubleOps F] (z : Zobrist) (L : List TileInfo)
    (hL : ∀ T ∈ L, T ∈ ALL_TILES_INFO) (fuel : Nat) (store store2 : StateStore F)
    (pos : Position) (color : Nat) (G G2 : Globals F) (hS : store.Inv z L)
    (hfit : pos.Fit z L) (h : Simulation.run z fuel store pos color G = some (store2, G2)) :
    store2.Inv z L ∧ store.KeepsKeys store2 := by
  unfold Simulation.run at h
  simp only at h
  split at h
  · cases h
  · rename_i sim hsim
    obtain ⟨hS1, hk1, -⟩ := simulate_tree_good z L hL fuel _ sim hS hfit hsim
    split at h
    · cases h
    · rename_i pos2 g hplay
      obtain ⟨sim3, hb, heq⟩ := Option.map_eq_some'.mp h
      have e1 : store2 = sim3.state_store := (Prod.mk.inj heq).1.symm
      rw [e1]
      obtain ⟨hS3, hk3⟩ := backup_good z L _ sim3 (by exact hS1) hb
      exact ⟨hS3, keeps_trans _ _ _ hk1 hk3⟩

end Box
namespace Box

/-! ## The loops of get_best_move keep the store -/

/-- The first loop of `get_best_move` keeps the invariant of the store. -/
theorem main_loop_good {F : Type} [DoubleOps F] (z : Zobrist) (L : List TileInfo)
    (hL : ∀ T ∈ L, T ∈ ALL_TILES_INFO) (fuel : Nat) (clock : Nat → Bool) (pos : Position)
    (color : Nat) (hfit : pos.Fit z L) :
    ∀ (n s t : Nat) (store : StateStore F) (G : Globals F)
      (r : Nat × Nat × StateStore F × Globals F), store.Inv z L →
      main_loop z fuel clock pos color n s t store G = some r →
      r.2.2.1.Inv z L ∧ store.KeepsKeys r.2.2.1 := by
  intro n
  induction n with
  | zero =>
    intro s t store G r hS h
    unfold main_loop at h
    cases h
    exact ⟨hS, keeps_refl _⟩
  | succ n ih =>
    intro s t store G r hS h
    unfold main_loop at h
    split at h
    · split at h
      · cases h
      · rename_i store2 G2 hrun
        obtain ⟨hS2, hk2⟩ := run_good z L hL fuel store store2 pos color G G2 hS hfit hrun
        split at h
        · cases h
        · split at h
          · cases h
          · split at h
            · cases h
            · split at h
              · cases h
              · split at h
                · cases h
                  exact ⟨hS2, hk2⟩
                · obtain ⟨hS3, hk3⟩ := ih _ _ _ _ r hS2 h
                  exact ⟨hS3, keeps_trans _ _ _ hk2 hk3⟩
    · cases h
      exact ⟨hS, keeps_refl _⟩

/-- The method `consistent(pos)` leaves a state that is good for the same
positions. -/
theorem consistent_good {F : Type} [DoubleOps F] (p0 : Position) (stats : Nat → Stats F)
    (pos : Position) (st st2 : StateInfo F) (b : Bool) (hg : st.Good p0)
    (h : st.consistent stats pos = some (st2, b)) : st2.Good p0 := by
  unfold StateInfo.consistent at h
  simp only at h
  obtain ⟨x, hx, heq⟩ := Option.map_eq_some'.mp h
  have e : x.1 = st2 := (Prod.mk.inj heq).1
  rw [← e]
  exact select_good p0 stats pos st x.1 x.2 hg hx

/-- The second loop of `get_best_move` keeps the invariant of the store. -/
theorem tail_loop_good {F : Type} [DoubleOps F] (z : Zobrist) (L : List TileInfo)
    (hL : ∀ T ∈ L, T ∈ ALL_TILES_INFO) (fuel : Nat) (clock : Nat → Bool) (pos : Position)
    (color : Nat) (root : Option Nat) (hfit : pos.Fit z L) :
    ∀ (n s t : Nat) (store : StateStore F) (G : Globals F)
      (r : Nat × Nat × StateStore F × Globals F), store.Inv z L →
      tail_loop z fuel clock pos color root n s t store G = some r →
      r.2.2.1.Inv z L ∧ store.KeepsKeys r.2.2.1 := by
  intro n
  induction n with
  | zero =>
    intro s t store G r hS h
    unfold tail_loop at h
    cases h
    exact ⟨hS, keeps_refl _⟩
  | succ n ih =>
    intro s t store G r hS h
    unfold tail_loop at h
    split at h
    · split at h
      · cases h
      · rename_i ri
        split at h
        · cases h
        · rename_i entry hentry
          split at h
          · cases h
          · rename_i st hcons
            cases h
            exact ⟨inv_set z L store.Q ri entry st hS hentry
                (fun p0 hg => consistent_good p0 _ _ _ _ _ hg hcons),
              keeps_set store.Q ri entry st hentry⟩
          · rename_i st hcons
            have hS1 := inv_set z L store.Q ri entry st hS hentry
              (fun p0 hg => consistent_good p0 _ _ _ _ _ hg hcons)
            have hk1 := keeps_set store.Q ri entry st hentry
            split at h
            · cases h
            · rename_i store2 G2 hrun
              obtain ⟨hS2, hk2⟩ := run_good z L hL fuel _ store2 pos color G G2 hS1 hfit hrun
              obtain ⟨hS3, hk3⟩ := ih _ _ _ _ r hS2 h
              exact ⟨hS3, keeps_trans _ _ _ hk1 (keeps_trans _ _ _ hk2 hk3)⟩
    · cases h
      exact ⟨hS, keeps_refl _⟩

/-- The answer of `possible_move(dot, orientation)` for the move of a legal
placement of the registry. -/
theorem possible_move_at_registry (p : Position) (T : TileInfo) (hT : T ∈ ALL_TILES_INFO)
    (hleg : p.possible_move T = true) :
    p.possible_move_at T.move.dot T.move.orientation = some true := by
  obtain ⟨t, hTt, hsrc⟩ := registry_source T hT
  have hposs : p.possible_move t = true := by
    have e : p.possible_move T = p.possible_move t := by
      rw [hTt]
      rfl
    rw [← e]
    exact hleg
  unfold Position.possible_move_at TileInfo.move
  simp only [Int.toNat_ofNat]
  rcases hsrc with ⟨ho, hget⟩ | ⟨ho, hget⟩
  · rw [if_pos ho, hget]
    simp only
    rw [if_pos (Int.ofNat_nonneg _), hposs]
  · rw [if_neg (by rw [ho]; decide), hget]
    simp only
    rw [if_pos (Int.ofNat_nonneg _), hposs]

end Box
namespace Box

/-! ## The move returned by get_best_move -/

/-- Legality depends on the filled board only. -/
theorem possible_move_filled (p q : Position) (T : TileInfo) (h : p.filled = q.filled) :
    p.possible_move T = q.possible_move T := by
  unfold Position.possible_move
  rw [h]

/-- An action of a state that is good for `p0` holds a legal candidate of
`p0`. -/
theorem good_action_legal {F : Type} (p0 : Position) (st : StateInfo F) (hg : st.Good p0)
    (hreg : ∀ T ∈ p0.candidates, T ∈ ALL_TILES_INFO) (a : ActionInfo F)
    (ha : a ∈ st.actions) : a.tile_info ∈ p0.candidates ∧ p0.possible_move a.tile_info = true := by
  obtain ⟨⟨-, -, -, -, hpart⟩, hin⟩ := hg
  have hcode : a.tile_info.code ∈ st.expanded := List.mem_map.mpr ⟨a, ha, rfl⟩
  obtain ⟨T, hT, hTc, hleg⟩ := (hpart a.tile_info.code).mpr (Or.inr hcode)
  have e : T = a.tile_info := registry_code_inj T a.tile_info (hreg T hT) (hin a ha) hTc
  rw [← e]
  exact ⟨hT, hleg⟩

/-- What `get_best_move` returns, when it returns, on a position that
satisfies the invariant and whose candidates are distinct placements of the
registry: the move of a candidate that is legal in the position, and the
position with the candidates that are not over-full. -/
theorem get_best_move_sound {F : Type} [DoubleOps F] (z : Zobrist) (fuel : Nat)
    (clock : Nat → Bool) (pos : Position) (color : Nat) (G : Globals F) (hp : pos.Inv z)
    (hnd : pos.candidates.Nodup) (hreg : ∀ T ∈ pos.candidates, T ∈ ALL_TILES_INFO)
    (m : PlayerMove) (pos2 : Position) (G2 : Globals F)
    (h : get_best_move z fuel clock pos color G = some (m, pos2, G2)) :
    (∃ T ∈ pos.candidates, T ∈ ALL_TILES_INFO ∧ m = T.move ∧ pos.possible_move T = true) ∧
    ∃ l, pos2 = { pos with candidates := l } ∧ l.Nodup ∧
      ∀ T, T ∈ l ↔ T ∈ pos.candidates ∧ T.count_matches pos.filled ≤ MAX_OVERLAPS := by
  obtain ⟨l1, hupd, hl1, hnd1⟩ := update_condidates_spec pos hnd
  have hfit1 : ({ pos with candidates := l1 } : Position).Fit z pos.candidates :=
    ⟨inv_candidates z pos l1 hp, hnd1, fun T hT => ((hl1 T).mp hT).1⟩
  obtain ⟨res, l2, hget, hl2, hnd2⟩ :=
    get_possible_tiles_spec ({ pos with candidates := l1 } : Position) hnd1
  unfold get_best_move at h
  simp only at h
  split at h
  · cases h
  · rw [hupd] at h
    simp only at h
    split at h
    · cases h
    · rename_i s t store1 G3 hmain
      obtain ⟨hS1, -⟩ := main_loop_good z pos.candidates hreg fuel clock _ color hfit1
        _ _ _ _ _ _ (fun e he => by cases he) hmain
      split at h
      · cases h
      · rename_i store2 G4 htail
        obtain ⟨hS2, hk2⟩ := tail_loop_good z pos.candidates hreg fuel clock _ color _ hfit1
          _ _ _ _ _ _ hS1 htail
        rw [hget] at h
        simp only at h
        split at h
        · cases h
        · rename_i r hroot
          split at h
          · cases h
          · rename_i entry hentry
            split at h
            · cases h
            · rename_i mv hmv
              obtain ⟨a, ha, heq⟩ := Option.map_eq_some'.mp h
              have hm : a.tile_info.move = m := (Prod.mk.inj heq).1
              have hpos2 : ({ pos with candidates := l2 } : Position) = pos2 :=
                (Prod.mk.inj (Prod.mk.inj heq).2).1
              obtain ⟨x, hx, hkey⟩ := findIdx_spec _ _ _ hroot
              obtain ⟨e2, he2, hk⟩ := hk2 r x hx
              rw [hentry] at he2
              have he2 : entry = e2 := Option.some.inj he2
              obtain ⟨p0, hfit0, hkey0, hg0⟩ := hS2 entry (List.getElem?_mem hentry)
              have hkey2 : PositionInfoEqual (p0.get_info z)
                  (({ pos with candidates := l1 } : Position).get_info z) = true := by
                rw [← hkey0, he2, hk]
                exact hkey
              have hfilled : p0.filled = pos.filled :=
                filled_of_key z p0 ({ pos with candidates := l1 } : Position) hfit0.1 hfit1.1
                  hkey2
              obtain ⟨hmem, hleg⟩ := good_action_legal p0 entry.2 hg0
                (fun T hT => hreg T (hfit0.2.2 T hT)) a (List.getElem?_mem ha)
              refine ⟨⟨a.tile_info, hfit0.2.2 _ hmem, hreg _ (hfit0.2.2 _ hmem), hm.symm, ?_⟩,
                l2, hpos2.symm, hnd2, ?_⟩
              · rw [← possible_move_filled p0 pos a.tile_info hfilled]
                exact hleg
              · intro T
                rw [hl2 T]
                show T ∈ l1 ∧ _ ↔ _
                rw [hl1 T]
                constructor
                · rintro ⟨⟨h1, h2⟩, -⟩
                  exact ⟨h1, h2⟩
                · rintro ⟨h1, h2⟩
                  exact ⟨⟨h1, h2⟩, h2⟩

end Box
namespace Box

/-! ## A run of the search that returns: zero statistics -/

/-- With a table `dot_color_stats` whose values are all 0 every placement of
six sibling pairs has the value 0. -/
theorem evaluate_zero (stats : Nat → Stats ℚ) (hz : ∀ k, (stats k).value = 0)
    (pos : Position) (t : List Nat) (htile : pos.tile = some t) (ht : t.length = 6)
    (T : TileInfo) (hT : T.siblings.length = 6) :
    DotColorStats.evaluate stats pos T = some 0 := by
  have hfold : ∀ (l : List (Nat × Nat)) (k : Nat), k + l.length ≤ t.length →
      (l.enumFrom k).foldlM
        (fun (sum : ℚ) (is : Nat × (Nat × Nat)) =>
          (t[is.1]?).map (fun color =>
            DoubleOps.add
              (DoubleOps.add sum (stats (DotColorStats.code is.2.1 color).toNat).value)
              (stats (DotColorStats.code is.2.2 color).toNat).value))
        (0 : ℚ) = some 0 := by
    intro l
    induction l with
    | nil => intro k _; rfl
    | cons x l ih =>
      intro k hk
      rw [List.length_cons] at hk
      rw [List.enumFrom_cons, List.foldlM_cons, List.getElem?_eq_getElem (by omega)]
      simp only [Option.map_some', Option.some_bind, Option.bind_eq_bind]
      have e : DoubleOps.add (DoubleOps.add (0 : ℚ)
          (stats (DotColorStats.code x.1 t[k]).toNat).value)
          (stats (DotColorStats.code x.2 t[k]).toNat).value = 0 := by
        rw [hz, hz]
        show (0 : ℚ) + 0 + 0 = 0
        simp
      rw [e]
      exact ih (k + 1) (by omega)
  unfold DotColorStats.evaluate
  rw [htile]
  simp only
  have h := hfold T.siblings 0 (by omega)
  have e0 : (DoubleOps.ofInt 0 : ℚ) = 0 := by
    show ((0 : Int) : ℚ) = 0
    simp
  rw [List.enum, e0, h]
  simp only [Option.map_some']
  have e1 : DoubleOps.div (0 : ℚ) (DoubleOps.ofInt 12) = 0 := by
    show (0 : ℚ) / _ = 0
    simp
  have e2 : DoubleOps.neg (0 : ℚ) = 0 := by
    show -(0 : ℚ) = 0
    simp
  rw [e1, e2]
  split_ifs <;> rfl

/-- Recording the score 0 leaves a table whose values are all 0. -/
theorem record_zero (pos : Position) (player : Nat) :
    ∀ (dots : List Nat) (stats : Nat → Stats ℚ), (∀ k, (stats k).value = 0) →
      ∀ k, ((dots.foldl
        (fun st dot =>
          if pos.colors dot ≠ WHITE then
            DotColorStats.update st dot (pos.colors dot) player (0 : ℚ)
          else st)
        stats) k).value = 0 := by
  intro dots
  induction dots with
  | nil => intro stats hz; exact hz
  | cons d rest ih =>
    intro stats hz
    rw [List.foldl_cons]
    apply ih
    intro k
    by_cases hw : pos.colors d ≠ WHITE
    · rw [if_pos hw]
      unfold DotColorStats.update
      by_cases hk : k = (DotColorStats.code d (pos.colors d)).toNat
      · rw [if_pos hk]
        unfold Stats.update
        simp only
        rw [hz]
        have e2 : DoubleOps.neg (0 : ℚ) = 0 := by
          show -(0 : ℚ) = 0
          simp
        have e3 : (if player = PLAYER_1 then (0 : ℚ) else DoubleOps.neg 0) = 0 := by
          split_ifs
          · rfl
          · exact e2
        rw [e3]
        show (0 : ℚ) + (0 - 0) / _ = 0
        simp
      · rw [if_neg hk]
        exact hz k
    · rw [if_neg hw]
      exact hz k

/-- With weights that are all 0 and no opponent the expected score of a
position that satisfies the invariant is 0. -/
theorem expected_zero (z : Zobrist) (p : Position) (hp : p.Inv z) (color : Nat)
    (G : Globals ℚ) (hw : ∀ i, G.weights i = 0) (ho : G.opponent_color_index = -1) :
    p.get_expected_score color G = some 0 := by
  unfold Position.get_expected_score
  rw [if_neg (by rw [ho]; decide)]
  have hs := get_scores_eq p (fun c => ((score_of_squares p c : Nat) : Int))
    (fun c hc => get_score_sum p c (inv_coherent z p hp c hc))
  rw [hs]
  simp only [Option.map_some', List.enum, List.enumFrom, List.foldl_cons, List.foldl_nil, hw]
  show some ((((((((0 : Int) : ℚ) + 0 * _) + 0 * _) + 0 * _) + 0 * _) + 0 * _) + 0 * _) = some 0
  simp

/-! ## A run of the search that returns: playouts -/

/-- A tile can always be drawn. -/
theorem chance_some (z : Zobrist) (p : Position) (index : Nat)
    (h : index < TILES_PERMUTATIONS_COUNT) : ∃ q, p.play_chance_move z index = some q := by
  unfold Position.play_chance_move Position.update_tile_index
  by_cases h1 : p.tile_index = (index : Int)
  · exact ⟨p, by rw [if_pos h1]⟩
  · rw [if_neg h1]
    simp only
    rw [if_pos (Int.ofNat_nonneg _), Int.toNat_ofNat,
      List.getElem?_eq_getElem (by rw [tiles_length]; exact h)]
    exact ⟨_, rfl⟩

/-- A playout on a position whose candidates are all over-full ends at once,
with an empty candidate list. -/
theorem playout_drained (z : Zobrist) (fuel n : Nat) (pos : Position) (g : FastRandom)
    (hall : ∀ T ∈ pos.candidates, MAX_OVERLAPS < T.count_matches pos.filled)
    (hlen : pos.candidates.length ≤ fuel) :
    ∃ g2, Simulation.playout z fuel (n + 1) pos g =
      some ({ pos with candidates := [] }, g2) := by
  obtain ⟨q, g2, e, hq⟩ := random_move_drains fuel g pos hall hlen
  obtain ⟨l, hfr, -⟩ := get_random_move_frame fuel g pos _ e
  have hfr : q = { pos with candidates := l } := hfr
  have hl : l = [] := by
    rw [hfr] at hq
    exact hq
  rw [hl] at hfr
  refine ⟨g2, ?_⟩
  unfold Simulation.playout
  rw [e, hfr]

/-- The draw of `get_random_move()` on a single legal candidate returns it and
leaves an empty list. -/
theorem random_move_single (fuel : Nat) (g : FastRandom) (base : Position) (T : TileInfo)
    (hleg : base.possible_move T = true) :
    ({ base with candidates := [T] } : Position).get_random_move (fuel + 1) g =
      some (some T, { base with candidates := [] }, (g.less_than 1).2) := by
  have hr : (g.less_than 1).1 = 0 := by
    have := less_than_lt g 1 (by decide)
    omega
  have hrem : ({ base with candidates := [T] } : Position).remove_candidate 0 =
      { base with candidates := [] } := rfl
  have hov := possible_overlap base T hleg
  unfold Position.get_random_move
  simp only [List.isEmpty_cons, Bool.false_eq_true, if_false, List.length_singleton, hr,
    List.getElem?_cons_zero, hrem]
  by_cases hc : T.count_matches base.filled ≠ 0
  · rw [if_pos hc, if_pos hov]
  · rw [if_neg hc]
    have hnb : T.neighbour_to base.filled = true := by
      unfold Position.possible_move at hleg
      simp only at hleg
      rw [if_neg hc] at hleg
      exact hleg
    rw [if_pos hnb]

/-- A playout on a position whose only candidate is legal returns. -/
theorem playout_single (z : Zobrist) (fuel n : Nat) (base : Position) (g : FastRandom)
    (T : TileInfo) (hp : base.Inv z) (htile : ∃ t, base.tile = some t)
    (hT : T ∈ ALL_TILES_INFO) (hleg : base.possible_move T = true) :
    ∃ q g2, Simulation.playout z (fuel + 1) (n + 2)
        ({ base with candidates := [T] } : Position) g = some (q, g2) ∧ q.Inv z := by
  have inv0 : ({ base with candidates := [] } : Position).Inv z := inv_candidates z base [] hp
  obtain ⟨q1, e1, inv1, -, -, -, hc1⟩ :=
    do_move_count z ({ base with candidates := [] } : Position) T inv0 htile hT
  obtain ⟨q2, e2⟩ := chance_some z q1 ((g.less_than 1).2.less_than TILES_PERMUTATIONS_COUNT).1
    (less_than_lt _ _ (by decide))
  obtain ⟨inv2, -, hc2, -⟩ := chance_frame z _ q1 q2 inv1 e2
  have hc : q2.candidates = [] := by rw [hc2, hc1]
  obtain ⟨g2, e3⟩ := playout_drained z (fuel + 1) n q2
    ((g.less_than 1).2.less_than TILES_PERMUTATIONS_COUNT).2
    (fun X hX => by rw [hc] at hX; cases hX) (by rw [hc]; exact Nat.zero_le _)
  refine ⟨_, g2, ?_, inv_candidates z q2 [] inv2⟩
  unfold Simulation.playout
  rw [random_move_single fuel g base T hleg]
  simp only
  rw [e1]
  simp only
  rw [e2]
  simp only
  exact e3

end Box
namespace Box

/-! ## A run of the search that returns: the root state -/

theorem singleton_of_nodup {α : Type} (l : List α) (x : α) (hnd : l.Nodup)
    (h : ∀ y, y ∈ l ↔ y = x) : l = [x] := by
  cases l with
  | nil => exact absurd ((h x).mpr rfl) (List.not_mem_nil x)
  | cons a rest =>
    have ha : a = x := (h a).mp (List.mem_cons_self _ _)
    have hrest : rest = [] := by
      cases rest with
      | nil => rfl
      | cons b r2 =>
        exfalso
        have hb : b = x := (h b).mp (List.mem_cons_of_mem _ (List.mem_cons_self _ _))
        have := (List.nodup_cons.mp hnd).1
        rw [ha, ← hb] at this
        exact this (List.mem_cons_self _ _)
    rw [ha, hrest]

/-- The constructor `StateInfo(pos)` on a position whose only candidate is
legal: the set of unexpanded placements holds its code and nothing else, and
the candidate list is left as it was. -/
theorem create_single (base : Position) (T : TileInfo)
    (hT : T ∈ ALL_TILES_INFO) (hleg : base.possible_move T = true) :
    ∃ s : TileSet,
      StateInfo.create (F := ℚ) ({ base with candidates := [T] } : Position) =
        some (⟨s, [], DoubleOps.ofInt 0, 0, base.player⟩, { base with candidates := [T] }) ∧
      s.Sound ∧ s.codes = [T.code] := by
  obtain ⟨s, q, e, htest, hcount, hcodes, hq, hnd, hfr, hwf⟩ :=
    get_possible_tiles_set_spec ({ base with candidates := [T] } : Position)
      (List.nodup_singleton T) (fun X hX => by rw [List.mem_singleton.mp hX]; exact hT)
  have hqc : q.candidates = [T] := by
    apply singleton_of_nodup _ _ hnd
    intro X
    rw [hq X]
    constructor
    · rintro ⟨h1, -⟩
      exact List.mem_singleton.mp h1
    · intro h1
      rw [h1]
      exact ⟨List.mem_singleton.mpr rfl, possible_overlap base T hleg⟩
  have hq2 : q = { base with candidates := [T] } := by
    rw [hfr, hqc]
  have ht : ∀ code, s.test code = true ↔ code = T.code := by
    intro code
    rw [htest code]
    constructor
    · rintro ⟨X, hX, hXc, -⟩
      rw [← hXc, List.mem_singleton.mp hX]
    · intro h1
      exact ⟨T, List.mem_singleton.mpr rfl, h1.symm, hleg⟩
  have hsound : s.Sound := by
    refine ⟨hwf, ?_, hcount⟩
    intro c hc
    rw [(ht c).mp hc]
    exact (registry_at_code T hT).2
  refine ⟨s, ?_, hsound, ?_⟩
  · unfold StateInfo.create
    rw [e, hq2]
    rfl
  · apply singleton_of_nodup _ _ ((codes_ascending s).imp (fun h => Nat.ne_of_lt h))
    intro c
    rw [hcodes c, ht c]

/-- The chosen action of `select(pos)`: the result of the loop over the
actions of the state it leaves. -/
theorem select_fold {F : Type} [DoubleOps F] (stats : Nat → Stats F) (pos : Position)
    (st st2 : StateInfo F) (a : Option Nat) (h : st.select stats pos = some (st2, a)) :
    ∃ r, st2.actions.enum.foldlM
        (fun (acc : F × Option Nat) (ia : Nat × ActionInfo F) =>
          (st2.eval ia.2).map
            (fun value => if DoubleOps.lt acc.1 value then (value, some ia.1) else acc))
        (DoubleOps.lowest, none) = some r ∧ a = r.2 := by
  unfold StateInfo.select at h
  split at h
  · cases h
  · simp only at h
    split at h
    · cases h
    · rename_i st3 hexp
      obtain ⟨r, hr, heq⟩ := Option.map_eq_some'.mp h
      have h3 : st3 = st2 := (Prod.mk.inj heq).1
      have h4 : r.2 = a := (Prod.mk.inj heq).2
      rw [← h3]
      exact ⟨r, hr, h4.symm⟩

/-- The method `select(pos)` on a fresh state whose set holds one code, with
a table `dot_color_stats` whose values are all 0: the placement of that code
is expanded and chosen. -/
theorem select_single (stats : Nat → Stats ℚ) (hz : ∀ k, (stats k).value = 0)
    (pos : Position) (t : List Nat) (htile : pos.tile = some t) (ht : t.length = 6)
    (s : TileSet) (player : Nat) (T : TileInfo) (hT : T ∈ ALL_TILES_INFO) (hs : s.Sound)
    (hcodes : s.codes = [T.code]) :
    ∃ st2 : StateInfo ℚ,
      (⟨s, [], DoubleOps.ofInt 0, 0, player⟩ : StateInfo ℚ).select stats pos =
        some (st2, some 0) ∧
      st2.actions = [{ ActionInfo.create T with bias := 0 }] ∧ st2.visits = 0 := by
  have heval : ∀ X ∈ ALL_TILES_INFO, ∃ v, DotColorStats.evaluate stats pos X = some v ∧
      DoubleOps.lowest < v :=
    fun X hX => ⟨0, evaluate_zero stats hz pos t htile ht X (registry_wf X hX).len,
      rat_lowest_neg⟩
  obtain ⟨st2, a, picks, e, hlen, hact, hchain, -, -, hvis, hbonus, -⟩ :=
    select_spec rat_lt rat_floor_sqrt stats pos heval
      (⟨s, [], DoubleOps.ofInt 0, 0, player⟩ : StateInfo ℚ) hs
      (by show (0 : Int) ≤ 0; decide) (by show (0 : Int) + 1 < TABLE_SIZE; decide)
      (fun a ha => by cases ha)
  have hlen1 : picks.length = 1 := by
    rw [hlen]
    show min (min 64 (Nat.sqrt ((0 : Int) + 1).toNat) - 0) s.codes.length = 1
    rw [hcodes]
    have : Nat.sqrt ((0 : Int) + 1).toNat = 1 := by
      show Nat.sqrt 1 = 1
      exact Nat.sqrt_one
    rw [this]
    rfl
  obtain ⟨x, hx⟩ := List.length_eq_one.mp hlen1
  rw [hx] at hchain hact
  obtain ⟨⟨hxc, hxr, hxv, -⟩, -⟩ := hchain
  have hxc : x.1.code ∈ ([T.code] : List Nat) := by
    have : x.1.code ∈ s.codes := hxc
    rw [hcodes] at this
    exact this
  have hx1 : x.1 = T := by
    have h1 := (registry_at_code T hT).1
    rw [← List.mem_singleton.mp hxc, hxr] at h1
    exact Option.some.inj h1
  have hx2 : x.2 = 0 := by
    have h1 := evaluate_zero stats hz pos t htile ht x.1
      (registry_wf x.1 (List.getElem?_mem hxr)).len
    rw [hxv] at h1
    exact Option.some.inj h1
  have hact2 : st2.actions = [{ ActionInfo.create T with bias := 0 }] := by
    rw [hact]
    show [({ ActionInfo.create x.1 with bias := x.2 } : ActionInfo ℚ)] = _
    rw [hx1, hx2]
  obtain ⟨r, hr, har⟩ := select_fold stats pos _ st2 a e
  have hb : st2.bonus = 0 := by
    rw [hbonus]
    show ((0 : Int) : ℚ) = 0
    simp
  have hev : st2.eval ({ ActionInfo.create T with bias := 0 } : ActionInfo ℚ) = some 0 := by
    unfold StateInfo.eval SQRT
    rw [if_pos (by show (0 : Int) ≤ 1 + 0 ∧ (1 : Int) + 0 < TABLE_SIZE; decide)]
    simp only [Option.map_some']
    rw [hb]
    show some (((0 : Int) : ℚ) + ((10 : Int) : ℚ) * 0 / _ + (0 : ℚ) / _) = some 0
    simp
  rw [hact2] at hr
  simp only [List.enum, List.enumFrom, List.foldlM_cons, List.foldlM_nil, hev,
    Option.map_some', Option.some_bind, Option.bind_eq_bind] at hr
  have hlt : DoubleOps.lt (DoubleOps.lowest : ℚ) 0 = true := (rat_lt _ _).mpr rat_lowest_neg
  rw [hlt] at hr
  simp only [if_true] at hr
  have hr2 : r = ((0 : ℚ), some 0) := (Option.some.inj hr).symm
  refine ⟨st2, ?_, hact2, hvis⟩
  rw [e, har, hr2]

end Box
namespace Box

/-! ## A run of the search that returns: one simulation -/

/-- A placement of the registry that has been played is over-full. -/
theorem played_overfull (z : Zobrist) (p q : Position) (T : TileInfo) (hp : p.Inv z)
    (hT : T ∈ ALL_TILES_INFO) (h : p.do_move z T = some q) :
    MAX_OVERLAPS < T.count_matches q.filled := by
  have hw := registry_wf T hT
  obtain ⟨-, hf⟩ := do_move_inv z T p q hp (Or.inl hw) h
  have hfull : T.count_matches q.filled = 12 := by
    rw [count_matches_eq_dots T hw, ← dots_length T hw]
    congr 1
    apply List.filter_eq_self.mpr
    intro d hd
    exact (hf d).mpr (Or.inr hd)
  rw [hfull]
  decide

/-- The method `update(action_info, score)` on a state never visited whose
only action has never been visited. -/
theorem update_single (st2 : StateInfo ℚ) (act : ActionInfo ℚ) (hact : st2.actions = [act])
    (hvis : st2.visits = 0) (hav : act.visits = 0) (score : ℚ) :
    ∃ (st3 : StateInfo ℚ) (a3 : ActionInfo ℚ),
      st2.update 0 score = some st3 ∧ st3.actions = [a3] ∧ a3.visits = 1 := by
  unfold StateInfo.update BONUS
  rw [hact, hvis, if_pos (by decide)]
  simp only [List.getElem?_cons_zero, List.set_cons_zero]
  refine ⟨_, act.update score, rfl, rfl, ?_⟩
  show act.visits + 1 = 1
  rw [hav]
  rfl

/-- The first simulation of a search on a position whose only candidate `T` is
legal, with weights and statistics that are all 0: it returns, and leaves a
store with one entry, the key of the position with a state whose only action
has been visited once. -/
theorem run_single (z : Zobrist) (fuel : Nat) (base : Position) (T : TileInfo)
    (color : Nat) (G : Globals ℚ) (hp : base.Inv z) (t : List Nat)
    (htile : base.tile = some t) (hT : T ∈ ALL_TILES_INFO)
    (hleg : base.possible_move T = true) (hw : ∀ i, G.weights i = 0)
    (ho : G.opponent_color_index = -1) (hz : ∀ k, (G.dot_color_stats k).value = 0) :
    ∃ (st3 : StateInfo ℚ) (a3 : ActionInfo ℚ) (G1 : Globals ℚ),
      Simulation.run z (fuel + 1) ⟨[]⟩ ({ base with candidates := [T] } : Position) color G =
        some (⟨[(({ base with candidates := [T] } : Position).get_info z, st3)]⟩, G1) ∧
      st3.actions = [a3] ∧ a3.visits = 1 := by
  have ht6 : t.length = 6 := (inv_tile z base hp t htile).1
  have invP : ({ base with candidates := [T] } : Position).Inv z :=
    inv_candidates z base [T] hp
  -- the root state
  obtain ⟨s, hcreate, hsound, hcodes⟩ := create_single base T hT hleg
  obtain ⟨st2, hsel, hact2, hvis2⟩ := select_single G.dot_color_stats hz
    ({ base with candidates := [T] } : Position) t htile ht6 s base.player T hT hsound hcodes
  -- the move of the tree
  obtain ⟨p2, hmove, inv2, -, -, -, hc2⟩ :=
    do_move_count z ({ base with candidates := [T] } : Position) T invP ⟨t, htile⟩ hT
  obtain ⟨p3, hchance⟩ := chance_some z p2 (G.gen.less_than TILES_PERMUTATIONS_COUNT).1
    (less_than_lt _ _ (by decide))
  obtain ⟨inv3, hf3, hc3, -⟩ := chance_frame z _ p2 p3 inv2 hchance
  have hcand3 : p3.candidates = [T] := by rw [hc3, hc2]
  have hover : ∀ X ∈ p3.candidates, MAX_OVERLAPS < X.count_matches p3.filled := by
    intro X hX
    rw [hcand3] at hX
    rw [List.mem_singleton.mp hX, hf3]
    exact played_overfull z _ p2 T invP hT hmove
  -- the playout
  obtain ⟨g4, hplay⟩ := playout_drained z (fuel + 1) fuel p3
    (G.gen.less_than TILES_PERMUTATIONS_COUNT).2 hover
    (by rw [hcand3]; exact Nat.succ_le_succ (Nat.zero_le _))
  have inv4 : ({ p3 with candidates := [] } : Position).Inv z := inv_candidates z p3 [] inv3
  -- the update of the root state
  have hupdate : ∀ score : ℚ, ∃ (st3 : StateInfo ℚ) (a3 : ActionInfo ℚ),
      st2.update 0 score = some st3 ∧ st3.actions = [a3] ∧ a3.visits = 1 :=
    fun score => update_single st2 _ hact2 hvis2 rfl score
  obtain ⟨st3, a3, hu, ha3, hv3⟩ := hupdate
    (if st2.player = base.player then (0 : ℚ) else DoubleOps.neg 0)
  refine ⟨st3, a3,
    { gen := g4
      dot_color_stats := DotColorStats.record G.dot_color_stats
        ({ p3 with candidates := [] } : Position) base.player 0
      weights := G.weights, opponent_color_index := G.opponent_color_index
      max_level := max G.max_level 1 }, ?_, ha3, hv3⟩
  have hend : ({ base with candidates := [T] } : Position).end_game = false := by
    unfold Position.end_game
    simp only [List.any_cons, List.any_nil, Bool.or_false]
    have h1 : ({ base with candidates := [T] } : Position).possible_move T = true := hleg
    rw [h1]
    rfl
  have htry : (⟨[]⟩ : StateStore ℚ).try_create_state z
      ({ base with candidates := [T] } : Position) =
      some (⟨[(({ base with candidates := [T] } : Position).get_info z,
        ⟨s, [], DoubleOps.ofInt 0, 0, base.player⟩)]⟩,
        { base with candidates := [T] }, 0, true) := by
    unfold StateStore.try_create_state StateStore.get
    simp only [List.findIdx?_nil]
    rw [hcreate]
    rfl
  have hscore := expected_zero z ({ p3 with candidates := [] } : Position) inv4 color
    { G with gen := g4, max_level := max G.max_level 1 } hw ho
  unfold Simulation.run
  simp only
  unfold Simulation.simulate_tree
  simp only [hend, Bool.not_false, if_true, htry]
  unfold Simulation.next
  simp only [List.getElem?_cons_zero, hsel, hact2, ActionInfo.create, hmove, hchance,
    Option.map_some', List.set_cons_zero, List.nil_append, hplay, List.length_singleton]
  unfold Simulation.backup
  simp only [hscore, List.foldlM_cons, List.foldlM_nil, List.getElem?_cons_zero, hu,
    Option.map_some', List.set_cons_zero, Option.some_bind, Option.bind_eq_bind]
  rfl

end Box
namespace Box

/-! ## A run of the search that returns: the whole call -/

/-- A key is equal to itself. -/
theorem info_equal_refl (x : Info) : PositionInfoEqual x x = true := by
  unfold PositionInfoEqual
  simp

/-- The method `select_most_visited()` on a state with one action, visited
once. -/
theorem most_visited_single (st : StateInfo ℚ) (a : ActionInfo ℚ) (hact : st.actions = [a])
    (hv : a.visits = 1) : st.select_most_visited = some 0 := by
  unfold StateInfo.select_most_visited
  rw [hact]
  simp only [List.enum, List.enumFrom, List.foldl_cons, List.foldl_nil, hv]
  rw [if_pos (by decide)]

/-- The warm-up playouts on a position whose only candidate is legal, with
weights that are all 0 and no opponent: they return, and leave the weights, no
opponent and statistics that are all 0. -/
theorem warmups_single (z : Zobrist) (fuel : Nat) (base : Position) (T : TileInfo)
    (color : Nat) (hp : base.Inv z) (htile : ∃ t, base.tile = some t)
    (hT : T ∈ ALL_TILES_INFO) (hleg : base.possible_move T = true) :
    ∀ (n : Nat) (G : Globals ℚ), (∀ i, G.weights i = 0) → G.opponent_color_index = -1 →
      (∀ k, (G.dot_color_stats k).value = 0) →
      ∃ G2, warmups z (fuel + 2) ({ base with candidates := [T] } : Position) color n G =
          some G2 ∧
        (∀ i, G2.weights i = 0) ∧ G2.opponent_color_index = -1 ∧
        (∀ k, (G2.dot_color_stats k).value = 0) ∧ G2.max_level = G.max_level := by
  intro n
  induction n with
  | zero =>
    intro G hw ho hz
    exact ⟨G, rfl, hw, ho, hz, rfl⟩
  | succ n ih =>
    intro G hw ho hz
    obtain ⟨q, g2, hplay, invq⟩ := playout_single z (fuel + 1) fuel base G.gen T hp htile hT hleg
    have hscore := expected_zero z q invq color { G with gen := g2 } hw ho
    have hrun : Warmup.run z (fuel + 2) ({ base with candidates := [T] } : Position) color G =
        some { G with
          gen := g2
          dot_color_stats := DotColorStats.record G.dot_color_stats q base.player 0 } := by
      unfold Warmup.run
      rw [hplay]
      simp only
      rw [hscore]
    obtain ⟨G2, e, h1, h2, h3, h4⟩ := ih
      { G with
        gen := g2
        dot_color_stats := DotColorStats.record G.dot_color_stats q base.player 0 }
      hw ho (record_zero q base.player ALL_DOTS G.dot_color_stats hz)
    refine ⟨G2, ?_, h1, h2, h3, h4⟩
    unfold warmups
    rw [hrun]
    exact e

/-- The first loop of `get_best_move` with a clock that leaves time for one
simulation, on a position whose only candidate is legal. -/
theorem main_loop_single (z : Zobrist) (fuel : Nat) (base : Position) (T : TileInfo)
    (color : Nat) (G : Globals ℚ) (hp : base.Inv z) (t : List Nat)
    (htile : base.tile = some t) (hT : T ∈ ALL_TILES_INFO)
    (hleg : base.possible_move T = true) (hw : ∀ i, G.weights i = 0)
    (ho : G.opponent_color_index = -1) (hz : ∀ k, (G.dot_color_stats k).value = 0) (n : Nat) :
    ∃ (st3 : StateInfo ℚ) (a3 : ActionInfo ℚ) (G1 : Globals ℚ),
      main_loop z (fuel + 1) one_tick ({ base with candidates := [T] } : Position) color
          (n + 2) 0 0 ⟨[]⟩ G =
        some (1, 2, ⟨[(({ base with candidates := [T] } : Position).get_info z, st3)]⟩, G1) ∧
      st3.actions = [a3] ∧ a3.visits = 1 := by
  obtain ⟨st3, a3, G1, hrun, ha3, hv3⟩ :=
    run_single z fuel base T color G hp t htile hT hleg hw ho hz
  refine ⟨st3, a3, G1, ?_, ha3, hv3⟩
  have hget : (⟨[(({ base with candidates := [T] } : Position).get_info z, st3)]⟩ :
      StateStore ℚ).get z ({ base with candidates := [T] } : Position) = some 0 := by
    unfold StateStore.get
    rw [List.findIdx?_cons, if_pos (info_equal_refl _)]
  have hmost := most_visited_single st3 a3 ha3 hv3
  have h0 : one_tick 0 = true := rfl
  have h1 : one_tick (0 + 1) = false := rfl
  unfold main_loop
  rw [if_pos h0, hrun]
  simp only [hget, List.getElem?_cons_zero, hmost, ha3, hv3]
  rw [if_neg (by decide)]
  unfold main_loop
  rw [if_neg (by rw [h1]; decide)]

/-- The second loop of `get_best_move` when the clock has run out. -/
theorem tail_loop_stops {F : Type} [DoubleOps F] (z : Zobrist) (fuel : Nat)
    (clock : Nat → Bool) (pos : Position) (color : Nat) (root : Option Nat) (n s t : Nat)
    (store : StateStore F) (G : Globals F) (hc : clock t = false) :
    tail_loop z fuel clock pos color root (n + 1) s t store G = some (s, t + 1, store, G) := by
  unfold tail_loop
  rw [if_neg (by rw [hc]; decide)]

/-- The call of `get_best_move` on a position whose only candidate is legal,
with weights that are all 0, no opponent and a clock that leaves time for one
simulation: it returns. -/
theorem get_best_move_single (z : Zobrist) (fuel : Nat) (base : Position) (T : TileInfo)
    (color : Nat) (G : Globals ℚ) (hp : base.Inv z) (t : List Nat)
    (htile : base.tile = some t) (hT : T ∈ ALL_TILES_INFO)
    (hleg : base.possible_move T = true) (hw : ∀ i, G.weights i = 0)
    (ho : G.opponent_color_index = -1) :
    ∃ r, get_best_move z (fuel + 2) one_tick ({ base with candidates := [T] } : Position)
      color G = some r := by
  obtain ⟨Gw, hwarm, hw2, ho2, hz2, -⟩ := warmups_single z fuel base T color hp ⟨t, htile⟩ hT
    hleg 1000 { G with max_level := 0, dot_color_stats := DotColorStats.reset } hw ho
    (fun k => by
      show ((0 : Int) : ℚ) = 0
      simp)
  obtain ⟨l1, hupd, hl1, hnd1⟩ :=
    update_condidates_spec ({ base with candidates := [T] } : Position) (List.nodup_singleton T)
  have hl1e : l1 = [T] := by
    apply singleton_of_nodup _ _ hnd1
    intro X
    rw [hl1 X]
    constructor
    · rintro ⟨h1, -⟩
      exact List.mem_singleton.mp h1
    · intro h1
      rw [h1]
      exact ⟨List.mem_singleton.mpr rfl, possible_overlap base T hleg⟩
  rw [hl1e] at hupd
  obtain ⟨st3, a3, G1, hmain, ha3, hv3⟩ :=
    main_loop_single z (fuel + 1) base T color Gw hp t htile hT hleg hw2 ho2 hz2 99998
  have hmain : main_loop z (fuel + 2) one_tick ({ base with candidates := [T] } : Position)
      color MAX_ITERATIONS 0 0 ⟨[]⟩ Gw =
      some (1, 2, ⟨[(({ base with candidates := [T] } : Position).get_info z, st3)]⟩, G1) :=
    hmain
  have hget : (⟨[(({ base with candidates := [T] } : Position).get_info z, st3)]⟩ :
      StateStore ℚ).get z ({ base with candidates := [T] } : Position) = some 0 := by
    unfold StateStore.get
    rw [List.findIdx?_cons, if_pos (info_equal_refl _)]
  have htail := tail_loop_stops z (fuel + 2) one_tick
    ({ base with candidates := [T] } : Position) color (some 0) 9999 1 2
    (⟨[(({ base with candidates := [T] } : Position).get_info z, st3)]⟩ : StateStore ℚ) G1 rfl
  obtain ⟨res, l2, htiles, -, -⟩ :=
    get_possible_tiles_spec ({ base with candidates := [T] } : Position) (List.nodup_singleton T)
  have hmost := most_visited_single st3 a3 ha3 hv3
  unfold get_best_move
  simp only
  rw [hwarm]
  simp only
  rw [hupd]
  simp only
  rw [hmain]
  simp only [hget]
  rw [htail]
  simp only
  rw [htiles]
  simp only [List.getElem?_cons_zero, hmost, ha3, Option.map_some']
  exact ⟨_, rfl⟩

end Box
namespace Box

/-! ## Claim: the move returned by get_best_move is legal -/

/-- C35. Let `base` be a reachable position and `l` a candidate list without
duplicates made of placements of the registry (the full list, or what pruning
leaves of it). Whenever `get_best_move` returns on `base` with the candidates
`l`, the `PlayerMove` returned is the anchor and orientation of a candidate
`T` for which `possible_move` is true in the position, so that
`possible_move(dot, orientation)` is true for the move, the position is not
terminal and the first time test of the call has succeeded; and the caller's
position is left as it was, except for its
candidate list, from which the over-full candidates, and only those, have been
removed. -/
theorem best_move_is_legal {F : Type} [DoubleOps F] (z : Zobrist) (fuel : Nat)
    (clock : Nat → Bool) (base : Position) (l : List TileInfo) (color : Nat) (G : Globals F)
    (hr : Reachable z base) (hnd : l.Nodup) (hreg : ∀ T ∈ l, T ∈ ALL_TILES_INFO)
    (m : PlayerMove) (pos2 : Position) (G2 : Globals F)
    (h : get_best_move z fuel clock ({ base with candidates := l } : Position) color G =
      some (m, pos2, G2)) :
    (∃ T ∈ l, T ∈ ALL_TILES_INFO ∧ m = ⟨T.dot, T.orientation⟩ ∧
      base.possible_move T = true) ∧
    base.possible_move_at m.dot m.orientation = some true ∧
    ({ base with candidates := l } : Position).end_game = false ∧ clock 0 = true ∧
    ∃ l2, pos2 = { base with candidates := l2 } ∧ l2.Nodup ∧
      ∀ T, T ∈ l2 ↔ T ∈ l ∧ T.count_matches base.filled ≤ MAX_OVERLAPS := by
  have hp : ({ base with candidates := l } : Position).Inv z :=
    inv_candidates z base l (reachable_inv z base hr)
  obtain ⟨⟨T, hT, hTr, hm, hleg⟩, l2, hpos2, hnd2, hl2⟩ :=
    get_best_move_sound z fuel clock ({ base with candidates := l } : Position) color G hp
      hnd hreg m pos2 G2 h
  have hleg : base.possible_move T = true := hleg
  refine ⟨⟨T, hT, hTr, hm, hleg⟩, ?_, ?_, ?_, l2, hpos2, hnd2, hl2⟩
  · rw [hm]
    exact possible_move_at_registry base T hTr hleg
  · unfold Position.end_game
    have hany : l.any (fun t => base.possible_move t) = true :=
      List.any_eq_true.mpr ⟨T, hT, hleg⟩
    have e : (({ base with candidates := l } : Position).candidates.any
        (fun t => ({ base with candidates := l } : Position).possible_move t)) =
        l.any (fun t => base.possible_move t) := rfl
    rw [e, hany]
    rfl
  · cases hc : clock 0 with
    | true => rfl
    | false =>
      rw [get_best_move_no_time_fails z fuel clock _ color G hc] at h
      cases h

theorem best_move_is_legal_witness :
    (Reachable sample_keys opening ∧ [white_tile].Nodup ∧
      ∀ T ∈ [white_tile], T ∈ ALL_TILES_INFO) ∧
    ∃ (m : PlayerMove) (pos2 : Position) (G2 : Globals ℚ),
      get_best_move sample_keys 2 one_tick single_board 49 sample_globals =
        some (m, pos2, G2) ∧
      (∃ T ∈ [white_tile], T ∈ ALL_TILES_INFO ∧ m = ⟨T.dot, T.orientation⟩ ∧
        opening.possible_move T = true) ∧
      opening.possible_move_at m.dot m.orientation = some true ∧
      single_board.end_game = false ∧ one_tick 0 = true ∧
      ∃ l2, pos2 = { opening with candidates := l2 } ∧ l2.Nodup ∧
        ∀ T, T ∈ l2 ↔ T ∈ [white_tile] ∧ T.count_matches opening.filled ≤ MAX_OVERLAPS := by
  have hm : white_tile ∈ ALL_TILES_INFO := registry_getD_mem 291 (by decide)
  have hreg : ∀ T ∈ [white_tile], T ∈ ALL_TILES_INFO :=
    fun T hT => by rw [List.mem_singleton.mp hT]; exact hm
  obtain ⟨r, hrun⟩ := get_best_move_single sample_keys 0 opening white_tile 49 sample_globals
    opening_inv (chars "123456") opening_tile hm white_tile_legal (fun _ => rfl) rfl
  have hrun : get_best_move sample_keys 2 one_tick single_board 49 sample_globals =
      some (r.1, r.2.1, r.2.2) := hrun
  exact ⟨⟨opening_reachable, List.nodup_singleton _, hreg⟩, r.1, r.2.1, r.2.2, hrun,
    best_move_is_legal sample_keys 2 one_tick opening [white_tile] 49 sample_globals
      opening_reachable (List.nodup_singleton _) hreg r.1 r.2.1 r.2.2 hrun⟩

end Box
namespace Box

/-! ## The calls on a TileSet -/

/-- The condition on `set` matters: `set` adds 1 to `count` whether the bit
was clear or not. After `set(0)`, `set(0)`, `clear(0)` on an empty `TileSet`,
calls that the program does not issue, no bit is set, yet `count` is 1 and
`any()` returns true. -/
theorem tile_set_count_drifts :
    (TileSet.empty.run
      [TileSet.Call.set 0, TileSet.Call.set 0, TileSet.Call.clear 0]).any = true ∧
    (TileSet.empty.run
      [TileSet.Call.set 0, TileSet.Call.set 0, TileSet.Call.clear 0]).count = 1 ∧
    ∀ code, (TileSet.empty.run
      [TileSet.Call.set 0, TileSet.Call.set 0, TileSet.Call.clear 0]).test code = false := by
  refine ⟨by decide, by decide, ?_⟩
  intro code
  show (((TileSet.empty.set 0).set 0).clear 0).test code = false
  have w0 := TileSet.empty_wf
  have w1 := TileSet.set_wf _ 0 w0
  have w2 := TileSet.set_wf _ 0 w1
  rw [TileSet.test_after_clear _ _ _ w2 (by decide), TileSet.test_after_set _ _ _ w1 (by decide),
    TileSet.test_after_set _ _ _ w0 (by decide), TileSet.test_empty]
  cases decide (code = 0) <;> rfl

end Box
namespace Box

/-! ## Claim on the TileSet -/

end Box
